import Mathlib

/-!
# gengram-go front end: tokenizer and recursive-descent parser

A shallow embedding of `src/frontend/fe_tokenizer.go` and `src/frontend/fe_tree.go`.

Conventions of the embedding.

* A Go `string` is a `List Char` (valid UTF-8 text); `len` counts its bytes.
* Methods with a pointer receiver become functions that return the new receiver.
* A function that can `panic` returns `Except Failure _`; a `panic(fmt.Sprintf ...)` of
  `ReportError` carries the formatted text, a run-time panic of Go (index out of range) is
  `Failure.runtime`.
* Loops and recursion are bounded by a `fuel` argument; `Failure.outOfFuel` is the only
  outcome that does not exist in the Go program.
* The `fmt.Printf` diagnostics of `NewToken`, `CheckId` and `NewNode` for an id outside the
  id tables are not modelled: every id the front end passes is a literal of those tables.
-/

namespace Gengram

/-! ## Go library functions used by the front end -/

/-- Go `len(s)`: the number of bytes of the UTF-8 encoding of `s`. -/
def len (s : List Char) : Nat := (s.map Char.utf8Size).sum

/-- Go `unicode.IsSpace`: the characters with the Unicode White_Space property. -/
def IsSpace (c : Char) : Bool :=
  let n := c.toNat
  decide ((0x09 ≤ n ∧ n ≤ 0x0d) ∨ n = 0x20 ∨ n = 0x85 ∨ n = 0xa0 ∨ n = 0x1680 ∨
    (0x2000 ≤ n ∧ n ≤ 0x200a) ∨ n = 0x2028 ∨ n = 0x2029 ∨ n = 0x202f ∨ n = 0x205f ∨
    n = 0x3000)

/-- Go `strings.TrimSpace`: all leading and trailing white space removed. -/
def TrimSpace (s : List Char) : List Char := (s.dropWhile IsSpace).rdropWhile IsSpace

/-- Go `strings.Repeat(" ", n)`. -/
def spaces (n : Nat) : List Char := List.replicate n ' '

/-- The verb `%d` of `fmt.Sprintf` for a non-negative integer. -/
def fmtInt (n : Nat) : List Char := (Nat.repr n).toList

/-- The scan of `strings.Replace`: `skip` characters of an occurrence just replaced are still
to be passed over. -/
def ReplaceFrom (old new : List Char) : Nat → List Char → List Char
  | _, [] => []
  | 0, c :: cs =>
    if old.isPrefixOf (c :: cs) then new ++ ReplaceFrom old new (old.length - 1) cs
    else c :: ReplaceFrom old new 0 cs
  | skip + 1, _ :: cs => ReplaceFrom old new skip cs

/-- Go `strings.Replace(s, old, new, -1)` for a non-empty `old`: every non-overlapping
occurrence of `old`, from the left, replaced by `new`; `s` itself when `old == new`. -/
def Replace (s old new : List Char) : List Char :=
  if old = new ∨ old = [] then s else ReplaceFrom old new 0 s

/-! ## Tokens (`fe_tokenizer.go`) -/

/-- The `Token` class: value, 1-based line, 1-based column, token id. -/
structure Token where
  Value : List Char
  NLine : Nat
  NChar : Nat
  Id : String
deriving DecidableEq, Repr

/-- The table `TokenIds` of `NewToken`. -/
def TokenIds : List String :=
  ["identifier", "number", "string", "(", ")", "[", "]", "\x7b", "\x7d", ",", ":", "|", "@",
   "=", "::=", "*", "?", "%", "$", "$(", "`", "^", "newline", "endoffile"]

/-- `NewToken(Id, NLine, NChar, Value)`: positions are stored 1-based. -/
def NewToken (Id : String) (NLine NChar : Nat) (Value : List Char) : Token :=
  { Value := Value, NLine := NLine + 1, NChar := NChar + 1, Id := Id }

/-- `Token.CheckId`. -/
def Token.CheckId (t : Token) (Id : String) : Bool := t.Id == Id

/-- `Token.CheckValue`. -/
def Token.CheckValue (t : Token) (Value : List Char) : Bool := t.Value == Value

/-- Go error values of the front end. -/
inductive GoError where
  | ReaderError (message : List Char)
  | EndOfFile (s : List Char)
deriving DecidableEq, Repr

/-- Ways in which a call does not return normally. -/
inductive Failure where
  | err (e : GoError)
  | panic (v : List Char)
  | runtime
  | outOfFuel
deriving DecidableEq, Repr

deriving instance DecidableEq for Except

/-! ### The regular expressions of `TokenRes` -/

/-- A successful match of a regular expression anchored by `\A`: the whole match (submatch 0)
and the further submatches, each with its name from `SubexpNames` (an unnamed group has the
name `""`). -/
structure ReMatch where
  whole : List Char
  subs : List (String × List Char)
deriving DecidableEq, Repr

/-- Character class `[-+_a-zA-Z]`. -/
def isIdentStart (c : Char) : Bool :=
  c == '-' || c == '+' || c == '_' || (decide ('a'.toNat ≤ c.toNat) && decide (c.toNat ≤ 'z'.toNat)) ||
    (decide ('A'.toNat ≤ c.toNat) && decide (c.toNat ≤ 'Z'.toNat))

/-- Character class `[0-9]`. -/
def isDigit (c : Char) : Bool := decide ('0'.toNat ≤ c.toNat) && decide (c.toNat ≤ '9'.toNat)

/-- Character class `[-+_a-zA-Z0-9]`. -/
def isIdentChar (c : Char) : Bool := isIdentStart c || isDigit c

/-- The expression `(?:[^"\\]|\\.)*"` matched at the start of the text: the body and the text
after the closing quote. A character other than the quote and the backslash is taken by the
first alternative, a backslash takes the next character with it unless that is a line feed,
and the first quote that is reached closes the literal, so the match is unique. -/
def strBody : List Char → Option (List Char × List Char)
  | [] => none
  | c :: rest =>
    if c = '"' then some ([], rest)
    else if c = '\\' then
      match rest with
      | [] => none
      | d :: rest2 =>
        if d = '\n' then none
        else (strBody rest2).map (fun p => (c :: d :: p.1, p.2))
    else (strBody rest).map (fun p => (c :: p.1, p.2))

/-- A regular expression `\A` followed by the literal text `p`. -/
def litRe (p : String) (s : List Char) : Option ReMatch :=
  if p.toList.isPrefixOf s then some { whole := p.toList, subs := [] } else none

/-- The table `TokenRes`: for a key of the table, the match of its regular expression at the
start of the text. A key outside the table has no expression (the Go lookup yields nil); no
call of the front end uses one. -/
def TokenRes (Typ : String) (s : List Char) : Option ReMatch :=
  if Typ = "identifier" then
    match s with
    | c :: cs =>
      if isIdentStart c then
        some { whole := c :: cs.takeWhile isIdentChar,
               subs := [("value", c :: cs.takeWhile isIdentChar)] }
      else none
    | [] => none
  else if Typ = "number" then
    if s.takeWhile isDigit ≠ [] then
      some { whole := s.takeWhile isDigit, subs := [("value", s.takeWhile isDigit)] }
    else none
  else if Typ = "string" then
    match s with
    | c :: cs =>
      if c = '"' then
        (strBody cs).map (fun p => { whole := c :: (p.1 ++ ['"']), subs := [("value", p.1)] })
      else none
    | [] => none
  else if Typ = "$(" then none
  else if Typ = "$" then (if s = [] then some { whole := [], subs := [] } else none)
  else if Typ = "^" then some { whole := [], subs := [] }
  else if Typ = "newline" then
    if "\nP<value>\\".toList.isPrefixOf s then
      let tail := (s.drop "\nP<value>\\".length).takeWhile (fun c => c == 's')
      some { whole := "\nP<value>\\".toList ++ tail, subs := [("", "P<value>\\".toList ++ tail)] }
    else none
  else if Typ = "comment" then litRe "#" s
  else if Typ ∈ ["`", "(", ")", "[", "]", "\x7b", "\x7d", ",", ":", "|", "@", "?", "=", "::=",
      "*", "%"] then litRe Typ s
  else none

/-! ### The reader -/

/-- The `Reader`: everything needed to read tokens from the lines of a file. -/
structure Reader where
  Filename : List Char
  Lines : List (List Char)
  Tokens : List Token
  NLine : Nat
  NChar : Nat
  Cur : List Char
  Indent : List Char
deriving DecidableEq, Repr

/-- `NewReader(Filename)`: all other fields have their zero value. -/
def NewReader (Filename : List Char) : Reader :=
  { Filename := Filename, Lines := [], Tokens := [], NLine := 0, NChar := 0, Cur := [],
    Indent := [] }

/-- The counting loop of `cleanLine`: the number of leading spaces and tabs. -/
def nspaces : List Char → Nat
  | [] => 0
  | c :: cs => if c = ' ' ∨ c = '\t' then nspaces cs + 1 else 0

/-- `Reader.cleanLine(Line)`: the leading spaces and tabs, and the rest of the line. -/
def Reader.cleanLine (Line : List Char) : List Char × List Char :=
  (Line.take (nspaces Line), Line.drop (nspaces Line))

/-- `Reader.nextLine`: moves the cursor to the next line; the error is `EndOfFile` when there
is none. -/
def Reader.nextLine (r : Reader) : Reader × Option GoError :=
  let r := { r with NLine := r.NLine + 1 }
  if h : r.NLine < r.Lines.length then
    let st := Reader.cleanLine r.Lines[r.NLine]
    ({ r with NChar := len st.1, Cur := TrimSpace st.2, Indent := st.1 }, none)
  else
    (r, some (GoError.EndOfFile ("End of '".toList ++ r.Filename ++ "' file".toList)))

/-- The map `groups` that `matchToken` fills from the submatches, later entries overwriting
earlier ones of the same name; a missing key reads as the empty string. -/
def ReMatch.groups (m : ReMatch) : String → List Char :=
  (("", m.whole) :: m.subs).foldl (fun g p => Function.update g p.1 p.2) (fun _ => [])

/-- `Reader.matchToken(Type)`: on a match the matched text is cut off `Cur` and the column
moves on by its length in bytes. -/
def Reader.matchToken (r : Reader) (Typ : String) : Bool × (String → List Char) × Reader :=
  match TokenRes Typ r.Cur with
  | some m =>
    let tokenLen := len m.whole
    (true, m.groups, { r with Cur := r.Cur.drop m.whole.length, NChar := r.NChar + tokenLen })
  | none => (false, fun _ => [], r)

/-- The loops `for _, n := range types` of `getToken`: the first type of the list that
matches, with the groups of the match and the reader after it. -/
def Reader.matchFirst (r : Reader) : List String → Option (String × (String → List Char) × Reader)
  | [] => none
  | n :: ns =>
    let res := r.matchToken n
    if res.1 then some (n, res.2.1, res.2.2) else Reader.matchFirst res.2.2 ns

/-- `Reader.ReportError(message)`: the value of the panic. -/
def Reader.ReportError (r : Reader) (message : String) : Failure :=
  if h : r.NLine < r.Lines.length then
    Failure.panic (r.Filename ++ ":".toList ++ fmtInt (r.NLine + 1) ++ "(".toList ++
      fmtInt (r.NChar + 1) ++ "): error: ".toList ++ message.toList ++ "\n".toList ++ spaces 8 ++
      r.Lines[r.NLine] ++ "\n".toList ++ spaces (8 + r.NChar) ++ "^\n".toList)
  else Failure.runtime

/-- The part of `getToken` after the leading spaces are handled (from the comment
`here we go!` on): `nLine, nChar` are the position of the reader at this point. -/
def Reader.scanToken (r : Reader) : Except Failure (Token × Option GoError × Reader) :=
  let nLine := r.NLine
  let nChar := r.NChar
  match r.matchFirst ["identifier", "number"] with
  | some (n, groups, r) => .ok (NewToken n nLine nChar (groups "value"), none, r)
  | none =>
    let res := r.matchToken "string"
    let r := res.2.2
    if res.1 then
      let s := Replace (res.2.1 "value") "\\\"".toList "\"".toList
      let s := Replace s "\\".toList "\\".toList
      let s := Replace s "\n".toList "\n".toList
      .ok (NewToken "string" nLine nChar s, none, r)
    else
      match r.matchFirst ["(", ")", "[", "]", "\x7b", "\x7d", ",", "::=", "=", "*", "@", "|",
          ":", "?"] with
      | some (n, groups, r) => .ok (NewToken n nLine nChar (groups ""), none, r)
      | none =>
        let res := r.matchToken "comment"
        let r := res.2.2
        if res.1 ∨ r.Cur = [] ∨ r.Cur = "\n".toList ∨ r.Cur = "\r\n".toList then
          let nl := r.nextLine
          .ok (NewToken "newline" nLine nChar nl.1.Indent, nl.2, nl.1)
        else .error (r.ReportError "unexpected token")

/-- `Reader.getToken`: the next token, the error of `nextLine` when the token is the newline
token of the last line, and the reader after the call. It first cuts the leading spaces and
tabs off the current text and counts them into the column. -/
def Reader.getToken (r : Reader) : Except Failure (Token × Option GoError × Reader) :=
  let st := Reader.cleanLine r.Cur
  Reader.scanToken { r with Cur := st.2, NChar := r.NChar + len st.1 }

/-- The loop `for r.NLine < len(r.Lines)` of `ParseFile`. -/
def Reader.ParseFileLoop : Nat → Reader → Except Failure Reader
  | 0, _ => .error Failure.outOfFuel
  | fuel + 1, r =>
    if r.NLine < r.Lines.length then
      match r.getToken with
      | .error e => .error e
      | .ok (t, some _, r) =>
        .ok { r with
              Tokens := r.Tokens ++ [t, NewToken "endoffile" r.NLine r.NChar []],
              Lines := r.Lines ++ [[]] }
      | .ok (t, none, r) => Reader.ParseFileLoop fuel { r with Tokens := r.Tokens ++ [t] }
    else .ok r

/-- Number of calls of `getToken` that surely suffice for the given lines: every call either
cuts at least one byte off the current line or finishes the line. -/
def lexFuel (lines : List (List Char)) : Nat := (lines.map (fun l => l.length + 1)).sum + 1

/-- `Reader.ParseFile`, from the point where the scanner has delivered the lines `scanned` of
the file (opening and reading the file are not modelled). -/
def Reader.ParseFile (r : Reader) (scanned : List (List Char)) : Except Failure Reader :=
  let r := { r with Lines := r.Lines ++ scanned }
  if r.Lines.length = 0 then
    .error (Failure.err (GoError.ReaderError
      ("empty file '".toList ++ r.Filename ++ "' given".toList)))
  else
    let r := { r with Cur := r.Lines.headD [] }
    Reader.ParseFileLoop (lexFuel r.Lines) r

/-! ## Syntax tree (`fe_tree.go`) -/

/-- The table `nodeIds`. -/
def nodeIds : List String :=
  ["grammar", "identifier", "number", "string", "newline", "literal", "pattern", "patlist",
   "patatom", "consop", "listop", "listset", "listsetmin", "listsetmax", "emptylist",
   "expression", "exprlist", "expr", "atom", "rule", "variants", "variant", "power",
   "simplevariant", "multilinevariant", "sentence", "deflist", "definition", "condlist"]

/-- Syntax tree node. The zero value of Go has the nil token. -/
structure Node where
  id : String
  token : Option Token
  childrens : List Node
  match_ : List Char
deriving Repr

/-- `NewNode(id, token)` for an id of `nodeIds`. -/
def NewNode (id : String) (token : Token) : Node :=
  { id := id, token := some token, childrens := [], match_ := token.Value }

/-- `Node.AddChild`: appends the child and maintains the printed text. -/
def Node.AddChild (n : Node) (child : Node) : Node :=
  { n with
    childrens := n.childrens ++ [child],
    match_ :=
      if (n.childrens ++ [child]).length = 1 then child.match_
      else n.match_ ++ " ".toList ++ child.match_ }

/-- `Node.CheckId`. -/
def Node.CheckId (n : Node) (id : String) : Bool := n.id == id

/-- The syntax tree under construction; `Rules` is the Go map from rule names to nodes. -/
structure Tree where
  filename : List Char
  tokens : List Token
  lines : List (List Char)
  Rules : List Char → Option Node
  ncur : Nat
  cur : Token
  root : Node

/-- `NewTree(reader)`; reading `tokens[0]` panics on an empty token sequence. -/
def NewTree (reader : Reader) : Except Failure Tree :=
  match reader.Tokens[0]? with
  | some tok =>
    .ok { filename := reader.Filename, tokens := reader.Tokens, lines := reader.Lines,
          Rules := fun _ => none, ncur := 0, cur := tok,
          root := { id := "", token := none, childrens := [], match_ := [] } }
  | none => .error Failure.runtime

/-- `Tree.NextToken`: the cursor moves on by one; reading past the last token panics. -/
def Tree.NextToken (t : Tree) : Except Failure Tree :=
  match t.tokens[t.ncur + 1]? with
  | some tok => .ok { t with ncur := t.ncur + 1, cur := tok }
  | none => .error Failure.runtime

/-- `Tree.ReportError(message)`: the value of the panic. A line number or a column of zero
makes the index, respectively the repeat count, negative, which panics at run time. -/
def Tree.ReportError (t : Tree) (message : String) : Failure :=
  if t.cur.NLine = 0 ∨ t.cur.NChar = 0 then Failure.runtime
  else
    match t.lines[t.cur.NLine - 1]? with
    | some line =>
      Failure.panic (t.filename ++ ":".toList ++ fmtInt t.cur.NLine ++ "(".toList ++
        fmtInt t.cur.NChar ++ "): on token `".toList ++ t.cur.Value ++ "' error: ".toList ++
        message.toList ++ "\n".toList ++ spaces 8 ++ TrimSpace line ++ "\n".toList ++
        spaces (8 * (t.cur.NChar - 1)) ++ "^".toList)
    | none => Failure.runtime

/-- `Tree.NewNode(Id)`: a node on the current token. -/
def Tree.NewNode (t : Tree) (Id : String) : Node := Gengram.NewNode Id t.cur

/-- `Tree.CheckTokenId`. -/
def Tree.CheckTokenId (t : Tree) (Id : String) : Bool := t.cur.CheckId Id

/-- `Tree.CheckTokenIdsOr`. -/
def Tree.CheckTokenIdsOr (t : Tree) (Ids : List String) : Bool :=
  Ids.any (fun id => t.CheckTokenId id)

/-- `Tree.CheckTokenValue`. -/
def Tree.CheckTokenValue (t : Tree) (Value : List Char) : Bool := t.cur.CheckValue Value

/-- `Tree.CheckTokenIDValue`. -/
def Tree.CheckTokenIDValue (t : Tree) (Id : String) (Value : List Char) : Bool :=
  t.cur.CheckId Id && t.cur.CheckValue Value

/-- `Tree.GetRoot`. -/
def Tree.GetRoot (t : Tree) : Node := t.root

/-- `Tree.ParseIdentifier`. -/
def Tree.ParseIdentifier (t : Tree) : Except Failure (Node × Tree) :=
  if !t.CheckTokenId "identifier" then .error (t.ReportError "identifier expected")
  else do
    let node := t.NewNode "identifier"
    let t ← t.NextToken
    pure (node, t)

/-- `Tree.ParseNumber`. -/
def Tree.ParseNumber (t : Tree) : Except Failure (Node × Tree) :=
  if !t.CheckTokenId "number" then .error (t.ReportError "number expected")
  else do
    let node := t.NewNode "number"
    let t ← t.NextToken
    pure (node, t)

/-- `Tree.ParseString`. -/
def Tree.ParseString (t : Tree) : Except Failure (Node × Tree) :=
  if !t.CheckTokenId "string" then .error (t.ReportError "string expected")
  else do
    let node := t.NewNode "string"
    let t ← t.NextToken
    pure (node, t)

/-- `Tree.SkipNewlines`. -/
def Tree.SkipNewlines : Nat → Tree → Except Failure Tree
  | 0, _ => .error Failure.outOfFuel
  | n + 1, t =>
    if t.CheckTokenId "newline" then do
      let t ← t.NextToken
      Tree.SkipNewlines n t
    else pure t

/-- `Tree.ParseLiteral`. -/
def Tree.ParseLiteral (t : Tree) : Except Failure (Node × Tree) :=
  let node := t.NewNode "literal"
  if t.CheckTokenId "string" then do
    let (c, t) ← t.ParseString
    pure (node.AddChild c, t)
  else if t.CheckTokenId "number" then do
    let (c, t) ← t.ParseNumber
    pure (node.AddChild c, t)
  else .error (t.ReportError "string or number expected")

mutual
/-- `Tree.ParsePatList`: prefix forms `[consop patatom patlist]` and
`[listop patatom ... patatom]`. -/
def Tree.ParsePatList (fuel : Nat) (t : Tree) : Except Failure (Node × Tree) :=
  match fuel with
  | 0 => .error Failure.outOfFuel
  | n + 1 => do
    let node := t.NewNode "patlist"
    let (patatom, t) ← Tree.ParsePatatom n t
    if t.CheckTokenId ":" then
      let node := node.AddChild (t.NewNode "consop")
      let t ← t.NextToken
      let node := node.AddChild patatom
      let (c, t) ← Tree.ParsePatList n t
      pure (node.AddChild c, t)
    else if t.CheckTokenId "," then
      let node := node.AddChild (t.NewNode "listop")
      let node := node.AddChild patatom
      Tree.ParsePatListLoop n node t
    else
      pure (node.AddChild patatom, t)
termination_by structural fuel
/-- The loop `for t.CheckTokenId(",")` of `ParsePatList`. -/
def Tree.ParsePatListLoop (fuel : Nat) (node : Node) (t : Tree) : Except Failure (Node × Tree) :=
  match fuel with
  | 0 => .error Failure.outOfFuel
  | n + 1 =>
    if t.CheckTokenId "," then do
      let t ← t.NextToken
      if t.CheckTokenIdsOr ["identifier", "string", "number", "("] then
        let (c, t) ← Tree.ParsePatatom n t
        Tree.ParsePatListLoop n (node.AddChild c) t
      else Tree.ParsePatListLoop n node t
    else pure (node, t)
termination_by structural fuel
/-- `Tree.ParsePatatom`. -/
def Tree.ParsePatatom (fuel : Nat) (t : Tree) : Except Failure (Node × Tree) :=
  match fuel with
  | 0 => .error Failure.outOfFuel
  | n + 1 =>
    let node := t.NewNode "patatom"
    if t.CheckTokenId "identifier" then do
      let (c, t) ← t.ParseIdentifier
      pure (node.AddChild c, t)
    else if t.CheckTokenIdsOr ["string", "number"] then do
      let (c, t) ← t.ParseLiteral
      pure (node.AddChild c, t)
    else if t.CheckTokenId "(" then do
      let t ← t.NextToken
      let (node, t) ←
        (if t.CheckTokenId ")" then
          pure (node.AddChild (t.NewNode "emptylist"), t)
        else do
          let (c, t) ← Tree.ParsePatList n t
          if !t.CheckTokenId ")" then .error (t.ReportError ") expected")
          else pure (node.AddChild c, t))
      let t ← t.NextToken
      pure (node, t)
    else .error (t.ReportError "identifier, literal or ( expected")
termination_by structural fuel
end

/-- The loop of `ParsePaterns`. -/
def Tree.ParsePaternsLoop : Nat → Node → Tree → Except Failure (Node × Tree)
  | 0, _, _ => .error Failure.outOfFuel
  | n + 1, node, t =>
    if t.CheckTokenIdsOr ["identifier", "string", "number", "("] then do
      let (c, t) ← Tree.ParsePatList n t
      Tree.ParsePaternsLoop n (node.AddChild c) t
    else pure (node, t)

/-- `Tree.ParsePaterns`. -/
def Tree.ParsePaterns (fuel : Nat) (t : Tree) : Except Failure (Node × Tree) :=
  Tree.ParsePaternsLoop fuel (t.NewNode "pattern") t

mutual
/-- `Tree.ParseExpression`: prefix form of an expression. -/
def Tree.ParseExpression (fuel : Nat) (t : Tree) : Except Failure (Node × Tree) :=
  match fuel with
  | 0 => .error Failure.outOfFuel
  | n + 1 => do
    let node := t.NewNode "expression"
    let (expression, t) ← Tree.ParseExpr n t
    if t.CheckTokenId "," then
      let node := node.AddChild (t.NewNode "listop")
      let node := node.AddChild expression
      Tree.ParseExpressionLoop n node t
    else if t.CheckTokenId ":" then
      let node := node.AddChild (t.NewNode "consop")
      let node := node.AddChild expression
      let t ← t.NextToken
      let (c, t) ← Tree.ParseExpression n t
      pure (node.AddChild c, t)
    else
      pure (node.AddChild expression, t)
termination_by structural fuel
/-- The loop `for t.CheckTokenId(",")` of `ParseExpression`. -/
def Tree.ParseExpressionLoop (fuel : Nat) (node : Node) (t : Tree) :
    Except Failure (Node × Tree) :=
  match fuel with
  | 0 => .error Failure.outOfFuel
  | n + 1 =>
    if t.CheckTokenId "," then do
      let t ← t.NextToken
      if t.CheckTokenIdsOr ["identifier", "number", "string", "(", "["] then
        let (c, t) ← Tree.ParseExpr n t
        Tree.ParseExpressionLoop n (node.AddChild c) t
      else Tree.ParseExpressionLoop n node t
    else pure (node, t)
termination_by structural fuel
/-- `Tree.ParseExpr`. -/
def Tree.ParseExpr (fuel : Nat) (t : Tree) : Except Failure (Node × Tree) :=
  match fuel with
  | 0 => .error Failure.outOfFuel
  | n + 1 => do
    let node := t.NewNode "expr"
    let (node, t) ←
      (if t.CheckTokenIdsOr ["identifier", "number", "string", "(", "["] then do
        let (c, t) ← Tree.ParseAtom n t
        pure (node.AddChild c, t)
      else .error (t.ReportError "identifier, number^ string, [ or ( expected"))
    Tree.ParseExprLoop n node t
termination_by structural fuel
/-- The loop of `ParseExpr`. -/
def Tree.ParseExprLoop (fuel : Nat) (node : Node) (t : Tree) : Except Failure (Node × Tree) :=
  match fuel with
  | 0 => .error Failure.outOfFuel
  | n + 1 =>
    if t.CheckTokenIdsOr ["identifier", "number", "string", "(", "["] then do
      let (c, t) ← Tree.ParseAtom n t
      Tree.ParseExprLoop n (node.AddChild c) t
    else pure (node, t)
termination_by structural fuel
/-- `Tree.ParseAtom`. -/
def Tree.ParseAtom (fuel : Nat) (t : Tree) : Except Failure (Node × Tree) :=
  match fuel with
  | 0 => .error Failure.outOfFuel
  | n + 1 =>
    let node := t.NewNode "atom"
    if t.CheckTokenId "identifier" then do
      let (c, t) ← t.ParseIdentifier
      pure (node.AddChild c, t)
    else if t.CheckTokenIdsOr ["number", "string"] then do
      let (c, t) ← t.ParseLiteral
      pure (node.AddChild c, t)
    else if t.CheckTokenId "(" then do
      let t ← t.NextToken
      let (node, t) ←
        (if t.CheckTokenId ")" then
          pure (node.AddChild (t.NewNode "emptylist"), t)
        else do
          let (c, t) ← Tree.ParseExpression n t
          if !t.CheckTokenId ")" then .error (t.ReportError ") expected")
          else pure (node.AddChild c, t))
      let t ← t.NextToken
      pure (node, t)
    else if t.CheckTokenId "[" then
      .error (t.ReportError
        "please, use parentheses instead of brackets, brackets have no actual mean now and disabled.")
    else .error (t.ReportError "pidentifier, string, number, `(' or `[' expected")
termination_by structural fuel
end

/-- `Tree.ParseSentence`. -/
def Tree.ParseSentence : Nat → Tree → Except Failure (Node × Tree)
  | 0, _ => .error Failure.outOfFuel
  | n + 1, t => do
    let node := t.NewNode "sentence"
    let (c, t) ← Tree.ParseExpression n t
    pure (node.AddChild c, t)

/-- `Tree.ParseSimpleVariant`. -/
def Tree.ParseSimpleVariant : Nat → Tree → Except Failure (Node × Tree)
  | 0, _ => .error Failure.outOfFuel
  | n + 1, t => do
    let node := t.NewNode "simplevariant"
    let (c, t) ← Tree.ParseSentence n t
    pure (node.AddChild c, t)

/-- The loop of `ParseMultilineVariant`. -/
def Tree.ParseMultilineVariantLoop : Nat → Node → Tree → Except Failure (Node × Tree)
  | 0, _, _ => .error Failure.outOfFuel
  | n + 1, node, t =>
    if t.CheckTokenIdsOr ["identifier", "string", "number", "(", "newline"] then
      if t.CheckTokenId "newline" then do
        let node := node.AddChild (t.NewNode "newline")
        let t ← t.NextToken
        Tree.ParseMultilineVariantLoop n node t
      else do
        let (c, t) ← Tree.ParseSentence n t
        Tree.ParseMultilineVariantLoop n (node.AddChild c) t
    else pure (node, t)

/-- `Tree.ParseMultilineVariant`. -/
def Tree.ParseMultilineVariant : Nat → Tree → Except Failure (Node × Tree)
  | 0, _ => .error Failure.outOfFuel
  | n + 1, t =>
    let node := t.NewNode "multilinevariant"
    if t.CheckTokenId "\x7b" then do
      let t ← t.NextToken
      let (node, t) ← Tree.ParseMultilineVariantLoop n node t
      if t.CheckTokenId "\x7d" then
        let t ← t.NextToken
        pure (node, t)
      else .error (t.ReportError "\x7d expected")
    else .error (t.ReportError "\x7bnumber\x7d expected")

/-- `Tree.ParseVariant`. -/
def Tree.ParseVariant : Nat → Tree → Except Failure (Node × Tree)
  | 0, _ => .error Failure.outOfFuel
  | n + 1, t => do
    let node := t.NewNode "variant"
    let (node, t) ←
      (if t.CheckTokenId "*" then do
        let t ← t.NextToken
        if t.CheckTokenId "number" then
          let node := node.AddChild (t.NewNode "power")
          let t ← t.NextToken
          pure (node, t)
        else .error (t.ReportError "number expected")
      else pure (node, t))
    if t.CheckTokenId "\x7b" then
      let (c, t) ← Tree.ParseMultilineVariant n t
      pure (node.AddChild c, t)
    else
      let (c, t) ← Tree.ParseSimpleVariant n t
      pure (node.AddChild c, t)

/-- The loop `for t.CheckTokenIdsOr("newline", "|")` of `ParseVariants`. -/
def Tree.ParseVariantsLoop : Nat → Node → Tree → Except Failure (Node × Tree)
  | 0, _, _ => .error Failure.outOfFuel
  | n + 1, node, t =>
    if t.CheckTokenIdsOr ["newline", "|"] then do
      let t ← Tree.SkipNewlines n t
      if t.CheckTokenId "|" then
        let t ← t.NextToken
        let t ← Tree.SkipNewlines n t
        let (c, t) ← Tree.ParseVariant n t
        Tree.ParseVariantsLoop n (node.AddChild c) t
      else Tree.ParseVariantsLoop n node t
    else pure (node, t)

/-- `Tree.ParseVariants`; its first loop is the loop of `SkipNewlines` written out. -/
def Tree.ParseVariants : Nat → Tree → Except Failure (Node × Tree)
  | 0, _ => .error Failure.outOfFuel
  | n + 1, t => do
    let node := t.NewNode "variants"
    let t ← Tree.SkipNewlines n t
    let (c, t) ← Tree.ParseVariant n t
    Tree.ParseVariantsLoop n (node.AddChild c) t

/-- `Tree.ParseDefinition`. -/
def Tree.ParseDefinition : Nat → Tree → Except Failure (Node × Tree)
  | 0, _ => .error Failure.outOfFuel
  | n + 1, t => do
    let node := t.NewNode "definition"
    let (c, t) ← Tree.ParsePatatom n t
    let node := node.AddChild c
    if t.CheckTokenId "=" then
      let t ← t.NextToken
      let (c, t) ← Tree.ParseExpr n t
      pure (node.AddChild c, t)
    else .error (t.ReportError "expected in definition")

/-- The loop of `ParseDefList`. -/
def Tree.ParseDefListLoop : Nat → Node → Tree → Except Failure (Node × Tree)
  | 0, _, _ => .error Failure.outOfFuel
  | n + 1, node, t =>
    if t.CheckTokenId "," then do
      let t ← t.NextToken
      let t ← Tree.SkipNewlines n t
      let (c, t) ← Tree.ParseDefinition n t
      Tree.ParseDefListLoop n (node.AddChild c) t
    else pure (node, t)

/-- `Tree.ParseDefList`. -/
def Tree.ParseDefList : Nat → Tree → Except Failure (Node × Tree)
  | 0, _ => .error Failure.outOfFuel
  | n + 1, t => do
    let node := t.NewNode "deflist"
    let t ← Tree.SkipNewlines n t
    let (c, t) ← Tree.ParseDefinition n t
    Tree.ParseDefListLoop n (node.AddChild c) t

/-- `Tree.ParseCondlist`. -/
def Tree.ParseCondlist : Nat → Tree → Except Failure (Node × Tree)
  | 0, _ => .error Failure.outOfFuel
  | n + 1, t => do
    let node := t.NewNode "condlist"
    let (c, t) ← Tree.ParseExpr n t
    let node := node.AddChild c
    if t.CheckTokenId "," then
      let t ← t.NextToken
      let t ← Tree.SkipNewlines n t
      let (c, t) ← Tree.ParseExpr n t
      pure (node.AddChild c, t)
    else pure (node, t)

/-- The end of `ParseRule`: the rule is recorded in the rule table under the value of the
token of its first child, unless the table has an entry for that name. -/
def Tree.recordRule (t : Tree) (node : Node) : Except Failure (Node × Tree) :=
  match node.childrens[0]? with
  | some first =>
    match first.token with
    | some tok =>
      let name := tok.Value
      if (t.Rules name).isNone then
        .ok (node, { t with Rules := Function.update t.Rules name (some node) })
      else .ok (node, t)
    | none => .error Failure.runtime
  | none => .error Failure.runtime

/-- `Tree.ParseRule`. -/
def Tree.ParseRule : Nat → Tree → Except Failure (Node × Tree)
  | 0, _ => .error Failure.outOfFuel
  | n + 1, t => do
    let node := t.NewNode "rule"
    let (c, t) ← t.ParseIdentifier
    let node := node.AddChild c
    let (c, t) ← Tree.ParsePaterns n t
    let node := node.AddChild c
    let t ← Tree.SkipNewlines n t
    let (node, t) ←
      (if t.CheckTokenId "@" then do
        let t ← t.NextToken
        let (c, t) ← Tree.ParseDefList n t
        pure (node.AddChild c, t)
      else pure (node, t))
    let t ← Tree.SkipNewlines n t
    let (node, t) ←
      (if t.CheckTokenId "?" then do
        let t ← t.NextToken
        let (c, t) ← Tree.ParseCondlist n t
        pure (node.AddChild c, t)
      else pure (node, t))
    let t ← Tree.SkipNewlines n t
    let (node, t) ←
      (if t.CheckTokenId "::=" then do
        let t ← t.NextToken
        let t ← Tree.SkipNewlines n t
        let (c, t) ← Tree.ParseVariants n t
        pure (node.AddChild c, t)
      else .error (t.ReportError "::= expected"))
    t.recordRule node

/-- The loop `for !t.CheckTokenId("endoffile")` of `ParseGrammar`. -/
def Tree.ParseGrammarLoop : Nat → Tree → Except Failure Tree
  | 0, _ => .error Failure.outOfFuel
  | n + 1, t =>
    if !t.CheckTokenId "endoffile" then do
      let (c, t) ← Tree.ParseRule n t
      Tree.ParseGrammarLoop n { t with root := t.root.AddChild c }
    else pure t

/-- `Tree.ParseGrammar`. -/
def Tree.ParseGrammar : Nat → Tree → Except Failure Tree
  | 0, _ => .error Failure.outOfFuel
  | n + 1, t => do
    let t := { t with root := t.NewNode "grammar" }
    let t ← Tree.SkipNewlines n t
    Tree.ParseGrammarLoop n t

/-- Lexing the lines of a file and parsing the token sequence, as the test driver at the end
of `fe_tree.go` does: `ParseFile`, `NewTree`, `ParseGrammar`. -/
def frontend (fuel : Nat) (Filename : List Char) (scanned : List (List Char)) :
    Except Failure Tree := do
  let reader ← (NewReader Filename).ParseFile scanned
  let tree ← NewTree reader
  tree.ParseGrammar fuel

/-! ## Inputs of the scenarios -/

/-- The tokens of a file that lexes, the empty sequence otherwise. -/
def tokensOf (scanned : List (List Char)) : List Token :=
  match (NewReader "g".toList).ParseFile scanned with
  | .ok r => r.Tokens
  | .error _ => []

/-- The tree of `NewTree` over the given tokens and lines, with the cursor moved to token `i`. -/
def treeAt (toks : List Token) (lines : List (List Char)) (i : Nat) : Tree :=
  { filename := "g".toList, tokens := toks, lines := lines, Rules := fun _ => none, ncur := i,
    cur := toks.getD i (NewToken "endoffile" 0 0 []),
    root := { id := "", token := none, childrens := [], match_ := [] } }

/-! ## Predicates of the statements -/

/-- Order of results under more fuel: the left result ran out of fuel or both are the same. -/
def FuelLe {α : Type} (x y : Except Failure α) : Prop := x = .error Failure.outOfFuel ∨ x = y

/-- Partial correctness: a value that the call returns satisfies `Q`. -/
def Ensures {α : Type} (x : Except Failure α) (Q : α → Prop) : Prop := ∀ a, x = .ok a → Q a

/-- What the parse functions below `ParseRule` leave alone in the tree: everything but the
cursor, which does not move backwards. -/
structure Tree.Frame (t s : Tree) : Prop where
  filename : s.filename = t.filename
  tokens : s.tokens = t.tokens
  lines : s.lines = t.lines
  Rules : s.Rules = t.Rules
  root : s.root = t.root
  ncur : t.ncur ≤ s.ncur

/-- Name of a rule node as `ParseRule` reads it: `node.childrens[0].token.Value`. -/
def Node.ruleName (n : Node) : Option (List Char) :=
  (n.childrens[0]?.bind (fun c => c.token)).map (fun tok => tok.Value)

/-- A rule node as `ParseRule` builds it: its first child is the identifier node made from an
identifier token. -/
def Node.IsRule (r : Node) : Prop :=
  r.id = "rule" ∧ ∃ tok, r.childrens[0]? = some (NewNode "identifier" tok) ∧ tok.Id = "identifier"

/-- Whether a call returns. -/
def returns {α : Type} (x : Except Failure α) : Bool :=
  match x with
  | .ok _ => true
  | .error _ => false

/-- The value of a call that returns, the given default otherwise. -/
def valueOf {α : Type} (x : Except Failure α) (d : α) : α :=
  match x with
  | .ok a => a
  | .error _ => d

/-- Scenario for C1: three rules, the third with the name of the first. -/
def dupLines : List (List Char) := ["x ::= a".toList, "y ::= b".toList, "x ::= c".toList]

/-- Scenario C of the specification. -/
def consLines : List (List Char) := ["x a:b ::= y".toList]

/-- The tokens of scenario C. -/
def consToks : List Token :=
  [NewToken "identifier" 0 0 "x".toList, NewToken "identifier" 0 2 "a".toList,
   NewToken ":" 0 3 ":".toList, NewToken "identifier" 0 4 "b".toList,
   NewToken "::=" 0 6 "::=".toList, NewToken "identifier" 0 10 "y".toList,
   NewToken "newline" 0 11 [], NewToken "endoffile" 1 11 []]

/-- A node with one child that is a leaf on the same token: `outer[inner]`. -/
def unary (outer inner : String) (tok : Token) : Node :=
  (NewNode outer tok).AddChild (NewNode inner tok)

/-- The further operands of a list form of patterns: from state `s` on, each of the nodes `ps`
is a `patatom` that parses right after one `,` token, and `e` is the state after the last. -/
def Tree.CommaPatatoms (n : Nat) : Tree → List Node → Tree → Prop
  | s, [], e => s = e
  | s, p :: ps, e =>
    s.CheckTokenId "," = true ∧
    ∃ s1 s2, s.NextToken = .ok s1 ∧ Tree.ParsePatatom n s1 = .ok (p, s2) ∧
      Tree.CommaPatatoms n s2 ps e

/-- The further operands of a list form of expressions: as `CommaPatatoms`, with `expr`
operands. -/
def Tree.CommaExprs (n : Nat) : Tree → List Node → Tree → Prop
  | s, [], e => s = e
  | s, p :: ps, e =>
    s.CheckTokenId "," = true ∧
    ∃ s1 s2, s.NextToken = .ok s1 ∧ Tree.ParseExpr n s1 = .ok (p, s2) ∧
      Tree.CommaExprs n s2 ps e

/-- Scenario B of the specification. -/
def listLines : List (List Char) := ["x a, b ::= y".toList]

/-- The tokens of scenario B. -/
def listToks : List Token :=
  [NewToken "identifier" 0 0 "x".toList, NewToken "identifier" 0 2 "a".toList,
   NewToken "," 0 3 ",".toList, NewToken "identifier" 0 5 "b".toList,
   NewToken "::=" 0 7 "::=".toList, NewToken "identifier" 0 11 "y".toList,
   NewToken "newline" 0 12 [], NewToken "endoffile" 1 12 []]

mutual
/-- Every node of the tree with this root satisfies `p`. -/
def Node.All (p : Node → Bool) : Node → Bool
  | ⟨id, token, childrens, m⟩ => p ⟨id, token, childrens, m⟩ && Node.AllList p childrens
/-- Every node of the trees of the list satisfies `p`. -/
def Node.AllList (p : Node → Bool) : List Node → Bool
  | [] => true
  | c :: cs => Node.All p c && Node.AllList p cs
end

/-- A node that is not a `patlist` or `expression` node without children. -/
def Node.listHasChild (d : Node) : Bool :=
  !(d.id == "patlist" || d.id == "expression") || !d.childrens.isEmpty

/-- Scenario D of the specification. -/
def emptyLines : List (List Char) := ["x () ::= y".toList]

/-- The tokens of scenario D. -/
def emptyToks : List Token :=
  [NewToken "identifier" 0 0 "x".toList, NewToken "(" 0 2 "(".toList,
   NewToken ")" 0 3 ")".toList, NewToken "::=" 0 5 "::=".toList,
   NewToken "identifier" 0 9 "y".toList, NewToken "newline" 0 10 [],
   NewToken "endoffile" 1 10 []]

/-- The ids of the tokens that `getToken` cuts off the text of a line: identifier, number,
string and the punctuators of its scan list. -/
def scanIds : List String :=
  ["identifier", "number", "string", "(", ")", "[", "]", "\x7b", "\x7d", ",", "::=", "=", "*",
   "@", "|", ":", "?"]

/-- The source text with which a token starts: its value, and the opening double quote for a
string token (whose value is the unescaped body). -/
def Token.sourceStart (t : Token) : List Char := if t.Id = "string" then ['"'] else t.Value

/-- The indentation of a line: its maximal leading run of space and tab characters. -/
def indentOf (l : List Char) : List Char := l.takeWhile (fun c => c == ' ' || c == '\t')

/-- The newline tokens of a token sequence, each as its line number and its value. -/
def newlinesOf (toks : List Token) : List (Nat × List Char) :=
  (toks.filter (fun t => t.Id == "newline")).map (fun t => (t.NLine, t.Value))

/-- Order of emission: line numbers do not decrease, and a newline token is followed only by
tokens of later lines. -/
def Token.Before (a b : Token) : Prop := a.NLine ≤ b.NLine ∧ (a.Id = "newline" → a.NLine < b.NLine)

/-- Scenario for the newline tokens: a comment line and indented lines. -/
def indentLines : List (List Char) := ["a # c".toList, "  b".toList, "\t c".toList]

/-- The text from byte offset `n` on (`s[n:]`), when `n` is the offset of a character of `s`
or its length. -/
def dropBytes : Nat → List Char → Option (List Char)
  | 0, s => some s
  | _ + 1, [] => none
  | n + 1, c :: s => if c.utf8Size ≤ n + 1 then dropBytes (n + 1 - c.utf8Size) s else none

/-- The position of a token read in characters: line `NLine` exists, and the source text of the
token starts at the character number `NChar` (from 1) of that line. -/
def Token.atChar (lines : List (List Char)) (tok : Token) : Bool :=
  decide (1 ≤ tok.NLine) && decide (tok.NLine ≤ lines.length) && decide (1 ≤ tok.NChar) &&
    tok.sourceStart.isPrefixOf ((lines.getD (tok.NLine - 1) []).drop (tok.NChar - 1))

/-- The position of a token read in bytes: line `NLine` exists, and the source text of the
token starts at the byte offset `NChar - 1` of that line. -/
def Token.atByte (lines : List (List Char)) (tok : Token) : Bool :=
  decide (1 ≤ tok.NLine) && decide (tok.NLine ≤ lines.length) && decide (1 ≤ tok.NChar) &&
    match dropBytes (tok.NChar - 1) (lines.getD (tok.NLine - 1) []) with
    | some rest => tok.sourceStart.isPrefixOf rest
    | none => false

/-- A line on which `nextLine` keeps the column right: the first character after the leading
spaces and tabs, if any, is not a white-space character (`strings.TrimSpace` would drop it
without counting it). -/
def plainStart (l : List Char) : Bool :=
  match (Reader.cleanLine l).2 with
  | [] => true
  | c :: _ => !IsSpace c

/-- A line with a two-byte character in a string literal before another token. -/
def accentLines : List (List Char) := ["\"é\" x".toList]

/-- A blank or comment-only line: after its leading spaces and tabs it is empty or starts with
the comment mark. -/
def blankLine (l : List Char) : Bool :=
  match (Reader.cleanLine l).2 with
  | [] => true
  | c :: _ => c == '#'

/-- The failure of a call that does not return. -/
def failureOf {α : Type} (x : Except Failure α) : Option Failure :=
  match x with
  | .ok _ => none
  | .error e => some e

/-- The header of a rule, the statements of `ParseRule` before the test for `::=`:
identifier, pattern, optional `@` definition list, optional `?` condition list, with the
newlines between them skipped. -/
def Tree.ruleHeader (n : Nat) (t : Tree) : Except Failure (Node × Tree) := do
  let node := t.NewNode "rule"
  let (c, t) ← t.ParseIdentifier
  let node := node.AddChild c
  let (c, t) ← Tree.ParsePaterns n t
  let node := node.AddChild c
  let t ← Tree.SkipNewlines n t
  let (node, t) ←
    (if t.CheckTokenId "@" then do
      let t ← t.NextToken
      let (c, t) ← Tree.ParseDefList n t
      pure (node.AddChild c, t)
    else pure (node, t))
  let t ← Tree.SkipNewlines n t
  let (node, t) ←
    (if t.CheckTokenId "?" then do
      let t ← t.NextToken
      let (c, t) ← Tree.ParseCondlist n t
      pure (node.AddChild c, t)
    else pure (node, t))
  let t ← Tree.SkipNewlines n t
  pure (node, t)

/-- The body of a rule, the statement of `ParseRule` that tests for `::=` and parses the
variants. -/
def Tree.ruleBody (n : Nat) (node : Node) (t : Tree) : Except Failure (Node × Tree) :=
  if t.CheckTokenId "::=" then do
    let t ← t.NextToken
    let t ← Tree.SkipNewlines n t
    let (c, t) ← Tree.ParseVariants n t
    pure (node.AddChild c, t)
  else .error (t.ReportError "::= expected")

/-- Scenario E of the specification. -/
def missingLines : List (List Char) := ["x a ::=".toList]

/-- The tokens of scenario E. -/
def missingToks : List Token :=
  [NewToken "identifier" 0 0 "x".toList, NewToken "identifier" 0 2 "a".toList,
   NewToken "::=" 0 4 "::=".toList, NewToken "newline" 0 7 [], NewToken "endoffile" 1 7 []]

/-- Upper bound of the calls of `getToken` still to come: one for each character of the
current text, one to finish the line, and the same for each later line. -/
def Reader.remaining (r : Reader) : Nat :=
  r.Cur.length + 1 + ((r.Lines.drop (r.NLine + 1)).map (fun l => l.length + 1)).sum

/-- One piece of the body of a string literal as the expression of `TokenRes["string"]` reads
it: a character other than the double quote and the backslash, or a backslash together with
the character after it. -/
inductive StrPiece where
  | plain (c : Char)
  | pair (d : Char)
deriving DecidableEq, Repr

/-- The pieces that the expression accepts: a plain character is no quote and no backslash; the
character after a backslash is no line feed (a line of a file holds none). -/
def StrPiece.valid : StrPiece → Bool
  | .plain c => c != '"' && c != '\\'
  | .pair d => d != '\n'

/-- The source text of a piece. -/
def StrPiece.text : StrPiece → List Char
  | .plain c => [c]
  | .pair d => ['\\', d]

/-- The source text of a body. -/
def bodyText (ps : List StrPiece) : List Char := (ps.map StrPiece.text).flatten

/-- The value of a piece in the words of the specification: backslash-quote becomes a quote,
every other piece is left as it is written. -/
def StrPiece.specValue : StrPiece → List Char
  | .plain c => [c]
  | .pair d => if d = '"' then ['"'] else ['\\', d]

/-- The value of a body in the words of the specification. -/
def specUnescape (ps : List StrPiece) : List Char := (ps.map StrPiece.specValue).flatten

/-- Scenario for the string literals: the text `"a\"b\\n\\"` and an identifier. -/
def quoteLine : List Char := "\"a\\\"b\\n\\\\\" x".toList

/-- Scenario for `::=`: the text of scenario A after its first two words. -/
def assignReader : Reader :=
  { NewReader "g".toList with
    Lines := ["foo bar ::= baz".toList],
    Cur := " ::= baz".toList,
    NChar := 7 }

/-- Scenario for `:`: the text after the first word of the line `a : b`. -/
def colonReader : Reader :=
  { NewReader "g".toList with
    Lines := ["a : b".toList],
    Cur := " : b".toList,
    NChar := 1 }

/-- A text at which the scanner finds nothing: it is not empty, its first character is no
space, no tab and no comment mark, and none of the types of the scan list (identifier, number,
string, punctuators) matches it. -/
def noTokenAt (rest : List Char) : Bool :=
  match rest with
  | [] => false
  | c :: _ =>
    c != ' ' && c != '\t' && c != '#' && scanIds.all (fun typ => (TokenRes typ rest).isNone)

/-- The diagnostic of a lexical error in the words of the specification: the header
`<filename>:<line>(<column>): error: unexpected token`, a line of 8 spaces and the text of the
offending line, and a line of `8 + (column - 1)` spaces and the caret. -/
def specLexDiagnostic (filename : List Char) (line column : Nat) (text : List Char) :
    List Char :=
  filename ++ ":".toList ++ fmtInt line ++ "(".toList ++ fmtInt column ++
    "): error: unexpected token".toList ++ "\n".toList ++ spaces 8 ++ text ++ "\n".toList ++
    spaces (8 + (column - 1)) ++ "^".toList ++ "\n".toList

/-- The states of the reader at the head of the loop of `ParseFile`, from the state `r0` in
which the loop is entered: the scan positions that the lexer gets to. -/
inductive Reader.Reaches (r0 : Reader) : Reader → Prop where
  | start : Reader.Reaches r0 r0
  | step (r : Reader) (tok : Token) (r1 : Reader) :
      Reader.Reaches r0 r → r.NLine < r.Lines.length → r.getToken = .ok (tok, none, r1) →
      Reader.Reaches r0 { r1 with Tokens := r1.Tokens ++ [tok] }

/-- The state in which `ParseFile` enters its loop on the lines `scanned`. -/
def Reader.start (Filename : List Char) (scanned : List (List Char)) : Reader :=
  { NewReader Filename with Lines := scanned, Cur := scanned.headD [] }

/-- Scenario for the reserved token texts. -/
def percentLines : List (List Char) := ["x % y".toList]

/-- Scenario for the caret of the lexical diagnostic: a two-byte character before the text that
is not a token. -/
def accentPercent : List (List Char) := ["\"é\" %".toList]

/-- The state of the reader in the loop of `ParseFile` agrees with the lines of the file: the
current text is a part of the current line, and the column is the byte offset of that part. -/
def Reader.InPlace (scanned : List (List Char)) (r : Reader) : Prop :=
  r.Lines = scanned ∧ r.NLine < r.Lines.length ∧
    ∃ pre suf, scanned[r.NLine]? = some (pre ++ r.Cur ++ suf) ∧ len pre = r.NChar

/-- Outcome of a call: a value that it returns satisfies `Q`, a failure satisfies `E`. -/
def Outcome {α : Type} (E : Failure → Prop) (x : Except Failure α) (Q : α → Prop) : Prop :=
  match x with
  | .ok a => Q a
  | .error e => E e

/-- The ids of the tokens on which the functions for patterns and expressions call
`NextToken`: each call comes after a test of the current token for one of these ids. -/
def exprIds : List String := ["identifier", "number", "string", "(", ")", ",", ":"]

/-- The ids of the tokens on which the functions below `ParseRule` call `NextToken`. -/
def belowIds : List String := exprIds ++ ["newline", "*", "\x7b", "\x7d", "=", "|"]

/-- The ids of the tokens on which the parser calls `NextToken`: all token ids but `[`, `]`,
the reserved ones and `endoffile`. -/
def parserIds : List String := belowIds ++ ["@", "?", "::="]

/-- A token sequence of the data model: its last token is of kind `endoffile` and no token
before it is. -/
def endsInEndoffile (toks : List Token) : Bool :=
  match toks.getLast? with
  | some eof => eof.Id == "endoffile" && toks.dropLast.all (fun tok => tok.Id != "endoffile")
  | none => false

/-- The cursor and the current token agree: `cur` is `tokens[ncur]`. -/
def Tree.Coherent (t : Tree) : Prop := t.tokens[t.ncur]? = some t.cur

/-- The number of tokens of kind `id` in a token sequence. -/
def countId (id : String) (toks : List Token) : Nat := toks.countP (fun tok => tok.Id == id)

/-- The positions of the tokens are positions of the lines: line numbers from 1 up to the
number of lines, columns from 1. -/
def positionsIn (lines : List (List Char)) (toks : List Token) : Bool :=
  toks.all (fun tok => decide (1 ≤ tok.NLine) && decide (tok.NLine ≤ lines.length) &&
    decide (1 ≤ tok.NChar))

/-- The rules of a grammar from state `s` to state `e`: each node of the list is the rule that
`ParseRule` returns at the cursor, where the current token is not `endoffile`; the rule takes
the cursor forward over exactly one token `::=`; the loop of `ParseGrammar` adds it to the
root and goes on after it; `e` is on the `endoffile` token. -/
def Tree.RuleChain (n : Nat) : Tree → List Node → Tree → Prop
  | s, [], e => s = e ∧ s.CheckTokenId "endoffile" = true
  | s, r :: rs, e =>
    s.CheckTokenId "endoffile" = false ∧
    ∃ s1, Tree.ParseRule n s = .ok (r, s1) ∧ s.ncur < s1.ncur ∧
      countId "::=" (s.tokens.take s1.ncur) = countId "::=" (s.tokens.take s.ncur) + 1 ∧
      Tree.RuleChain n { s1 with root := s1.root.AddChild r } rs e

/-- The tokens of the scenario for C1: the three rules `x ::= a`, `y ::= b`, `x ::= c`. -/
def dupToks : List Token :=
  [NewToken "identifier" 0 0 "x".toList, NewToken "::=" 0 2 "::=".toList,
   NewToken "identifier" 0 6 "a".toList, NewToken "newline" 0 7 [],
   NewToken "identifier" 1 0 "y".toList, NewToken "::=" 1 2 "::=".toList,
   NewToken "identifier" 1 6 "b".toList, NewToken "newline" 1 7 [],
   NewToken "identifier" 2 0 "x".toList, NewToken "::=" 2 2 "::=".toList,
   NewToken "identifier" 2 6 "c".toList, NewToken "newline" 2 7 [],
   NewToken "endoffile" 3 7 []]

/-- Scenario for a comma without operand: the example `x a, ::= y`. -/
def commaLines : List (List Char) := ["x a, ::= y".toList]

/-- The tokens of `x a, ::= y`. -/
def commaToks : List Token :=
  [NewToken "identifier" 0 0 "x".toList, NewToken "identifier" 0 2 "a".toList,
   NewToken "," 0 3 ",".toList, NewToken "::=" 0 5 "::=".toList,
   NewToken "identifier" 0 9 "y".toList, NewToken "newline" 0 10 [],
   NewToken "endoffile" 1 10 []]

/-- Scenario for two commas in a row: `x a,,b ::= y`. -/
def twoCommaLines : List (List Char) := ["x a,,b ::= y".toList]

/-- Scenario for the syntax-error diagnostic: a `)` where a sentence has to start. -/
def parenLines : List (List Char) := ["x ::= )".toList]

/-- An `expr` node with atoms: it has at least one child and all its children have kind `atom`;
nodes of other kinds are not restricted. -/
def Node.exprHasAtoms (d : Node) : Bool :=
  !(d.id == "expr") || (!d.childrens.isEmpty && d.childrens.all (fun c => c.id == "atom"))

/-- The atoms of an expr from state `s` to state `e`: each node of the list is the atom that
`ParseAtom` returns at the cursor, one directly after the other. -/
def Tree.AtomChain (n : Nat) : Tree → List Node → Tree → Prop
  | s, [], e => s = e
  | s, a :: as, e => ∃ s1, Tree.ParseAtom n s = .ok (a, s1) ∧ Tree.AtomChain n s1 as e

/-- The items of the body of a multiline variant from state `s` to state `e`. On a `newline`
token the item is the `newline` node on that token and `NextToken` takes the cursor over it;
on any other token the item is the `sentence` node that `ParseSentence` returns, and no
`newline` token lies in the tokens that it takes. -/
def Tree.ItemChain (n : Nat) : Tree → List Node → Tree → Prop
  | s, [], e => s = e
  | s, c :: cs, e =>
    (s.CheckTokenId "newline" = true ∧ c = Gengram.NewNode "newline" s.cur ∧
      ∃ s1, s.NextToken = .ok s1 ∧ Tree.ItemChain n s1 cs e) ∨
    (s.CheckTokenId "newline" = false ∧
      ∃ s1, Tree.ParseSentence n s = .ok (c, s1) ∧ c.id = "sentence" ∧
        countId "newline" (s.tokens.take s1.ncur) = countId "newline" (s.tokens.take s.ncur) ∧
        Tree.ItemChain n s1 cs e)

/-- Scenario for the multiline variant: a rule with the body of two sentences on lines of their
own. -/
def multiLines : List (List Char) := ["x ::= \x7b".toList, "a".toList, "b".toList, "\x7d".toList]

/-- The tokens of the scenario for the multiline variant. -/
def multiToks : List Token :=
  [NewToken "identifier" 0 0 "x".toList, NewToken "::=" 0 2 "::=".toList,
   NewToken "\x7b" 0 6 "\x7b".toList, NewToken "newline" 0 7 [],
   NewToken "identifier" 1 0 "a".toList, NewToken "newline" 1 1 [],
   NewToken "identifier" 2 0 "b".toList, NewToken "newline" 2 1 [],
   NewToken "\x7d" 3 0 "\x7d".toList, NewToken "newline" 3 1 [], NewToken "endoffile" 4 1 []]

/-- The result of `ParseMultilineVariant` at the `{` of the scenario. -/
def multiResult : Node × Tree :=
  valueOf (Tree.ParseMultilineVariant 12 (treeAt multiToks multiLines 2))
    (NewNode "" (NewToken "" 0 0 []), treeAt multiToks multiLines 2)

/-- The kinds of the operand tokens, which are also the kinds of the leaf nodes made from
them: identifier, number and string. -/
def operandKind (id : String) : Bool := id == "identifier" || id == "number" || id == "string"

/-- The operand tokens of a token sequence, in their order. -/
def operandTokens (toks : List Token) : List Token := toks.filter (fun tok => operandKind tok.Id)

mutual
/-- The tokens attached to the identifier, number and string leaf nodes and to the power nodes
of the tree with this root, read depth first from left to right. -/
def Node.operands : Node → List Token
  | ⟨id, token, childrens, _⟩ =>
    (if (operandKind id && childrens.isEmpty) || id == "power" then token.toList else []) ++
      Node.operandsList childrens
/-- The operand tokens of the trees of a list, one tree after the other. -/
def Node.operandsList : List Node → List Token
  | [] => []
  | c :: cs => Node.operands c ++ Node.operandsList cs
end

/-- The state of a parse over the token sequence `toks` in which `l` are the operand tokens
before the cursor. -/
def Tree.Seen (toks : List Token) (t : Tree) (l : List Token) : Prop :=
  t.tokens = toks ∧ t.Coherent ∧ operandTokens (toks.take t.ncur) = l

/-- Scenario for the operand tokens: a cons pattern, a power and a list of two exprs. -/
def operandLines : List (List Char) := ["x a:b ::= *2 y, \"s\"".toList]

/-- The tokens of the scenario for the operand tokens. -/
def operandToks : List Token :=
  [NewToken "identifier" 0 0 "x".toList, NewToken "identifier" 0 2 "a".toList,
   NewToken ":" 0 3 ":".toList, NewToken "identifier" 0 4 "b".toList,
   NewToken "::=" 0 6 "::=".toList, NewToken "*" 0 10 "*".toList,
   NewToken "number" 0 11 "2".toList, NewToken "identifier" 0 13 "y".toList,
   NewToken "," 0 14 ",".toList, NewToken "string" 0 16 "s".toList,
   NewToken "newline" 0 19 [], NewToken "endoffile" 1 19 []]

/-- The tree of the scenario for the operand tokens. -/
def operandTree : Tree :=
  valueOf (Tree.ParseGrammar 20 (treeAt operandToks operandLines 0))
    (treeAt operandToks operandLines 0)

-- DEFINITIONS END

/-! # Theorems -/

/-! ## More fuel does not change a result -/

theorem FuelLe.rfl {α : Type} {x : Except Failure α} : FuelLe x x := Or.inr (Eq.refl x)

theorem FuelLe.zero {α : Type} {y : Except Failure α} : FuelLe (.error Failure.outOfFuel) y :=
  Or.inl (Eq.refl _)

theorem FuelLe.step_bind {α β : Type} {x y : Except Failure α} {f g : α → Except Failure β}
    (h : FuelLe x y) (hf : ∀ a, FuelLe (f a) (g a)) : FuelLe (x >>= f) (y >>= g) := by
  rcases h with h | h
  · left; subst h; rfl
  · subst h
    cases x with
    | error e => right; rfl
    | ok a => exact hf a

theorem FuelLe.trans {α : Type} {x y z : Except Failure α} (h : FuelLe x y) (h2 : FuelLe y z) :
    FuelLe x z := by
  rcases h with h | h
  · exact Or.inl h
  · subst h; exact h2

theorem FuelLe.of_le {α : Type} (F : Nat → Except Failure α)
    (h : ∀ n, FuelLe (F n) (F (n + 1))) {n m : Nat} (hnm : n ≤ m) : FuelLe (F n) (F m) := by
  induction hnm with
  | refl => exact FuelLe.rfl
  | step _ ih => exact FuelLe.trans ih (h _)

theorem FuelLe.lift_ok {α : Type} {x y : Except Failure α} {a : α} (h : FuelLe x y)
    (hx : x = .ok a) : y = .ok a := by
  rcases h with h | h
  · rw [h] at hx; cases hx
  · rw [← h]; exact hx

theorem FuelLe.lift_error {α : Type} {x y : Except Failure α} {e : Failure} (h : FuelLe x y)
    (hx : x = .error e) (he : e ≠ Failure.outOfFuel) : y = .error e := by
  rcases h with h | h
  · rw [h] at hx; cases hx; exact absurd (Eq.refl _) he
  · rw [← h]; exact hx

theorem SkipNewlines_step (n : Nat) :
    ∀ t, FuelLe (Tree.SkipNewlines n t) (Tree.SkipNewlines (n + 1) t) := by
  induction n with
  | zero => exact fun _ => FuelLe.zero
  | succ n ih =>
    intro t
    rw [Tree.SkipNewlines, Tree.SkipNewlines]
    split_ifs
    · exact FuelLe.step_bind FuelLe.rfl (fun t => ih t)
    · exact FuelLe.rfl

theorem pat_step (n : Nat) :
    (∀ t, FuelLe (Tree.ParsePatList n t) (Tree.ParsePatList (n + 1) t)) ∧
    (∀ node t, FuelLe (Tree.ParsePatListLoop n node t) (Tree.ParsePatListLoop (n + 1) node t)) ∧
    (∀ t, FuelLe (Tree.ParsePatatom n t) (Tree.ParsePatatom (n + 1) t)) := by
  induction n with
  | zero =>
    refine ⟨fun t => ?_, fun node t => ?_, fun t => ?_⟩ <;> exact FuelLe.zero
  | succ n ih =>
    obtain ⟨ih1, ih2, ih3⟩ := ih
    refine ⟨fun t => ?_, fun node t => ?_, fun t => ?_⟩
    · rw [Tree.ParsePatList, Tree.ParsePatList]
      refine FuelLe.step_bind (ih3 t) ?_
      rintro ⟨c, t⟩
      dsimp only
      split_ifs
      · refine FuelLe.step_bind FuelLe.rfl (fun t => ?_)
        refine FuelLe.step_bind (ih1 t) ?_
        rintro ⟨c, t⟩
        exact FuelLe.rfl
      · exact ih2 _ _
      · exact FuelLe.rfl
    · rw [Tree.ParsePatListLoop, Tree.ParsePatListLoop]
      split_ifs
      · refine FuelLe.step_bind FuelLe.rfl (fun t => ?_)
        dsimp only
        split_ifs
        · refine FuelLe.step_bind (ih3 t) ?_
          rintro ⟨c, t⟩
          exact ih2 _ _
        · exact ih2 _ _
      · exact FuelLe.rfl
    · rw [Tree.ParsePatatom, Tree.ParsePatatom]
      dsimp only
      split_ifs
      · exact FuelLe.rfl
      · exact FuelLe.rfl
      · refine FuelLe.step_bind FuelLe.rfl (fun t => ?_)
        refine FuelLe.step_bind ?_ (fun _ => FuelLe.rfl)
        split_ifs
        · exact FuelLe.rfl
        · refine FuelLe.step_bind (ih1 t) ?_
          rintro ⟨c, t⟩
          exact FuelLe.rfl
      · exact FuelLe.rfl

theorem ParsePaternsLoop_step (n : Nat) :
    ∀ node t, FuelLe (Tree.ParsePaternsLoop n node t) (Tree.ParsePaternsLoop (n + 1) node t) := by
  induction n with
  | zero => exact fun _ _ => FuelLe.zero
  | succ n ih =>
    intro node t
    rw [Tree.ParsePaternsLoop, Tree.ParsePaternsLoop]
    split_ifs
    · refine FuelLe.step_bind ((pat_step n).1 t) ?_
      rintro ⟨c, t⟩
      exact ih _ _
    · exact FuelLe.rfl

theorem ParsePaterns_step (n : Nat) (t : Tree) :
    FuelLe (Tree.ParsePaterns n t) (Tree.ParsePaterns (n + 1) t) :=
  ParsePaternsLoop_step n _ t

theorem expr_step (n : Nat) :
    (∀ t, FuelLe (Tree.ParseExpression n t) (Tree.ParseExpression (n + 1) t)) ∧
    (∀ node t,
      FuelLe (Tree.ParseExpressionLoop n node t) (Tree.ParseExpressionLoop (n + 1) node t)) ∧
    (∀ t, FuelLe (Tree.ParseExpr n t) (Tree.ParseExpr (n + 1) t)) ∧
    (∀ node t, FuelLe (Tree.ParseExprLoop n node t) (Tree.ParseExprLoop (n + 1) node t)) ∧
    (∀ t, FuelLe (Tree.ParseAtom n t) (Tree.ParseAtom (n + 1) t)) := by
  induction n with
  | zero =>
    refine ⟨fun t => ?_, fun node t => ?_, fun t => ?_, fun node t => ?_, fun t => ?_⟩ <;>
      exact FuelLe.zero
  | succ n ih =>
    obtain ⟨ih1, ih2, ih3, ih4, ih5⟩ := ih
    refine ⟨fun t => ?_, fun node t => ?_, fun t => ?_, fun node t => ?_, fun t => ?_⟩
    · rw [Tree.ParseExpression, Tree.ParseExpression]
      refine FuelLe.step_bind (ih3 t) ?_
      rintro ⟨c, t⟩
      dsimp only
      split_ifs
      · exact ih2 _ _
      · refine FuelLe.step_bind FuelLe.rfl (fun t => ?_)
        refine FuelLe.step_bind (ih1 t) ?_
        rintro ⟨c, t⟩
        exact FuelLe.rfl
      · exact FuelLe.rfl
    · rw [Tree.ParseExpressionLoop, Tree.ParseExpressionLoop]
      split_ifs
      · refine FuelLe.step_bind FuelLe.rfl (fun t => ?_)
        dsimp only
        split_ifs
        · refine FuelLe.step_bind (ih3 t) ?_
          rintro ⟨c, t⟩
          exact ih2 _ _
        · exact ih2 _ _
      · exact FuelLe.rfl
    · rw [Tree.ParseExpr, Tree.ParseExpr]
      refine FuelLe.step_bind ?_ ?_
      · split_ifs
        · refine FuelLe.step_bind (ih5 t) ?_
          rintro ⟨c, t⟩
          exact FuelLe.rfl
        · exact FuelLe.rfl
      · rintro ⟨c, t⟩
        exact ih4 _ _
    · rw [Tree.ParseExprLoop, Tree.ParseExprLoop]
      split_ifs
      · refine FuelLe.step_bind (ih5 t) ?_
        rintro ⟨c, t⟩
        exact ih4 _ _
      · exact FuelLe.rfl
    · rw [Tree.ParseAtom, Tree.ParseAtom]
      dsimp only
      split_ifs
      · exact FuelLe.rfl
      · exact FuelLe.rfl
      · refine FuelLe.step_bind FuelLe.rfl (fun t => ?_)
        refine FuelLe.step_bind ?_ (fun _ => FuelLe.rfl)
        split_ifs
        · exact FuelLe.rfl
        · refine FuelLe.step_bind (ih1 t) ?_
          rintro ⟨c, t⟩
          exact FuelLe.rfl
      · exact FuelLe.rfl
      · exact FuelLe.rfl

theorem ParseSentence_step (n : Nat) (t : Tree) :
    FuelLe (Tree.ParseSentence n t) (Tree.ParseSentence (n + 1) t) := by
  cases n with
  | zero => exact FuelLe.zero
  | succ n =>
    rw [Tree.ParseSentence, Tree.ParseSentence]
    refine FuelLe.step_bind ((expr_step n).1 t) ?_
    rintro ⟨c, t⟩
    exact FuelLe.rfl

theorem ParseSimpleVariant_step (n : Nat) (t : Tree) :
    FuelLe (Tree.ParseSimpleVariant n t) (Tree.ParseSimpleVariant (n + 1) t) := by
  cases n with
  | zero => exact FuelLe.zero
  | succ n =>
    rw [Tree.ParseSimpleVariant, Tree.ParseSimpleVariant]
    refine FuelLe.step_bind (ParseSentence_step n t) ?_
    rintro ⟨c, t⟩
    exact FuelLe.rfl

theorem ParseMultilineVariantLoop_step (n : Nat) :
    ∀ node t, FuelLe (Tree.ParseMultilineVariantLoop n node t)
      (Tree.ParseMultilineVariantLoop (n + 1) node t) := by
  induction n with
  | zero => exact fun _ _ => FuelLe.zero
  | succ n ih =>
    intro node t
    rw [Tree.ParseMultilineVariantLoop, Tree.ParseMultilineVariantLoop]
    split_ifs
    · exact FuelLe.step_bind FuelLe.rfl (fun t => ih _ t)
    · refine FuelLe.step_bind (ParseSentence_step n t) ?_
      rintro ⟨c, t⟩
      exact ih _ _
    · exact FuelLe.rfl

theorem ParseMultilineVariant_step (n : Nat) (t : Tree) :
    FuelLe (Tree.ParseMultilineVariant n t) (Tree.ParseMultilineVariant (n + 1) t) := by
  cases n with
  | zero => exact FuelLe.zero
  | succ n =>
    rw [Tree.ParseMultilineVariant, Tree.ParseMultilineVariant]
    dsimp only
    split_ifs
    · refine FuelLe.step_bind FuelLe.rfl (fun t => ?_)
      refine FuelLe.step_bind (ParseMultilineVariantLoop_step n _ t) ?_
      rintro ⟨c, t⟩
      exact FuelLe.rfl
    · exact FuelLe.rfl

theorem ParseVariant_step (n : Nat) (t : Tree) :
    FuelLe (Tree.ParseVariant n t) (Tree.ParseVariant (n + 1) t) := by
  cases n with
  | zero => exact FuelLe.zero
  | succ n =>
    rw [Tree.ParseVariant, Tree.ParseVariant]
    refine FuelLe.step_bind FuelLe.rfl ?_
    rintro ⟨c, t⟩
    dsimp only
    split_ifs
    · refine FuelLe.step_bind (ParseMultilineVariant_step n t) ?_
      rintro ⟨c, t⟩
      exact FuelLe.rfl
    · refine FuelLe.step_bind (ParseSimpleVariant_step n t) ?_
      rintro ⟨c, t⟩
      exact FuelLe.rfl

theorem ParseVariantsLoop_step (n : Nat) :
    ∀ node t, FuelLe (Tree.ParseVariantsLoop n node t) (Tree.ParseVariantsLoop (n + 1) node t) := by
  induction n with
  | zero => exact fun _ _ => FuelLe.zero
  | succ n ih =>
    intro node t
    rw [Tree.ParseVariantsLoop, Tree.ParseVariantsLoop]
    split_ifs
    · refine FuelLe.step_bind (SkipNewlines_step n t) (fun t => ?_)
      dsimp only
      split_ifs
      · refine FuelLe.step_bind FuelLe.rfl (fun t => ?_)
        refine FuelLe.step_bind (SkipNewlines_step n t) (fun t => ?_)
        refine FuelLe.step_bind (ParseVariant_step n t) ?_
        rintro ⟨c, t⟩
        exact ih _ _
      · exact ih _ _
    · exact FuelLe.rfl

theorem ParseVariants_step (n : Nat) (t : Tree) :
    FuelLe (Tree.ParseVariants n t) (Tree.ParseVariants (n + 1) t) := by
  cases n with
  | zero => exact FuelLe.zero
  | succ n =>
    rw [Tree.ParseVariants, Tree.ParseVariants]
    refine FuelLe.step_bind (SkipNewlines_step n t) (fun t => ?_)
    refine FuelLe.step_bind (ParseVariant_step n t) ?_
    rintro ⟨c, t⟩
    exact ParseVariantsLoop_step n _ _

theorem ParseDefinition_step (n : Nat) (t : Tree) :
    FuelLe (Tree.ParseDefinition n t) (Tree.ParseDefinition (n + 1) t) := by
  cases n with
  | zero => exact FuelLe.zero
  | succ n =>
    rw [Tree.ParseDefinition, Tree.ParseDefinition]
    refine FuelLe.step_bind ((pat_step n).2.2 t) ?_
    rintro ⟨c, t⟩
    dsimp only
    split_ifs
    · refine FuelLe.step_bind FuelLe.rfl (fun t => ?_)
      refine FuelLe.step_bind ((expr_step n).2.2.1 t) ?_
      rintro ⟨c, t⟩
      exact FuelLe.rfl
    · exact FuelLe.rfl

theorem ParseDefListLoop_step (n : Nat) :
    ∀ node t, FuelLe (Tree.ParseDefListLoop n node t) (Tree.ParseDefListLoop (n + 1) node t) := by
  induction n with
  | zero => exact fun _ _ => FuelLe.zero
  | succ n ih =>
    intro node t
    rw [Tree.ParseDefListLoop, Tree.ParseDefListLoop]
    split_ifs
    · refine FuelLe.step_bind FuelLe.rfl (fun t => ?_)
      refine FuelLe.step_bind (SkipNewlines_step n t) (fun t => ?_)
      refine FuelLe.step_bind (ParseDefinition_step n t) ?_
      rintro ⟨c, t⟩
      exact ih _ _
    · exact FuelLe.rfl

theorem ParseDefList_step (n : Nat) (t : Tree) :
    FuelLe (Tree.ParseDefList n t) (Tree.ParseDefList (n + 1) t) := by
  cases n with
  | zero => exact FuelLe.zero
  | succ n =>
    rw [Tree.ParseDefList, Tree.ParseDefList]
    refine FuelLe.step_bind (SkipNewlines_step n t) (fun t => ?_)
    refine FuelLe.step_bind (ParseDefinition_step n t) ?_
    rintro ⟨c, t⟩
    exact ParseDefListLoop_step n _ _

theorem ParseCondlist_step (n : Nat) (t : Tree) :
    FuelLe (Tree.ParseCondlist n t) (Tree.ParseCondlist (n + 1) t) := by
  cases n with
  | zero => exact FuelLe.zero
  | succ n =>
    rw [Tree.ParseCondlist, Tree.ParseCondlist]
    refine FuelLe.step_bind ((expr_step n).2.2.1 t) ?_
    rintro ⟨c, t⟩
    dsimp only
    split_ifs
    · refine FuelLe.step_bind FuelLe.rfl (fun t => ?_)
      refine FuelLe.step_bind (SkipNewlines_step n t) (fun t => ?_)
      refine FuelLe.step_bind ((expr_step n).2.2.1 t) ?_
      rintro ⟨c, t⟩
      exact FuelLe.rfl
    · exact FuelLe.rfl

theorem ParseRule_step (n : Nat) (t : Tree) :
    FuelLe (Tree.ParseRule n t) (Tree.ParseRule (n + 1) t) := by
  cases n with
  | zero => exact FuelLe.zero
  | succ n =>
    rw [Tree.ParseRule, Tree.ParseRule]
    refine FuelLe.step_bind FuelLe.rfl ?_
    rintro ⟨c, t⟩
    refine FuelLe.step_bind (ParsePaterns_step n t) ?_
    rintro ⟨c, t⟩
    refine FuelLe.step_bind (SkipNewlines_step n t) (fun t => ?_)
    refine FuelLe.step_bind ?_ ?_
    · split_ifs
      · refine FuelLe.step_bind FuelLe.rfl (fun t => ?_)
        refine FuelLe.step_bind (ParseDefList_step n t) ?_
        rintro ⟨c, t⟩
        exact FuelLe.rfl
      · exact FuelLe.rfl
    rintro ⟨c, t⟩
    refine FuelLe.step_bind (SkipNewlines_step n t) (fun t => ?_)
    refine FuelLe.step_bind ?_ ?_
    · split_ifs
      · refine FuelLe.step_bind FuelLe.rfl (fun t => ?_)
        refine FuelLe.step_bind (ParseCondlist_step n t) ?_
        rintro ⟨c, t⟩
        exact FuelLe.rfl
      · exact FuelLe.rfl
    rintro ⟨c, t⟩
    refine FuelLe.step_bind (SkipNewlines_step n t) (fun t => ?_)
    refine FuelLe.step_bind ?_ (fun _ => FuelLe.rfl)
    split_ifs
    · refine FuelLe.step_bind FuelLe.rfl (fun t => ?_)
      refine FuelLe.step_bind (SkipNewlines_step n t) (fun t => ?_)
      refine FuelLe.step_bind (ParseVariants_step n t) ?_
      rintro ⟨c, t⟩
      exact FuelLe.rfl
    · exact FuelLe.rfl

theorem ParseGrammarLoop_step (n : Nat) :
    ∀ t, FuelLe (Tree.ParseGrammarLoop n t) (Tree.ParseGrammarLoop (n + 1) t) := by
  induction n with
  | zero => exact fun _ => FuelLe.zero
  | succ n ih =>
    intro t
    rw [Tree.ParseGrammarLoop, Tree.ParseGrammarLoop]
    split_ifs
    · refine FuelLe.step_bind (ParseRule_step n t) ?_
      rintro ⟨c, t⟩
      exact ih _
    · exact FuelLe.rfl

theorem ParseGrammar_step (n : Nat) (t : Tree) :
    FuelLe (Tree.ParseGrammar n t) (Tree.ParseGrammar (n + 1) t) := by
  cases n with
  | zero => exact FuelLe.zero
  | succ n =>
    rw [Tree.ParseGrammar, Tree.ParseGrammar]
    refine FuelLe.step_bind (SkipNewlines_step n _) (fun t => ?_)
    exact ParseGrammarLoop_step n t

/-! ## Partial correctness -/

theorem Ensures.ok {α : Type} {a : α} {Q : α → Prop} (h : Q a) :
    Ensures (Except.ok a : Except Failure α) Q := by
  intro b hb
  cases hb
  exact h

theorem Ensures.pure {α : Type} {a : α} {Q : α → Prop} (h : Q a) :
    Ensures (Pure.pure a : Except Failure α) Q := Ensures.ok h

theorem Ensures.error {α : Type} {e : Failure} {Q : α → Prop} :
    Ensures (Except.error e : Except Failure α) Q := by
  intro b hb
  cases hb

theorem Ensures.bind {α β : Type} {x : Except Failure α} {f : α → Except Failure β}
    {P : α → Prop} {Q : β → Prop} (hx : Ensures x P) (hf : ∀ a, P a → Ensures (f a) Q) :
    Ensures (x >>= f) Q := by
  intro b hb
  cases x with
  | error e => cases hb
  | ok a => exact hf a (hx a (Eq.refl _)) b hb

theorem Ensures.mono {α : Type} {x : Except Failure α} {P Q : α → Prop} (hx : Ensures x P)
    (h : ∀ a, P a → Q a) : Ensures x Q := fun a ha => h a (hx a ha)

theorem Ensures.and {α : Type} {x : Except Failure α} {P Q : α → Prop} (hP : Ensures x P)
    (hQ : Ensures x Q) : Ensures x (fun a => P a ∧ Q a) := fun a ha => ⟨hP a ha, hQ a ha⟩

/-! ## State invariants kept by `NextToken` are kept by the parse functions below `ParseRule` -/

section Invariant

variable (I : Tree → Prop) (hI : ∀ t s, I t → t.NextToken = .ok s → I s)
include hI

theorem NextToken_inv {t : Tree} (ht : I t) : Ensures t.NextToken I :=
  fun s hs => hI t s ht hs

theorem ParseIdentifier_inv {t : Tree} (ht : I t) :
    Ensures t.ParseIdentifier (fun r => I r.2) := by
  rw [Tree.ParseIdentifier]
  split_ifs
  · exact Ensures.error
  · exact Ensures.bind (NextToken_inv I hI ht) (fun t ht => Ensures.pure ht)

theorem ParseNumber_inv {t : Tree} (ht : I t) : Ensures t.ParseNumber (fun r => I r.2) := by
  rw [Tree.ParseNumber]
  split_ifs
  · exact Ensures.error
  · exact Ensures.bind (NextToken_inv I hI ht) (fun t ht => Ensures.pure ht)

theorem ParseString_inv {t : Tree} (ht : I t) : Ensures t.ParseString (fun r => I r.2) := by
  rw [Tree.ParseString]
  split_ifs
  · exact Ensures.error
  · exact Ensures.bind (NextToken_inv I hI ht) (fun t ht => Ensures.pure ht)

theorem ParseLiteral_inv {t : Tree} (ht : I t) : Ensures t.ParseLiteral (fun r => I r.2) := by
  rw [Tree.ParseLiteral]
  dsimp only
  split_ifs
  · refine Ensures.bind (ParseString_inv I hI ht) ?_
    rintro ⟨c, t⟩ ht
    exact Ensures.pure ht
  · refine Ensures.bind (ParseNumber_inv I hI ht) ?_
    rintro ⟨c, t⟩ ht
    exact Ensures.pure ht
  · exact Ensures.error

theorem SkipNewlines_inv (n : Nat) : ∀ {t : Tree}, I t → Ensures (Tree.SkipNewlines n t) I := by
  induction n with
  | zero => exact fun _ => Ensures.error
  | succ n ih =>
    intro t ht
    rw [Tree.SkipNewlines]
    split_ifs
    · exact Ensures.bind (NextToken_inv I hI ht) (fun t ht => ih ht)
    · exact Ensures.pure ht

theorem pat_inv (n : Nat) :
    (∀ {t : Tree}, I t → Ensures (Tree.ParsePatList n t) (fun r => I r.2)) ∧
    (∀ (node : Node) {t : Tree}, I t →
      Ensures (Tree.ParsePatListLoop n node t) (fun r => I r.2)) ∧
    (∀ {t : Tree}, I t → Ensures (Tree.ParsePatatom n t) (fun r => I r.2)) := by
  induction n with
  | zero =>
    refine ⟨fun _ => ?_, fun _ _ _ => ?_, fun _ => ?_⟩ <;> exact Ensures.error
  | succ n ih =>
    obtain ⟨ih1, ih2, ih3⟩ := ih
    refine ⟨fun {t} ht => ?_, fun node {t} ht => ?_, fun {t} ht => ?_⟩
    · rw [Tree.ParsePatList]
      refine Ensures.bind (ih3 ht) ?_
      rintro ⟨c, t⟩ ht
      dsimp only
      split_ifs
      · refine Ensures.bind (NextToken_inv I hI ht) (fun t ht => ?_)
        refine Ensures.bind (ih1 ht) ?_
        rintro ⟨c, t⟩ ht
        exact Ensures.pure ht
      · exact ih2 _ ht
      · exact Ensures.pure ht
    · rw [Tree.ParsePatListLoop]
      split_ifs
      · refine Ensures.bind (NextToken_inv I hI ht) (fun t ht => ?_)
        dsimp only
        split_ifs
        · refine Ensures.bind (ih3 ht) ?_
          rintro ⟨c, t⟩ ht
          exact ih2 _ ht
        · exact ih2 _ ht
      · exact Ensures.pure ht
    · rw [Tree.ParsePatatom]
      dsimp only
      split_ifs
      · refine Ensures.bind (ParseIdentifier_inv I hI ht) ?_
        rintro ⟨c, t⟩ ht
        exact Ensures.pure ht
      · refine Ensures.bind (ParseLiteral_inv I hI ht) ?_
        rintro ⟨c, t⟩ ht
        exact Ensures.pure ht
      · refine Ensures.bind (NextToken_inv I hI ht) (fun t ht => ?_)
        refine Ensures.bind (P := fun (r : Node × Tree) => I r.2) ?_ ?_
        · split_ifs
          · exact Ensures.pure ht
          · refine Ensures.bind (ih1 ht) ?_
            rintro ⟨c, t⟩ ht
            dsimp only
            split_ifs
            · exact Ensures.error
            · exact Ensures.pure ht
        · rintro ⟨c, t⟩ ht
          exact Ensures.bind (NextToken_inv I hI ht) (fun t ht => Ensures.pure ht)
      · exact Ensures.error

theorem ParsePaternsLoop_inv (n : Nat) :
    ∀ (node : Node) {t : Tree}, I t →
      Ensures (Tree.ParsePaternsLoop n node t) (fun r => I r.2) := by
  induction n with
  | zero => exact fun _ _ _ => Ensures.error
  | succ n ih =>
    intro node t ht
    rw [Tree.ParsePaternsLoop]
    split_ifs
    · refine Ensures.bind ((pat_inv I hI n).1 ht) ?_
      rintro ⟨c, t⟩ ht
      exact ih _ ht
    · exact Ensures.pure ht

theorem ParsePaterns_inv (n : Nat) {t : Tree} (ht : I t) :
    Ensures (Tree.ParsePaterns n t) (fun r => I r.2) :=
  ParsePaternsLoop_inv I hI n _ ht

theorem expr_inv (n : Nat) :
    (∀ {t : Tree}, I t → Ensures (Tree.ParseExpression n t) (fun r => I r.2)) ∧
    (∀ (node : Node) {t : Tree}, I t →
      Ensures (Tree.ParseExpressionLoop n node t) (fun r => I r.2)) ∧
    (∀ {t : Tree}, I t → Ensures (Tree.ParseExpr n t) (fun r => I r.2)) ∧
    (∀ (node : Node) {t : Tree}, I t →
      Ensures (Tree.ParseExprLoop n node t) (fun r => I r.2)) ∧
    (∀ {t : Tree}, I t → Ensures (Tree.ParseAtom n t) (fun r => I r.2)) := by
  induction n with
  | zero =>
    refine ⟨fun _ => ?_, fun _ _ _ => ?_, fun _ => ?_, fun _ _ _ => ?_, fun _ => ?_⟩ <;>
      exact Ensures.error
  | succ n ih =>
    obtain ⟨ih1, ih2, ih3, ih4, ih5⟩ := ih
    refine ⟨fun {t} ht => ?_, fun node {t} ht => ?_, fun {t} ht => ?_, fun node {t} ht => ?_,
      fun {t} ht => ?_⟩
    · rw [Tree.ParseExpression]
      refine Ensures.bind (ih3 ht) ?_
      rintro ⟨c, t⟩ ht
      dsimp only
      split_ifs
      · exact ih2 _ ht
      · refine Ensures.bind (NextToken_inv I hI ht) (fun t ht => ?_)
        refine Ensures.bind (ih1 ht) ?_
        rintro ⟨c, t⟩ ht
        exact Ensures.pure ht
      · exact Ensures.pure ht
    · rw [Tree.ParseExpressionLoop]
      split_ifs
      · refine Ensures.bind (NextToken_inv I hI ht) (fun t ht => ?_)
        dsimp only
        split_ifs
        · refine Ensures.bind (ih3 ht) ?_
          rintro ⟨c, t⟩ ht
          exact ih2 _ ht
        · exact ih2 _ ht
      · exact Ensures.pure ht
    · rw [Tree.ParseExpr]
      refine Ensures.bind (P := fun (r : Node × Tree) => I r.2) ?_ ?_
      · split_ifs
        · refine Ensures.bind (ih5 ht) ?_
          rintro ⟨c, t⟩ ht
          exact Ensures.pure ht
        · exact Ensures.error
      · rintro ⟨c, t⟩ ht
        exact ih4 _ ht
    · rw [Tree.ParseExprLoop]
      split_ifs
      · refine Ensures.bind (ih5 ht) ?_
        rintro ⟨c, t⟩ ht
        exact ih4 _ ht
      · exact Ensures.pure ht
    · rw [Tree.ParseAtom]
      dsimp only
      split_ifs
      · refine Ensures.bind (ParseIdentifier_inv I hI ht) ?_
        rintro ⟨c, t⟩ ht
        exact Ensures.pure ht
      · refine Ensures.bind (ParseLiteral_inv I hI ht) ?_
        rintro ⟨c, t⟩ ht
        exact Ensures.pure ht
      · refine Ensures.bind (NextToken_inv I hI ht) (fun t ht => ?_)
        refine Ensures.bind (P := fun (r : Node × Tree) => I r.2) ?_ ?_
        · split_ifs
          · exact Ensures.pure ht
          · refine Ensures.bind (ih1 ht) ?_
            rintro ⟨c, t⟩ ht
            dsimp only
            split_ifs
            · exact Ensures.error
            · exact Ensures.pure ht
        · rintro ⟨c, t⟩ ht
          exact Ensures.bind (NextToken_inv I hI ht) (fun t ht => Ensures.pure ht)
      · exact Ensures.error
      · exact Ensures.error

theorem ParseSentence_inv (n : Nat) {t : Tree} (ht : I t) :
    Ensures (Tree.ParseSentence n t) (fun r => I r.2) := by
  cases n with
  | zero => exact Ensures.error
  | succ n =>
    rw [Tree.ParseSentence]
    refine Ensures.bind ((expr_inv I hI n).1 ht) ?_
    rintro ⟨c, t⟩ ht
    exact Ensures.pure ht

theorem ParseSimpleVariant_inv (n : Nat) {t : Tree} (ht : I t) :
    Ensures (Tree.ParseSimpleVariant n t) (fun r => I r.2) := by
  cases n with
  | zero => exact Ensures.error
  | succ n =>
    rw [Tree.ParseSimpleVariant]
    refine Ensures.bind (ParseSentence_inv I hI n ht) ?_
    rintro ⟨c, t⟩ ht
    exact Ensures.pure ht

theorem ParseMultilineVariantLoop_inv (n : Nat) :
    ∀ (node : Node) {t : Tree}, I t →
      Ensures (Tree.ParseMultilineVariantLoop n node t) (fun r => I r.2) := by
  induction n with
  | zero => exact fun _ _ _ => Ensures.error
  | succ n ih =>
    intro node t ht
    rw [Tree.ParseMultilineVariantLoop]
    split_ifs
    · exact Ensures.bind (NextToken_inv I hI ht) (fun t ht => ih _ ht)
    · refine Ensures.bind (ParseSentence_inv I hI n ht) ?_
      rintro ⟨c, t⟩ ht
      exact ih _ ht
    · exact Ensures.pure ht

theorem ParseMultilineVariant_inv (n : Nat) {t : Tree} (ht : I t) :
    Ensures (Tree.ParseMultilineVariant n t) (fun r => I r.2) := by
  cases n with
  | zero => exact Ensures.error
  | succ n =>
    rw [Tree.ParseMultilineVariant]
    dsimp only
    split_ifs
    · refine Ensures.bind (NextToken_inv I hI ht) (fun t ht => ?_)
      refine Ensures.bind (ParseMultilineVariantLoop_inv I hI n _ ht) ?_
      rintro ⟨c, t⟩ ht
      dsimp only
      split_ifs
      · exact Ensures.bind (NextToken_inv I hI ht) (fun t ht => Ensures.pure ht)
      · exact Ensures.error
    · exact Ensures.error

theorem ParseVariant_inv (n : Nat) {t : Tree} (ht : I t) :
    Ensures (Tree.ParseVariant n t) (fun r => I r.2) := by
  cases n with
  | zero => exact Ensures.error
  | succ n =>
    rw [Tree.ParseVariant]
    refine Ensures.bind (P := fun (r : Node × Tree) => I r.2) ?_ ?_
    · split_ifs
      · refine Ensures.bind (NextToken_inv I hI ht) (fun t ht => ?_)
        dsimp only
        split_ifs
        · exact Ensures.bind (NextToken_inv I hI ht) (fun t ht => Ensures.pure ht)
        · exact Ensures.error
      · exact Ensures.pure ht
    · rintro ⟨c, t⟩ ht
      dsimp only
      split_ifs
      · refine Ensures.bind (ParseMultilineVariant_inv I hI n ht) ?_
        rintro ⟨c, t⟩ ht
        exact Ensures.pure ht
      · refine Ensures.bind (ParseSimpleVariant_inv I hI n ht) ?_
        rintro ⟨c, t⟩ ht
        exact Ensures.pure ht

theorem ParseVariantsLoop_inv (n : Nat) :
    ∀ (node : Node) {t : Tree}, I t →
      Ensures (Tree.ParseVariantsLoop n node t) (fun r => I r.2) := by
  induction n with
  | zero => exact fun _ _ _ => Ensures.error
  | succ n ih =>
    intro node t ht
    rw [Tree.ParseVariantsLoop]
    split_ifs
    · refine Ensures.bind (SkipNewlines_inv I hI n ht) (fun t ht => ?_)
      dsimp only
      split_ifs
      · refine Ensures.bind (NextToken_inv I hI ht) (fun t ht => ?_)
        refine Ensures.bind (SkipNewlines_inv I hI n ht) (fun t ht => ?_)
        refine Ensures.bind (ParseVariant_inv I hI n ht) ?_
        rintro ⟨c, t⟩ ht
        exact ih _ ht
      · exact ih _ ht
    · exact Ensures.pure ht

theorem ParseVariants_inv (n : Nat) {t : Tree} (ht : I t) :
    Ensures (Tree.ParseVariants n t) (fun r => I r.2) := by
  cases n with
  | zero => exact Ensures.error
  | succ n =>
    rw [Tree.ParseVariants]
    refine Ensures.bind (SkipNewlines_inv I hI n ht) (fun t ht => ?_)
    refine Ensures.bind (ParseVariant_inv I hI n ht) ?_
    rintro ⟨c, t⟩ ht
    exact ParseVariantsLoop_inv I hI n _ ht

theorem ParseDefinition_inv (n : Nat) {t : Tree} (ht : I t) :
    Ensures (Tree.ParseDefinition n t) (fun r => I r.2) := by
  cases n with
  | zero => exact Ensures.error
  | succ n =>
    rw [Tree.ParseDefinition]
    refine Ensures.bind ((pat_inv I hI n).2.2 ht) ?_
    rintro ⟨c, t⟩ ht
    dsimp only
    split_ifs
    · refine Ensures.bind (NextToken_inv I hI ht) (fun t ht => ?_)
      refine Ensures.bind ((expr_inv I hI n).2.2.1 ht) ?_
      rintro ⟨c, t⟩ ht
      exact Ensures.pure ht
    · exact Ensures.error

theorem ParseDefListLoop_inv (n : Nat) :
    ∀ (node : Node) {t : Tree}, I t →
      Ensures (Tree.ParseDefListLoop n node t) (fun r => I r.2) := by
  induction n with
  | zero => exact fun _ _ _ => Ensures.error
  | succ n ih =>
    intro node t ht
    rw [Tree.ParseDefListLoop]
    split_ifs
    · refine Ensures.bind (NextToken_inv I hI ht) (fun t ht => ?_)
      refine Ensures.bind (SkipNewlines_inv I hI n ht) (fun t ht => ?_)
      refine Ensures.bind (ParseDefinition_inv I hI n ht) ?_
      rintro ⟨c, t⟩ ht
      exact ih _ ht
    · exact Ensures.pure ht

theorem ParseDefList_inv (n : Nat) {t : Tree} (ht : I t) :
    Ensures (Tree.ParseDefList n t) (fun r => I r.2) := by
  cases n with
  | zero => exact Ensures.error
  | succ n =>
    rw [Tree.ParseDefList]
    refine Ensures.bind (SkipNewlines_inv I hI n ht) (fun t ht => ?_)
    refine Ensures.bind (ParseDefinition_inv I hI n ht) ?_
    rintro ⟨c, t⟩ ht
    exact ParseDefListLoop_inv I hI n _ ht

theorem ParseCondlist_inv (n : Nat) {t : Tree} (ht : I t) :
    Ensures (Tree.ParseCondlist n t) (fun r => I r.2) := by
  cases n with
  | zero => exact Ensures.error
  | succ n =>
    rw [Tree.ParseCondlist]
    refine Ensures.bind ((expr_inv I hI n).2.2.1 ht) ?_
    rintro ⟨c, t⟩ ht
    dsimp only
    split_ifs
    · refine Ensures.bind (NextToken_inv I hI ht) (fun t ht => ?_)
      refine Ensures.bind (SkipNewlines_inv I hI n ht) (fun t ht => ?_)
      refine Ensures.bind ((expr_inv I hI n).2.2.1 ht) ?_
      rintro ⟨c, t⟩ ht
      exact Ensures.pure ht
    · exact Ensures.pure ht

end Invariant

/-! ## The rule table -/

theorem Frame.refl (t : Tree) : t.Frame t := ⟨rfl, rfl, rfl, rfl, rfl, Nat.le_refl _⟩

theorem Frame.next (t : Tree) : ∀ a b, t.Frame a → a.NextToken = .ok b → t.Frame b := by
  intro a b ha hb
  rw [Tree.NextToken] at hb
  split at hb
  · cases hb
    exact ⟨ha.filename, ha.tokens, ha.lines, ha.Rules, ha.root, Nat.le_succ_of_le ha.ncur⟩
  · cases hb

theorem ParseIdentifier_node (t : Tree) :
    Ensures t.ParseIdentifier
      (fun r => r.1 = NewNode "identifier" t.cur ∧ t.cur.Id = "identifier") := by
  rw [Tree.ParseIdentifier]
  split_ifs with h
  · exact Ensures.error
  · refine Ensures.bind (P := fun _ => True) (fun _ _ => trivial) (fun _ _ => Ensures.pure ⟨rfl, ?_⟩)
    simpa [Tree.CheckTokenId, Token.CheckId] using h

theorem AddChild_head (node c first : Node) (h : node.childrens[0]? = some first) :
    (node.AddChild c).childrens[0]? = some first := by
  cases hc : node.childrens with
  | nil => rw [hc] at h; cases h
  | cons a l =>
    rw [hc] at h
    simp only [Node.AddChild, hc]
    simpa using h

theorem ParseRule_spec (n : Nat) (t : Tree) :
    Ensures (Tree.ParseRule n t) (fun r =>
      r.2.root = t.root ∧ r.1.id = "rule" ∧
      r.1.childrens[0]? = some (NewNode "identifier" t.cur) ∧ t.cur.Id = "identifier" ∧
      r.2.Rules = if (t.Rules t.cur.Value).isNone
        then Function.update t.Rules t.cur.Value (some r.1) else t.Rules) := by
  cases n with
  | zero => exact Ensures.error
  | succ n =>
    have hI := Frame.next t
    rw [Tree.ParseRule]
    refine Ensures.bind
      (Ensures.and (ParseIdentifier_inv (t.Frame) hI (Frame.refl t)) (ParseIdentifier_node t)) ?_
    rintro ⟨c, t1⟩ ⟨hf, hc, hcur⟩
    dsimp only at hc hf
    subst hc
    refine Ensures.bind (ParsePaterns_inv (t.Frame) hI n hf) ?_
    rintro ⟨c, t2⟩ hf
    refine Ensures.bind (SkipNewlines_inv (t.Frame) hI n hf) (fun t3 hf => ?_)
    refine Ensures.bind (P := fun (r : Node × Tree) => t.Frame r.2 ∧ r.1.id = "rule" ∧
      r.1.childrens[0]? = some (NewNode "identifier" t.cur)) ?_ ?_
    · split_ifs
      · refine Ensures.bind (NextToken_inv (t.Frame) hI hf) (fun t4 hf => ?_)
        refine Ensures.bind (ParseDefList_inv (t.Frame) hI n hf) ?_
        rintro ⟨c, t5⟩ hf
        exact Ensures.pure ⟨hf, rfl, rfl⟩
      · exact Ensures.pure ⟨hf, rfl, rfl⟩
    rintro ⟨node, t4⟩ ⟨hf, hid, hhead⟩
    refine Ensures.bind (SkipNewlines_inv (t.Frame) hI n hf) (fun t5 hf => ?_)
    refine Ensures.bind (P := fun (r : Node × Tree) => t.Frame r.2 ∧ r.1.id = "rule" ∧
      r.1.childrens[0]? = some (NewNode "identifier" t.cur)) ?_ ?_
    · split_ifs
      · refine Ensures.bind (NextToken_inv (t.Frame) hI hf) (fun t6 hf => ?_)
        refine Ensures.bind (ParseCondlist_inv (t.Frame) hI n hf) ?_
        rintro ⟨c, t7⟩ hf
        exact Ensures.pure ⟨hf, hid, AddChild_head _ _ _ hhead⟩
      · exact Ensures.pure ⟨hf, hid, hhead⟩
    rintro ⟨node, t6⟩ ⟨hf, hid, hhead⟩
    refine Ensures.bind (SkipNewlines_inv (t.Frame) hI n hf) (fun t7 hf => ?_)
    refine Ensures.bind (P := fun (r : Node × Tree) => t.Frame r.2 ∧ r.1.id = "rule" ∧
      r.1.childrens[0]? = some (NewNode "identifier" t.cur)) ?_ ?_
    · split_ifs
      · refine Ensures.bind (NextToken_inv (t.Frame) hI hf) (fun t8 hf => ?_)
        refine Ensures.bind (SkipNewlines_inv (t.Frame) hI n hf) (fun t9 hf => ?_)
        refine Ensures.bind (ParseVariants_inv (t.Frame) hI n hf) ?_
        rintro ⟨c, t10⟩ hf
        exact Ensures.pure ⟨hf, hid, AddChild_head _ _ _ hhead⟩
      · exact Ensures.error
    rintro ⟨node, t8⟩ ⟨hf, hid, hhead⟩
    dsimp only at hf hid hhead
    unfold Tree.recordRule
    dsimp only
    rw [hhead]
    simp only [NewNode]
    rw [← hf.Rules]
    split_ifs with hnone
    · exact Ensures.ok ⟨hf.root, hid, hhead, hcur, rfl⟩
    · exact Ensures.ok ⟨hf.root, hid, hhead, hcur, rfl⟩

theorem eq_ok_valueOf {α : Type} (x : Except Failure α) (d : α) (h : returns x = true) :
    x = .ok (valueOf x d) := by
  cases x with
  | ok a => rfl
  | error e => cases h

theorem ruleName_of_head (r : Node) (tok : Token)
    (h : r.childrens[0]? = some (NewNode "identifier" tok)) : r.ruleName = some tok.Value := by
  simp [Node.ruleName, h, NewNode]

theorem ParseGrammarLoop_table (n : Nat) :
    ∀ t : Tree,
      ((∀ r ∈ t.root.childrens, r.IsRule) ∧
        ∀ name, t.Rules name = t.root.childrens.find? (fun r => decide (r.ruleName = some name))) →
      Ensures (Tree.ParseGrammarLoop n t) (fun s =>
        (∀ r ∈ s.root.childrens, r.IsRule) ∧
        ∀ name, s.Rules name = s.root.childrens.find? (fun r => decide (r.ruleName = some name))) := by
  induction n with
  | zero => exact fun _ _ => Ensures.error
  | succ n ih =>
    intro t ht
    rw [Tree.ParseGrammarLoop]
    split_ifs
    · refine Ensures.bind (ParseRule_spec n t) ?_
      rintro ⟨c, s⟩ ⟨hroot, hid, hhead, hcur, hrules⟩
      dsimp only at hroot hid hhead hrules ⊢
      refine ih _ ⟨?_, ?_⟩
      · intro r hr
        simp only [Node.AddChild, List.mem_append, List.mem_singleton] at hr
        rcases hr with hr | hr
        · exact ht.1 r (hroot ▸ hr)
        · subst hr
          exact ⟨hid, t.cur, hhead, hcur⟩
      · intro name
        have hname := ruleName_of_head c t.cur hhead
        simp only [Node.AddChild, List.find?_append, hroot, hrules, List.find?_cons,
          List.find?_nil, hname, ← ht.2 name]
        by_cases hn : t.cur.Value = name
        · subst hn
          cases hx : t.Rules t.cur.Value <;> simp [hx]
        · have hn2 : ¬ (some t.cur.Value = some name) := fun h => hn (Option.some.inj h)
          split_ifs
          · simp [Function.update, hn2, Ne.symm hn]
          · simp [hn2]
    · exact Ensures.pure ht

/-- C1. When `ParseGrammar` succeeds on a tree whose rule table is empty (as `NewTree`
makes it), every child of the root is a rule node whose first child is an identifier node;
the keys of the rule table are exactly the names of these rule nodes; and the table maps a
name to the first child of the root, in source order, that has this name, so a later rule of
the same name stays in the tree and does not change the entry. -/
theorem rule_table_first_wins (n : Nat) (t0 t : Tree) (h0 : ∀ name, t0.Rules name = none)
    (h : Tree.ParseGrammar n t0 = .ok t) :
    (∀ r ∈ t.root.childrens, r.IsRule) ∧
    (∀ name, (t.Rules name).isSome ↔ ∃ r ∈ t.root.childrens, r.ruleName = some name) ∧
    (∀ name,
      t.Rules name = t.root.childrens.find? (fun r => decide (r.ruleName = some name))) := by
  have key : Ensures (Tree.ParseGrammar n t0) (fun s =>
      (∀ r ∈ s.root.childrens, r.IsRule) ∧
      ∀ name, s.Rules name = s.root.childrens.find? (fun r => decide (r.ruleName = some name))) := by
    cases n with
    | zero => exact Ensures.error
    | succ n =>
      rw [Tree.ParseGrammar]
      refine Ensures.bind
        (SkipNewlines_inv (Tree.Frame { t0 with root := t0.NewNode "grammar" }) (Frame.next _) n
          (Frame.refl _)) (fun s hs => ?_)
      refine ParseGrammarLoop_table n s ⟨?_, ?_⟩
      · intro r hr
        rw [hs.root] at hr
        cases hr
      · intro name
        rw [hs.root, hs.Rules]
        simp [Tree.NewNode, NewNode, h0]
  obtain ⟨h1, h2⟩ := key t h
  refine ⟨h1, fun name => ?_, h2⟩
  rw [h2 name, List.find?_isSome]
  simp

theorem rule_table_first_wins_witness :
    ((∀ r ∈ (valueOf (Tree.ParseGrammar 20 (treeAt (tokensOf dupLines) dupLines 0))
        (treeAt [] [] 0)).root.childrens, r.IsRule) ∧
    (∀ name, ((valueOf (Tree.ParseGrammar 20 (treeAt (tokensOf dupLines) dupLines 0))
        (treeAt [] [] 0)).Rules name).isSome ↔
      ∃ r ∈ (valueOf (Tree.ParseGrammar 20 (treeAt (tokensOf dupLines) dupLines 0))
        (treeAt [] [] 0)).root.childrens, r.ruleName = some name) ∧
    (∀ name,
      (valueOf (Tree.ParseGrammar 20 (treeAt (tokensOf dupLines) dupLines 0))
        (treeAt [] [] 0)).Rules name =
      (valueOf (Tree.ParseGrammar 20 (treeAt (tokensOf dupLines) dupLines 0))
        (treeAt [] [] 0)).root.childrens.find? (fun r => decide (r.ruleName = some name)))) ∧
    (valueOf (Tree.ParseGrammar 20 (treeAt (tokensOf dupLines) dupLines 0))
        (treeAt [] [] 0)).root.childrens.map (fun r => r.match_) =
      ["x ::= a".toList, "y ::= b".toList, "x ::= c".toList] ∧
    ((valueOf (Tree.ParseGrammar 20 (treeAt (tokensOf dupLines) dupLines 0))
        (treeAt [] [] 0)).Rules "x".toList).map (fun r => r.match_) = some "x ::= a".toList :=
  ⟨rule_table_first_wins 20 (treeAt (tokensOf dupLines) dupLines 0) _ (fun _ => rfl)
    (eq_ok_valueOf _ _ (by decide!)), by decide!, by decide!⟩

theorem cons_form_pat (n : Nat) (t t1 t2 t3 : Tree) (patatom rest : Node)
    (h1 : Tree.ParsePatatom n t = .ok (patatom, t1))
    (h2 : t1.CheckTokenId ":" = true)
    (h3 : t1.NextToken = .ok t2)
    (h4 : Tree.ParsePatList n t2 = .ok (rest, t3)) :
    Tree.ParsePatList (n + 1) t =
      .ok ((((t.NewNode "patlist").AddChild (t1.NewNode "consop")).AddChild patatom).AddChild rest, t3) := by
  simp [Tree.ParsePatList, h1, h2, h3, h4, bind, Except.bind, pure, Except.pure]

theorem cons_form_expr (n : Nat) (t t1 t2 t3 : Tree) (expr rest : Node)
    (h1 : Tree.ParseExpr n t = .ok (expr, t1))
    (h2 : t1.CheckTokenId ":" = true)
    (h3 : t1.NextToken = .ok t2)
    (h4 : Tree.ParseExpression n t2 = .ok (rest, t3)) :
    Tree.ParseExpression (n + 1) t =
      .ok ((((t.NewNode "expression").AddChild (t1.NewNode "consop")).AddChild expr).AddChild rest, t3) := by
  have h5 : t1.CheckTokenId "," = false := by
    simp only [Tree.CheckTokenId, Token.CheckId, beq_iff_eq] at h2 ⊢
    simp [h2]
  simp [Tree.ParseExpression, h1, h2, h3, h4, h5, bind, Except.bind, pure, Except.pure]

/-- C2. Cons form. When the left operand is parsed up to a state whose current token is `:`,
and the text after the `:` parses as a pattern list (resp. an expression), then `ParsePatList`
(resp. `ParseExpression`), with any larger fuel, returns a `patlist` (resp. `expression`) node
on the first token with exactly three children: the childless `consop` node made from the
`:` token, the left operand, and the node of the rest, which nests to the right. -/
theorem cons_form (n m : Nat) (hm : n < m) (t t1 t2 : Tree) (left : Node)
    (h2 : t1.CheckTokenId ":" = true) (h3 : t1.NextToken = .ok t2) :
    (∀ rest t3, Tree.ParsePatatom n t = .ok (left, t1) →
      Tree.ParsePatList n t2 = .ok (rest, t3) →
      ∃ node, Tree.ParsePatList m t = .ok (node, t3) ∧ node.id = "patlist" ∧
        node.token = some t.cur ∧ (NewNode "consop" t1.cur).childrens = [] ∧
        node.childrens = [NewNode "consop" t1.cur, left, rest]) ∧
    (∀ rest t3, Tree.ParseExpr n t = .ok (left, t1) →
      Tree.ParseExpression n t2 = .ok (rest, t3) →
      ∃ node, Tree.ParseExpression m t = .ok (node, t3) ∧ node.id = "expression" ∧
        node.token = some t.cur ∧ (NewNode "consop" t1.cur).childrens = [] ∧
        node.childrens = [NewNode "consop" t1.cur, left, rest]) := by
  constructor
  · intro rest t3 h1 h4
    refine ⟨_, FuelLe.lift_ok (FuelLe.of_le (fun k => Tree.ParsePatList k t)
      (fun k => (pat_step k).1 t) (Nat.succ_le_of_lt hm)) (cons_form_pat n t t1 t2 t3 left rest h1 h2 h3 h4),
      rfl, rfl, rfl, ?_⟩
    simp [Node.AddChild, Tree.NewNode, NewNode]
  · intro rest t3 h1 h4
    refine ⟨_, FuelLe.lift_ok (FuelLe.of_le (fun k => Tree.ParseExpression k t)
      (fun k => (expr_step k).1 t) (Nat.succ_le_of_lt hm)) (cons_form_expr n t t1 t2 t3 left rest h1 h2 h3 h4),
      rfl, rfl, rfl, ?_⟩
    simp [Node.AddChild, Tree.NewNode, NewNode]

theorem cons_form_witness :
    tokensOf consLines = consToks ∧
    ∃ node, Tree.ParsePatList 3 (treeAt consToks consLines 1) =
        .ok (node, treeAt consToks consLines 4) ∧
      node.id = "patlist" ∧
      node.token = some (NewToken "identifier" 0 2 "a".toList) ∧
      (NewNode "consop" (NewToken ":" 0 3 ":".toList)).childrens = [] ∧
      node.childrens =
        [NewNode "consop" (NewToken ":" 0 3 ":".toList),
         unary "patatom" "identifier" (NewToken "identifier" 0 2 "a".toList),
         (NewNode "patlist" (NewToken "identifier" 0 4 "b".toList)).AddChild
           (unary "patatom" "identifier" (NewToken "identifier" 0 4 "b".toList))] :=
  ⟨by decide!,
   (cons_form 2 3 (by decide) (treeAt consToks consLines 1) (treeAt consToks consLines 2)
      (treeAt consToks consLines 3) (unary "patatom" "identifier" (NewToken "identifier" 0 2 "a".toList))
      (by decide) rfl).1 _ _ rfl rfl⟩


/-! ## List forms -/

theorem ParsePatatom_mono {n m : Nat} (h : n ≤ m) {t : Tree} {r : Node × Tree}
    (hr : Tree.ParsePatatom n t = .ok r) : Tree.ParsePatatom m t = .ok r :=
  FuelLe.lift_ok (FuelLe.of_le (fun k => Tree.ParsePatatom k t) (fun k => (pat_step k).2.2 t) h) hr

theorem ParseExpr_mono {n m : Nat} (h : n ≤ m) {t : Tree} {r : Node × Tree}
    (hr : Tree.ParseExpr n t = .ok r) : Tree.ParseExpr m t = .ok r :=
  FuelLe.lift_ok (FuelLe.of_le (fun k => Tree.ParseExpr k t) (fun k => (expr_step k).2.2.1 t) h) hr

theorem ParsePatatom_guard {n : Nat} {t : Tree} {r : Node × Tree}
    (hr : Tree.ParsePatatom n t = .ok r) :
    t.CheckTokenIdsOr ["identifier", "string", "number", "("] = true := by
  cases n with
  | zero => cases hr
  | succ n =>
    rw [Tree.ParsePatatom] at hr
    dsimp only at hr
    split_ifs at hr with h1 h2 h3
    · simp [Tree.CheckTokenIdsOr, h1]
    · simp only [Tree.CheckTokenIdsOr, List.any_cons, List.any_nil, Bool.or_false,
        Bool.or_eq_true] at h2 ⊢
      tauto
    · simp [Tree.CheckTokenIdsOr, h3]

theorem ParseExpr_guard {n : Nat} {t : Tree} {r : Node × Tree}
    (hr : Tree.ParseExpr n t = .ok r) :
    t.CheckTokenIdsOr ["identifier", "number", "string", "(", "["] = true := by
  cases n with
  | zero => cases hr
  | succ n =>
    rw [Tree.ParseExpr] at hr
    by_contra h
    simp [h, bind, Except.bind] at hr

theorem foldl_AddChild_childrens (ps : List Node) :
    ∀ node : Node, (ps.foldl Node.AddChild node).childrens = node.childrens ++ ps := by
  induction ps with
  | nil => intro node; simp
  | cons p ps ih => intro node; simp [ih, Node.AddChild]

theorem foldl_AddChild_id (ps : List Node) :
    ∀ node : Node, (ps.foldl Node.AddChild node).id = node.id := by
  induction ps with
  | nil => intro node; rfl
  | cons p ps ih => intro node; simp [ih, Node.AddChild]

theorem foldl_AddChild_token (ps : List Node) :
    ∀ node : Node, (ps.foldl Node.AddChild node).token = node.token := by
  induction ps with
  | nil => intro node; rfl
  | cons p ps ih => intro node; simp [ih, Node.AddChild]

theorem ParsePatListLoop_chain (n : Nat) (e : Tree) (he : e.CheckTokenId "," = false) :
    ∀ (ps : List Node) (s : Tree) (node : Node), Tree.CommaPatatoms n s ps e →
      Tree.ParsePatListLoop (n + ps.length + 1) node s = .ok (ps.foldl Node.AddChild node, e) := by
  intro ps
  induction ps with
  | nil =>
    intro s node h
    simp only [Tree.CommaPatatoms] at h
    subst h
    simp [Tree.ParsePatListLoop, he, pure, Except.pure]
  | cons p ps ih =>
    intro s node h
    obtain ⟨hc, s1, s2, hn, hp, hrest⟩ := h
    have hp2 := ParsePatatom_mono (Nat.le_add_right n (ps.length + 1)) hp
    rw [List.length_cons, ← Nat.add_assoc, Tree.ParsePatListLoop]
    simp only [hc, if_true, hn, bind, Except.bind, ParsePatatom_guard hp]
    rw [← Nat.add_assoc] at hp2
    rw [hp2]
    exact ih s2 _ hrest

theorem ParseExpressionLoop_chain (n : Nat) (e : Tree) (he : e.CheckTokenId "," = false) :
    ∀ (ps : List Node) (s : Tree) (node : Node), Tree.CommaExprs n s ps e →
      Tree.ParseExpressionLoop (n + ps.length + 1) node s =
        .ok (ps.foldl Node.AddChild node, e) := by
  intro ps
  induction ps with
  | nil =>
    intro s node h
    simp only [Tree.CommaExprs] at h
    subst h
    simp [Tree.ParseExpressionLoop, he, pure, Except.pure]
  | cons p ps ih =>
    intro s node h
    obtain ⟨hc, s1, s2, hn, hp, hrest⟩ := h
    have hp2 := ParseExpr_mono (Nat.le_add_right n (ps.length + 1)) hp
    rw [List.length_cons, ← Nat.add_assoc, Tree.ParseExpressionLoop]
    simp only [hc, if_true, hn, bind, Except.bind, ParseExpr_guard hp]
    rw [← Nat.add_assoc] at hp2
    rw [hp2]
    exact ih s2 _ hrest

/-- C3. List form. When `k = ps.length + 1` operands, separated by single `,` tokens, parse
one after the other (the first to state `s`, the others as the chain `ps` up to state `e`) and
the token after the last operand is not a `,`, then `ParsePatList` (resp. `ParseExpression`),
with enough fuel, returns a `patlist` (resp. `expression`) node with exactly `k + 1`
children: the childless `listop` node made from the first `,` token, then the operands in
source order. -/
theorem list_form (n m : Nat) (t s e : Tree) (first : Node) (ps : List Node) (hps : ps ≠ [])
    (he : e.CheckTokenId "," = false) (hm : n + ps.length + 1 < m) :
    (Tree.ParsePatatom n t = .ok (first, s) → Tree.CommaPatatoms n s ps e →
      ∃ node, Tree.ParsePatList m t = .ok (node, e) ∧ node.id = "patlist" ∧
        node.token = some t.cur ∧ (NewNode "listop" s.cur).childrens = [] ∧
        node.childrens = NewNode "listop" s.cur :: first :: ps ∧
        node.childrens.length = (ps.length + 1) + 1) ∧
    (Tree.ParseExpr n t = .ok (first, s) → Tree.CommaExprs n s ps e →
      ∃ node, Tree.ParseExpression m t = .ok (node, e) ∧ node.id = "expression" ∧
        node.token = some t.cur ∧ (NewNode "listop" s.cur).childrens = [] ∧
        node.childrens = NewNode "listop" s.cur :: first :: ps ∧
        node.childrens.length = (ps.length + 1) + 1) := by
  constructor
  · intro h1 hchain
    have hcomma : s.CheckTokenId "," = true := by
      cases ps with
      | nil => exact absurd rfl hps
      | cons p ps => exact hchain.1
    have hcolon : s.CheckTokenId ":" = false := by
      simp only [Tree.CheckTokenId, Token.CheckId, beq_iff_eq] at hcomma ⊢
      simp [hcomma]
    have hloop := ParsePatListLoop_chain n e he ps s
      (((t.NewNode "patlist").AddChild (s.NewNode "listop")).AddChild first) hchain
    have h1b := ParsePatatom_mono (Nat.le_add_right n (ps.length + 1)) h1
    have hres : Tree.ParsePatList (n + ps.length + 1 + 1) t =
        .ok (ps.foldl Node.AddChild
          (((t.NewNode "patlist").AddChild (s.NewNode "listop")).AddChild first), e) := by
      rw [Tree.ParsePatList]
      rw [← Nat.add_assoc] at h1b
      simp only [h1b, bind, Except.bind, hcolon, hcomma, if_true]
      simpa using hloop
    refine ⟨_, FuelLe.lift_ok (FuelLe.of_le (fun k => Tree.ParsePatList k t)
      (fun k => (pat_step k).1 t) (Nat.succ_le_of_lt hm)) hres, ?_, ?_, rfl, ?_, ?_⟩
    · simp [foldl_AddChild_id, Node.AddChild, Tree.NewNode, NewNode]
    · simp [foldl_AddChild_token, Node.AddChild, Tree.NewNode, NewNode]
    · simp [foldl_AddChild_childrens, Node.AddChild, Tree.NewNode, NewNode]
    · simp [foldl_AddChild_childrens, Node.AddChild, Tree.NewNode, NewNode]
  · intro h1 hchain
    have hcomma : s.CheckTokenId "," = true := by
      cases ps with
      | nil => exact absurd rfl hps
      | cons p ps => exact hchain.1
    have hloop := ParseExpressionLoop_chain n e he ps s
      (((t.NewNode "expression").AddChild (s.NewNode "listop")).AddChild first) hchain
    have h1b := ParseExpr_mono (Nat.le_add_right n (ps.length + 1)) h1
    have hres : Tree.ParseExpression (n + ps.length + 1 + 1) t =
        .ok (ps.foldl Node.AddChild
          (((t.NewNode "expression").AddChild (s.NewNode "listop")).AddChild first), e) := by
      rw [Tree.ParseExpression]
      rw [← Nat.add_assoc] at h1b
      simp only [h1b, bind, Except.bind, hcomma, if_true]
      simpa using hloop
    refine ⟨_, FuelLe.lift_ok (FuelLe.of_le (fun k => Tree.ParseExpression k t)
      (fun k => (expr_step k).1 t) (Nat.succ_le_of_lt hm)) hres, ?_, ?_, rfl, ?_, ?_⟩
    · simp [foldl_AddChild_id, Node.AddChild, Tree.NewNode, NewNode]
    · simp [foldl_AddChild_token, Node.AddChild, Tree.NewNode, NewNode]
    · simp [foldl_AddChild_childrens, Node.AddChild, Tree.NewNode, NewNode]
    · simp [foldl_AddChild_childrens, Node.AddChild, Tree.NewNode, NewNode]

theorem list_form_witness :
    tokensOf listLines = listToks ∧
    (∃ node, Tree.ParsePatList 5 (treeAt listToks listLines 1) =
        .ok (node, treeAt listToks listLines 4) ∧
      node.id = "patlist" ∧
      node.token = some (NewToken "identifier" 0 2 "a".toList) ∧
      (NewNode "listop" (NewToken "," 0 3 ",".toList)).childrens = [] ∧
      node.childrens =
        [NewNode "listop" (NewToken "," 0 3 ",".toList),
         unary "patatom" "identifier" (NewToken "identifier" 0 2 "a".toList),
         unary "patatom" "identifier" (NewToken "identifier" 0 5 "b".toList)] ∧
      node.childrens.length = (1 + 1) + 1) ∧
    (valueOf (Tree.ParsePaterns 6 (treeAt listToks listLines 1))
        (NewNode "" (NewToken "" 0 0 []), treeAt [] [] 0)).1.childrens.map
      (fun c => (c.id, c.childrens.map (fun d => d.id))) =
        [("patlist", ["listop", "patatom", "patatom"])] :=
  ⟨by decide!,
   (list_form 2 5 (treeAt listToks listLines 1) (treeAt listToks listLines 2)
      (treeAt listToks listLines 4)
      (unary "patatom" "identifier" (NewToken "identifier" 0 2 "a".toList))
      [unary "patatom" "identifier" (NewToken "identifier" 0 5 "b".toList)]
      (by simp) (by decide) (by decide)).1 rfl
     ⟨by decide, treeAt listToks listLines 3, treeAt listToks listLines 4, rfl, rfl, rfl⟩,
   by decide!⟩


/-! ## No list node without children -/

theorem All_eq (p : Node → Bool) (n : Node) :
    n.All p = (p n && Node.AllList p n.childrens) := by
  cases n
  simp [Node.All]

theorem AllList_append (p : Node → Bool) (l : List Node) (c : Node) :
    Node.AllList p (l ++ [c]) = (Node.AllList p l && c.All p) := by
  induction l with
  | nil => simp [Node.AllList]
  | cons a l ih => simp [Node.AllList, ih, Bool.and_assoc]

@[simp] theorem NewNode_of_tree (t : Tree) (id : String) : t.NewNode id = NewNode id t.cur := rfl

@[simp] theorem AllList_NewNode (p : Node → Bool) (id : String) (tok : Token) :
    Node.AllList p (NewNode id tok).childrens = true := by
  simp [NewNode, Node.AllList]

@[simp] theorem AllList_AddChild (p : Node → Bool) (n c : Node) :
    Node.AllList p (n.AddChild c).childrens = (Node.AllList p n.childrens && c.All p) := by
  simp [Node.AddChild, AllList_append]

@[simp] theorem All_AddChild_listHasChild (n c : Node) :
    (n.AddChild c).All Node.listHasChild =
      (Node.AllList Node.listHasChild n.childrens && c.All Node.listHasChild) := by
  rw [All_eq, AllList_AddChild]
  simp [Node.listHasChild, Node.AddChild]

@[simp] theorem All_NewNode_listHasChild (id : String) (tok : Token) :
    (NewNode id tok).All Node.listHasChild = !(id == "patlist" || id == "expression") := by
  rw [All_eq]
  simp [Node.listHasChild, NewNode, Node.AllList]

theorem AllList_of_All {p : Node → Bool} {n : Node} (h : n.All p = true) :
    Node.AllList p n.childrens = true := by
  rw [All_eq] at h
  simp only [Bool.and_eq_true] at h
  exact h.2

theorem ParseIdentifier_good (t : Tree) :
    Ensures t.ParseIdentifier (fun r => r.1.All Node.listHasChild = true) :=
  Ensures.mono (ParseIdentifier_node t) (fun r hr => by rw [hr.1]; simp)

theorem ParseLiteral_good (t : Tree) :
    Ensures t.ParseLiteral (fun r => r.1.All Node.listHasChild = true) := by
  intro r hr
  simp only [Tree.ParseLiteral, Tree.ParseString, Tree.ParseNumber] at hr
  split_ifs at hr <;>
    first
    | cases hr
    | (cases hn : t.NextToken with
       | error e => simp [hn, bind, Except.bind] at hr
       | ok s =>
         simp only [hn, bind, Except.bind, pure, Except.pure] at hr
         cases hr
         simp)

theorem pat_good (n : Nat) :
    (∀ t, Ensures (Tree.ParsePatList n t) (fun r => r.1.All Node.listHasChild = true)) ∧
    (∀ node t, node.All Node.listHasChild = true →
      Ensures (Tree.ParsePatListLoop n node t) (fun r => r.1.All Node.listHasChild = true)) ∧
    (∀ t, Ensures (Tree.ParsePatatom n t) (fun r => r.1.All Node.listHasChild = true)) := by
  induction n with
  | zero =>
    refine ⟨fun _ => ?_, fun _ _ _ => ?_, fun _ => ?_⟩ <;> exact Ensures.error
  | succ n ih =>
    obtain ⟨ih1, ih2, ih3⟩ := ih
    refine ⟨fun t => ?_, fun node t hg => ?_, fun t => ?_⟩
    · rw [Tree.ParsePatList]
      refine Ensures.bind (ih3 t) ?_
      rintro ⟨c, t⟩ hc
      dsimp only at hc ⊢
      split_ifs
      · refine Ensures.bind (P := fun _ => True) (fun _ _ => trivial) (fun t _ => ?_)
        refine Ensures.bind (ih1 t) ?_
        rintro ⟨c, t⟩ hc
        exact Ensures.pure (by simp_all)
      · exact ih2 _ _ (by simp_all)
      · exact Ensures.pure (by simp_all)
    · rw [Tree.ParsePatListLoop]
      have hk := AllList_of_All hg
      split_ifs
      · refine Ensures.bind (P := fun _ => True) (fun _ _ => trivial) (fun t _ => ?_)
        dsimp only
        split_ifs
        · refine Ensures.bind (ih3 t) ?_
          rintro ⟨c, t⟩ hc
          exact ih2 _ _ (by simp_all)
        · exact ih2 _ _ hg
      · exact Ensures.pure hg
    · rw [Tree.ParsePatatom]
      dsimp only
      split_ifs
      · refine Ensures.bind (ParseIdentifier_good t) ?_
        rintro ⟨c, t⟩ hc
        exact Ensures.pure (by simp_all)
      · refine Ensures.bind (ParseLiteral_good t) ?_
        rintro ⟨c, t⟩ hc
        exact Ensures.pure (by simp_all)
      · refine Ensures.bind (P := fun _ => True) (fun _ _ => trivial) (fun t _ => ?_)
        refine Ensures.bind (P := fun (r : Node × Tree) => r.1.All Node.listHasChild = true) ?_ ?_
        · split_ifs
          · exact Ensures.pure (by simp)
          · refine Ensures.bind (ih1 t) ?_
            rintro ⟨c, t⟩ hc
            dsimp only
            split_ifs
            · exact Ensures.error
            · exact Ensures.pure (by simp_all)
        · rintro ⟨c, t⟩ hc
          exact Ensures.bind (P := fun _ => True) (fun _ _ => trivial)
            (fun t _ => Ensures.pure hc)
      · exact Ensures.error

theorem Ensures.trivial {α : Type} {x : Except Failure α} : Ensures x (fun _ => True) :=
  fun _ _ => True.intro

theorem ParsePaternsLoop_good (n : Nat) :
    ∀ node t, node.All Node.listHasChild = true →
      Ensures (Tree.ParsePaternsLoop n node t) (fun r => r.1.All Node.listHasChild = true) := by
  induction n with
  | zero => exact fun _ _ _ => Ensures.error
  | succ n ih =>
    intro node t hg
    have hk := AllList_of_All hg
    rw [Tree.ParsePaternsLoop]
    split_ifs
    · refine Ensures.bind ((pat_good n).1 t) ?_
      rintro ⟨c, t⟩ hc
      exact ih _ _ (by simp_all)
    · exact Ensures.pure hg

theorem ParsePaterns_good (n : Nat) (t : Tree) :
    Ensures (Tree.ParsePaterns n t) (fun r => r.1.All Node.listHasChild = true) :=
  ParsePaternsLoop_good n _ t (by simp)

theorem expr_good (n : Nat) :
    (∀ t, Ensures (Tree.ParseExpression n t) (fun r => r.1.All Node.listHasChild = true)) ∧
    (∀ node t, node.All Node.listHasChild = true →
      Ensures (Tree.ParseExpressionLoop n node t)
        (fun r => r.1.All Node.listHasChild = true)) ∧
    (∀ t, Ensures (Tree.ParseExpr n t) (fun r => r.1.All Node.listHasChild = true)) ∧
    (∀ node t, node.All Node.listHasChild = true →
      Ensures (Tree.ParseExprLoop n node t) (fun r => r.1.All Node.listHasChild = true)) ∧
    (∀ t, Ensures (Tree.ParseAtom n t) (fun r => r.1.All Node.listHasChild = true)) := by
  induction n with
  | zero =>
    refine ⟨fun _ => ?_, fun _ _ _ => ?_, fun _ => ?_, fun _ _ _ => ?_, fun _ => ?_⟩ <;>
      exact Ensures.error
  | succ n ih =>
    obtain ⟨ih1, ih2, ih3, ih4, ih5⟩ := ih
    refine ⟨fun t => ?_, fun node t hg => ?_, fun t => ?_, fun node t hg => ?_, fun t => ?_⟩
    · rw [Tree.ParseExpression]
      refine Ensures.bind (ih3 t) ?_
      rintro ⟨c, t⟩ hc
      dsimp only at hc ⊢
      split_ifs
      · exact ih2 _ _ (by simp_all)
      · refine Ensures.bind Ensures.trivial (fun t _ => ?_)
        refine Ensures.bind (ih1 t) ?_
        rintro ⟨c, t⟩ hc
        exact Ensures.pure (by simp_all)
      · exact Ensures.pure (by simp_all)
    · rw [Tree.ParseExpressionLoop]
      have hk := AllList_of_All hg
      split_ifs
      · refine Ensures.bind Ensures.trivial (fun t _ => ?_)
        dsimp only
        split_ifs
        · refine Ensures.bind (ih3 t) ?_
          rintro ⟨c, t⟩ hc
          exact ih2 _ _ (by simp_all)
        · exact ih2 _ _ hg
      · exact Ensures.pure hg
    · rw [Tree.ParseExpr]
      refine Ensures.bind (P := fun (r : Node × Tree) => r.1.All Node.listHasChild = true) ?_ ?_
      · split_ifs
        · refine Ensures.bind (ih5 t) ?_
          rintro ⟨c, t⟩ hc
          exact Ensures.pure (by simp_all)
        · exact Ensures.error
      · rintro ⟨c, t⟩ hc
        exact ih4 _ _ hc
    · rw [Tree.ParseExprLoop]
      have hk := AllList_of_All hg
      split_ifs
      · refine Ensures.bind (ih5 t) ?_
        rintro ⟨c, t⟩ hc
        exact ih4 _ _ (by simp_all)
      · exact Ensures.pure hg
    · rw [Tree.ParseAtom]
      dsimp only
      split_ifs
      · refine Ensures.bind (ParseIdentifier_good t) ?_
        rintro ⟨c, t⟩ hc
        exact Ensures.pure (by simp_all)
      · refine Ensures.bind (ParseLiteral_good t) ?_
        rintro ⟨c, t⟩ hc
        exact Ensures.pure (by simp_all)
      · refine Ensures.bind Ensures.trivial (fun t _ => ?_)
        refine Ensures.bind (P := fun (r : Node × Tree) => r.1.All Node.listHasChild = true) ?_ ?_
        · split_ifs
          · exact Ensures.pure (by simp)
          · refine Ensures.bind (ih1 t) ?_
            rintro ⟨c, t⟩ hc
            dsimp only
            split_ifs
            · exact Ensures.error
            · exact Ensures.pure (by simp_all)
        · rintro ⟨c, t⟩ hc
          exact Ensures.bind Ensures.trivial (fun t _ => Ensures.pure hc)
      · exact Ensures.error
      · exact Ensures.error

theorem ParseSentence_good (n : Nat) (t : Tree) :
    Ensures (Tree.ParseSentence n t) (fun r => r.1.All Node.listHasChild = true) := by
  cases n with
  | zero => exact Ensures.error
  | succ n =>
    rw [Tree.ParseSentence]
    refine Ensures.bind ((expr_good n).1 t) ?_
    rintro ⟨c, t⟩ hc
    exact Ensures.pure (by simp_all)

theorem ParseSimpleVariant_good (n : Nat) (t : Tree) :
    Ensures (Tree.ParseSimpleVariant n t) (fun r => r.1.All Node.listHasChild = true) := by
  cases n with
  | zero => exact Ensures.error
  | succ n =>
    rw [Tree.ParseSimpleVariant]
    refine Ensures.bind (ParseSentence_good n t) ?_
    rintro ⟨c, t⟩ hc
    exact Ensures.pure (by simp_all)

theorem ParseMultilineVariantLoop_good (n : Nat) :
    ∀ node t, node.All Node.listHasChild = true →
      Ensures (Tree.ParseMultilineVariantLoop n node t)
        (fun r => r.1.All Node.listHasChild = true) := by
  induction n with
  | zero => exact fun _ _ _ => Ensures.error
  | succ n ih =>
    intro node t hg
    have hk := AllList_of_All hg
    rw [Tree.ParseMultilineVariantLoop]
    split_ifs
    · exact Ensures.bind Ensures.trivial (fun t _ => ih _ t (by simp_all))
    · refine Ensures.bind (ParseSentence_good n t) ?_
      rintro ⟨c, t⟩ hc
      exact ih _ _ (by simp_all)
    · exact Ensures.pure hg

theorem ParseMultilineVariant_good (n : Nat) (t : Tree) :
    Ensures (Tree.ParseMultilineVariant n t) (fun r => r.1.All Node.listHasChild = true) := by
  cases n with
  | zero => exact Ensures.error
  | succ n =>
    rw [Tree.ParseMultilineVariant]
    dsimp only
    split_ifs
    · refine Ensures.bind Ensures.trivial (fun t _ => ?_)
      refine Ensures.bind (ParseMultilineVariantLoop_good n _ t (by simp)) ?_
      rintro ⟨c, t⟩ hc
      dsimp only
      split_ifs
      · exact Ensures.bind Ensures.trivial (fun t _ => Ensures.pure hc)
      · exact Ensures.error
    · exact Ensures.error

theorem ParseVariant_good (n : Nat) (t : Tree) :
    Ensures (Tree.ParseVariant n t) (fun r => r.1.All Node.listHasChild = true) := by
  cases n with
  | zero => exact Ensures.error
  | succ n =>
    rw [Tree.ParseVariant]
    refine Ensures.bind (P := fun (r : Node × Tree) => r.1.All Node.listHasChild = true) ?_ ?_
    · split_ifs
      · refine Ensures.bind Ensures.trivial (fun t _ => ?_)
        dsimp only
        split_ifs
        · exact Ensures.bind Ensures.trivial (fun t _ => Ensures.pure (by simp))
        · exact Ensures.error
      · exact Ensures.pure (by simp)
    · rintro ⟨node, t⟩ hg
      have hk := AllList_of_All hg
      dsimp only
      split_ifs
      · refine Ensures.bind (ParseMultilineVariant_good n t) ?_
        rintro ⟨c, t⟩ hc
        exact Ensures.pure (by simp_all)
      · refine Ensures.bind (ParseSimpleVariant_good n t) ?_
        rintro ⟨c, t⟩ hc
        exact Ensures.pure (by simp_all)

theorem ParseVariantsLoop_good (n : Nat) :
    ∀ node t, node.All Node.listHasChild = true →
      Ensures (Tree.ParseVariantsLoop n node t) (fun r => r.1.All Node.listHasChild = true) := by
  induction n with
  | zero => exact fun _ _ _ => Ensures.error
  | succ n ih =>
    intro node t hg
    have hk := AllList_of_All hg
    rw [Tree.ParseVariantsLoop]
    split_ifs
    · refine Ensures.bind Ensures.trivial (fun t _ => ?_)
      dsimp only
      split_ifs
      · refine Ensures.bind Ensures.trivial (fun t _ => ?_)
        refine Ensures.bind Ensures.trivial (fun t _ => ?_)
        refine Ensures.bind (ParseVariant_good n t) ?_
        rintro ⟨c, t⟩ hc
        exact ih _ _ (by simp_all)
      · exact ih _ _ hg
    · exact Ensures.pure hg

theorem ParseVariants_good (n : Nat) (t : Tree) :
    Ensures (Tree.ParseVariants n t) (fun r => r.1.All Node.listHasChild = true) := by
  cases n with
  | zero => exact Ensures.error
  | succ n =>
    rw [Tree.ParseVariants]
    refine Ensures.bind Ensures.trivial (fun s _ => ?_)
    refine Ensures.bind (ParseVariant_good n s) ?_
    rintro ⟨c, t⟩ hc
    exact ParseVariantsLoop_good n _ _ (by simp_all)

theorem ParseDefinition_good (n : Nat) (t : Tree) :
    Ensures (Tree.ParseDefinition n t) (fun r => r.1.All Node.listHasChild = true) := by
  cases n with
  | zero => exact Ensures.error
  | succ n =>
    rw [Tree.ParseDefinition]
    refine Ensures.bind ((pat_good n).2.2 t) ?_
    rintro ⟨c, t⟩ hc
    dsimp only at hc ⊢
    split_ifs
    · refine Ensures.bind Ensures.trivial (fun t _ => ?_)
      refine Ensures.bind ((expr_good n).2.2.1 t) ?_
      rintro ⟨c, t⟩ hc
      exact Ensures.pure (by simp_all)
    · exact Ensures.error

theorem ParseDefListLoop_good (n : Nat) :
    ∀ node t, node.All Node.listHasChild = true →
      Ensures (Tree.ParseDefListLoop n node t) (fun r => r.1.All Node.listHasChild = true) := by
  induction n with
  | zero => exact fun _ _ _ => Ensures.error
  | succ n ih =>
    intro node t hg
    have hk := AllList_of_All hg
    rw [Tree.ParseDefListLoop]
    split_ifs
    · refine Ensures.bind Ensures.trivial (fun t _ => ?_)
      refine Ensures.bind Ensures.trivial (fun t _ => ?_)
      refine Ensures.bind (ParseDefinition_good n t) ?_
      rintro ⟨c, t⟩ hc
      exact ih _ _ (by simp_all)
    · exact Ensures.pure hg

theorem ParseDefList_good (n : Nat) (t : Tree) :
    Ensures (Tree.ParseDefList n t) (fun r => r.1.All Node.listHasChild = true) := by
  cases n with
  | zero => exact Ensures.error
  | succ n =>
    rw [Tree.ParseDefList]
    refine Ensures.bind Ensures.trivial (fun s _ => ?_)
    refine Ensures.bind (ParseDefinition_good n s) ?_
    rintro ⟨c, t⟩ hc
    exact ParseDefListLoop_good n _ _ (by simp_all)

theorem ParseCondlist_good (n : Nat) (t : Tree) :
    Ensures (Tree.ParseCondlist n t) (fun r => r.1.All Node.listHasChild = true) := by
  cases n with
  | zero => exact Ensures.error
  | succ n =>
    rw [Tree.ParseCondlist]
    refine Ensures.bind ((expr_good n).2.2.1 t) ?_
    rintro ⟨c, t⟩ hc
    dsimp only at hc ⊢
    split_ifs
    · refine Ensures.bind Ensures.trivial (fun t _ => ?_)
      refine Ensures.bind Ensures.trivial (fun t _ => ?_)
      refine Ensures.bind ((expr_good n).2.2.1 t) ?_
      rintro ⟨c, t⟩ hc
      exact Ensures.pure (by simp_all)
    · exact Ensures.pure (by simp_all)

theorem ParseRule_good (n : Nat) (t : Tree) :
    Ensures (Tree.ParseRule n t) (fun r => r.1.All Node.listHasChild = true) := by
  cases n with
  | zero => exact Ensures.error
  | succ n =>
    rw [Tree.ParseRule]
    refine Ensures.bind (ParseIdentifier_good t) ?_
    rintro ⟨c, t1⟩ hc
    refine Ensures.bind (ParsePaterns_good n t1) ?_
    rintro ⟨c2, t2⟩ hc2
    refine Ensures.bind Ensures.trivial (fun t3 _ => ?_)
    refine Ensures.bind (P := fun (r : Node × Tree) => r.1.All Node.listHasChild = true) ?_ ?_
    · split_ifs
      · refine Ensures.bind Ensures.trivial (fun t4 _ => ?_)
        refine Ensures.bind (ParseDefList_good n t4) ?_
        rintro ⟨c3, t5⟩ hc3
        exact Ensures.pure (by simp_all)
      · exact Ensures.pure (by simp_all)
    rintro ⟨node, t4⟩ hg
    have hk := AllList_of_All hg
    refine Ensures.bind Ensures.trivial (fun t5 _ => ?_)
    refine Ensures.bind (P := fun (r : Node × Tree) => r.1.All Node.listHasChild = true) ?_ ?_
    · split_ifs
      · refine Ensures.bind Ensures.trivial (fun t6 _ => ?_)
        refine Ensures.bind (ParseCondlist_good n t6) ?_
        rintro ⟨c3, t7⟩ hc3
        exact Ensures.pure (by simp_all)
      · exact Ensures.pure hg
    rintro ⟨node, t6⟩ hg
    have hk := AllList_of_All hg
    refine Ensures.bind Ensures.trivial (fun t7 _ => ?_)
    refine Ensures.bind (P := fun (r : Node × Tree) => r.1.All Node.listHasChild = true) ?_ ?_
    · split_ifs
      · refine Ensures.bind Ensures.trivial (fun t8 _ => ?_)
        refine Ensures.bind Ensures.trivial (fun t9 _ => ?_)
        refine Ensures.bind (ParseVariants_good n t9) ?_
        rintro ⟨c3, t10⟩ hc3
        exact Ensures.pure (by simp_all)
      · exact Ensures.error
    rintro ⟨node, t8⟩ hg
    intro r hr
    unfold Tree.recordRule at hr
    dsimp only at hr
    split at hr
    · split at hr
      · split_ifs at hr <;> (cases hr; exact hg)
      · cases hr
    · cases hr

theorem ParseGrammarLoop_good (n : Nat) :
    ∀ t : Tree, t.root.All Node.listHasChild = true →
      Ensures (Tree.ParseGrammarLoop n t) (fun s => s.root.All Node.listHasChild = true) := by
  induction n with
  | zero => exact fun _ _ => Ensures.error
  | succ n ih =>
    intro t hg
    have hk := AllList_of_All hg
    rw [Tree.ParseGrammarLoop]
    split_ifs
    · refine Ensures.bind (Ensures.and (ParseRule_good n t) (ParseRule_spec n t)) ?_
      rintro ⟨c, s⟩ ⟨hc, hroot, _⟩
      dsimp only at hc hroot
      refine ih _ ?_
      simp only [hroot, All_AddChild_listHasChild, hk, hc, Bool.and_self]
    · exact Ensures.pure hg

theorem ParseGrammar_good (n : Nat) (t : Tree) :
    Ensures (Tree.ParseGrammar n t) (fun s => s.root.All Node.listHasChild = true) := by
  cases n with
  | zero => exact Ensures.error
  | succ n =>
    rw [Tree.ParseGrammar]
    refine Ensures.bind
      (SkipNewlines_inv (Tree.Frame { t with root := t.NewNode "grammar" }) (Frame.next _) n
        (Frame.refl _)) (fun s hs => ?_)
    refine ParseGrammarLoop_good n s ?_
    rw [hs.root]
    simp

theorem token_after (toks : List Token) (i : Nat) (tok : Token)
    (hi : toks[i]? = some tok) (hid : tok.Id ≠ "endoffile")
    (hlast : ∃ e, toks.getLast? = some e ∧ e.Id = "endoffile") :
    ∃ nxt, toks[i + 1]? = some nxt := by
  obtain ⟨e, he, heid⟩ := hlast
  have hlt : i < toks.length := (List.getElem?_eq_some_iff.mp hi).1
  rw [List.getLast?_eq_getElem?] at he
  have hne : i ≠ toks.length - 1 := by
    intro h
    rw [← h, hi] at he
    cases he
    exact hid heid
  have hlt2 : i + 1 < toks.length := by omega
  exact ⟨toks[i + 1], List.getElem?_eq_getElem hlt2⟩

/-- C4. Empty list. When the current token is `(`, the next token is `)`, and the token
sequence ends in the `endoffile` token, `ParsePatatom` (resp. `ParseAtom`) moves the cursor by
exactly two tokens and returns a `patatom` (resp. `atom`) node whose only child is the
childless `emptylist` node made from the `)` token; and in the tree of every successful
`ParseGrammar` no `patlist` node and no `expression` node is without children. -/
theorem empty_list (n : Nat) (t : Tree) (rp : Token)
    (hcur : t.CheckTokenId "(" = true)
    (hnext : t.tokens[t.ncur + 1]? = some rp) (hrp : rp.Id = ")")
    (hlast : ∃ e, t.tokens.getLast? = some e ∧ e.Id = "endoffile") :
    (∃ nxt, t.tokens[t.ncur + 2]? = some nxt ∧
      Tree.ParsePatatom (n + 1) t =
        .ok ((NewNode "patatom" t.cur).AddChild (NewNode "emptylist" rp),
          { t with ncur := t.ncur + 2, cur := nxt }) ∧
      Tree.ParseAtom (n + 1) t =
        .ok ((NewNode "atom" t.cur).AddChild (NewNode "emptylist" rp),
          { t with ncur := t.ncur + 2, cur := nxt })) ∧
    ((NewNode "patatom" t.cur).AddChild (NewNode "emptylist" rp)).childrens =
      [NewNode "emptylist" rp] ∧
    ((NewNode "atom" t.cur).AddChild (NewNode "emptylist" rp)).childrens =
      [NewNode "emptylist" rp] ∧
    (NewNode "emptylist" rp).childrens = [] ∧
    (∀ (m : Nat) (t0 s : Tree), Tree.ParseGrammar m t0 = .ok s →
      s.root.All Node.listHasChild = true) := by
  refine ⟨?_, rfl, rfl, rfl, fun m t0 s hs => ParseGrammar_good m t0 s hs⟩
  obtain ⟨nxt, hnxt⟩ := token_after t.tokens (t.ncur + 1) rp hnext (by rw [hrp]; decide) hlast
  refine ⟨nxt, hnxt, ?_, ?_⟩
  · have h1 : t.CheckTokenId "identifier" = false := by
      simp only [Tree.CheckTokenId, Token.CheckId, beq_iff_eq] at hcur ⊢
      simp [hcur]
    have h2 : t.CheckTokenIdsOr ["string", "number"] = false := by
      simp only [Tree.CheckTokenId, Token.CheckId, beq_iff_eq] at hcur
      simp [Tree.CheckTokenIdsOr, Tree.CheckTokenId, Token.CheckId, hcur]
    have hid : t.cur.Id = "(" := by
      simpa [Tree.CheckTokenId, Token.CheckId] using hcur
    simp [Tree.ParsePatatom, h2, Tree.NextToken, hnext, hnxt, bind, Except.bind,
      Tree.CheckTokenId, Token.CheckId, hrp, hid, pure, Except.pure]
  · have h1 : t.CheckTokenId "identifier" = false := by
      simp only [Tree.CheckTokenId, Token.CheckId, beq_iff_eq] at hcur ⊢
      simp [hcur]
    have h2 : t.CheckTokenIdsOr ["number", "string"] = false := by
      simp only [Tree.CheckTokenId, Token.CheckId, beq_iff_eq] at hcur
      simp [Tree.CheckTokenIdsOr, Tree.CheckTokenId, Token.CheckId, hcur]
    have hid : t.cur.Id = "(" := by
      simpa [Tree.CheckTokenId, Token.CheckId] using hcur
    simp [Tree.ParseAtom, h2, Tree.NextToken, hnext, hnxt, bind, Except.bind,
      Tree.CheckTokenId, Token.CheckId, hrp, hid, pure, Except.pure]

theorem empty_list_witness :
    tokensOf emptyLines = emptyToks ∧
    ((∃ nxt, (treeAt emptyToks emptyLines 1).tokens[(treeAt emptyToks emptyLines 1).ncur + 2]? =
        some nxt ∧
      Tree.ParsePatatom (0 + 1) (treeAt emptyToks emptyLines 1) =
        .ok ((NewNode "patatom" (treeAt emptyToks emptyLines 1).cur).AddChild
            (NewNode "emptylist" (NewToken ")" 0 3 ")".toList)),
          { treeAt emptyToks emptyLines 1 with
            ncur := (treeAt emptyToks emptyLines 1).ncur + 2, cur := nxt }) ∧
      Tree.ParseAtom (0 + 1) (treeAt emptyToks emptyLines 1) =
        .ok ((NewNode "atom" (treeAt emptyToks emptyLines 1).cur).AddChild
            (NewNode "emptylist" (NewToken ")" 0 3 ")".toList)),
          { treeAt emptyToks emptyLines 1 with
            ncur := (treeAt emptyToks emptyLines 1).ncur + 2, cur := nxt })) ∧
    ((NewNode "patatom" (treeAt emptyToks emptyLines 1).cur).AddChild
        (NewNode "emptylist" (NewToken ")" 0 3 ")".toList))).childrens =
      [NewNode "emptylist" (NewToken ")" 0 3 ")".toList)] ∧
    ((NewNode "atom" (treeAt emptyToks emptyLines 1).cur).AddChild
        (NewNode "emptylist" (NewToken ")" 0 3 ")".toList))).childrens =
      [NewNode "emptylist" (NewToken ")" 0 3 ")".toList)] ∧
    (NewNode "emptylist" (NewToken ")" 0 3 ")".toList)).childrens = [] ∧
    (∀ (m : Nat) (t0 s : Tree), Tree.ParseGrammar m t0 = .ok s →
      s.root.All Node.listHasChild = true)) ∧
    (valueOf (Tree.ParseGrammar 20 (treeAt emptyToks emptyLines 0))
      (treeAt [] [] 0)).root.All Node.listHasChild = true :=
  ⟨by decide!,
   empty_list 0 (treeAt emptyToks emptyLines 1) (NewToken ")" 0 3 ")".toList) (by decide) rfl rfl
     ⟨NewToken "endoffile" 1 10 [], rfl, rfl⟩,
   by decide!⟩

/-! ## The tokenizer -/

theorem strBody_eq_aux : ∀ (n : Nat) (s : List Char), s.length ≤ n →
    ∀ body rest, strBody s = some (body, rest) → s = body ++ '"' :: rest := by
  intro n
  induction n with
  | zero =>
    intro s hs body rest h
    have : s = [] := List.eq_nil_of_length_eq_zero (Nat.le_zero.mp hs)
    subst this
    simp [strBody] at h
  | succ n ih =>
    intro s hs body rest h
    cases s with
    | nil => simp [strBody] at h
    | cons c s1 =>
      rw [strBody.eq_def] at h
      by_cases hc : c = '"'
      · simp only [hc, if_true, Option.some.injEq, Prod.mk.injEq] at h
        obtain ⟨h1, h2⟩ := h
        subst h1 h2 hc
        rfl
      · by_cases hb : c = '\\'
        · cases s1 with
          | nil => simp [hc, hb] at h
          | cons d s2 =>
            by_cases hd : d = '\n'
            · simp [hc, hb, hd] at h
            · have hlen : s2.length ≤ n := by
                simp only [List.length_cons] at hs
                omega
              cases hbr : strBody s2 with
              | none => simp [hc, hb, hd, hbr] at h
              | some p =>
                simp only [hc, hb, hd, hbr, if_false, if_true, Option.map_some',
                  Option.some.injEq, Prod.mk.injEq] at h
                obtain ⟨h1, h2⟩ := h
                rw [ih s2 hlen p.1 p.2 hbr]
                simp [hb]
        · have hlen : s1.length ≤ n := by
            simp only [List.length_cons] at hs
            omega
          cases hbr : strBody s1 with
          | none => simp [hc, hb, hbr] at h
          | some p =>
            simp only [hc, hb, hbr, if_false, Option.map_some', Option.some.injEq,
              Prod.mk.injEq] at h
            obtain ⟨h1, h2⟩ := h
            rw [ih s1 hlen p.1 p.2 hbr, ← h1, ← h2]
            rfl

theorem strBody_eq (s body rest : List Char) (h : strBody s = some (body, rest)) :
    s = body ++ '"' :: rest := strBody_eq_aux s.length s (Nat.le_refl _) body rest h

theorem eq_append_drop_of_prefix {p s : List Char} (h : p <+: s) :
    s = p ++ s.drop p.length := by
  obtain ⟨r, hr⟩ := h
  subst hr
  simp

theorem litRe_whole (p : String) (s : List Char) (m : ReMatch) (h : litRe p s = some m) :
    m.whole = p.toList ∧ m.subs = [] ∧ s = m.whole ++ s.drop m.whole.length := by
  unfold litRe at h
  split_ifs at h with hp
  cases h
  exact ⟨rfl, rfl, eq_append_drop_of_prefix (List.isPrefixOf_iff_prefix.mp hp)⟩

/-- The whole match of a token expression is a prefix of the text. -/
theorem TokenRes_whole (typ : String) (s : List Char) (m : ReMatch)
    (h : TokenRes typ s = some m) : s = m.whole ++ s.drop m.whole.length := by
  unfold TokenRes at h
  split_ifs at h with _ _ _ _ _ _ _ _ _ hp
  · cases s with
    | nil => simp at h
    | cons c cs =>
      simp only at h
      split_ifs at h
      cases h
      exact eq_append_drop_of_prefix ((List.prefix_cons_inj c).mpr (List.takeWhile_prefix _))
  · cases h
    exact eq_append_drop_of_prefix (List.takeWhile_prefix _)
  · cases s with
    | nil => simp at h
    | cons c cs =>
      simp only at h
      split_ifs at h with hq
      cases hbr : strBody cs with
      | none => simp [hbr] at h
      | some p =>
        simp only [hbr, Option.map_some', Option.some.injEq] at h
        subst h
        rw [strBody_eq cs p.1 p.2 hbr]
        simp
  · cases h
    simp
  · cases h
    simp
  · cases h
    refine eq_append_drop_of_prefix ?_
    have hs := eq_append_drop_of_prefix (List.isPrefixOf_iff_prefix.mp hp)
    conv_rhs => rw [hs]
    exact (List.prefix_append_right_inj _).mpr (List.takeWhile_prefix _)
  · exact (litRe_whole _ _ _ h).2.2
  · exact (litRe_whole _ _ _ h).2.2


theorem matchToken_eq (r : Reader) (typ : String) :
    (∃ m, TokenRes typ r.Cur = some m ∧
      r.matchToken typ = (true, m.groups,
        { r with Cur := r.Cur.drop m.whole.length, NChar := r.NChar + len m.whole })) ∨
    (TokenRes typ r.Cur = none ∧ r.matchToken typ = (false, fun _ => [], r)) := by
  unfold Reader.matchToken
  cases h : TokenRes typ r.Cur with
  | none => exact Or.inr ⟨rfl, rfl⟩
  | some m => exact Or.inl ⟨m, rfl, rfl⟩

theorem matchFirst_some (types : List String) :
    ∀ (r : Reader) (n : String) (groups : String → List Char) (r1 : Reader),
      r.matchFirst types = some (n, groups, r1) →
      n ∈ types ∧ ∃ m, TokenRes n r.Cur = some m ∧ groups = m.groups ∧
        r1 = { r with Cur := r.Cur.drop m.whole.length, NChar := r.NChar + len m.whole } := by
  induction types with
  | nil => intro r n groups r1 h; simp [Reader.matchFirst] at h
  | cons a types ih =>
    intro r n groups r1 h
    rw [Reader.matchFirst] at h
    rcases matchToken_eq r a with ⟨m, hm, heq⟩ | ⟨hm, heq⟩
    · simp only [heq, if_true, Option.some.injEq, Prod.mk.injEq] at h
      obtain ⟨h1, h2, h3⟩ := h
      subst h1 h2 h3
      exact ⟨List.mem_cons_self _ _, m, hm, rfl, rfl⟩
    · simp only [heq, Bool.false_eq_true, if_false] at h
      obtain ⟨hmem, hrest⟩ := ih r n groups r1 h
      exact ⟨List.mem_cons_of_mem _ hmem, hrest⟩

theorem matchFirst_none (types : List String) :
    ∀ (r : Reader), r.matchFirst types = none → ∀ n ∈ types, TokenRes n r.Cur = none := by
  induction types with
  | nil => intro r _ n hn; cases hn
  | cons a types ih =>
    intro r h n hn
    rw [Reader.matchFirst] at h
    rcases matchToken_eq r a with ⟨m, hm, heq⟩ | ⟨hm, heq⟩
    · simp [heq] at h
    · simp only [heq, Bool.false_eq_true, if_false] at h
      rcases List.mem_cons.mp hn with rfl | hn
      · exact hm
      · exact ih r h n hn

theorem TokenRes_value (typ : String) (htyp : typ = "identifier" ∨ typ = "number")
    (s : List Char) (m : ReMatch) (h : TokenRes typ s = some m) :
    m.groups "value" = m.whole := by
  rcases htyp with rfl | rfl
  · unfold TokenRes at h
    simp only [if_true] at h
    cases s with
    | nil => simp at h
    | cons c cs =>
      simp only at h
      split_ifs at h
      cases h
      simp [ReMatch.groups, Function.update]
  · unfold TokenRes at h
    simp only [show ¬ ("number" = "identifier") by decide, if_false, if_true] at h
    split_ifs at h
    cases h
    simp [ReMatch.groups, Function.update]

theorem TokenRes_string (s : List Char) (m : ReMatch) (h : TokenRes "string" s = some m) :
    ∃ w, m.whole = '"' :: w := by
  unfold TokenRes at h
  simp only [show ¬ ("string" = "identifier") by decide, show ¬ ("string" = "number") by decide,
    if_false, if_true] at h
  cases s with
  | nil => simp at h
  | cons c cs =>
    simp only at h
    split_ifs at h with hq
    cases hbr : strBody cs with
    | none => simp [hbr] at h
    | some p =>
      simp only [hbr, Option.map_some', Option.some.injEq] at h
      subst h hq
      exact ⟨_, rfl⟩

/-- The punctuators that `getToken` scans for, in its order. -/
theorem TokenRes_punct (typ : String)
    (htyp : typ ∈ ["(", ")", "[", "]", "\x7b", "\x7d", ",", "::=", "=", "*", "@", "|", ":", "?"])
    (s : List Char) (m : ReMatch) (h : TokenRes typ s = some m) :
    m.groups "" = m.whole ∧ m.whole = typ.toList := by
  have hlit : litRe typ s = some m := by
    simp only [List.mem_cons, List.mem_singleton, List.not_mem_nil, or_false] at htyp
    rcases htyp with rfl | rfl | rfl | rfl | rfl | rfl | rfl | rfl | rfl | rfl | rfl | rfl |
      rfl | rfl <;> simpa [TokenRes] using h
  obtain ⟨h1, h2, _⟩ := litRe_whole typ s m hlit
  refine ⟨?_, h1⟩
  simp [ReMatch.groups, h2, Function.update]


theorem scanToken_ok (r0 : Reader) (tok : Token) (err : Option GoError) (r1 : Reader)
    (h : r0.scanToken = .ok (tok, err, r1)) :
    (∃ whole, tok.Id ∈ scanIds ∧ err = none ∧
      tok.NLine = r0.NLine + 1 ∧ tok.NChar = r0.NChar + 1 ∧
      tok.sourceStart <+: whole ∧
      r0.Cur = whole ++ r0.Cur.drop whole.length ∧
      r1 = { r0 with Cur := r0.Cur.drop whole.length, NChar := r0.NChar + len whole }) ∨
    (tok = NewToken "newline" r0.NLine r0.NChar r1.Indent ∧
      ∃ r2 : Reader, r2.NLine = r0.NLine ∧ r2.Lines = r0.Lines ∧ r2.Filename = r0.Filename ∧
        r2.Tokens = r0.Tokens ∧ r2.Indent = r0.Indent ∧ r2.nextLine = (r1, err)) := by
  unfold Reader.scanToken at h
  simp only at h
  cases hm1 : r0.matchFirst ["identifier", "number"] with
  | some res =>
    obtain ⟨n, groups, r2⟩ := res
    obtain ⟨hmem, m, hres, hg, hr2⟩ := matchFirst_some _ _ _ _ _ hm1
    simp only [hm1, Except.ok.injEq, Prod.mk.injEq] at h
    obtain ⟨h1, h2, h3⟩ := h
    subst h1 h2 h3 hg
    left
    have hv := TokenRes_value n (by simpa using hmem) _ m hres
    have hns : n ≠ "string" := by
      rintro rfl
      exact absurd hmem (by decide)
    refine ⟨m.whole, ?_, rfl, rfl, rfl, ?_, TokenRes_whole _ _ _ hres, hr2⟩
    · simp only [NewToken, scanIds]
      simp only [List.mem_cons, List.mem_singleton, List.not_mem_nil, or_false] at hmem ⊢
      tauto
    · simp [Token.sourceStart, NewToken, hns, hv]
  | none =>
    simp only [hm1] at h
    rcases matchToken_eq r0 "string" with ⟨m, hres, heq⟩ | ⟨hres, heq⟩
    · simp only [heq, if_true, Except.ok.injEq, Prod.mk.injEq] at h
      obtain ⟨h1, h2, h3⟩ := h
      subst h1 h2 h3
      left
      obtain ⟨w, hw⟩ := TokenRes_string _ m hres
      refine ⟨m.whole, by simp [NewToken, scanIds], rfl, rfl, rfl, ?_,
        TokenRes_whole _ _ _ hres, rfl⟩
      simp [Token.sourceStart, NewToken, hw]
    · simp only [heq, Bool.false_eq_true, if_false] at h
      cases hm2 : r0.matchFirst ["(", ")", "[", "]", "\x7b", "\x7d", ",", "::=", "=", "*", "@",
          "|", ":", "?"] with
      | some res =>
        obtain ⟨n, groups, r2⟩ := res
        obtain ⟨hmem, m, hres, hg, hr2⟩ := matchFirst_some _ _ _ _ _ hm2
        simp only [hm2, Except.ok.injEq, Prod.mk.injEq] at h
        obtain ⟨h1, h2, h3⟩ := h
        subst h1 h2 h3 hg
        left
        obtain ⟨hv, hw⟩ := TokenRes_punct n hmem _ m hres
        have hns : n ≠ "string" := by
          rintro rfl
          exact absurd hmem (by decide)
        refine ⟨m.whole, ?_, rfl, rfl, rfl, ?_, TokenRes_whole _ _ _ hres, hr2⟩
        · simp only [NewToken, scanIds]
          simp only [List.mem_cons, List.mem_singleton, List.not_mem_nil, or_false] at hmem ⊢
          tauto
        · simp [Token.sourceStart, NewToken, hns, hv]
      | none =>
        simp only [hm2] at h
        split_ifs at h with hend
        simp only [Except.ok.injEq, Prod.mk.injEq] at h
        obtain ⟨h1, h2, h3⟩ := h
        right
        refine ⟨?_, ?_⟩
        · rw [← h1, ← h3]
        · refine ⟨_, ?_, ?_, ?_, ?_, ?_, Prod.ext h3 h2⟩
          all_goals
            rcases matchToken_eq r0 "comment" with ⟨m, hres, heq2⟩ | ⟨hres, heq2⟩ <;>
              rw [heq2]

theorem getToken_ok (r : Reader) (tok : Token) (err : Option GoError) (r1 : Reader)
    (h : r.getToken = .ok (tok, err, r1)) :
    (∃ whole, tok.Id ∈ scanIds ∧ err = none ∧
      tok.NLine = r.NLine + 1 ∧ tok.NChar = r.NChar + len (Reader.cleanLine r.Cur).1 + 1 ∧
      tok.sourceStart <+: whole ∧
      (Reader.cleanLine r.Cur).2 = whole ++ (Reader.cleanLine r.Cur).2.drop whole.length ∧
      r1 = { r with
        Cur := (Reader.cleanLine r.Cur).2.drop whole.length,
        NChar := r.NChar + len (Reader.cleanLine r.Cur).1 + len whole }) ∨
    (tok = NewToken "newline" r.NLine (r.NChar + len (Reader.cleanLine r.Cur).1) r1.Indent ∧
      ∃ r2 : Reader, r2.NLine = r.NLine ∧ r2.Lines = r.Lines ∧ r2.Filename = r.Filename ∧
        r2.Tokens = r.Tokens ∧ r2.Indent = r.Indent ∧ r2.nextLine = (r1, err)) :=
  scanToken_ok _ tok err r1 h


theorem cleanLine_append (l : List Char) :
    (Reader.cleanLine l).1 ++ (Reader.cleanLine l).2 = l := by
  simp [Reader.cleanLine]

theorem nextLine_eq (r : Reader) :
    (r.nextLine).1.Lines = r.Lines ∧ (r.nextLine).1.Tokens = r.Tokens ∧
    (r.nextLine).1.Filename = r.Filename ∧ (r.nextLine).1.NLine = r.NLine + 1 ∧
    (((r.nextLine).2 = none ∧ ∃ line, r.Lines[r.NLine + 1]? = some line ∧
        (r.nextLine).1.Indent = (Reader.cleanLine line).1 ∧
        (r.nextLine).1.NChar = len (Reader.cleanLine line).1 ∧
        (r.nextLine).1.Cur = TrimSpace (Reader.cleanLine line).2) ∨
     ((r.nextLine).2 ≠ none ∧ r.Lines.length ≤ r.NLine + 1 ∧
        (r.nextLine).1.Indent = r.Indent)) := by
  unfold Reader.nextLine
  by_cases hlt : r.NLine + 1 < r.Lines.length
  · simp only [hlt, dif_pos, true_and]
    refine Or.inl ⟨r.Lines[r.NLine + 1], ?_, rfl, rfl, rfl⟩
    exact List.getElem?_eq_getElem hlt
  · simp only [hlt, dif_neg, not_false_eq_true, true_and]
    exact Or.inr ⟨by simp, Nat.le_of_not_lt hlt, trivial⟩

/-- One call of `getToken` that returns: either a token is cut off the current line, or the
line is finished and the newline token carries the indentation of the next line. -/
theorem getToken_step (r : Reader) (tok : Token) (err : Option GoError) (r1 : Reader)
    (h : r.getToken = .ok (tok, err, r1)) :
    r1.Lines = r.Lines ∧ r1.Tokens = r.Tokens ∧ r1.Filename = r.Filename ∧
    tok.NLine = r.NLine + 1 ∧
    ((tok.Id ∈ scanIds ∧ err = none ∧ r1.NLine = r.NLine ∧
        ∃ sp whole, r.Cur = sp ++ whole ++ r1.Cur ∧ tok.NChar = r.NChar + len sp + 1 ∧
          tok.sourceStart <+: whole ∧ r1.NChar = r.NChar + len sp + len whole) ∨
     (tok.Id = "newline" ∧ r1.NLine = r.NLine + 1 ∧
        ((err = none ∧ ∃ line, r.Lines[r.NLine + 1]? = some line ∧
            tok.Value = (Reader.cleanLine line).1 ∧
            r1.NChar = len (Reader.cleanLine line).1 ∧
            r1.Cur = TrimSpace (Reader.cleanLine line).2) ∨
         (err ≠ none ∧ r.Lines.length ≤ r.NLine + 1)))) := by
  rcases getToken_ok r tok err r1 h with ⟨whole, hid, herr, hl, hc, hsrc, hcur, hr1⟩ |
    ⟨htok, r2, e1, e2, e3, e4, e5, hnl⟩
  · subst hr1
    refine ⟨rfl, rfl, rfl, hl, Or.inl ⟨hid, herr, rfl, (Reader.cleanLine r.Cur).1, whole, ?_, hc,
      hsrc, rfl⟩⟩
    conv_lhs => rw [← cleanLine_append r.Cur, hcur]
    simp
  · have hn := nextLine_eq r2
    rw [hnl] at hn
    obtain ⟨n1, n2, n3, n4, n5⟩ := hn
    simp only at n1 n2 n3 n4 n5
    refine ⟨n1.trans e2, n2.trans e4, n3.trans e3, by rw [htok]; rfl, Or.inr ⟨by rw [htok]; rfl,
      by rw [n4, e1], ?_⟩⟩
    rcases n5 with ⟨h1, line, h2, h3, h4, h5⟩ | ⟨h1, h2, _⟩
    · refine Or.inl ⟨h1, line, ?_, ?_, h4, h5⟩
      · rw [← e1, ← e2]; exact h2
      · rw [htok]; exact h3
    · refine Or.inr ⟨h1, ?_⟩
      rw [← e1, ← e2]; exact h2

/-- Invariant rule for the loop of `ParseFile`. -/
theorem ParseFileLoop_rule (Inv Post : Reader → Prop)
    (hstep : ∀ r tok r1, Inv r → r.NLine < r.Lines.length → r.getToken = .ok (tok, none, r1) →
      Inv { r1 with Tokens := r1.Tokens ++ [tok] })
    (hlast : ∀ r tok e r1, Inv r → r.NLine < r.Lines.length →
      r.getToken = .ok (tok, some e, r1) →
      Post { r1 with
        Tokens := r1.Tokens ++ [tok, NewToken "endoffile" r1.NLine r1.NChar []],
        Lines := r1.Lines ++ [[]] })
    (hexit : ∀ r, Inv r → ¬ r.NLine < r.Lines.length → Post r) :
    ∀ (fuel : Nat) (r : Reader), Inv r → Ensures (Reader.ParseFileLoop fuel r) Post := by
  intro fuel
  induction fuel with
  | zero => exact fun _ _ => Ensures.error
  | succ fuel ih =>
    intro r hr
    rw [Reader.ParseFileLoop]
    split_ifs with hlt
    · cases hg : r.getToken with
      | error e => exact Ensures.error
      | ok res =>
        obtain ⟨tok, err, r1⟩ := res
        cases err with
        | none => exact ih _ (hstep r tok r1 hr hlt hg)
        | some e => exact Ensures.ok (hlast r tok e r1 hr hlt hg)
    · exact Ensures.ok (hexit r hr hlt)

theorem scanIds_ne_endoffile {id : String} (h : id ∈ scanIds) : id ≠ "endoffile" := by
  rintro rfl
  exact absurd h (by decide)

theorem scanIds_ne_newline {id : String} (h : id ∈ scanIds) : id ≠ "newline" := by
  rintro rfl
  exact absurd h (by decide)

theorem getToken_id_ne_endoffile (r : Reader) (tok : Token) (err : Option GoError)
    (r1 : Reader) (h : r.getToken = .ok (tok, err, r1)) : tok.Id ≠ "endoffile" := by
  obtain ⟨_, _, _, _, hcase⟩ := getToken_step r tok err r1 h
  rcases hcase with ⟨hid, _⟩ | ⟨hid, _⟩
  · exact scanIds_ne_endoffile hid
  · rw [hid]; decide

theorem getToken_in_range (r : Reader) (tok : Token) (r1 : Reader)
    (hlt : r.NLine < r.Lines.length) (h : r.getToken = .ok (tok, none, r1)) :
    r1.NLine < r1.Lines.length := by
  obtain ⟨hl, _, _, _, hcase⟩ := getToken_step r tok none r1 h
  rw [hl]
  rcases hcase with ⟨_, _, hn, _⟩ | ⟨_, hn, hrest⟩
  · rw [hn]; exact hlt
  · rw [hn]
    rcases hrest with ⟨_, line, hline, _⟩ | ⟨hne, _⟩
    · exact (List.getElem?_eq_some_iff.mp hline).1
    · exact absurd rfl hne

/-- C6. When `ParseFile` succeeds on a non-empty sequence of lines, the token sequence ends in
an `endoffile` token and has no other `endoffile` token. -/
theorem endoffile_last (Filename : List Char) (scanned : List (List Char)) (r : Reader)
    (hne : scanned ≠ []) (h : (NewReader Filename).ParseFile scanned = .ok r) :
    ∃ init last, r.Tokens = init ++ [last] ∧ last.Id = "endoffile" ∧
      (∀ t ∈ init, t.Id ≠ "endoffile") ∧
      (r.Tokens.filter (fun t => t.Id == "endoffile")).length = 1 := by
  have hlen : ¬ (scanned.length = 0) := fun h0 => hne (List.eq_nil_of_length_eq_zero h0)
  simp only [Reader.ParseFile, NewReader, List.nil_append, hlen, if_false] at h
  have key := ParseFileLoop_rule
    (fun r => r.NLine < r.Lines.length ∧ ∀ t ∈ r.Tokens, t.Id ≠ "endoffile")
    (fun r => ∃ init last, r.Tokens = init ++ [last] ∧ last.Id = "endoffile" ∧
      (∀ t ∈ init, t.Id ≠ "endoffile"))
    (by
      intro r tok r1 hr hlt hg
      refine ⟨getToken_in_range r tok r1 hlt hg, ?_⟩
      intro t ht
      simp only [List.mem_append, List.mem_singleton] at ht
      rcases ht with ht | rfl
      · rw [(getToken_step r tok none r1 hg).2.1] at ht
        exact hr.2 t ht
      · exact getToken_id_ne_endoffile r _ none r1 hg)
    (by
      intro r tok e r1 hr hlt hg
      refine ⟨r1.Tokens ++ [tok], NewToken "endoffile" r1.NLine r1.NChar [], by simp, rfl, ?_⟩
      intro t ht
      simp only [List.mem_append, List.mem_singleton] at ht
      rcases ht with ht | rfl
      · rw [(getToken_step r tok (some e) r1 hg).2.1] at ht
        exact hr.2 t ht
      · exact getToken_id_ne_endoffile r _ (some e) r1 hg)
    (by
      intro r hr hn
      exact absurd hr.1 hn)
    _ _ ⟨Nat.pos_of_ne_zero hlen, by simp⟩ r h
  obtain ⟨init, last, h1, h2, h3⟩ := key
  refine ⟨init, last, h1, h2, h3, ?_⟩
  rw [h1, List.filter_append]
  have hinit : init.filter (fun t => t.Id == "endoffile") = [] := by
    rw [List.filter_eq_nil_iff]
    intro t ht
    simpa using h3 t ht
  simp [hinit, h2]

theorem endoffile_last_witness :
    ∃ init last,
      (valueOf ((NewReader "g".toList).ParseFile consLines) (NewReader [])).Tokens =
        init ++ [last] ∧
      last.Id = "endoffile" ∧ (∀ t ∈ init, t.Id ≠ "endoffile") ∧
      ((valueOf ((NewReader "g".toList).ParseFile consLines) (NewReader [])).Tokens.filter
        (fun t => t.Id == "endoffile")).length = 1 :=
  endoffile_last "g".toList consLines _ (by decide) (eq_ok_valueOf _ _ (by decide!))

theorem cleanLine_fst (l : List Char) : (Reader.cleanLine l).1 = indentOf l := by
  simp only [Reader.cleanLine, indentOf]
  induction l with
  | nil => rfl
  | cons c cs ih =>
    by_cases hc : c = ' ' ∨ c = '\t'
    · have hb : (c == ' ' || c == '\t') = true := by simpa using hc
      simp only [nspaces, hc, if_true, List.take_succ_cons, List.takeWhile_cons, hb, ih]
    · have hb : (c == ' ' || c == '\t') = false := by simpa using hc
      simp [nspaces, hc, hb]

theorem newlinesOf_append_scan (toks : List Token) (tok : Token) (h : tok.Id ∈ scanIds) :
    newlinesOf (toks ++ [tok]) = newlinesOf toks := by
  have hne := scanIds_ne_newline h
  simp [newlinesOf, List.filter_append, hne]

theorem newlinesOf_append_newline (toks : List Token) (tok : Token) (h : tok.Id = "newline") :
    newlinesOf (toks ++ [tok]) = newlinesOf toks ++ [(tok.NLine, tok.Value)] := by
  simp [newlinesOf, List.filter_append, h]

/-- C10. When lexing succeeds, the newline tokens of the token sequence are, in order: for
every line `i` that is not the last one, exactly one, with the line number of line `i` and as
value the indentation of line `i + 1` (its maximal leading run of spaces and tabs); then one
for the last line. Tokens are emitted in the order of their lines and the newline token of a
line closes it: every later token has a greater line number. -/
theorem newline_value (Filename : List Char) (scanned : List (List Char)) (r : Reader)
    (h : (NewReader Filename).ParseFile scanned = .ok r) :
    (∃ v, newlinesOf r.Tokens =
      (List.range (scanned.length - 1)).map
        (fun i => (i + 1, indentOf (scanned.getD (i + 1) []))) ++ [(scanned.length, v)]) ∧
    r.Tokens.Pairwise Token.Before := by
  by_cases hlen : scanned.length = 0
  · simp [Reader.ParseFile, NewReader, hlen] at h
  simp only [Reader.ParseFile, NewReader, List.nil_append, hlen, if_false] at h
  refine ParseFileLoop_rule
    (fun r => r.Lines = scanned ∧ r.NLine < r.Lines.length ∧
      newlinesOf r.Tokens = (List.range r.NLine).map
        (fun i => (i + 1, indentOf (scanned.getD (i + 1) []))) ∧
      r.Tokens.Pairwise Token.Before ∧
      ∀ t ∈ r.Tokens, t.NLine ≤ r.NLine + 1 ∧ (t.Id = "newline" → t.NLine ≤ r.NLine))
    (fun r => (∃ v, newlinesOf r.Tokens =
      (List.range (scanned.length - 1)).map
        (fun i => (i + 1, indentOf (scanned.getD (i + 1) []))) ++ [(scanned.length, v)]) ∧
      r.Tokens.Pairwise Token.Before)
    ?_ ?_ ?_ _ _ ⟨rfl, Nat.pos_of_ne_zero hlen, by simp [newlinesOf], by simp, by simp⟩ r h
  · intro r tok r1 ⟨hL, hlt, hnl, hpw, hbd⟩ _ hg
    obtain ⟨e1, e2, e3, e4, hcase⟩ := getToken_step r tok none r1 hg
    have hlt1 := getToken_in_range r tok r1 hlt hg
    rcases hcase with ⟨hid, _, hn, _⟩ | ⟨hid, hn, hrest⟩
    · refine ⟨e1.trans hL, hlt1, ?_, ?_, ?_⟩
      · simp only [e2, hn]
        rw [newlinesOf_append_scan _ _ hid, hnl]
      · simp only [e2]
        rw [List.pairwise_append]
        refine ⟨hpw, by simp, ?_⟩
        intro a ha b hb
        simp only [List.mem_singleton] at hb
        subst hb
        exact ⟨by rw [e4]; exact (hbd a ha).1,
          fun hnla => by rw [e4]; exact Nat.lt_succ_of_le ((hbd a ha).2 hnla)⟩
      · intro t ht
        simp only [e2, List.mem_append, List.mem_singleton] at ht
        rw [hn]
        rcases ht with ht | rfl
        · exact hbd t ht
        · exact ⟨by rw [e4], fun hnl2 => absurd hnl2 (scanIds_ne_newline hid)⟩
    · rcases hrest with ⟨_, line, hline, hval, _⟩ | ⟨hne, _⟩
      · refine ⟨e1.trans hL, hlt1, ?_, ?_, ?_⟩
        · simp only [e2, hn]
          rw [newlinesOf_append_newline _ _ hid, hnl, List.range_succ, List.map_append]
          simp only [List.map_cons, List.map_nil, e4, hval, cleanLine_fst]
          rw [hL] at hline
          rw [List.getD_eq_getElem?_getD, hline]
          rfl
        · simp only [e2]
          rw [List.pairwise_append]
          refine ⟨hpw, by simp, ?_⟩
          intro a ha b hb
          simp only [List.mem_singleton] at hb
          subst hb
          exact ⟨by rw [e4]; exact (hbd a ha).1,
            fun hnla => by rw [e4]; exact Nat.lt_succ_of_le ((hbd a ha).2 hnla)⟩
        · intro t ht
          simp only [e2, List.mem_append, List.mem_singleton] at ht
          rw [hn]
          rcases ht with ht | rfl
          · exact ⟨Nat.le_succ_of_le (hbd t ht).1, fun hnl2 => Nat.le_succ_of_le ((hbd t ht).2 hnl2)⟩
          · exact ⟨by rw [e4]; exact Nat.le_succ _, fun _ => by rw [e4]⟩
      · exact absurd rfl hne
  · intro r tok e r1 ⟨hL, hlt, hnl, hpw, hbd⟩ _ hg
    obtain ⟨e1, e2, e3, e4, hcase⟩ := getToken_step r tok (some e) r1 hg
    rcases hcase with ⟨_, hnone, _⟩ | ⟨hid, hn, hrest⟩
    · cases hnone
    · rcases hrest with ⟨hnone, _⟩ | ⟨_, hge⟩
      · cases hnone
      · have hN : r.NLine = scanned.length - 1 := by
          rw [hL] at hlt hge
          omega
        have hN2 : r.NLine + 1 = scanned.length := by
          rw [hL] at hlt hge
          omega
        refine ⟨⟨tok.Value, ?_⟩, ?_⟩
        · simp only [e2]
          have happ : r.Tokens ++ [tok, NewToken "endoffile" r1.NLine r1.NChar []] =
              (r.Tokens ++ [tok]) ++ [NewToken "endoffile" r1.NLine r1.NChar []] := by simp
          rw [happ]
          have heof : newlinesOf ((r.Tokens ++ [tok]) ++
              [NewToken "endoffile" r1.NLine r1.NChar []]) = newlinesOf (r.Tokens ++ [tok]) := by
            simp [newlinesOf, List.filter_append, NewToken, List.filter_cons]
          rw [heof, newlinesOf_append_newline _ _ hid, hnl, e4, hN2, hN]
        · simp only [e2]
          rw [List.pairwise_append]
          refine ⟨hpw, ?_, ?_⟩
          · simp only [List.pairwise_cons, List.mem_singleton, forall_eq, List.not_mem_nil,
              false_implies, implies_true, List.Pairwise.nil, and_true]
            simp only [Token.Before, NewToken, e4, hn]
            exact ⟨Nat.le_succ _, fun _ => Nat.lt_succ_self _⟩
          · intro a ha b hb
            simp only [List.mem_cons, List.mem_singleton, List.not_mem_nil, or_false] at hb
            rcases hb with rfl | rfl
            · exact ⟨by rw [e4]; exact (hbd a ha).1,
                fun hnla => by rw [e4]; exact Nat.lt_succ_of_le ((hbd a ha).2 hnla)⟩
            · simp only [Token.Before, NewToken, hn]
              have hb1 := (hbd a ha).1
              exact ⟨by omega, fun _ => by omega⟩
  · intro r hr hn
    exact absurd hr.2.1 hn

theorem newline_value_witness :
    ((∃ v, newlinesOf (valueOf ((NewReader "g".toList).ParseFile indentLines)
        (NewReader [])).Tokens =
      (List.range (indentLines.length - 1)).map
        (fun i => (i + 1, indentOf (indentLines.getD (i + 1) []))) ++
          [(indentLines.length, v)]) ∧
    (valueOf ((NewReader "g".toList).ParseFile indentLines)
        (NewReader [])).Tokens.Pairwise Token.Before) ∧
    newlinesOf (valueOf ((NewReader "g".toList).ParseFile indentLines) (NewReader [])).Tokens =
      [(1, "  ".toList), (2, "\t ".toList), (3, "\t ".toList)] :=
  ⟨newline_value "g".toList indentLines _ (eq_ok_valueOf _ _ (by decide!)), by decide!⟩

theorem len_append (a b : List Char) : len (a ++ b) = len a + len b := by
  simp [len]

theorem dropBytes_append (pre : List Char) : ∀ rest, dropBytes (len pre) (pre ++ rest) = some rest := by
  induction pre with
  | nil => intro rest; cases rest <;> simp [len, dropBytes]
  | cons c pre ih =>
    intro rest
    have hpos : 0 < c.utf8Size := Char.utf8Size_pos c
    have hlen : len (c :: pre) = (len pre + c.utf8Size - 1) + 1 := by
      simp only [len, List.map_cons, List.sum_cons]
      omega
    rw [hlen, List.cons_append, dropBytes]
    have hle : c.utf8Size ≤ len pre + c.utf8Size - 1 + 1 := by omega
    simp only [hle, if_true]
    have : len pre + c.utf8Size - 1 + 1 - c.utf8Size = len pre := by omega
    rw [this]
    exact ih rest

theorem len_eq_length (s : List Char) (h : ∀ c ∈ s, c.utf8Size = 1) : len s = s.length := by
  induction s with
  | nil => rfl
  | cons c s ih =>
    simp only [len, List.map_cons, List.sum_cons, List.length_cons] at ih ⊢
    rw [h c (List.mem_cons_self _ _), ih (fun d hd => h d (List.mem_cons_of_mem _ hd))]
    omega

theorem TrimSpace_plain (l : List Char) (h : plainStart l = true) :
    ∃ suf, l = (Reader.cleanLine l).1 ++ TrimSpace (Reader.cleanLine l).2 ++ suf := by
  have hd : (Reader.cleanLine l).2.dropWhile IsSpace = (Reader.cleanLine l).2 := by
    unfold plainStart at h
    cases htxt : (Reader.cleanLine l).2 with
    | nil => rfl
    | cons c cs =>
      simp only [htxt, Bool.not_eq_true'] at h
      simp [List.dropWhile_cons, h]
  obtain ⟨suf, hsuf⟩ := List.rdropWhile_prefix IsSpace (Reader.cleanLine l).2
  refine ⟨suf, ?_⟩
  rw [TrimSpace, hd, List.append_assoc, hsuf, cleanLine_append]


theorem position_invariant (Filename : List Char) (scanned : List (List Char)) (r : Reader)
    (hplain : ∀ l ∈ scanned.tail, plainStart l = true)
    (h : (NewReader Filename).ParseFile scanned = .ok r) :
    ∀ tok ∈ r.Tokens, tok.Id ∈ scanIds →
      1 ≤ tok.NLine ∧ tok.NLine ≤ scanned.length ∧
      ∃ pre suf, scanned[tok.NLine - 1]? = some (pre ++ tok.sourceStart ++ suf) ∧
        len pre + 1 = tok.NChar := by
  by_cases hlen : scanned.length = 0
  · simp [Reader.ParseFile, NewReader, hlen] at h
  simp only [Reader.ParseFile, NewReader, List.nil_append, hlen, if_false] at h
  have hfirst : scanned[0]? = some (scanned.headD []) := by
    cases scanned with
    | nil => exact absurd rfl hlen
    | cons a l => simp
  refine ParseFileLoop_rule
    (fun r => r.Lines = scanned ∧ r.NLine < r.Lines.length ∧
      (∃ pre suf, scanned[r.NLine]? = some (pre ++ r.Cur ++ suf) ∧ len pre = r.NChar) ∧
      ∀ tok ∈ r.Tokens, tok.Id ∈ scanIds →
        1 ≤ tok.NLine ∧ tok.NLine ≤ scanned.length ∧
        ∃ pre suf, scanned[tok.NLine - 1]? = some (pre ++ tok.sourceStart ++ suf) ∧
          len pre + 1 = tok.NChar)
    (fun r => ∀ tok ∈ r.Tokens, tok.Id ∈ scanIds →
        1 ≤ tok.NLine ∧ tok.NLine ≤ scanned.length ∧
        ∃ pre suf, scanned[tok.NLine - 1]? = some (pre ++ tok.sourceStart ++ suf) ∧
          len pre + 1 = tok.NChar)
    ?_ ?_ ?_ _ _
    ⟨rfl, Nat.pos_of_ne_zero hlen, ⟨[], [], by simpa using hfirst, rfl⟩, by simp⟩ r h
  · intro r tok r1 ⟨hL, hlt, ⟨pre, suf, hline, hpre⟩, htoks⟩ _ hg
    obtain ⟨e1, e2, e3, e4, hcase⟩ := getToken_step r tok none r1 hg
    have hlt1 := getToken_in_range r tok r1 hlt hg
    rcases hcase with ⟨hid, _, hn, sp, whole, hcur, hcol, hsrc, hcol1⟩ | ⟨hid, hn, hrest⟩
    · obtain ⟨w, hw⟩ := hsrc
      refine ⟨e1.trans hL, hlt1, ⟨pre ++ sp ++ whole, suf, ?_, ?_⟩, ?_⟩
      · rw [hn, hline, hcur]
        simp
      · rw [hcol1, len_append, len_append, hpre]
      · intro t ht hts
        simp only [e2, List.mem_append, List.mem_singleton] at ht
        rcases ht with ht | rfl
        · exact htoks t ht hts
        · refine ⟨by rw [e4]; exact Nat.succ_pos _, by rw [e4, ← hL]; exact hlt,
            pre ++ sp, w ++ r1.Cur ++ suf, ?_, ?_⟩
          · rw [e4, Nat.add_sub_cancel, hline, hcur, ← hw]
            simp
          · rw [hcol, len_append, hpre]
    · rcases hrest with ⟨_, line, hline1, _, hcol1, hcur1⟩ | ⟨hne, _⟩
      · have hmem : line ∈ scanned.tail := by
          rw [hL] at hline1
          rw [← List.drop_one, List.mem_iff_getElem?]
          exact ⟨r.NLine, by rw [List.getElem?_drop, Nat.add_comm]; exact hline1⟩
        obtain ⟨suf1, hsuf1⟩ := TrimSpace_plain line (hplain line hmem)
        refine ⟨e1.trans hL, hlt1, ⟨(Reader.cleanLine line).1, suf1, ?_, ?_⟩, ?_⟩
        · rw [hn, ← hL, hline1, hcur1, ← hsuf1]
        · rw [hcol1]
        · intro t ht hts
          simp only [e2, List.mem_append, List.mem_singleton] at ht
          rcases ht with ht | rfl
          · exact htoks t ht hts
          · exact absurd hid (scanIds_ne_newline hts)
      · exact absurd rfl hne
  · intro r tok e r1 ⟨hL, hlt, _, htoks⟩ _ hg
    obtain ⟨e1, e2, e3, e4, hcase⟩ := getToken_step r tok (some e) r1 hg
    intro t ht hts
    simp only [e2, List.mem_append, List.mem_cons, List.mem_singleton, List.not_mem_nil,
      or_false] at ht
    rcases ht with ht | rfl | rfl
    · exact htoks t ht hts
    · rcases hcase with ⟨_, hnone, _⟩ | ⟨hid, _⟩
      · cases hnone
      · exact absurd hid (scanIds_ne_newline hts)
    · exact absurd rfl (scanIds_ne_endoffile hts)
  · intro r hr hn
    exact absurd hr.2.1 hn


/-- C5, the claim as stated fails: on the line `"é" x` the identifier `x` is the fifth
character, and the lexer gives it column 6, because the columns count the bytes of the UTF-8
text and `é` takes two. -/
theorem token_position_chars_fails :
    ¬ (∀ r, (NewReader "g".toList).ParseFile accentLines = .ok r →
        ∀ tok ∈ r.Tokens, tok.Id ∈ scanIds → tok.atChar accentLines = true) := by
  intro hall
  have hx := hall _ (eq_ok_valueOf _ (NewReader []) (by decide!))
    (NewToken "identifier" 0 5 "x".toList) (by decide!) (by decide)
  exact absurd hx (by decide!)

/-- C5, amended. When lexing succeeds on lines of which none after the first has another
white-space character directly after its leading spaces and tabs, every emitted identifier,
number, string or punctuator token with position `(l, c)` has `1 ≤ l ≤` number of lines,
`c ≥ 1`, and its source text (for a string token its opening double quote) starts at byte
offset `c - 1` of line `l`; when all lines are ASCII, that is the `c`-th character. -/
theorem token_position_bytes (Filename : List Char) (scanned : List (List Char)) (r : Reader)
    (hplain : ∀ l ∈ scanned.tail, plainStart l = true)
    (h : (NewReader Filename).ParseFile scanned = .ok r) :
    ∀ tok ∈ r.Tokens, tok.Id ∈ scanIds →
      tok.atByte scanned = true ∧
      ((∀ l ∈ scanned, ∀ c ∈ l, c.utf8Size = 1) → tok.atChar scanned = true) := by
  intro tok htok hid
  obtain ⟨h1, h2, pre, suf, hline, hcol⟩ :=
    position_invariant Filename scanned r hplain h tok htok hid
  have hget : scanned.getD (tok.NLine - 1) [] = pre ++ tok.sourceStart ++ suf := by
    rw [List.getD_eq_getElem?_getD, hline]
    rfl
  have hc : tok.NChar - 1 = len pre := by omega
  have hc1 : 1 ≤ tok.NChar := by omega
  constructor
  · simp only [Token.atByte, h1, h2, hc1, decide_True, Bool.and_self, Bool.true_and, hget, hc]
    rw [List.append_assoc, dropBytes_append]
    simp
  · intro hascii
    have hmem : pre ++ tok.sourceStart ++ suf ∈ scanned :=
      List.mem_iff_getElem?.mpr ⟨_, hline⟩
    have hpre : len pre = pre.length := by
      refine len_eq_length pre (fun c hc => hascii _ hmem c ?_)
      simp [hc]
    simp only [Token.atChar, h1, h2, hc1, decide_True, Bool.and_self, Bool.true_and, hget, hc,
      hpre]
    rw [List.append_assoc, List.drop_left]
    simp

theorem token_position_bytes_witness :
    ((NewToken "identifier" 0 5 "x".toList).atByte ["\"é\" x".toList, " \ty".toList] = true ∧
      ((∀ l ∈ ["\"é\" x".toList, " \ty".toList], ∀ c ∈ l, c.utf8Size = 1) →
        (NewToken "identifier" 0 5 "x".toList).atChar ["\"é\" x".toList, " \ty".toList] =
          true)) ∧
    (valueOf ((NewReader "g".toList).ParseFile ["\"é\" x".toList, " \ty".toList])
        (NewReader [])).Tokens.map (fun t => (t.Id, t.NLine, t.NChar)) =
      [("string", 1, 1), ("identifier", 1, 6), ("newline", 1, 7), ("identifier", 2, 3),
       ("newline", 2, 4), ("endoffile", 3, 4)] :=
  ⟨token_position_bytes "g".toList ["\"é\" x".toList, " \ty".toList] _ (by decide)
    (eq_ok_valueOf _ (NewReader []) (by decide!)) (NewToken "identifier" 0 5 "x".toList)
    (by decide!) (by decide), by decide!⟩

/-- The slip that the amended C5 leaves out: a form feed after the indentation is dropped by
`strings.TrimSpace` in `nextLine` without being counted, so the identifier `b` of the second
line gets column 1 although it starts at byte offset 1. -/
theorem leading_whitespace_not_counted :
    (valueOf ((NewReader "g".toList).ParseFile ["a".toList, "\x0cb".toList])
        (NewReader [])).Tokens.map (fun t => (t.Id, t.Value, t.NLine, t.NChar)) =
      [("identifier", "a".toList, 1, 1), ("newline", [], 1, 2),
       ("identifier", "b".toList, 2, 1), ("newline", [], 2, 2), ("endoffile", [], 3, 2)] ∧
    (NewToken "identifier" 1 0 "b".toList).atByte ["a".toList, "\x0cb".toList] = false := by
  decide!

theorem cleanLine_of_not_blank (c : Char) (cs : List Char) (h : ¬ (c = ' ' ∨ c = '\t')) :
    Reader.cleanLine (c :: cs) = ([], c :: cs) := by
  simp [Reader.cleanLine, nspaces, h]

theorem cleanLine_nil : Reader.cleanLine [] = ([], []) := by
  simp [Reader.cleanLine, nspaces]

theorem scanToken_nil (r : Reader) (h : r.Cur = []) :
    r.scanToken = .ok (NewToken "newline" r.NLine r.NChar r.nextLine.1.Indent, r.nextLine.2,
      r.nextLine.1) := by
  have hr : r = { r with Cur := [] } := by rw [← h]
  rw [hr]
  simp [Reader.scanToken, Reader.matchFirst, Reader.matchToken, TokenRes, litRe, Reader.nextLine]


theorem scanToken_hash (r : Reader) (rest : List Char) (h : r.Cur = '#' :: rest) :
    ∃ tok err r1, r.scanToken = .ok (tok, err, r1) ∧ tok.Id = "newline" := by
  have hr : r = { r with Cur := '#' :: rest } := by rw [← h]
  rw [hr]
  simp [Reader.scanToken, Reader.matchFirst, Reader.matchToken, TokenRes, litRe, NewToken,
    isIdentStart, isDigit]

theorem getToken_blank (r : Reader) (h : blankLine r.Cur = true) :
    ∃ tok err r1, r.getToken = .ok (tok, err, r1) ∧ tok.Id = "newline" := by
  unfold Reader.getToken
  unfold blankLine at h
  cases htxt : (Reader.cleanLine r.Cur).2 with
  | nil =>
    simp only
    rw [scanToken_nil _ (by simp [htxt])]
    exact ⟨_, _, _, rfl, rfl⟩
  | cons c cs =>
    simp only [htxt, beq_iff_eq] at h
    subst h
    exact scanToken_hash _ cs (by simp [htxt])

theorem dropWhile_append_singleton (p : Char → Bool) (a : Char) (ha : p a = false) :
    ∀ xs : List Char, (xs ++ [a]).dropWhile p ≠ [] := by
  intro xs
  induction xs with
  | nil => simp [List.dropWhile, ha]
  | cons x xs ih =>
    simp only [List.cons_append, List.dropWhile_cons]
    split_ifs
    · exact ih
    · simp

theorem TrimSpace_blank (l : List Char) (h : blankLine l = true) :
    blankLine (TrimSpace (Reader.cleanLine l).2) = true := by
  unfold blankLine at h
  cases htxt : (Reader.cleanLine l).2 with
  | nil => simp [TrimSpace, List.rdropWhile, blankLine, cleanLine_nil]
  | cons c cs =>
    simp only [htxt, beq_iff_eq] at h
    subst h
    have h1 : ('#' :: cs).dropWhile IsSpace = '#' :: cs := by
      simp [List.dropWhile_cons, IsSpace]
    obtain ⟨suf, hsuf⟩ := List.rdropWhile_prefix IsSpace ('#' :: cs)
    have hne : ('#' :: cs).rdropWhile IsSpace ≠ [] := by
      rw [List.rdropWhile]
      intro h0
      have h2 := List.reverse_eq_nil_iff.mp h0
      rw [List.reverse_cons] at h2
      exact dropWhile_append_singleton IsSpace '#' (by decide) _ h2
    cases hw : ('#' :: cs).rdropWhile IsSpace with
    | nil => exact absurd hw hne
    | cons d ds =>
      rw [hw] at hsuf
      simp only [List.cons_append, List.cons.injEq] at hsuf
      rw [TrimSpace, h1, hw, hsuf.1]
      simp [blankLine, cleanLine_of_not_blank]


theorem ParseFileLoop_blank (scanned : List (List Char))
    (hblank : ∀ l ∈ scanned, blankLine l = true) :
    ∀ (k fuel : Nat) (r : Reader), r.Lines = scanned → r.NLine + k = scanned.length → 1 ≤ k →
      k ≤ fuel → blankLine r.Cur = true →
      ∃ r1, Reader.ParseFileLoop fuel r = .ok r1 ∧
        r1.Tokens.map (fun t => t.Id) =
          r.Tokens.map (fun t => t.Id) ++ List.replicate k "newline" ++ ["endoffile"] := by
  intro k
  induction k with
  | zero => intro fuel r _ _ hk; exact absurd hk (by decide)
  | succ j ih =>
    intro fuel r hL hN _ hfuel hcur
    obtain ⟨f, rfl⟩ : ∃ f, fuel = f + 1 := ⟨fuel - 1, by omega⟩
    obtain ⟨tok, err, r1, hg, hid⟩ := getToken_blank r hcur
    obtain ⟨e1, e2, e3, e4, hcase⟩ := getToken_step r tok err r1 hg
    have hlt : r.NLine < r.Lines.length := by rw [hL]; omega
    rw [Reader.ParseFileLoop]
    simp only [hlt, if_true, hg]
    rcases hcase with ⟨hscan, _⟩ | ⟨_, hn, hrest⟩
    · exact absurd hid (scanIds_ne_newline hscan)
    · rcases hrest with ⟨herr, line, hline, _, _, hcur1⟩ | ⟨herr, hge⟩
      · subst herr
        have hlt2 : r.NLine + 1 < scanned.length := by
          rw [← hL]; exact (List.getElem?_eq_some_iff.mp hline).1
        have hmem : line ∈ scanned := by
          rw [← hL]; exact List.mem_iff_getElem?.mpr ⟨_, hline⟩
        obtain ⟨r2, hr2, htoks⟩ := ih f { r1 with Tokens := r1.Tokens ++ [tok] }
          (e1.trans hL) (by simp only [hn]; omega) (by omega) (by omega)
          (by simp only [hcur1]; exact TrimSpace_blank line (hblank line hmem))
        refine ⟨r2, hr2, ?_⟩
        rw [htoks]
        simp [e2, hid, List.replicate_succ]
      · cases err with
        | none => exact absurd rfl herr
        | some e =>
          have hj : j = 0 := by rw [hL] at hge; omega
          subst hj
          refine ⟨_, rfl, ?_⟩
          simp [e2, hid, NewToken]

theorem lexFuel_ge (lines : List (List Char)) : lines.length ≤ lexFuel lines := by
  unfold lexFuel
  induction lines with
  | nil => simp
  | cons l ls ih =>
    simp only [List.length_cons, List.map_cons, List.sum_cons]
    omega

theorem ids_getElem (toks : List Token) (n : Nat)
    (hids : toks.map (fun t => t.Id) = List.replicate n "newline" ++ ["endoffile"]) (i : Nat)
    (tok : Token) (h : toks[i]? = some tok) :
    (i < n → tok.Id = "newline") ∧ (i = n → tok.Id = "endoffile") := by
  have h1 : (toks.map (fun t => t.Id))[i]? = some tok.Id := by
    rw [List.getElem?_map, h]; rfl
  rw [hids] at h1
  constructor
  · intro hi
    rw [List.getElem?_append_left (by simpa using hi)] at h1
    rw [List.getElem?_replicate] at h1
    simp only [hi, if_true, Option.some.injEq] at h1
    exact h1.symm
  · intro hi
    subst hi
    rw [List.getElem?_append_right (by simp)] at h1
    simp at h1
    exact h1.symm

theorem SkipNewlines_blank (n : Nat) :
    ∀ (j fuel : Nat) (t : Tree),
      t.tokens.map (fun t => t.Id) = List.replicate n "newline" ++ ["endoffile"] →
      t.ncur + j = n → t.tokens[t.ncur]? = some t.cur → j + 1 ≤ fuel →
      ∃ s, Tree.SkipNewlines fuel t = .ok s ∧ s.cur.Id = "endoffile" ∧ s.root = t.root ∧
        s.Rules = t.Rules := by
  intro j
  induction j with
  | zero =>
    intro fuel t hids hn hcur hfuel
    obtain ⟨f, rfl⟩ : ∃ f, fuel = f + 1 := ⟨fuel - 1, by omega⟩
    have hid := (ids_getElem t.tokens n hids t.ncur t.cur hcur).2 (by omega)
    refine ⟨t, ?_, hid, rfl, rfl⟩
    simp [Tree.SkipNewlines, Tree.CheckTokenId, Token.CheckId, hid, pure, Except.pure]
  | succ j ih =>
    intro fuel t hids hn hcur hfuel
    obtain ⟨f, rfl⟩ : ∃ f, fuel = f + 1 := ⟨fuel - 1, by omega⟩
    have hid := (ids_getElem t.tokens n hids t.ncur t.cur hcur).1 (by omega)
    have hlen : t.tokens.length = n + 1 := by
      have := congrArg List.length hids
      simpa using this
    have hlt : t.ncur + 1 < t.tokens.length := by omega
    obtain ⟨s, hs, h1, h2, h3⟩ := ih f
      { t with ncur := t.ncur + 1, cur := t.tokens[t.ncur + 1] } hids (by simp only; omega)
      (by simp only; exact List.getElem?_eq_getElem hlt) (by omega)
    refine ⟨s, ?_, h1, h2, h3⟩
    rw [Tree.SkipNewlines]
    simp only [Tree.CheckTokenId, Token.CheckId, hid, beq_self_eq_true, if_true, Tree.NextToken,
      List.getElem?_eq_getElem hlt, bind, Except.bind]
    exact hs

/-- C7. A file of `n ≥ 1` blank or comment-only lines lexes to exactly `n` newline tokens
followed by one `endoffile` token, and parsing these tokens succeeds, with enough fuel, with a
`grammar` root without children and an empty rule table; a file of zero lines makes
`ParseFile` return the reader error `empty file '...' given`, with no token sequence. -/
theorem blank_file (Filename : List Char) (scanned : List (List Char)) (hne : scanned ≠ [])
    (hblank : ∀ l ∈ scanned, blankLine l = true) :
    (∃ r, (NewReader Filename).ParseFile scanned = .ok r ∧
      r.Tokens.map (fun t => t.Id) =
        List.replicate scanned.length "newline" ++ ["endoffile"] ∧
      ∃ t0, NewTree r = .ok t0 ∧
        ∀ fuel, scanned.length + 2 ≤ fuel →
          ∃ t, t0.ParseGrammar fuel = .ok t ∧ t.root.id = "grammar" ∧
            t.root.childrens = [] ∧ ∀ name, t.Rules name = none) ∧
    (NewReader Filename).ParseFile [] =
      .error (Failure.err (GoError.ReaderError
        ("empty file '".toList ++ Filename ++ "' given".toList))) := by
  refine ⟨?_, rfl⟩
  have hlen : ¬ (scanned.length = 0) := fun h0 => hne (List.eq_nil_of_length_eq_zero h0)
  have hhead : scanned.headD [] ∈ scanned := by
    cases scanned with
    | nil => exact absurd rfl hne
    | cons a l => simp
  obtain ⟨r, hr, hids⟩ := ParseFileLoop_blank scanned hblank scanned.length (lexFuel scanned)
    { Filename := Filename, Lines := scanned, Tokens := [], NLine := 0, NChar := 0,
      Cur := scanned.headD [], Indent := [] } rfl (by simp) (Nat.pos_of_ne_zero hlen)
    (lexFuel_ge scanned) (hblank _ hhead)
  simp only [List.map_nil, List.nil_append] at hids
  refine ⟨r, ?_, hids, ?_⟩
  · simp only [Reader.ParseFile, NewReader, List.nil_append, hlen, if_false]
    exact hr
  · have hlenT : r.Tokens.length = scanned.length + 1 := by
      have := congrArg List.length hids
      simpa using this
    have h0 : 0 < r.Tokens.length := by omega
    refine ⟨_, by simp only [NewTree, List.getElem?_eq_getElem h0]; rfl, ?_⟩
    intro fuel hfuel
    obtain ⟨f, rfl⟩ : ∃ f, fuel = f + 1 := ⟨fuel - 1, by omega⟩
    obtain ⟨s, hs, h1, h2, h3⟩ := SkipNewlines_blank scanned.length scanned.length f
      { filename := r.Filename, tokens := r.Tokens, lines := r.Lines, Rules := fun _ => none,
        ncur := 0, cur := r.Tokens[0],
        root := NewNode "grammar" r.Tokens[0] }
      hids (by simp) (by simp only; exact List.getElem?_eq_getElem h0) (by omega)
    obtain ⟨g, rfl⟩ : ∃ g, f = g + 1 := ⟨f - 1, by omega⟩
    refine ⟨s, ?_, by rw [h2]; rfl, by rw [h2]; rfl, fun name => by rw [h3]⟩
    rw [Tree.ParseGrammar]
    simp only [Tree.NewNode, bind, Except.bind]
    rw [hs]
    simp [Tree.ParseGrammarLoop, Tree.CheckTokenId, Token.CheckId, h1, pure, Except.pure]

theorem blank_file_witness :
    (∃ r, (NewReader "g".toList).ParseFile ["".toList, "  # c".toList, "\t".toList] = .ok r ∧
      r.Tokens.map (fun t => t.Id) =
        List.replicate ["".toList, "  # c".toList, "\t".toList].length "newline" ++
          ["endoffile"] ∧
      ∃ t0, NewTree r = .ok t0 ∧
        ∀ fuel, ["".toList, "  # c".toList, "\t".toList].length + 2 ≤ fuel →
          ∃ t, t0.ParseGrammar fuel = .ok t ∧ t.root.id = "grammar" ∧
            t.root.childrens = [] ∧ ∀ name, t.Rules name = none) ∧
    (NewReader "g".toList).ParseFile [] =
      .error (Failure.err (GoError.ReaderError
        ("empty file '".toList ++ "g".toList ++ "' given".toList))) :=
  blank_file "g".toList ["".toList, "  # c".toList, "\t".toList] (by decide) (by decide)

/-- `ParseRule` is its header, its body and the recording of the rule, one after the other. -/
theorem ParseRule_eq (n : Nat) (t : Tree) :
    Tree.ParseRule (n + 1) t =
      (Tree.ruleHeader n t >>= fun r => Tree.ruleBody n r.1 r.2 >>= fun r => r.2.recordRule r.1) := by
  rw [Tree.ParseRule]
  simp only [Tree.ruleHeader, Tree.ruleBody, bind_assoc, pure_bind]


theorem SkipNewlines_run :
    ∀ (k fuel : Nat) (t : Tree) (last : Token), k + 1 ≤ fuel →
      t.tokens[t.ncur]? = some t.cur →
      (∀ i, i < k → ∃ tok, t.tokens[t.ncur + i]? = some tok ∧ tok.Id = "newline") →
      t.tokens[t.ncur + k]? = some last → last.Id ≠ "newline" →
      Tree.SkipNewlines fuel t = .ok { t with ncur := t.ncur + k, cur := last } := by
  intro k
  induction k with
  | zero =>
    intro fuel t last hfuel hcur _ hlast hid
    obtain ⟨f, rfl⟩ : ∃ f, fuel = f + 1 := ⟨fuel - 1, by omega⟩
    have hc : t.cur = last := by
      rw [Nat.add_zero, hcur] at hlast
      exact Option.some.inj hlast
    subst hc
    simp [Tree.SkipNewlines, Tree.CheckTokenId, Token.CheckId, hid, pure, Except.pure]
  | succ k ih =>
    intro fuel t last hfuel hcur hnl hlast hid
    obtain ⟨f, rfl⟩ : ∃ f, fuel = f + 1 := ⟨fuel - 1, by omega⟩
    obtain ⟨tok0, h0, hid0⟩ := hnl 0 (Nat.succ_pos _)
    have hc : t.cur = tok0 := by
      rw [Nat.add_zero, hcur] at h0
      exact Option.some.inj h0
    have hnext : ∃ nxt, t.tokens[t.ncur + 1]? = some nxt := by
      cases k with
      | zero => exact ⟨last, hlast⟩
      | succ j =>
        obtain ⟨tok1, h1, _⟩ := hnl 1 (by omega)
        exact ⟨tok1, h1⟩
    obtain ⟨nxt, hnxt⟩ := hnext
    have hrec := ih f { t with ncur := t.ncur + 1, cur := nxt } last (by omega) hnxt
      (by
        intro i hi
        obtain ⟨tok, h1, h2⟩ := hnl (i + 1) (by omega)
        refine ⟨tok, ?_, h2⟩
        simp only
        rw [← h1]
        congr 1
        omega)
      (by
        simp only
        rw [← hlast]
        congr 1
        omega)
      hid
    rw [Tree.SkipNewlines]
    simp only [Tree.CheckTokenId, Token.CheckId, hc, hid0, beq_self_eq_true, if_true,
      Tree.NextToken, hnxt, bind, Except.bind]
    rw [hrec]
    simp only [Except.ok.injEq]
    congr 1
    omega

theorem ParseVariants_at_endoffile (n : Nat) (t : Tree) (h : t.cur.Id = "endoffile") :
    Tree.ParseVariants (n + 6) t =
      .error (t.ReportError "identifier, number^ string, [ or ( expected") := by
  simp [Tree.ParseVariants, Tree.SkipNewlines, Tree.ParseVariant, Tree.ParseSimpleVariant,
    Tree.ParseSentence, Tree.ParseExpression, Tree.ParseExpr, Tree.CheckTokenId,
    Tree.CheckTokenIdsOr, Token.CheckId, h, bind, Except.bind, pure, Except.pure]

theorem ParseIdentifier_cur (t : Tree) (r : Node × Tree) (h : t.ParseIdentifier = .ok r) :
    t.cur.Id = "identifier" := (ParseIdentifier_node t r h).2


theorem ruleHeader_cur (n : Nat) (t : Tree) (r : Node × Tree)
    (h : Tree.ruleHeader n t = .ok r) : t.cur.Id = "identifier" := by
  unfold Tree.ruleHeader at h
  cases hi : t.ParseIdentifier with
  | error e => simp [hi, bind, Except.bind] at h
  | ok v => exact ParseIdentifier_cur t v hi

/-- C9. Missing rule body. When the header of a rule parses up to a state `s` whose current
token is `::=`, and `::=` is followed by `k` newline tokens and then the `endoffile` token,
then `ParseRule`, and the loop of `ParseGrammar` that calls it, fail, with enough fuel: no
tree is returned, and the failure is the syntax error that `ReportError` raises with the
`endoffile` token as the current token, so its text carries the line, the column and the
value of that token. -/
theorem missing_rule_body (n k : Nat) (t s : Tree) (node : Node) (eof : Token)
    (hhead : Tree.ruleHeader n t = .ok (node, s))
    (hdef : s.CheckTokenId "::=" = true)
    (hnl : ∀ i, i < k → ∃ tok, s.tokens[s.ncur + 1 + i]? = some tok ∧ tok.Id = "newline")
    (heof : s.tokens[s.ncur + 1 + k]? = some eof) (hid : eof.Id = "endoffile")
    (hfuel : k + 7 ≤ n) :
    Tree.ParseRule (n + 1) t =
      .error (Tree.ReportError { s with ncur := s.ncur + 1 + k, cur := eof }
        "identifier, number^ string, [ or ( expected") ∧
    Tree.ParseGrammarLoop (n + 2) t =
      .error (Tree.ReportError { s with ncur := s.ncur + 1 + k, cur := eof }
        "identifier, number^ string, [ or ( expected") ∧
    (∀ line, 0 < eof.NLine → 0 < eof.NChar → s.lines[eof.NLine - 1]? = some line →
      Tree.ReportError { s with ncur := s.ncur + 1 + k, cur := eof }
          "identifier, number^ string, [ or ( expected" =
        Failure.panic (s.filename ++ ":".toList ++ fmtInt eof.NLine ++ "(".toList ++
          fmtInt eof.NChar ++ "): on token `".toList ++ eof.Value ++ "' error: ".toList ++
          "identifier, number^ string, [ or ( expected".toList ++ "\n".toList ++ spaces 8 ++
          TrimSpace line ++ "\n".toList ++ spaces (8 * (eof.NChar - 1)) ++ "^".toList)) := by
  have hnext : ∃ nxt, s.tokens[s.ncur + 1]? = some nxt := by
    cases k with
    | zero => exact ⟨eof, heof⟩
    | succ j =>
      obtain ⟨tok, h1, _⟩ := hnl 0 (Nat.succ_pos _)
      exact ⟨tok, h1⟩
  obtain ⟨nxt, hnxt⟩ := hnext
  have hskip := SkipNewlines_run k n { s with ncur := s.ncur + 1, cur := nxt } eof (by omega)
    hnxt hnl heof (by rw [hid]; decide)
  obtain ⟨m, rfl⟩ : ∃ m, n = m + 6 := ⟨n - 6, by omega⟩
  have hrule : Tree.ParseRule (m + 6 + 1) t =
      .error (Tree.ReportError { s with ncur := s.ncur + 1 + k, cur := eof }
        "identifier, number^ string, [ or ( expected") := by
    rw [ParseRule_eq, hhead]
    simp only [bind, Except.bind, Tree.ruleBody, hdef, if_true, Tree.NextToken, hnxt, hskip]
    rw [ParseVariants_at_endoffile m _ hid]
  refine ⟨hrule, ?_, ?_⟩
  · have hcur := ruleHeader_cur _ t _ hhead
    rw [Tree.ParseGrammarLoop]
    simp only [Tree.CheckTokenId, Token.CheckId, hcur, bind, Except.bind, hrule]
    simp
  · intro line h1 h2 hline
    have h1' : eof.NLine ≠ 0 := Nat.pos_iff_ne_zero.mp h1
    have h2' : eof.NChar ≠ 0 := Nat.pos_iff_ne_zero.mp h2
    simp [Tree.ReportError, h1', h2', hline]


theorem missing_rule_body_witness :
    tokensOf missingLines = missingToks ∧
    (Tree.ParseRule (8 + 1) (treeAt missingToks (missingLines ++ [[]]) 0) =
      .error (Tree.ReportError
        { treeAt missingToks (missingLines ++ [[]]) 2 with
          ncur := (treeAt missingToks (missingLines ++ [[]]) 2).ncur + 1 + 1,
          cur := NewToken "endoffile" 1 7 [] }
        "identifier, number^ string, [ or ( expected") ∧
    Tree.ParseGrammarLoop (8 + 2) (treeAt missingToks (missingLines ++ [[]]) 0) =
      .error (Tree.ReportError
        { treeAt missingToks (missingLines ++ [[]]) 2 with
          ncur := (treeAt missingToks (missingLines ++ [[]]) 2).ncur + 1 + 1,
          cur := NewToken "endoffile" 1 7 [] }
        "identifier, number^ string, [ or ( expected") ∧
    (∀ line, 0 < (NewToken "endoffile" 1 7 []).NLine → 0 < (NewToken "endoffile" 1 7 []).NChar →
      (treeAt missingToks (missingLines ++ [[]]) 2).lines[
        (NewToken "endoffile" 1 7 []).NLine - 1]? = some line →
      Tree.ReportError
          { treeAt missingToks (missingLines ++ [[]]) 2 with
            ncur := (treeAt missingToks (missingLines ++ [[]]) 2).ncur + 1 + 1,
            cur := NewToken "endoffile" 1 7 [] }
          "identifier, number^ string, [ or ( expected" =
        Failure.panic ((treeAt missingToks (missingLines ++ [[]]) 2).filename ++ ":".toList ++
          fmtInt (NewToken "endoffile" 1 7 []).NLine ++ "(".toList ++
          fmtInt (NewToken "endoffile" 1 7 []).NChar ++ "): on token `".toList ++
          (NewToken "endoffile" 1 7 []).Value ++ "' error: ".toList ++
          "identifier, number^ string, [ or ( expected".toList ++ "\n".toList ++ spaces 8 ++
          TrimSpace line ++ "\n".toList ++
          spaces (8 * ((NewToken "endoffile" 1 7 []).NChar - 1)) ++ "^".toList))) ∧
    failureOf (frontend 20 "g".toList missingLines) =
      some (Failure.panic
        ("g:2(8): on token `' error: identifier, number^ string, [ or ( expected\n        \n".toList
          ++ spaces 56 ++ "^".toList)) :=
  ⟨by decide!,
   missing_rule_body 8 1 (treeAt missingToks (missingLines ++ [[]]) 0)
     (treeAt missingToks (missingLines ++ [[]]) 2)
     (((NewNode "rule" (NewToken "identifier" 0 0 "x".toList)).AddChild
         (NewNode "identifier" (NewToken "identifier" 0 0 "x".toList))).AddChild
       ((NewNode "pattern" (NewToken "identifier" 0 2 "a".toList)).AddChild
         ((NewNode "patlist" (NewToken "identifier" 0 2 "a".toList)).AddChild
           (unary "patatom" "identifier" (NewToken "identifier" 0 2 "a".toList)))))
     (NewToken "endoffile" 1 7 []) rfl (by decide)
     (fun i hi => ⟨NewToken "newline" 0 7 [], by
       have h0 : i = 0 := by omega
       subst h0
       rfl, rfl⟩)
     rfl rfl (by decide),
   by decide!⟩


/-- C8, evaluated. On the file `x ::= { [a] }` the `[` stands where a sentence of a multiline
variant starts, and the parser fails with `} expected` on the `[` token, not with the message
about brackets: the guard of the loop of `ParseMultilineVariant` does not list `[`, so the loop
ends there without calling `ParseSentence`. On every other path to an atom (`ParseAtom`,
`ParseExpr`, `ParseExpression`, `ParseSentence`, `ParseSimpleVariant`, `ParseVariant`), as on
the file `x ::= [a]`, a current token `[` gives the message about brackets. -/
theorem bracket_in_multiline_variant :
    failureOf (frontend 30 "g".toList ["x ::= \x7b [a] \x7d".toList]) =
      some (Failure.panic
        ("g:1(9): on token `[' error: \x7d expected\n        x ::= \x7b [a] \x7d\n".toList ++
          spaces 64 ++ "^".toList)) ∧
    failureOf (frontend 30 "g".toList ["x ::= [a]".toList]) =
      some (Failure.panic
        (("g:1(7): on token `[' error: please, use parentheses instead of brackets, " ++
          "brackets have no actual mean now and disabled.\n        x ::= [a]\n").toList ++
          spaces 48 ++ "^".toList)) ∧
    (∀ (n : Nat) (t : Tree), t.CheckTokenId "[" = true →
      Tree.ParseAtom (n + 1) t = .error (t.ReportError
        "please, use parentheses instead of brackets, brackets have no actual mean now and disabled.") ∧
      Tree.ParseExpr (n + 2) t = .error (t.ReportError
        "please, use parentheses instead of brackets, brackets have no actual mean now and disabled.") ∧
      Tree.ParseExpression (n + 3) t = .error (t.ReportError
        "please, use parentheses instead of brackets, brackets have no actual mean now and disabled.") ∧
      Tree.ParseSentence (n + 4) t = .error (t.ReportError
        "please, use parentheses instead of brackets, brackets have no actual mean now and disabled.") ∧
      Tree.ParseSimpleVariant (n + 5) t = .error (t.ReportError
        "please, use parentheses instead of brackets, brackets have no actual mean now and disabled.") ∧
      Tree.ParseVariant (n + 6) t = .error (t.ReportError
        "please, use parentheses instead of brackets, brackets have no actual mean now and disabled.") ∧
      (∀ node, Tree.ParseMultilineVariantLoop (n + 1) node t = .ok (node, t))) := by
  refine ⟨by decide!, by decide!, ?_⟩
  intro n t ht
  have hid : t.cur.Id = "[" := by
    simpa [Tree.CheckTokenId, Token.CheckId] using ht
  have hatom : Tree.ParseAtom (n + 1) t = .error (t.ReportError
      "please, use parentheses instead of brackets, brackets have no actual mean now and disabled.") := by
    simp [Tree.ParseAtom, Tree.CheckTokenId, Tree.CheckTokenIdsOr, Token.CheckId, hid]
  have hexpr : Tree.ParseExpr (n + 2) t = .error (t.ReportError
      "please, use parentheses instead of brackets, brackets have no actual mean now and disabled.") := by
    rw [Tree.ParseExpr]
    simp [Tree.CheckTokenId, Tree.CheckTokenIdsOr, Token.CheckId, hid, hatom, bind, Except.bind]
  have hexpression : Tree.ParseExpression (n + 3) t = .error (t.ReportError
      "please, use parentheses instead of brackets, brackets have no actual mean now and disabled.") := by
    rw [Tree.ParseExpression]
    simp [hexpr, bind, Except.bind]
  have hsentence : Tree.ParseSentence (n + 4) t = .error (t.ReportError
      "please, use parentheses instead of brackets, brackets have no actual mean now and disabled.") := by
    rw [Tree.ParseSentence]
    simp [hexpression, bind, Except.bind]
  have hsimple : Tree.ParseSimpleVariant (n + 5) t = .error (t.ReportError
      "please, use parentheses instead of brackets, brackets have no actual mean now and disabled.") := by
    rw [Tree.ParseSimpleVariant]
    simp [hsentence, bind, Except.bind]
  refine ⟨hatom, hexpr, hexpression, hsentence, hsimple, ?_, ?_⟩
  · rw [Tree.ParseVariant]
    simp [Tree.CheckTokenId, Token.CheckId, hid, hsimple, bind, Except.bind, pure, Except.pure]
  · intro node
    simp [Tree.ParseMultilineVariantLoop, Tree.CheckTokenId, Tree.CheckTokenIdsOr, Token.CheckId,
      hid, pure, Except.pure]

theorem TokenRes_nonempty (typ : String) (htyp : typ ∈ scanIds) (s : List Char) (m : ReMatch)
    (h : TokenRes typ s = some m) : m.whole ≠ [] := by
  simp only [scanIds, List.mem_cons, List.mem_singleton, List.not_mem_nil, or_false] at htyp
  rcases htyp with rfl | rfl | rfl | hp
  · unfold TokenRes at h
    simp only [if_true] at h
    cases s with
    | nil => simp at h
    | cons c cs =>
      simp only at h
      split_ifs at h
      cases h
      simp
  · unfold TokenRes at h
    simp only [show ¬ ("number" = "identifier") by decide, if_false, if_true] at h
    split_ifs at h with hne
    cases h
    exact hne
  · obtain ⟨w, hw⟩ := TokenRes_string s m h
    rw [hw]
    simp
  · have hmem : typ ∈ ["(", ")", "[", "]", "\x7b", "\x7d", ",", "::=", "=", "*", "@", "|",
        ":", "?"] := by
      simp only [List.mem_cons, List.mem_singleton, List.not_mem_nil, or_false]
      exact hp
    obtain ⟨_, hw⟩ := TokenRes_punct typ hmem s m h
    rw [hw]
    rcases hp with rfl | rfl | rfl | rfl | rfl | rfl | rfl | rfl | rfl | rfl | rfl | rfl |
      rfl | rfl <;> decide

theorem scanToken_progress (r0 : Reader) (tok : Token) (err : Option GoError) (r1 : Reader)
    (h : r0.scanToken = .ok (tok, err, r1)) (hid : tok.Id ∈ scanIds) :
    r1.Cur.length < r0.Cur.length := by
  have hdrop : ∀ (typ : String) (m : ReMatch), typ ∈ scanIds →
      TokenRes typ r0.Cur = some m → (r0.Cur.drop m.whole.length).length < r0.Cur.length := by
    intro typ m htyp hres
    have hne := TokenRes_nonempty typ htyp _ m hres
    have hw := TokenRes_whole typ _ m hres
    have hpos : 0 < m.whole.length := List.length_pos.mpr hne
    have hlen : r0.Cur.length = m.whole.length + (r0.Cur.drop m.whole.length).length := by
      conv_lhs => rw [hw]
      rw [List.length_append]
    omega
  unfold Reader.scanToken at h
  simp only at h
  cases hm1 : r0.matchFirst ["identifier", "number"] with
  | some res =>
    obtain ⟨n, groups, r2⟩ := res
    obtain ⟨hmem, m, hres, hg, hr2⟩ := matchFirst_some _ _ _ _ _ hm1
    simp only [hm1, Except.ok.injEq, Prod.mk.injEq] at h
    obtain ⟨h1, h2, h3⟩ := h
    subst h3 hr2
    exact hdrop n m (by
      simp only [List.mem_cons, List.mem_singleton, List.not_mem_nil, or_false] at hmem
      rcases hmem with rfl | rfl <;> decide) hres
  | none =>
    simp only [hm1] at h
    rcases matchToken_eq r0 "string" with ⟨m, hres, heq⟩ | ⟨hres, heq⟩
    · simp only [heq, if_true, Except.ok.injEq, Prod.mk.injEq] at h
      obtain ⟨h1, h2, h3⟩ := h
      subst h3
      exact hdrop "string" m (by decide) hres
    · simp only [heq, Bool.false_eq_true, if_false] at h
      cases hm2 : r0.matchFirst ["(", ")", "[", "]", "\x7b", "\x7d", ",", "::=", "=", "*", "@",
          "|", ":", "?"] with
      | some res =>
        obtain ⟨n, groups, r2⟩ := res
        obtain ⟨hmem, m, hres, hg, hr2⟩ := matchFirst_some _ _ _ _ _ hm2
        simp only [hm2, Except.ok.injEq, Prod.mk.injEq] at h
        obtain ⟨h1, h2, h3⟩ := h
        subst h3 hr2
        exact hdrop n m (by
          simp only [List.mem_cons, List.mem_singleton, List.not_mem_nil, or_false] at hmem
          simp only [scanIds, List.mem_cons, List.mem_singleton, List.not_mem_nil, or_false]
          tauto) hres
      | none =>
        simp only [hm2] at h
        split_ifs at h with hend
        simp only [Except.ok.injEq, Prod.mk.injEq] at h
        obtain ⟨h1, h2, h3⟩ := h
        rw [← h1] at hid
        exact absurd hid (by simp [NewToken, scanIds])

theorem ReportError_ne_outOfFuel (r : Reader) (msg : String) :
    r.ReportError msg ≠ Failure.outOfFuel := by
  unfold Reader.ReportError
  split_ifs <;> simp

theorem scanToken_ne_outOfFuel (r0 : Reader) : r0.scanToken ≠ .error Failure.outOfFuel := by
  intro h
  unfold Reader.scanToken at h
  simp only at h
  cases hm1 : r0.matchFirst ["identifier", "number"] with
  | some res => simp [hm1] at h
  | none =>
    simp only [hm1] at h
    by_cases hs : (r0.matchToken "string").1 = true
    · simp [hs] at h
    · simp only [hs, if_false] at h
      cases hm2 : (r0.matchToken "string").2.2.matchFirst ["(", ")", "[", "]", "\x7b", "\x7d",
          ",", "::=", "=", "*", "@", "|", ":", "?"] with
      | some res => simp [hm2] at h
      | none =>
        simp only [hm2] at h
        split_ifs at h
        all_goals exact ReportError_ne_outOfFuel _ _ (Except.error.inj h)

theorem TrimSpace_length_le (s : List Char) : (TrimSpace s).length ≤ s.length := by
  unfold TrimSpace
  have h1 : (s.dropWhile IsSpace).length ≤ s.length :=
    (List.dropWhile_sublist IsSpace).length_le
  have h2 : ((s.dropWhile IsSpace).rdropWhile IsSpace).length ≤ (s.dropWhile IsSpace).length :=
    (List.rdropWhile_prefix IsSpace _).length_le
  omega

theorem cleanLine_snd_length_le (l : List Char) : (Reader.cleanLine l).2.length ≤ l.length := by
  simp [Reader.cleanLine]

/-- Every call of `getToken` that does not end the loop lowers the bound `remaining`. -/
theorem getToken_remaining (r : Reader) (tok : Token) (r1 : Reader)
    (h : r.getToken = .ok (tok, none, r1)) : r1.remaining < r.remaining := by
  obtain ⟨e1, _, _, _, hcase⟩ := getToken_step r tok none r1 h
  rcases hcase with ⟨hid, _, hn, _⟩ | ⟨hid, hn, hrest⟩
  · have hprog := scanToken_progress _ tok none r1 h hid
    simp only at hprog
    have := cleanLine_snd_length_le r.Cur
    simp only [Reader.remaining, e1, hn]
    omega
  · rcases hrest with ⟨_, line, hline, _, _, hcur⟩ | ⟨hne, _⟩
    · have hlt := (List.getElem?_eq_some_iff.mp hline).1
      have hget : r.Lines[r.NLine + 1] = line := (List.getElem?_eq_some_iff.mp hline).2
      have hdrop : r.Lines.drop (r.NLine + 1) = line :: r.Lines.drop (r.NLine + 1 + 1) := by
        rw [← hget]
        exact List.drop_eq_getElem_cons hlt
      have h1 := TrimSpace_length_le (Reader.cleanLine line).2
      have h2 := cleanLine_snd_length_le line
      simp only [Reader.remaining, e1, hn, hcur]
      rw [hdrop]
      simp only [List.map_cons, List.sum_cons]
      omega
    · exact absurd rfl hne

theorem ParseFileLoop_total : ∀ (fuel : Nat) (r : Reader), r.remaining ≤ fuel →
    Reader.ParseFileLoop fuel r ≠ .error Failure.outOfFuel := by
  intro fuel
  induction fuel with
  | zero =>
    intro r hr
    simp only [Reader.remaining] at hr
    omega
  | succ f ih =>
    intro r hr
    rw [Reader.ParseFileLoop]
    split_ifs
    · cases hg : r.getToken with
      | error e =>
        simp only [ne_eq, Except.error.injEq]
        intro he
        subst he
        exact scanToken_ne_outOfFuel _ hg
      | ok res =>
        obtain ⟨tok, err, r1⟩ := res
        cases err with
        | some e => simp
        | none =>
          have hlt := getToken_remaining r tok r1 hg
          refine ih _ ?_
          simp only [Reader.remaining] at hlt hr ⊢
          omega
    · simp

/-- The fuel that `ParseFile` gives its loop is enough: `ParseFile` returns or fails as the Go
function does, it never runs out of fuel. -/
theorem ParseFile_total (r : Reader) (scanned : List (List Char)) :
    r.ParseFile scanned ≠ .error Failure.outOfFuel := by
  unfold Reader.ParseFile
  simp only
  split_ifs with hlen
  · simp
  · refine ParseFileLoop_total _ _ ?_
    simp only [Reader.remaining, lexFuel]
    cases hL : r.Lines ++ scanned with
    | nil => simp [hL] at hlen
    | cons a l =>
      have h1 : List.Sublist (((a :: l).drop (r.NLine + 1)).map (fun l => l.length + 1))
          (l.map (fun l => l.length + 1)) := by
        rw [List.drop_succ_cons]
        exact (List.drop_sublist _ _).map _
      have h2 := List.Sublist.sum_le_sum h1 (by simp)
      simp only [List.headD_cons, List.map_cons, List.sum_cons]
      omega

theorem strBody_pieces (rest : List Char) : ∀ ps : List StrPiece, (∀ p ∈ ps, p.valid = true) →
    strBody (bodyText ps ++ '"' :: rest) = some (bodyText ps, rest) := by
  intro ps
  induction ps with
  | nil => intro _; rw [strBody.eq_def]; simp [bodyText]
  | cons p ps ih =>
    intro h
    have ih := ih (fun q hq => h q (List.mem_cons_of_mem _ hq))
    have hp := h p (List.mem_cons_self _ _)
    cases p with
    | plain c =>
      simp only [StrPiece.valid, Bool.and_eq_true, bne_iff_ne, ne_eq] at hp
      simp only [bodyText, List.map_cons, List.flatten_cons, StrPiece.text, List.singleton_append,
        List.cons_append, List.nil_append] at ih ⊢
      rw [strBody.eq_def]
      simp [hp.1, hp.2, ih]
    | pair d =>
      simp only [StrPiece.valid, bne_iff_ne, ne_eq] at hp
      simp only [bodyText, List.map_cons, List.flatten_cons, StrPiece.text, List.singleton_append,
        List.cons_append, List.nil_append] at ih ⊢
      rw [strBody.eq_def]
      simp [hp, ih]

theorem bodyText_head (ps : List StrPiece) (h : ∀ p ∈ ps, p.valid = true) (tl : List Char) :
    bodyText ps ≠ '"' :: tl := by
  cases ps with
  | nil => simp [bodyText]
  | cons p ps =>
    have hp := h p (List.mem_cons_self _ _)
    cases p with
    | plain c =>
      simp only [StrPiece.valid, Bool.and_eq_true, bne_iff_ne, ne_eq] at hp
      simp [bodyText, StrPiece.text, hp.1]
    | pair d => simp [bodyText, StrPiece.text]

theorem ReplaceFrom_pieces : ∀ ps : List StrPiece, (∀ p ∈ ps, p.valid = true) →
    ReplaceFrom ['\\', '"'] ['"'] 0 (bodyText ps) = specUnescape ps := by
  intro ps
  induction ps with
  | nil => intro _; simp [bodyText, specUnescape, ReplaceFrom]
  | cons p ps ih =>
    intro h
    have hps : ∀ q ∈ ps, q.valid = true := fun q hq => h q (List.mem_cons_of_mem _ hq)
    have ih := ih hps
    have hp := h p (List.mem_cons_self _ _)
    have hcons : bodyText (p :: ps) = p.text ++ bodyText ps := by simp [bodyText]
    have hcons2 : specUnescape (p :: ps) = p.specValue ++ specUnescape ps := by
      simp [specUnescape]
    rw [hcons, hcons2]
    cases p with
    | plain c =>
      simp only [StrPiece.valid, Bool.and_eq_true, bne_iff_ne, ne_eq] at hp
      simp only [StrPiece.text, StrPiece.specValue, List.singleton_append]
      rw [ReplaceFrom]
      have hc : ¬ '\\' = c := fun e => hp.2 e.symm
      simp [hc, ih]
    | pair d =>
      simp only [StrPiece.text, StrPiece.specValue, List.cons_append, List.nil_append]
      rw [ReplaceFrom]
      by_cases hd : d = '"'
      · subst hd
        simpa [ReplaceFrom] using ih
      · have hd2 : ¬ '"' = d := fun e => hd e.symm
        have h1 : (['\\', '"']).isPrefixOf ('\\' :: d :: bodyText ps) = false := by
          simp [List.isPrefixOf, hd2]
        rw [if_neg (by simp [h1]), if_neg hd]
        congr 1
        cases hb : bodyText ps with
        | nil =>
          rw [hb] at ih
          rw [← ih]
          simp [ReplaceFrom, List.isPrefixOf]
        | cons b tl =>
          rw [ReplaceFrom]
          have hb2 : ¬ '"' = b := by
            rintro rfl
            exact bodyText_head ps hps tl hb
          rw [hb] at ih
          simp [List.isPrefixOf, hb2, ih]


theorem TokenRes_identifier (c : Char) (cs : List Char) :
    TokenRes "identifier" (c :: cs) =
      if isIdentStart c then
        some { whole := c :: cs.takeWhile isIdentChar,
               subs := [("value", c :: cs.takeWhile isIdentChar)] }
      else none := by
  unfold TokenRes
  simp only [if_true]

theorem TokenRes_number (s : List Char) :
    TokenRes "number" s =
      if s.takeWhile isDigit ≠ [] then
        some { whole := s.takeWhile isDigit, subs := [("value", s.takeWhile isDigit)] }
      else none := by
  unfold TokenRes
  simp only [show ¬ ("number" = "identifier") by decide, if_false, if_true]

theorem TokenRes_string_eq (c : Char) (cs : List Char) :
    TokenRes "string" (c :: cs) =
      if c = '"' then
        (strBody cs).map (fun p => { whole := c :: (p.1 ++ ['"']), subs := [("value", p.1)] })
      else none := by
  unfold TokenRes
  simp only [show ¬ ("string" = "identifier") by decide, show ¬ ("string" = "number") by decide,
    if_false, if_true]

theorem TokenRes_lit (typ : String)
    (htyp : typ ∈ ["(", ")", "[", "]", "\x7b", "\x7d", ",", "::=", "=", "*", "@", "|", ":", "?"])
    (s : List Char) : TokenRes typ s = litRe typ s := by
  simp only [List.mem_cons, List.mem_singleton, List.not_mem_nil, or_false] at htyp
  rcases htyp with rfl | rfl | rfl | rfl | rfl | rfl | rfl | rfl | rfl | rfl | rfl | rfl |
    rfl | rfl <;> simp [TokenRes]

theorem TokenRes_comment (s : List Char) : TokenRes "comment" s = litRe "#" s := by
  simp [TokenRes]

theorem matchToken_none (r : Reader) (typ : String) (h : TokenRes typ r.Cur = none) :
    r.matchToken typ = (false, fun _ => [], r) := by
  unfold Reader.matchToken
  rw [h]

theorem matchToken_some (r : Reader) (typ : String) (m : ReMatch)
    (h : TokenRes typ r.Cur = some m) :
    r.matchToken typ = (true, m.groups,
      { r with Cur := r.Cur.drop m.whole.length, NChar := r.NChar + len m.whole }) := by
  unfold Reader.matchToken
  rw [h]

theorem matchFirst_eq_none (types : List String) (r : Reader)
    (h : ∀ n ∈ types, TokenRes n r.Cur = none) : r.matchFirst types = none := by
  induction types with
  | nil => rfl
  | cons a types ih =>
    rw [Reader.matchFirst, matchToken_none r a (h a (List.mem_cons_self _ _))]
    exact ih (fun n hn => h n (List.mem_cons_of_mem _ hn))

/-- C11: string unescaping. When the text of a line at the scan position is a double quote, a
body of valid pieces (characters other than the quote and the backslash, and backslash pairs)
and a closing double quote, `getToken` returns a string token at the scan position, cuts the
body and both quotes off the text, and the value of the token is the body in which each pair
backslash-quote has become a quote and every other piece, every other backslash pair
included, is unchanged. -/
theorem string_unescape (r : Reader) (ps : List StrPiece) (rest : List Char)
    (hps : ∀ p ∈ ps, p.valid = true) (hcur : r.Cur = '"' :: (bodyText ps ++ '"' :: rest)) :
    r.getToken = .ok (NewToken "string" r.NLine r.NChar (specUnescape ps), none,
      { r with Cur := rest, NChar := r.NChar + (len (bodyText ps) + 2) }) := by
  have hbody := strBody_pieces rest ps hps
  have hrep := ReplaceFrom_pieces ps hps
  have hlen : len ('"' :: (bodyText ps ++ ['"'])) = len (bodyText ps) + 2 := by
    have h1 : len ('"' :: (bodyText ps ++ ['"'])) = len ['"'] + (len (bodyText ps) + len ['"']) := by
      rw [← len_append, ← len_append]; rfl
    rw [h1]
    have h2 : len ['"'] = 1 := by decide
    omega
  have hdrop : ('"' :: (bodyText ps ++ '"' :: rest)).drop ('"' :: (bodyText ps ++ ['"'])).length
      = rest := by
    have : '"' :: (bodyText ps ++ '"' :: rest) = ('"' :: (bodyText ps ++ ['"'])) ++ rest := by simp
    rw [this, List.drop_left]
  unfold Reader.getToken
  have hclean : Reader.cleanLine r.Cur = ([], r.Cur) := by
    rw [hcur]; simp [Reader.cleanLine, nspaces]
  rw [hclean]
  simp only [show len ([] : List Char) = 0 from rfl, Nat.add_zero]
  have hr : ({ r with Cur := r.Cur, NChar := r.NChar } : Reader) = r := rfl
  rw [hr]
  unfold Reader.scanToken
  have h1 : r.matchFirst ["identifier", "number"] = none := by
    apply matchFirst_eq_none
    intro n hn
    simp only [List.mem_cons, List.mem_singleton, List.not_mem_nil, or_false] at hn
    rcases hn with rfl | rfl
    · rw [hcur, TokenRes_identifier]; simp [isIdentStart]
    · rw [TokenRes_number, hcur]; simp [isDigit]
  have h2 : TokenRes "string" r.Cur =
      some { whole := '"' :: (bodyText ps ++ ['"']), subs := [("value", bodyText ps)] } := by
    rw [hcur, TokenRes_string_eq]
    simp [hbody]
  simp only [h1, matchToken_some r "string" _ h2, if_true]
  simp [ReMatch.groups, Function.update, Replace, hrep, hlen, hdrop, hcur]

/-- Witness for C11: the text `"a\"b\\n\\"` gives the value `a"b\\n\\`. -/
theorem string_unescape_witness :
    (∀ p ∈ [StrPiece.plain 'a', .pair '"', .plain 'b', .pair 'n', .pair '\\'],
      p.valid = true) ∧
    ({ NewReader "g".toList with Lines := [quoteLine], Cur := quoteLine } : Reader).getToken =
      .ok (NewToken "string" 0 0 "a\"b\\n\\\\".toList, none,
        { NewReader "g".toList with Lines := [quoteLine], Cur := " x".toList, NChar := 10 }) :=
  ⟨by decide, string_unescape _ [.plain 'a', .pair '"', .plain 'b', .pair 'n', .pair '\\']
    " x".toList (by decide) rfl⟩

theorem matchFirst_skip (r : Reader) (a : String) (types : List String)
    (h : TokenRes a r.Cur = none) : r.matchFirst (a :: types) = r.matchFirst types := by
  rw [Reader.matchFirst, matchToken_none r a h]
  rfl

theorem matchFirst_hit (r : Reader) (a : String) (types : List String) (m : ReMatch)
    (h : TokenRes a r.Cur = some m) :
    r.matchFirst (a :: types) = some (a, m.groups,
      { r with Cur := r.Cur.drop m.whole.length, NChar := r.NChar + len m.whole }) := by
  rw [Reader.matchFirst, matchToken_some r a m h]
  rfl

/-- The types of the list before the one that matched did not match. -/
theorem matchFirst_earlier (types : List String) :
    ∀ (r : Reader) (n : String) (groups : String → List Char) (r1 : Reader),
      r.matchFirst types = some (n, groups, r1) →
      ∀ k ∈ types.takeWhile (fun k => k != n), TokenRes k r.Cur = none := by
  induction types with
  | nil => intro r n groups r1 h; simp [Reader.matchFirst] at h
  | cons a types ih =>
    intro r n groups r1 h k hk
    rcases matchToken_eq r a with ⟨m, hm, heq⟩ | ⟨hm, heq⟩
    · rw [matchFirst_hit r a types m hm] at h
      simp only [Option.some.injEq, Prod.mk.injEq] at h
      obtain ⟨h1, _, _⟩ := h
      subst h1
      simp at hk
    · rw [matchFirst_skip r a types hm] at h
      by_cases han : a = n
      · subst han
        simp at hk
      · rw [List.takeWhile_cons_of_pos (by simpa using han)] at hk
        rcases List.mem_cons.mp hk with rfl | hk
        · exact hm
        · exact ih r n groups r1 h k hk

/-- A token that `getToken` cuts off the text is the match of the first type, in the order
identifier, number, string and the punctuators of the scan list, that matches the text. -/
theorem scanToken_first (r0 : Reader) (tok : Token) (err : Option GoError) (r1 : Reader)
    (h : r0.scanToken = .ok (tok, err, r1)) (hid : tok.Id ≠ "newline") :
    tok.Id ∈ scanIds ∧
    (∀ k ∈ scanIds.takeWhile (fun k => k != tok.Id), TokenRes k r0.Cur = none) ∧
    ∃ m, TokenRes tok.Id r0.Cur = some m ∧
      r1 = { r0 with Cur := r0.Cur.drop m.whole.length, NChar := r0.NChar + len m.whole } := by
  unfold Reader.scanToken at h
  simp only at h
  cases hm1 : r0.matchFirst ["identifier", "number"] with
  | some res =>
    obtain ⟨n, groups, r2⟩ := res
    obtain ⟨hmem, m, hres, hg, hr2⟩ := matchFirst_some _ _ _ _ _ hm1
    have hearly := matchFirst_earlier _ _ _ _ _ hm1
    simp only [hm1, Except.ok.injEq, Prod.mk.injEq] at h
    obtain ⟨h1, h2, h3⟩ := h
    subst h1 h3
    simp only [List.mem_cons, List.mem_singleton, List.not_mem_nil, or_false] at hmem
    rcases hmem with rfl | rfl
    · exact ⟨by simp [scanIds, NewToken], by simp [scanIds, NewToken], m, hres, hr2⟩
    · refine ⟨by simp [scanIds, NewToken], ?_, m, hres, hr2⟩
      intro k hk
      have hk2 : k = "identifier" := by simpa [scanIds, NewToken] using hk
      subst hk2
      exact hearly _ (by simp)
  | none =>
    have hnone1 := matchFirst_none _ _ hm1
    simp only [hm1] at h
    rcases matchToken_eq r0 "string" with ⟨m, hm, heq⟩ | ⟨hm, heq⟩
    · simp only [heq, if_true, Except.ok.injEq, Prod.mk.injEq] at h
      obtain ⟨h1, h2, h3⟩ := h
      subst h1 h3
      refine ⟨by simp [scanIds, NewToken], ?_, m, hm, rfl⟩
      intro k hk
      have hk2 : k = "identifier" ∨ k = "number" := by simpa [scanIds, NewToken] using hk
      exact hnone1 k (by simpa using hk2)
    · simp only [heq, Bool.false_eq_true, if_false] at h
      cases hm2 : r0.matchFirst ["(", ")", "[", "]", "\x7b", "\x7d", ",", "::=", "=", "*", "@",
          "|", ":", "?"] with
      | some res =>
        obtain ⟨n, groups, r2⟩ := res
        obtain ⟨hmem, m, hres, hg, hr2⟩ := matchFirst_some _ _ _ _ _ hm2
        have hearly := matchFirst_earlier _ _ _ _ _ hm2
        simp only [hm2, Except.ok.injEq, Prod.mk.injEq] at h
        obtain ⟨h1, h2, h3⟩ := h
        subst h1 h3
        refine ⟨?_, ?_, m, hres, hr2⟩
        · simp only [NewToken, scanIds]
          simp only [List.mem_cons, List.mem_singleton, List.not_mem_nil, or_false] at hmem ⊢
          tauto
        · intro k hk
          simp only [NewToken] at hk
          have hne : ∀ a ∈ (["identifier", "number", "string"] : List String),
              (fun k => k != n) a = true := by
            simp only [List.mem_cons, List.mem_singleton, List.not_mem_nil, or_false] at hmem
            rcases hmem with rfl | rfl | rfl | rfl | rfl | rfl | rfl | rfl | rfl | rfl | rfl |
              rfl | rfl | rfl <;> decide
          have hsplit : k ∈ ["identifier", "number", "string"] ∨
              k ∈ (["(", ")", "[", "]", "\x7b", "\x7d", ",", "::=", "=", "*", "@", "|", ":",
                "?"] : List String).takeWhile (fun k => k != n) := by
            have hs : scanIds = ["identifier", "number", "string"] ++ ["(", ")", "[", "]", "\x7b",
                "\x7d", ",", "::=", "=", "*", "@", "|", ":", "?"] := rfl
            rw [hs, List.takeWhile_append_of_pos hne] at hk
            exact List.mem_append.mp hk
          rcases hsplit with hk1 | hk2
          · simp only [List.mem_cons, List.mem_singleton, List.not_mem_nil, or_false] at hk1
            rcases hk1 with rfl | rfl | rfl
            · exact hnone1 _ (by simp)
            · exact hnone1 _ (by simp)
            · exact hm
          · exact hearly k hk2
      | none =>
        simp only [hm2] at h
        split_ifs at h
        simp only [Except.ok.injEq, Prod.mk.injEq] at h
        exact absurd (by rw [← h.1]; rfl) hid


theorem litRe_eq_some (p : String) (s : List Char) (m : ReMatch) (h : litRe p s = some m) :
    p.toList <+: s := by
  unfold litRe at h
  split_ifs at h with hp
  exact List.isPrefixOf_iff_prefix.mp hp

theorem litRe_eq_none (p : String) (s : List Char) (h : litRe p s = none) : ¬ p.toList <+: s := by
  unfold litRe at h
  split_ifs at h with hp
  exact fun hpre => hp (List.isPrefixOf_iff_prefix.mpr hpre)

theorem scanToken_assign (r : Reader) (rest : List Char)
    (hcur : r.Cur = ':' :: ':' :: '=' :: rest) :
    r.scanToken = .ok (NewToken "::=" r.NLine r.NChar "::=".toList, none,
      { r with Cur := rest, NChar := r.NChar + 3 }) := by
  unfold Reader.scanToken
  have h1 : r.matchFirst ["identifier", "number"] = none := by
    apply matchFirst_eq_none
    intro n hn
    simp only [List.mem_cons, List.mem_singleton, List.not_mem_nil, or_false] at hn
    rcases hn with rfl | rfl
    · rw [hcur, TokenRes_identifier]; simp [isIdentStart]
    · rw [hcur, TokenRes_number]; simp [isDigit]
  have h2 : TokenRes "string" r.Cur = none := by
    rw [hcur, TokenRes_string_eq]; simp
  have hno : ∀ p ∈ (["(", ")", "[", "]", "\x7b", "\x7d", ","] : List String),
      TokenRes p r.Cur = none := by
    intro p hp
    rw [TokenRes_lit p (by revert hp; simp; tauto), hcur]
    simp only [List.mem_cons, List.mem_singleton, List.not_mem_nil, or_false] at hp
    rcases hp with rfl | rfl | rfl | rfl | rfl | rfl | rfl <;> simp [litRe]
  have h3 : TokenRes "::=" r.Cur = some { whole := "::=".toList, subs := [] } := by
    rw [TokenRes_lit "::=" (by decide), hcur]
    simp [litRe]
  have h4 : r.matchFirst ["(", ")", "[", "]", "\x7b", "\x7d", ",", "::=", "=", "*", "@", "|",
      ":", "?"] = some ("::=", ReMatch.groups { whole := "::=".toList, subs := [] },
        { r with Cur := r.Cur.drop 3, NChar := r.NChar + 3 }) := by
    rw [matchFirst_skip _ _ _ (hno _ (by simp)), matchFirst_skip _ _ _ (hno _ (by simp)),
      matchFirst_skip _ _ _ (hno _ (by simp)), matchFirst_skip _ _ _ (hno _ (by simp)),
      matchFirst_skip _ _ _ (hno _ (by simp)), matchFirst_skip _ _ _ (hno _ (by simp)),
      matchFirst_skip _ _ _ (hno _ (by simp)), matchFirst_hit _ _ _ _ h3]
    rfl
  simp only [h1, matchToken_none r "string" h2, Bool.false_eq_true, if_false, h4]
  simp [ReMatch.groups, Function.update, hcur]

/-- C12: `::=` is one token. When the text at the scan position, after the spaces and tabs,
begins with `::=`, `getToken` returns one token of kind `::=` and cuts exactly these three
characters off the text. A token of kind `:` or `=` is returned only when the text begins with
that character and does not begin with `::=`, and one character is cut off. -/
theorem atomic_assign (r : Reader) :
    (∀ rest, (Reader.cleanLine r.Cur).2 = "::=".toList ++ rest →
      r.getToken = .ok (NewToken "::=" r.NLine (r.NChar + len (Reader.cleanLine r.Cur).1)
          "::=".toList, none,
        { r with Cur := rest, NChar := r.NChar + len (Reader.cleanLine r.Cur).1 + 3 })) ∧
    (∀ tok err r1, r.getToken = .ok (tok, err, r1) → tok.Id = ":" ∨ tok.Id = "=" →
      tok.Id.toList <+: (Reader.cleanLine r.Cur).2 ∧
      ¬ "::=".toList <+: (Reader.cleanLine r.Cur).2 ∧
      r1.Cur = (Reader.cleanLine r.Cur).2.drop 1) := by
  constructor
  · intro rest hrest
    unfold Reader.getToken
    rw [scanToken_assign _ rest hrest]
  · intro tok err r1 h hid
    unfold Reader.getToken at h
    have hnl : tok.Id ≠ "newline" := by
      rcases hid with hid | hid <;> rw [hid] <;> decide
    obtain ⟨_, hearly, m, hm, hr1⟩ := scanToken_first _ tok err r1 h hnl
    simp only at hearly hm hr1
    have hassign : TokenRes "::=" (Reader.cleanLine r.Cur).2 = none := by
      apply hearly
      rcases hid with hid | hid <;> rw [hid] <;> decide
    rw [TokenRes_lit "::=" (by decide)] at hassign
    have hpun : tok.Id ∈ (["(", ")", "[", "]", "\x7b", "\x7d", ",", "::=", "=", "*", "@", "|",
        ":", "?"] : List String) := by
      rcases hid with hid | hid <;> rw [hid] <;> decide
    have hw := (TokenRes_punct tok.Id hpun _ m hm).2
    rw [TokenRes_lit tok.Id hpun] at hm
    refine ⟨litRe_eq_some _ _ _ hm, litRe_eq_none _ _ hassign, ?_⟩
    rw [hr1, hw]
    rcases hid with hid | hid <;> rw [hid] <;> rfl

/-- Witness for C12: after `foo bar` the text ` ::= baz` gives the token `::=` at column 9, and
the token `:` of the line `a : b` comes from a text that begins with `:` and not with `::=`. -/
theorem atomic_assign_witness :
    (Reader.cleanLine assignReader.Cur).2 = "::=".toList ++ " baz".toList ∧
    assignReader.getToken = .ok (NewToken "::=" 0 8 "::=".toList, none,
      { assignReader with Cur := " baz".toList, NChar := 11 }) ∧
    colonReader.getToken = .ok (NewToken ":" 0 2 ":".toList, none,
      { colonReader with Cur := " b".toList, NChar := 3 }) ∧
    ":".toList <+: (Reader.cleanLine colonReader.Cur).2 ∧
    ¬ "::=".toList <+: (Reader.cleanLine colonReader.Cur).2 :=
  ⟨by decide, (atomic_assign assignReader).1 " baz".toList (by decide), by decide!,
    ((atomic_assign colonReader).2 (NewToken ":" 0 2 ":".toList) none
      { colonReader with Cur := " b".toList, NChar := 3 } (by decide!) (Or.inl rfl)).1,
    ((atomic_assign colonReader).2 (NewToken ":" 0 2 ":".toList) none
      { colonReader with Cur := " b".toList, NChar := 3 } (by decide!) (Or.inl rfl)).2.1⟩

theorem noTokenAt_none {rest : List Char} (h : noTokenAt rest = true) :
    ∀ typ ∈ scanIds, TokenRes typ rest = none := by
  cases rest with
  | nil => simp [noTokenAt] at h
  | cons c cs =>
    simp only [noTokenAt, Bool.and_eq_true, List.all_eq_true, Option.isNone_iff_eq_none] at h
    exact h.2

theorem scanToken_unexpected (r : Reader) (hl : r.NLine < r.Lines.length)
    (hno : noTokenAt r.Cur = true) (hlf : r.Cur ≠ "\n".toList ∧ r.Cur ≠ "\r\n".toList) :
    r.scanToken = .error (Failure.panic
      (specLexDiagnostic r.Filename (r.NLine + 1) (r.NChar + 1) (r.Lines.getD r.NLine []))) := by
  have hnone := noTokenAt_none hno
  obtain ⟨c, cs, hcur⟩ : ∃ c cs, r.Cur = c :: cs := by
    cases h : r.Cur with
    | nil => simp [h, noTokenAt] at hno
    | cons c cs => exact ⟨c, cs, rfl⟩
  have hc : c ≠ '#' := by
    rw [hcur] at hno
    simp only [noTokenAt, Bool.and_eq_true, bne_iff_ne, ne_eq] at hno
    exact hno.1.2
  unfold Reader.scanToken
  have h1 : r.matchFirst ["identifier", "number"] = none :=
    matchFirst_eq_none _ _ (fun n hn => hnone n (by revert hn; simp [scanIds]; tauto))
  have h2 : TokenRes "string" r.Cur = none := hnone _ (by decide)
  have h3 : r.matchFirst ["(", ")", "[", "]", "\x7b", "\x7d", ",", "::=", "=", "*", "@", "|",
      ":", "?"] = none :=
    matchFirst_eq_none _ _ (fun n hn => hnone n (by revert hn; simp [scanIds]; tauto))
  have h4 : TokenRes "comment" r.Cur = none := by
    rw [TokenRes_comment, hcur]
    have : ¬ '#' = c := fun e => hc e.symm
    simp [litRe, this]
  have h5 : ¬ (false = true ∨ r.Cur = [] ∨ r.Cur = "\n".toList ∨ r.Cur = "\r\n".toList) := by
    rintro (h | h | h | h)
    · cases h
    · rw [hcur] at h; cases h
    · exact hlf.1 h
    · exact hlf.2 h
  simp only [h1, matchToken_none r "string" h2, Bool.false_eq_true, if_false, h3,
    matchToken_none r "comment" h4]
  rw [if_neg (by simpa using h5)]
  unfold Reader.ReportError
  rw [dif_pos hl]
  simp [specLexDiagnostic, List.getD_eq_getElem?_getD, List.getElem?_eq_getElem hl]


theorem scanToken_error (r : Reader) (e : Failure) (h : r.scanToken = .error e)
    (hl : r.NLine < r.Lines.length) (hsp : ∀ c cs, r.Cur = c :: cs → c ≠ ' ' ∧ c ≠ '\t') :
    noTokenAt r.Cur = true ∧
    e = Failure.panic
      (specLexDiagnostic r.Filename (r.NLine + 1) (r.NChar + 1) (r.Lines.getD r.NLine [])) := by
  unfold Reader.scanToken at h
  simp only at h
  cases hm1 : r.matchFirst ["identifier", "number"] with
  | some res => simp [hm1] at h
  | none =>
    have hnone1 := matchFirst_none _ _ hm1
    simp only [hm1] at h
    rcases matchToken_eq r "string" with ⟨m, hm, heq⟩ | ⟨hm, heq⟩
    · simp [heq] at h
    · simp only [heq, Bool.false_eq_true, if_false] at h
      cases hm2 : r.matchFirst ["(", ")", "[", "]", "\x7b", "\x7d", ",", "::=", "=", "*", "@",
          "|", ":", "?"] with
      | some res => simp [hm2] at h
      | none =>
        have hnone2 := matchFirst_none _ _ hm2
        simp only [hm2] at h
        rcases matchToken_eq r "comment" with ⟨m, hmc, heqc⟩ | ⟨hmc, heqc⟩
        · simp [heqc] at h
        · simp only [heqc, Bool.false_eq_true, false_or] at h
          split_ifs at h with hcond
          simp only [Except.error.injEq] at h
          cases hcur : r.Cur with
          | nil => exact absurd (Or.inl hcur) hcond
          | cons c cs =>
            have hno : noTokenAt (c :: cs) = true := by
              obtain ⟨hc1, hc2⟩ := hsp c cs hcur
              have hc3 : c ≠ '#' := by
                rintro rfl
                rw [TokenRes_comment, hcur] at hmc
                simp [litRe] at hmc
              simp only [noTokenAt, Bool.and_eq_true, bne_iff_ne, ne_eq, List.all_eq_true,
                Option.isNone_iff_eq_none]
              refine ⟨⟨⟨hc1, hc2⟩, hc3⟩, ?_⟩
              intro typ htyp
              rw [← hcur]
              simp only [scanIds, List.mem_cons, List.mem_singleton, List.not_mem_nil,
                or_false] at htyp
              rcases htyp with rfl | rfl | rfl | htyp
              · exact hnone1 _ (by simp)
              · exact hnone1 _ (by simp)
              · exact hm
              · exact hnone2 _ (by simpa using htyp)
            refine ⟨hno, ?_⟩
            rw [← h]
            unfold Reader.ReportError
            rw [dif_pos hl]
            simp [specLexDiagnostic, List.getD_eq_getElem?_getD, List.getElem?_eq_getElem hl]

theorem nspaces_drop (l : List Char) (c : Char) (cs : List Char)
    (h : l.drop (nspaces l) = c :: cs) : c ≠ ' ' ∧ c ≠ '\t' := by
  induction l with
  | nil => simp [nspaces] at h
  | cons a l ih =>
    by_cases ha : a = ' ' ∨ a = '\t'
    · simp only [nspaces, ha, if_true, List.drop_succ_cons] at h
      exact ih h
    · simp only [nspaces, ha, if_false, List.drop_zero, List.cons.injEq] at h
      obtain ⟨rfl, _⟩ := h
      exact ⟨fun e => ha (Or.inl e), fun e => ha (Or.inr e)⟩

/-- When `getToken` fails, the text after the spaces and tabs is one at which the scanner finds
nothing, and the panic carries the lexical diagnostic for the position of that text. -/
theorem getToken_error (r : Reader) (e : Failure) (h : r.getToken = .error e)
    (hl : r.NLine < r.Lines.length) :
    noTokenAt (Reader.cleanLine r.Cur).2 = true ∧
    e = Failure.panic (specLexDiagnostic r.Filename (r.NLine + 1)
      (r.NChar + len (Reader.cleanLine r.Cur).1 + 1) (r.Lines.getD r.NLine [])) := by
  unfold Reader.getToken at h
  exact scanToken_error _ e h hl (fun c cs hc => nspaces_drop r.Cur c cs hc)

/-- A failure of the loop of `ParseFile` is a failure of one call of `getToken`, made in a
state that the loop invariant describes. -/
theorem ParseFileLoop_error (Inv : Reader → Prop)
    (hstep : ∀ r tok r1, Inv r → r.NLine < r.Lines.length → r.getToken = .ok (tok, none, r1) →
      Inv { r1 with Tokens := r1.Tokens ++ [tok] }) :
    ∀ (fuel : Nat) (r : Reader), Inv r → ∀ e, Reader.ParseFileLoop fuel r = .error e →
      e = Failure.outOfFuel ∨
      ∃ r1, Inv r1 ∧ r1.NLine < r1.Lines.length ∧ r1.getToken = .error e := by
  intro fuel
  induction fuel with
  | zero =>
    intro r _ e h
    simp only [Reader.ParseFileLoop, Except.error.injEq] at h
    exact Or.inl h.symm
  | succ fuel ih =>
    intro r hr e h
    rw [Reader.ParseFileLoop] at h
    split_ifs at h with hlt
    cases hg : r.getToken with
    | error e1 =>
      simp only [hg, Except.error.injEq] at h
      subst h
      exact Or.inr ⟨r, hr, hlt, hg⟩
    | ok res =>
      obtain ⟨tok, err, r1⟩ := res
      cases err with
      | none =>
        simp only [hg] at h
        exact ih _ (hstep r tok r1 hr hlt hg) e h
      | some e1 => simp [hg] at h

/-- The loop of `ParseFile` keeps the reader in place on lines that start plainly. -/
theorem InPlace_step (scanned : List (List Char))
    (hplain : ∀ l ∈ scanned.tail, plainStart l = true) (r : Reader) (tok : Token) (r1 : Reader)
    (hr : r.InPlace scanned) (hg : r.getToken = .ok (tok, none, r1)) :
    Reader.InPlace scanned { r1 with Tokens := r1.Tokens ++ [tok] } := by
  obtain ⟨hL, hlt, pre, suf, hline, hpre⟩ := hr
  obtain ⟨e1, e2, e3, e4, hcase⟩ := getToken_step r tok none r1 hg
  have hlt1 := getToken_in_range r tok r1 hlt hg
  rcases hcase with ⟨hid, _, hn, sp, whole, hcur, hcol, hsrc, hcol1⟩ | ⟨hid, hn, hrest⟩
  · refine ⟨e1.trans hL, hlt1, pre ++ sp ++ whole, suf, ?_, ?_⟩
    · show scanned[r1.NLine]? = _
      rw [hn, hline, hcur]
      simp
    · show _ = r1.NChar
      rw [hcol1, len_append, len_append, hpre]
  · rcases hrest with ⟨_, line, hline1, _, hcol1, hcur1⟩ | ⟨hne, _⟩
    · have hmem : line ∈ scanned.tail := by
        rw [hL] at hline1
        rw [← List.drop_one, List.mem_iff_getElem?]
        exact ⟨r.NLine, by rw [List.getElem?_drop, Nat.add_comm]; exact hline1⟩
      obtain ⟨suf1, hsuf1⟩ := TrimSpace_plain line (hplain line hmem)
      refine ⟨e1.trans hL, hlt1, (Reader.cleanLine line).1, suf1, ?_, ?_⟩
      · show scanned[r1.NLine]? = _
        rw [hn, ← hL, hline1, hcur1, ← hsuf1]
      · show _ = r1.NChar
        rw [hcol1]
    · exact absurd rfl hne


theorem noTokenAt_cons (c : Char) (rest : List Char) (h1 : isIdentStart c = false)
    (h2 : isDigit c = false)
    (h3 : c ∉ ['"', '(', ')', '[', ']', '\x7b', '\x7d', ',', ':', '=', '*', '@', '|', '?', ' ',
      '\t', '#']) :
    noTokenAt (c :: rest) = true := by
  simp only [List.mem_cons, List.mem_singleton, List.not_mem_nil, or_false, not_or] at h3
  obtain ⟨q1, q2, q3, q4, q5, q6, q7, q8, q9, q10, q11, q12, q13, q14, q15, q16, q17⟩ := h3
  simp only [noTokenAt, Bool.and_eq_true, bne_iff_ne, ne_eq, List.all_eq_true,
    Option.isNone_iff_eq_none]
  refine ⟨⟨⟨q15, q16⟩, q17⟩, ?_⟩
  intro typ htyp
  simp only [scanIds, List.mem_cons, List.mem_singleton, List.not_mem_nil, or_false] at htyp
  rcases htyp with rfl | rfl | rfl | htyp
  · rw [TokenRes_identifier]; simp [h1]
  · rw [TokenRes_number]; simp [List.takeWhile, h2]
  · rw [TokenRes_string_eq]; simp [q1]
  · rw [TokenRes_lit typ (by simpa using htyp)]
    rcases htyp with rfl | rfl | rfl | rfl | rfl | rfl | rfl | rfl | rfl | rfl | rfl | rfl |
      rfl | rfl <;> simp [litRe, List.isPrefixOf] <;> intro h <;>
      exact absurd h.symm (by assumption)

theorem Reaches_InPlace (Filename : List Char) (scanned : List (List Char))
    (hne : scanned ≠ []) (hplain : ∀ l ∈ scanned.tail, plainStart l = true) (r : Reader)
    (h : (Reader.start Filename scanned).Reaches r) :
    r.InPlace scanned ∧ r.Filename = Filename := by
  induction h with
  | start =>
    refine ⟨⟨rfl, ?_, [], [], ?_, rfl⟩, rfl⟩
    · exact List.length_pos.mpr hne
    · cases scanned with
      | nil => exact absurd rfl hne
      | cons a l => simp [Reader.start, NewReader]
  | step r tok r1 _ hlt hg ih =>
    exact ⟨InPlace_step scanned hplain r tok r1 ih.1 hg,
      (getToken_step r tok none r1 hg).2.2.1.trans ih.2⟩

/-- The loop of `ParseFile`, entered in `r0`, gets to every state that `r0` reaches, unless it
runs out of fuel before. -/
theorem ParseFileLoop_Reaches (r0 r : Reader) (h : r0.Reaches r) :
    ∀ fuel, Reader.ParseFileLoop fuel r0 = .error Failure.outOfFuel ∨
      ∃ k, Reader.ParseFileLoop fuel r0 = Reader.ParseFileLoop (k + 1) r := by
  induction h with
  | start =>
    intro fuel
    cases fuel with
    | zero => exact Or.inl rfl
    | succ k => exact Or.inr ⟨k, rfl⟩
  | step r tok r1 _ hlt hg ih =>
    intro fuel
    rcases ih fuel with h | ⟨k, hk⟩
    · exact Or.inl h
    · have hloop : Reader.ParseFileLoop (k + 1) r =
          Reader.ParseFileLoop k { r1 with Tokens := r1.Tokens ++ [tok] } := by
        rw [Reader.ParseFileLoop, if_pos hlt, hg]
      cases k with
      | zero => exact Or.inl (by rw [hk, hloop]; rfl)
      | succ k => exact Or.inr ⟨k, by rw [hk, hloop]⟩

theorem ParseFile_start (Filename : List Char) (scanned : List (List Char))
    (hne : scanned ≠ []) :
    (NewReader Filename).ParseFile scanned =
      Reader.ParseFileLoop (lexFuel scanned) (Reader.start Filename scanned) := by
  have hlen : ¬ scanned.length = 0 := fun h => hne (List.eq_nil_of_length_eq_zero h)
  simp [Reader.ParseFile, NewReader, Reader.start, hlen]


theorem getToken_unexpected (r : Reader) (hl : r.NLine < r.Lines.length)
    (hno : noTokenAt (Reader.cleanLine r.Cur).2 = true)
    (hlf : (Reader.cleanLine r.Cur).2 ≠ "\n".toList ∧ (Reader.cleanLine r.Cur).2 ≠ "\r\n".toList) :
    r.getToken = .error (Failure.panic (specLexDiagnostic r.Filename (r.NLine + 1)
      (r.NChar + len (Reader.cleanLine r.Cur).1 + 1) (r.Lines.getD r.NLine []))) := by
  unfold Reader.getToken
  exact scanToken_unexpected _ hl hno hlf

theorem eq_error_of_failureOf {α : Type} (x : Except Failure α) (e : Failure)
    (h : failureOf x = some e) : x = .error e := by
  cases x with
  | ok a => cases h
  | error e1 =>
    simp only [failureOf, Option.some.injEq] at h
    rw [h]

/-- C13, the claim as stated fails: on the line `x % y` the lexer does not give a token of kind
`%`; after the identifier `x` it raises the lexical error at column 3. -/
theorem reserved_percent_fails :
    failureOf ((NewReader "g".toList).ParseFile percentLines) =
      some (Failure.panic (specLexDiagnostic "g".toList 1 3 "x % y".toList)) := by
  decide!

/-- C13 as amended: the reserved token texts are not lexed. When the text at the scan
position, after the spaces and tabs, begins with `%`, `$` (so also with `$(`), a back quote (character 96)
or `^`, `getToken` raises the lexical error `unexpected token` at that position; and no token
that `getToken` returns has one of the five reserved kinds. -/
theorem reserved_not_lexed (r : Reader) :
    (∀ c rest, r.NLine < r.Lines.length → (Reader.cleanLine r.Cur).2 = c :: rest →
      c ∈ ['%', '$', Char.ofNat 96, '^'] →
      r.getToken = .error (Failure.panic (specLexDiagnostic r.Filename (r.NLine + 1)
        (r.NChar + len (Reader.cleanLine r.Cur).1 + 1) (r.Lines.getD r.NLine [])))) ∧
    (∀ tok err r1, r.getToken = .ok (tok, err, r1) → tok.Id ∉ ["%", "$", "$(", "`", "^"]) := by
  constructor
  · intro c rest hl hcur hc
    unfold Reader.getToken
    refine scanToken_unexpected _ hl ?_ ?_
    · show noTokenAt (Reader.cleanLine r.Cur).2 = true
      rw [hcur]
      simp only [List.mem_cons, List.mem_singleton, List.not_mem_nil, or_false] at hc
      rcases hc with rfl | rfl | rfl | rfl <;>
        exact noTokenAt_cons _ rest (by decide) (by decide) (by decide)
    · show (Reader.cleanLine r.Cur).2 ≠ _ ∧ (Reader.cleanLine r.Cur).2 ≠ _
      rw [hcur]
      simp only [List.mem_cons, List.mem_singleton, List.not_mem_nil, or_false] at hc
      rcases hc with rfl | rfl | rfl | rfl <;> simp
  · intro tok err r1 h hmem
    rcases getToken_ok r tok err r1 h with ⟨_, hid, _⟩ | ⟨htok, _⟩
    · simp only [List.mem_cons, List.mem_singleton, List.not_mem_nil, or_false] at hmem
      rcases hmem with hm | hm | hm | hm | hm <;> rw [hm] at hid <;> exact absurd hid (by decide)
    · rw [htok] at hmem
      simp [NewToken] at hmem

/-- Witness for C13: the text ` % y` after the identifier of the line `x % y`. -/
theorem reserved_not_lexed_witness :
    ({ Reader.start "g".toList percentLines with Cur := " % y".toList, NChar := 1 } :
        Reader).getToken =
      .error (Failure.panic (specLexDiagnostic "g".toList 1 3 "x % y".toList)) :=
  (reserved_not_lexed _).1 '%' " y".toList (by decide) (by decide) (by decide)


/-- C14, the claim as stated fails: on the line `"é" %` the first character that matches
nothing is `%`, the fifth character of the line, and the diagnostic has column 6 and the caret
after `8 + 5` spaces, one place to the right of it: the column counts the bytes of the UTF-8
text and `é` takes two. -/
theorem lexical_caret_chars_fails :
    failureOf ((NewReader "g".toList).ParseFile accentPercent) =
      some (Failure.panic (specLexDiagnostic "g".toList 1 6 "\"é\" %".toList)) ∧
    "\"é\" %".toList[4]? = some '%' ∧ noTokenAt ("\"é\" %".toList.drop 4) = true ∧
    specLexDiagnostic "g".toList 1 6 "\"é\" %".toList ≠
      specLexDiagnostic "g".toList 1 5 "\"é\" %".toList := by
  decide!

/-- C14 as amended: the lexical error, with the column counted in bytes. In a file whose lines
after the first have no other white space directly after their leading spaces and tabs:
whenever the lexer gets to a scan position where the text after the spaces and tabs is not
empty, does not start with the comment mark and starts with no identifier, number, complete
string literal or punctuator of the scan list, `ParseFile` fails, returning no token sequence,
with the diagnostic `<filename>:<line>(<column>): error: unexpected token`, the full text of
the line after 8 spaces, and the caret after `8 + (column - 1)` spaces, where `column - 1` is
the byte offset `len pre` of the first unmatched character in the line; and every failure of
`ParseFile` on a non-empty file is of this kind. -/
theorem lexical_error (Filename : List Char) (scanned : List (List Char))
    (hplain : ∀ l ∈ scanned.tail, plainStart l = true) :
    (∀ r, (Reader.start Filename scanned).Reaches r → scanned ≠ [] →
      noTokenAt (Reader.cleanLine r.Cur).2 = true → '\n' ∉ r.Cur →
      ∃ pre suf, scanned[r.NLine]? = some (pre ++ (Reader.cleanLine r.Cur).2 ++ suf) ∧
        (NewReader Filename).ParseFile scanned =
          .error (Failure.panic (specLexDiagnostic Filename (r.NLine + 1) (len pre + 1)
            (pre ++ (Reader.cleanLine r.Cur).2 ++ suf)))) ∧
    (∀ e, (NewReader Filename).ParseFile scanned = .error e → scanned ≠ [] →
      ∃ l pre rest suf, scanned[l]? = some (pre ++ rest ++ suf) ∧ noTokenAt rest = true ∧
        e = Failure.panic (specLexDiagnostic Filename (l + 1) (len pre + 1)
          (pre ++ rest ++ suf))) := by
  have hstep : ∀ (r : Reader) (tok : Token) (r1 : Reader),
      (r.InPlace scanned ∧ r.Filename = Filename) →
      r.NLine < r.Lines.length → r.getToken = .ok (tok, none, r1) →
      (Reader.InPlace scanned { r1 with Tokens := r1.Tokens ++ [tok] } ∧
        r1.Filename = Filename) :=
    fun r tok r1 hr _ hg => ⟨InPlace_step scanned hplain r tok r1 hr.1 hg,
      (getToken_step r tok none r1 hg).2.2.1.trans hr.2⟩
  have hpos : ∀ r : Reader, r.InPlace scanned →
      ∃ pre suf, scanned[r.NLine]? = some (pre ++ (Reader.cleanLine r.Cur).2 ++ suf) ∧
        r.Lines.getD r.NLine [] = pre ++ (Reader.cleanLine r.Cur).2 ++ suf ∧
        len pre = r.NChar + len (Reader.cleanLine r.Cur).1 := by
    rintro r ⟨hL, hlt, pre, suf, hline, hpre⟩
    have hline2 : scanned[r.NLine]? =
        some (pre ++ (Reader.cleanLine r.Cur).1 ++ (Reader.cleanLine r.Cur).2 ++ suf) := by
      rw [hline]
      congr 1
      conv_lhs => rw [← cleanLine_append r.Cur]
      simp only [List.append_assoc]
    refine ⟨pre ++ (Reader.cleanLine r.Cur).1, suf, hline2, ?_, ?_⟩
    · rw [List.getD_eq_getElem?_getD, hL, hline2]
      rfl
    · rw [len_append, hpre]
  constructor
  · intro r hreach hne hno hlf
    obtain ⟨hin, hfile⟩ := Reaches_InPlace Filename scanned hne hplain r hreach
    obtain ⟨pre, suf, hline, hget, hlen⟩ := hpos r hin
    refine ⟨pre, suf, hline, ?_⟩
    have hfail : r.getToken = .error (Failure.panic (specLexDiagnostic Filename (r.NLine + 1)
        (len pre + 1) (pre ++ (Reader.cleanLine r.Cur).2 ++ suf))) := by
      rw [getToken_unexpected r hin.2.1 hno ?_]
      · simp only [hfile, hlen, hget]
      · have hmem : '\n' ∉ (Reader.cleanLine r.Cur).2 := fun h =>
          hlf (by rw [← cleanLine_append r.Cur]; exact List.mem_append_right _ h)
        constructor
        · intro h
          exact hmem (by rw [show (Reader.cleanLine r.Cur).2 = "\n".toList from h]; decide)
        · intro h
          exact hmem (by rw [show (Reader.cleanLine r.Cur).2 = "\r\n".toList from h]; decide)
    rw [ParseFile_start Filename scanned hne]
    rcases ParseFileLoop_Reaches _ r hreach (lexFuel scanned) with hout | ⟨k, hk⟩
    · rw [← ParseFile_start Filename scanned hne] at hout
      exact absurd hout (ParseFile_total _ _)
    · rw [hk, Reader.ParseFileLoop, if_pos hin.2.1, hfail]
  · intro e h hne
    rw [ParseFile_start Filename scanned hne] at h
    have hstart := Reaches_InPlace Filename scanned hne hplain _ Reader.Reaches.start
    rcases ParseFileLoop_error (fun r => r.InPlace scanned ∧ r.Filename = Filename) hstep
        _ _ hstart e h with hout | ⟨r, ⟨hin, hfile⟩, hlt, hg⟩
    · subst hout
      rw [← ParseFile_start Filename scanned hne] at h
      exact absurd h (ParseFile_total _ _)
    · obtain ⟨hno, he⟩ := getToken_error r e hg hlt
      obtain ⟨pre, suf, hline, hget, hlen⟩ := hpos r hin
      refine ⟨r.NLine, pre, (Reader.cleanLine r.Cur).2, suf, hline, hno, ?_⟩
      rw [he, hfile, hget, ← hlen]

/-- Witness for C14: the line `x % y`. Its failure is the diagnostic for line 1, column 3; and
on the line `é %` the lexer is stuck in its first state, at byte offset 0. -/
theorem lexical_error_witness :
    (∀ l ∈ percentLines.tail, plainStart l = true) ∧
    (∃ l pre rest suf, percentLines[l]? = some (pre ++ rest ++ suf) ∧ noTokenAt rest = true ∧
      Failure.panic (specLexDiagnostic "g".toList 1 3 "x % y".toList) =
        Failure.panic (specLexDiagnostic "g".toList (l + 1) (len pre + 1)
          (pre ++ rest ++ suf))) ∧
    (∃ pre suf, percentLines[0]? = some (pre ++ "x % y".toList ++ suf) ∧ len pre = 0) :=
  ⟨by decide, (lexical_error "g".toList percentLines (by decide)).2 _
    (eq_error_of_failureOf _ _ (by decide!)) (by decide), [], [], by decide, by decide⟩

/-! ## The cursor discipline: every `NextToken` follows a test of the current token -/

theorem Outcome.val {α : Type} {E : Failure → Prop} {a : α} {Q : α → Prop} (h : Q a) :
    Outcome E (.ok a) Q := h

theorem Outcome.ret {α : Type} {E : Failure → Prop} {a : α} {Q : α → Prop} (h : Q a) :
    Outcome E (pure a : Except Failure α) Q := h

theorem Outcome.fail {α : Type} {E : Failure → Prop} {e : Failure} {Q : α → Prop} (h : E e) :
    Outcome E (.error e : Except Failure α) Q := h

theorem Outcome.seq {α β : Type} {E : Failure → Prop} {x : Except Failure α}
    {f : α → Except Failure β} {P : α → Prop} {Q : β → Prop} (hx : Outcome E x P)
    (hf : ∀ a, P a → Outcome E (f a) Q) : Outcome E (x >>= f) Q := by
  cases x with
  | error e => exact hx
  | ok a => exact hf a hx

theorem Outcome.weaken {α : Type} {E : Failure → Prop} {x : Except Failure α} {P Q : α → Prop}
    (hx : Outcome E x P) (h : ∀ a, P a → Q a) : Outcome E x Q := by
  cases x with
  | error e => exact hx
  | ok a => exact h a hx

theorem Outcome.of_eq_ok {α : Type} {E : Failure → Prop} {x : Except Failure α} {Q : α → Prop}
    {a : α} (hx : Outcome E x Q) (h : x = .ok a) : Q a := by
  subst h
  exact hx

theorem Outcome.of_eq_error {α : Type} {E : Failure → Prop} {x : Except Failure α}
    {Q : α → Prop} {e : Failure} (hx : Outcome E x Q) (h : x = .error e) : E e := by
  subst h
  exact hx

theorem CheckTokenId_iff (t : Tree) (id : String) : t.CheckTokenId id = true ↔ t.cur.Id = id := by
  simp [Tree.CheckTokenId, Token.CheckId]

theorem exprIds_sub_belowIds {id : String} (h : id ∈ exprIds) : id ∈ belowIds :=
  List.mem_append_left _ h

theorem belowIds_sub_parserIds {id : String} (h : id ∈ belowIds) : id ∈ parserIds :=
  List.mem_append_left _ h

theorem NextToken_out {I : Tree → Prop} {E : Failure → Prop} {G : List String}
    (hnext : ∀ t, I t → t.cur.Id ∈ G → Outcome E t.NextToken I) {t : Tree} (ht : I t)
    {id : String} (hid : t.CheckTokenId id = true) (hG : id ∈ G) : Outcome E t.NextToken I :=
  hnext t ht (by rw [(CheckTokenId_iff t id).mp hid]; exact hG)

theorem ParseIdentifier_out {I : Tree → Prop} {E : Failure → Prop} {G : List String}
    (hrep : ∀ s msg, I s → E (s.ReportError msg))
    (hnext : ∀ t, I t → t.cur.Id ∈ G → Outcome E t.NextToken I)
    (hG : "identifier" ∈ G) {t : Tree} (ht : I t) :
    Outcome E t.ParseIdentifier (fun r => I r.2) := by
  rw [Tree.ParseIdentifier]
  split_ifs with h
  · exact Outcome.fail (hrep _ _ ht)
  · exact Outcome.seq (NextToken_out hnext ht (by simpa using h) hG)
      (fun t ht => Outcome.ret ht)

theorem ParseNumber_out {I : Tree → Prop} {E : Failure → Prop} {G : List String}
    (hrep : ∀ s msg, I s → E (s.ReportError msg))
    (hnext : ∀ t, I t → t.cur.Id ∈ G → Outcome E t.NextToken I)
    (hG : "number" ∈ G) {t : Tree} (ht : I t) :
    Outcome E t.ParseNumber (fun r => I r.2) := by
  rw [Tree.ParseNumber]
  split_ifs with h
  · exact Outcome.fail (hrep _ _ ht)
  · exact Outcome.seq (NextToken_out hnext ht (by simpa using h) hG)
      (fun t ht => Outcome.ret ht)

theorem ParseString_out {I : Tree → Prop} {E : Failure → Prop} {G : List String}
    (hrep : ∀ s msg, I s → E (s.ReportError msg))
    (hnext : ∀ t, I t → t.cur.Id ∈ G → Outcome E t.NextToken I)
    (hG : "string" ∈ G) {t : Tree} (ht : I t) :
    Outcome E t.ParseString (fun r => I r.2) := by
  rw [Tree.ParseString]
  split_ifs with h
  · exact Outcome.fail (hrep _ _ ht)
  · exact Outcome.seq (NextToken_out hnext ht (by simpa using h) hG)
      (fun t ht => Outcome.ret ht)

theorem ParseLiteral_out {I : Tree → Prop} {E : Failure → Prop} {G : List String}
    (hrep : ∀ s msg, I s → E (s.ReportError msg))
    (hnext : ∀ t, I t → t.cur.Id ∈ G → Outcome E t.NextToken I)
    (hG : ∀ id ∈ exprIds, id ∈ G) {t : Tree} (ht : I t) :
    Outcome E t.ParseLiteral (fun r => I r.2) := by
  rw [Tree.ParseLiteral]
  dsimp only
  split_ifs
  · refine Outcome.seq (ParseString_out hrep hnext (hG _ (by decide)) ht) ?_
    rintro ⟨c, t⟩ ht
    exact Outcome.ret ht
  · refine Outcome.seq (ParseNumber_out hrep hnext (hG _ (by decide)) ht) ?_
    rintro ⟨c, t⟩ ht
    exact Outcome.ret ht
  · exact Outcome.fail (hrep _ _ ht)

theorem SkipNewlines_out {I : Tree → Prop} {E : Failure → Prop} {G : List String}
    (hfuel : E Failure.outOfFuel) (hnext : ∀ t, I t → t.cur.Id ∈ G → Outcome E t.NextToken I)
    (hG : "newline" ∈ G) (n : Nat) :
    ∀ {t : Tree}, I t → Outcome E (Tree.SkipNewlines n t) I := by
  induction n with
  | zero => exact fun _ => Outcome.fail hfuel
  | succ n ih =>
    intro t ht
    rw [Tree.SkipNewlines]
    split_ifs with h
    · exact Outcome.seq (NextToken_out hnext ht h hG) (fun t ht => ih ht)
    · exact Outcome.ret ht

section Discipline

variable {I : Tree → Prop} {E : Failure → Prop} {G : List String}
  (hfuel : E Failure.outOfFuel) (hrep : ∀ s msg, I s → E (s.ReportError msg))
  (hnext : ∀ t, I t → t.cur.Id ∈ G → Outcome E t.NextToken I)
include hfuel hrep hnext

theorem pat_out (hG : ∀ id ∈ exprIds, id ∈ G) (n : Nat) :
    (∀ {t : Tree}, I t → Outcome E (Tree.ParsePatList n t) (fun r => I r.2)) ∧
    (∀ (node : Node) {t : Tree}, I t →
      Outcome E (Tree.ParsePatListLoop n node t) (fun r => I r.2)) ∧
    (∀ {t : Tree}, I t → Outcome E (Tree.ParsePatatom n t) (fun r => I r.2)) := by
  induction n with
  | zero =>
    refine ⟨fun _ => ?_, fun _ _ _ => ?_, fun _ => ?_⟩ <;> exact Outcome.fail hfuel
  | succ n ih =>
    obtain ⟨ih1, ih2, ih3⟩ := ih
    refine ⟨fun {t} ht => ?_, fun node {t} ht => ?_, fun {t} ht => ?_⟩
    · rw [Tree.ParsePatList]
      refine Outcome.seq (ih3 ht) ?_
      rintro ⟨c, t⟩ ht
      dsimp only
      split_ifs with h1 h2
      · refine Outcome.seq (NextToken_out hnext ht h1 (hG _ (by decide)))
          (fun t ht => ?_)
        refine Outcome.seq (ih1 ht) ?_
        rintro ⟨c, t⟩ ht
        exact Outcome.ret ht
      · exact ih2 _ ht
      · exact Outcome.ret ht
    · rw [Tree.ParsePatListLoop]
      split_ifs with h1
      · refine Outcome.seq (NextToken_out hnext ht h1 (hG _ (by decide)))
          (fun t ht => ?_)
        dsimp only
        split_ifs
        · refine Outcome.seq (ih3 ht) ?_
          rintro ⟨c, t⟩ ht
          exact ih2 _ ht
        · exact ih2 _ ht
      · exact Outcome.ret ht
    · rw [Tree.ParsePatatom]
      dsimp only
      split_ifs with h1 h2 h3
      · refine Outcome.seq (ParseIdentifier_out hrep hnext (hG _ (by decide)) ht) ?_
        rintro ⟨c, t⟩ ht
        exact Outcome.ret ht
      · refine Outcome.seq (ParseLiteral_out hrep hnext hG ht) ?_
        rintro ⟨c, t⟩ ht
        exact Outcome.ret ht
      · refine Outcome.seq (NextToken_out hnext ht h3 (hG _ (by decide)))
          (fun t ht => ?_)
        refine Outcome.seq
          (P := fun (r : Node × Tree) => I r.2 ∧ r.2.CheckTokenId ")" = true) ?_ ?_
        · split_ifs with h4
          · exact Outcome.ret ⟨ht, h4⟩
          · refine Outcome.seq (ih1 ht) ?_
            rintro ⟨c, t⟩ ht
            dsimp only
            split_ifs with h5
            · exact Outcome.fail (hrep _ _ ht)
            · exact Outcome.ret ⟨ht, by simpa using h5⟩
        · rintro ⟨c, t⟩ ⟨ht, hc⟩
          exact Outcome.seq (NextToken_out hnext ht hc (hG _ (by decide)))
            (fun t ht => Outcome.ret ht)
      · exact Outcome.fail (hrep _ _ ht)

theorem ParsePaternsLoop_out (hG : ∀ id ∈ exprIds, id ∈ G) (n : Nat) :
    ∀ (node : Node) {t : Tree}, I t →
      Outcome E (Tree.ParsePaternsLoop n node t) (fun r => I r.2) := by
  induction n with
  | zero => exact fun _ _ _ => Outcome.fail hfuel
  | succ n ih =>
    intro node t ht
    rw [Tree.ParsePaternsLoop]
    split_ifs
    · refine Outcome.seq ((pat_out hfuel hrep hnext hG n).1 ht) ?_
      rintro ⟨c, t⟩ ht
      exact ih _ ht
    · exact Outcome.ret ht

theorem ParsePaterns_out (hG : ∀ id ∈ exprIds, id ∈ G) (n : Nat) {t : Tree} (ht : I t) :
    Outcome E (Tree.ParsePaterns n t) (fun r => I r.2) :=
  ParsePaternsLoop_out hfuel hrep hnext hG n _ ht

theorem expr_out (hG : ∀ id ∈ exprIds, id ∈ G) (n : Nat) :
    (∀ {t : Tree}, I t → Outcome E (Tree.ParseExpression n t) (fun r => I r.2)) ∧
    (∀ (node : Node) {t : Tree}, I t →
      Outcome E (Tree.ParseExpressionLoop n node t) (fun r => I r.2)) ∧
    (∀ {t : Tree}, I t → Outcome E (Tree.ParseExpr n t) (fun r => I r.2)) ∧
    (∀ (node : Node) {t : Tree}, I t →
      Outcome E (Tree.ParseExprLoop n node t) (fun r => I r.2)) ∧
    (∀ {t : Tree}, I t → Outcome E (Tree.ParseAtom n t) (fun r => I r.2)) := by
  induction n with
  | zero =>
    refine ⟨fun _ => ?_, fun _ _ _ => ?_, fun _ => ?_, fun _ _ _ => ?_, fun _ => ?_⟩ <;>
      exact Outcome.fail hfuel
  | succ n ih =>
    obtain ⟨ih1, ih2, ih3, ih4, ih5⟩ := ih
    refine ⟨fun {t} ht => ?_, fun node {t} ht => ?_, fun {t} ht => ?_, fun node {t} ht => ?_,
      fun {t} ht => ?_⟩
    · rw [Tree.ParseExpression]
      refine Outcome.seq (ih3 ht) ?_
      rintro ⟨c, t⟩ ht
      dsimp only
      split_ifs with h1 h2
      · exact ih2 _ ht
      · refine Outcome.seq (NextToken_out hnext ht h2 (hG _ (by decide))) (fun t ht => ?_)
        refine Outcome.seq (ih1 ht) ?_
        rintro ⟨c, t⟩ ht
        exact Outcome.ret ht
      · exact Outcome.ret ht
    · rw [Tree.ParseExpressionLoop]
      split_ifs with h1
      · refine Outcome.seq (NextToken_out hnext ht h1 (hG _ (by decide))) (fun t ht => ?_)
        dsimp only
        split_ifs
        · refine Outcome.seq (ih3 ht) ?_
          rintro ⟨c, t⟩ ht
          exact ih2 _ ht
        · exact ih2 _ ht
      · exact Outcome.ret ht
    · rw [Tree.ParseExpr]
      refine Outcome.seq (P := fun (r : Node × Tree) => I r.2) ?_ ?_
      · split_ifs
        · refine Outcome.seq (ih5 ht) ?_
          rintro ⟨c, t⟩ ht
          exact Outcome.ret ht
        · exact Outcome.fail (hrep _ _ ht)
      · rintro ⟨c, t⟩ ht
        exact ih4 _ ht
    · rw [Tree.ParseExprLoop]
      split_ifs
      · refine Outcome.seq (ih5 ht) ?_
        rintro ⟨c, t⟩ ht
        exact ih4 _ ht
      · exact Outcome.ret ht
    · rw [Tree.ParseAtom]
      dsimp only
      split_ifs with h1 h2 h3 h4
      · refine Outcome.seq (ParseIdentifier_out hrep hnext (hG _ (by decide)) ht) ?_
        rintro ⟨c, t⟩ ht
        exact Outcome.ret ht
      · refine Outcome.seq (ParseLiteral_out hrep hnext hG ht) ?_
        rintro ⟨c, t⟩ ht
        exact Outcome.ret ht
      · refine Outcome.seq (NextToken_out hnext ht h3 (hG _ (by decide))) (fun t ht => ?_)
        refine Outcome.seq
          (P := fun (r : Node × Tree) => I r.2 ∧ r.2.CheckTokenId ")" = true) ?_ ?_
        · split_ifs with h5
          · exact Outcome.ret ⟨ht, h5⟩
          · refine Outcome.seq (ih1 ht) ?_
            rintro ⟨c, t⟩ ht
            dsimp only
            split_ifs with h6
            · exact Outcome.fail (hrep _ _ ht)
            · exact Outcome.ret ⟨ht, by simpa using h6⟩
        · rintro ⟨c, t⟩ ⟨ht, hc⟩
          exact Outcome.seq (NextToken_out hnext ht hc (hG _ (by decide)))
            (fun t ht => Outcome.ret ht)
      · exact Outcome.fail (hrep _ _ ht)
      · exact Outcome.fail (hrep _ _ ht)

theorem ParseSentence_out (hG : ∀ id ∈ exprIds, id ∈ G) (n : Nat) {t : Tree} (ht : I t) :
    Outcome E (Tree.ParseSentence n t) (fun r => I r.2) := by
  cases n with
  | zero => exact Outcome.fail hfuel
  | succ n =>
    rw [Tree.ParseSentence]
    refine Outcome.seq ((expr_out hfuel hrep hnext hG n).1 ht) ?_
    rintro ⟨c, t⟩ ht
    exact Outcome.ret ht

theorem ParseSimpleVariant_out (hG : ∀ id ∈ exprIds, id ∈ G) (n : Nat) {t : Tree} (ht : I t) :
    Outcome E (Tree.ParseSimpleVariant n t) (fun r => I r.2) := by
  cases n with
  | zero => exact Outcome.fail hfuel
  | succ n =>
    rw [Tree.ParseSimpleVariant]
    refine Outcome.seq (ParseSentence_out hfuel hrep hnext hG n ht) ?_
    rintro ⟨c, t⟩ ht
    exact Outcome.ret ht

theorem ParseMultilineVariantLoop_out (hG : ∀ id ∈ belowIds, id ∈ G) (n : Nat) :
    ∀ (node : Node) {t : Tree}, I t →
      Outcome E (Tree.ParseMultilineVariantLoop n node t) (fun r => I r.2) := by
  induction n with
  | zero => exact fun _ _ _ => Outcome.fail hfuel
  | succ n ih =>
    intro node t ht
    rw [Tree.ParseMultilineVariantLoop]
    split_ifs with h1 h2
    · exact Outcome.seq (NextToken_out hnext ht h2 (hG _ (by decide))) (fun t ht => ih _ ht)
    · refine Outcome.seq
        (ParseSentence_out hfuel hrep hnext (fun id h => hG id (exprIds_sub_belowIds h)) n ht) ?_
      rintro ⟨c, t⟩ ht
      exact ih _ ht
    · exact Outcome.ret ht

theorem ParseMultilineVariant_out (hG : ∀ id ∈ belowIds, id ∈ G) (n : Nat) {t : Tree}
    (ht : I t) : Outcome E (Tree.ParseMultilineVariant n t) (fun r => I r.2) := by
  cases n with
  | zero => exact Outcome.fail hfuel
  | succ n =>
    rw [Tree.ParseMultilineVariant]
    dsimp only
    split_ifs with h1
    · refine Outcome.seq (NextToken_out hnext ht h1 (hG _ (by decide))) (fun t ht => ?_)
      refine Outcome.seq (ParseMultilineVariantLoop_out hfuel hrep hnext hG n _ ht) ?_
      rintro ⟨c, t⟩ ht
      dsimp only
      split_ifs with h2
      · exact Outcome.seq (NextToken_out hnext ht h2 (hG _ (by decide)))
          (fun t ht => Outcome.ret ht)
      · exact Outcome.fail (hrep _ _ ht)
    · exact Outcome.fail (hrep _ _ ht)

theorem ParseVariant_out (hG : ∀ id ∈ belowIds, id ∈ G) (n : Nat) {t : Tree} (ht : I t) :
    Outcome E (Tree.ParseVariant n t) (fun r => I r.2) := by
  cases n with
  | zero => exact Outcome.fail hfuel
  | succ n =>
    rw [Tree.ParseVariant]
    refine Outcome.seq (P := fun (r : Node × Tree) => I r.2) ?_ ?_
    · split_ifs with h1
      · refine Outcome.seq (NextToken_out hnext ht h1 (hG _ (by decide))) (fun t ht => ?_)
        dsimp only
        split_ifs with h2
        · exact Outcome.seq (NextToken_out hnext ht h2 (hG _ (by decide)))
            (fun t ht => Outcome.ret ht)
        · exact Outcome.fail (hrep _ _ ht)
      · exact Outcome.ret ht
    · rintro ⟨c, t⟩ ht
      dsimp only
      split_ifs
      · refine Outcome.seq (ParseMultilineVariant_out hfuel hrep hnext hG n ht) ?_
        rintro ⟨c, t⟩ ht
        exact Outcome.ret ht
      · refine Outcome.seq (ParseSimpleVariant_out hfuel hrep hnext
          (fun id h => hG id (exprIds_sub_belowIds h)) n ht) ?_
        rintro ⟨c, t⟩ ht
        exact Outcome.ret ht

theorem ParseVariantsLoop_out (hG : ∀ id ∈ belowIds, id ∈ G) (n : Nat) :
    ∀ (node : Node) {t : Tree}, I t →
      Outcome E (Tree.ParseVariantsLoop n node t) (fun r => I r.2) := by
  induction n with
  | zero => exact fun _ _ _ => Outcome.fail hfuel
  | succ n ih =>
    intro node t ht
    rw [Tree.ParseVariantsLoop]
    split_ifs
    · refine Outcome.seq (SkipNewlines_out hfuel hnext (hG _ (by decide)) n ht)
        (fun t ht => ?_)
      split_ifs with h2
      · refine Outcome.seq (NextToken_out hnext ht h2 (hG _ (by decide))) (fun t ht => ?_)
        refine Outcome.seq (SkipNewlines_out hfuel hnext (hG _ (by decide)) n ht)
          (fun t ht => ?_)
        refine Outcome.seq (ParseVariant_out hfuel hrep hnext hG n ht) ?_
        rintro ⟨c, t⟩ ht
        exact ih _ ht
      · exact ih _ ht
    · exact Outcome.ret ht

theorem ParseVariants_out (hG : ∀ id ∈ belowIds, id ∈ G) (n : Nat) {t : Tree} (ht : I t) :
    Outcome E (Tree.ParseVariants n t) (fun r => I r.2) := by
  cases n with
  | zero => exact Outcome.fail hfuel
  | succ n =>
    rw [Tree.ParseVariants]
    refine Outcome.seq (SkipNewlines_out hfuel hnext (hG _ (by decide)) n ht)
      (fun t ht => ?_)
    refine Outcome.seq (ParseVariant_out hfuel hrep hnext hG n ht) ?_
    rintro ⟨c, t⟩ ht
    exact ParseVariantsLoop_out hfuel hrep hnext hG n _ ht

theorem ParseDefinition_out (hG : ∀ id ∈ belowIds, id ∈ G) (n : Nat) {t : Tree} (ht : I t) :
    Outcome E (Tree.ParseDefinition n t) (fun r => I r.2) := by
  cases n with
  | zero => exact Outcome.fail hfuel
  | succ n =>
    rw [Tree.ParseDefinition]
    refine Outcome.seq ((pat_out hfuel hrep hnext
      (fun id h => hG id (exprIds_sub_belowIds h)) n).2.2 ht) ?_
    rintro ⟨c, t⟩ ht
    dsimp only
    split_ifs with h1
    · refine Outcome.seq (NextToken_out hnext ht h1 (hG _ (by decide))) (fun t ht => ?_)
      refine Outcome.seq ((expr_out hfuel hrep hnext
        (fun id h => hG id (exprIds_sub_belowIds h)) n).2.2.1 ht) ?_
      rintro ⟨c, t⟩ ht
      exact Outcome.ret ht
    · exact Outcome.fail (hrep _ _ ht)

theorem ParseDefListLoop_out (hG : ∀ id ∈ belowIds, id ∈ G) (n : Nat) :
    ∀ (node : Node) {t : Tree}, I t →
      Outcome E (Tree.ParseDefListLoop n node t) (fun r => I r.2) := by
  induction n with
  | zero => exact fun _ _ _ => Outcome.fail hfuel
  | succ n ih =>
    intro node t ht
    rw [Tree.ParseDefListLoop]
    split_ifs with h1
    · refine Outcome.seq (NextToken_out hnext ht h1 (hG _ (by decide))) (fun t ht => ?_)
      refine Outcome.seq (SkipNewlines_out hfuel hnext (hG _ (by decide)) n ht)
        (fun t ht => ?_)
      refine Outcome.seq (ParseDefinition_out hfuel hrep hnext hG n ht) ?_
      rintro ⟨c, t⟩ ht
      exact ih _ ht
    · exact Outcome.ret ht

theorem ParseDefList_out (hG : ∀ id ∈ belowIds, id ∈ G) (n : Nat) {t : Tree} (ht : I t) :
    Outcome E (Tree.ParseDefList n t) (fun r => I r.2) := by
  cases n with
  | zero => exact Outcome.fail hfuel
  | succ n =>
    rw [Tree.ParseDefList]
    refine Outcome.seq (SkipNewlines_out hfuel hnext (hG _ (by decide)) n ht)
      (fun t ht => ?_)
    refine Outcome.seq (ParseDefinition_out hfuel hrep hnext hG n ht) ?_
    rintro ⟨c, t⟩ ht
    exact ParseDefListLoop_out hfuel hrep hnext hG n _ ht

theorem ParseCondlist_out (hG : ∀ id ∈ belowIds, id ∈ G) (n : Nat) {t : Tree} (ht : I t) :
    Outcome E (Tree.ParseCondlist n t) (fun r => I r.2) := by
  cases n with
  | zero => exact Outcome.fail hfuel
  | succ n =>
    have hGe : ∀ id ∈ exprIds, id ∈ G := fun id h => hG id (exprIds_sub_belowIds h)
    rw [Tree.ParseCondlist]
    refine Outcome.seq ((expr_out hfuel hrep hnext hGe n).2.2.1 ht) ?_
    rintro ⟨c, t⟩ ht
    dsimp only
    split_ifs with h1
    · refine Outcome.seq (NextToken_out hnext ht h1 (hG _ (by decide))) (fun t ht => ?_)
      refine Outcome.seq (SkipNewlines_out hfuel hnext (hG _ (by decide)) n ht)
        (fun t ht => ?_)
      refine Outcome.seq ((expr_out hfuel hrep hnext hGe n).2.2.1 ht) ?_
      rintro ⟨c, t⟩ ht
      exact Outcome.ret ht
    · exact Outcome.ret ht

end Discipline


/-- `ParseRule` under the cursor discipline: `I` holds up to the token `::=`, the call of
`NextToken` on that token leads to `J`, which holds from there on. -/
theorem ParseRule_out {I J : Tree → Prop} {E : Failure → Prop} {G : List String}
    (hfuel : E Failure.outOfFuel) (hrepI : ∀ s msg, I s → E (s.ReportError msg))
    (hrepJ : ∀ s msg, J s → E (s.ReportError msg))
    (hnextI : ∀ t, I t → t.cur.Id ∈ G → Outcome E t.NextToken I)
    (hG : ∀ id ∈ belowIds ++ ["@", "?"], id ∈ G)
    (hassign : ∀ t, I t → t.cur.Id = "::=" → Outcome E t.NextToken J)
    (hnextJ : ∀ t, J t → t.cur.Id ∈ belowIds → Outcome E t.NextToken J)
    (hrules : ∀ t R, J t → J { t with Rules := R }) (n : Nat) {t : Tree} (ht : I t) :
    Outcome E (Tree.ParseRule n t) (fun r => J r.2) := by
  cases n with
  | zero => exact Outcome.fail hfuel
  | succ n =>
    have hB : ∀ id ∈ belowIds, id ∈ G := fun id h => hG id (List.mem_append_left _ h)
    have hX : ∀ id ∈ exprIds, id ∈ G := fun id h => hB id (exprIds_sub_belowIds h)
    have hJ : ∀ id ∈ belowIds, id ∈ belowIds := fun _ h => h
    rw [Tree.ParseRule]
    refine Outcome.seq (P := fun (r : Node × Tree) => I r.2 ∧
      ∃ tok, r.1 = NewNode "identifier" tok) ?_ ?_
    · rw [Tree.ParseIdentifier]
      split_ifs with h
      · exact Outcome.fail (hrepI _ _ ht)
      · exact Outcome.seq (NextToken_out hnextI ht (by simpa using h) (hX _ (by decide)))
          (fun t ht => Outcome.ret ⟨ht, _, rfl⟩)
    rintro ⟨c, t1⟩ ⟨ht, tok, hc⟩
    dsimp only at hc ht
    subst hc
    refine Outcome.seq (ParsePaterns_out hfuel hrepI hnextI hX n ht) ?_
    rintro ⟨c, t2⟩ ht
    refine Outcome.seq (SkipNewlines_out hfuel hnextI (hB _ (by decide)) n ht) (fun t3 ht => ?_)
    refine Outcome.seq (P := fun (r : Node × Tree) => I r.2 ∧
      r.1.childrens[0]? = some (NewNode "identifier" tok)) ?_ ?_
    · split_ifs with h1
      · refine Outcome.seq (NextToken_out hnextI ht h1 (hG _ (by decide))) (fun t4 ht => ?_)
        refine Outcome.seq (ParseDefList_out hfuel hrepI hnextI hB n ht) ?_
        rintro ⟨c, t5⟩ ht
        exact Outcome.ret ⟨ht, rfl⟩
      · exact Outcome.ret ⟨ht, rfl⟩
    rintro ⟨node, t4⟩ ⟨ht, hhead⟩
    refine Outcome.seq (SkipNewlines_out hfuel hnextI (hB _ (by decide)) n ht) (fun t5 ht => ?_)
    refine Outcome.seq (P := fun (r : Node × Tree) => I r.2 ∧
      r.1.childrens[0]? = some (NewNode "identifier" tok)) ?_ ?_
    · split_ifs with h1
      · refine Outcome.seq (NextToken_out hnextI ht h1 (hG _ (by decide))) (fun t6 ht => ?_)
        refine Outcome.seq (ParseCondlist_out hfuel hrepI hnextI hB n ht) ?_
        rintro ⟨c, t7⟩ ht
        exact Outcome.ret ⟨ht, AddChild_head _ _ _ hhead⟩
      · exact Outcome.ret ⟨ht, hhead⟩
    rintro ⟨node, t6⟩ ⟨ht, hhead⟩
    refine Outcome.seq (SkipNewlines_out hfuel hnextI (hB _ (by decide)) n ht) (fun t7 ht => ?_)
    refine Outcome.seq (P := fun (r : Node × Tree) => J r.2 ∧
      r.1.childrens[0]? = some (NewNode "identifier" tok)) ?_ ?_
    · split_ifs with h1
      · refine Outcome.seq (hassign _ ht ((CheckTokenId_iff _ _).mp h1)) (fun t8 ht => ?_)
        refine Outcome.seq (SkipNewlines_out hfuel hnextJ (by decide) n ht) (fun t9 ht => ?_)
        refine Outcome.seq (ParseVariants_out hfuel hrepJ hnextJ hJ n ht) ?_
        rintro ⟨c, t10⟩ ht
        exact Outcome.ret ⟨ht, AddChild_head _ _ _ hhead⟩
      · exact Outcome.fail (hrepI _ _ ht)
    rintro ⟨node, t8⟩ ⟨ht, hhead⟩
    dsimp only at ht hhead
    unfold Tree.recordRule
    dsimp only
    rw [hhead]
    simp only [NewNode]
    split_ifs with hnone
    · exact Outcome.val (hrules _ _ ht)
    · exact Outcome.val ht

/-- The loop of `ParseGrammar` under a loop invariant `L` that each rule re-establishes. -/
theorem ParseGrammarLoop_out {L : Tree → Prop} {E : Failure → Prop}
    (hfuel : E Failure.outOfFuel)
    (hrule : ∀ n t, L t → t.CheckTokenId "endoffile" = false →
      Outcome E (Tree.ParseRule n t)
        (fun r => L { r.2 with root := r.2.root.AddChild r.1 })) (n : Nat) :
    ∀ {t : Tree}, L t →
      Outcome E (Tree.ParseGrammarLoop n t) (fun s => L s ∧ s.cur.Id = "endoffile") := by
  induction n with
  | zero => exact fun _ => Outcome.fail hfuel
  | succ n ih =>
    intro t ht
    rw [Tree.ParseGrammarLoop]
    split_ifs with h
    · refine Outcome.seq (hrule n t ht (by simpa using h)) ?_
      rintro ⟨c, t1⟩ ht
      exact ih ht
    · exact Outcome.ret ⟨ht, (CheckTokenId_iff _ _).mp (by simpa using h)⟩


/-! ## The cursor stays inside the token sequence -/

theorem NextToken_ok (t s : Tree) (h : t.NextToken = .ok s) :
    s.ncur = t.ncur + 1 ∧ s.tokens = t.tokens ∧ s.Coherent ∧ s.lines = t.lines ∧
    s.filename = t.filename ∧ s.root = t.root ∧ s.Rules = t.Rules := by
  unfold Tree.NextToken at h
  cases hn : t.tokens[t.ncur + 1]? with
  | none => simp [hn] at h
  | some tok =>
    simp only [hn, Except.ok.injEq] at h
    subst h
    exact ⟨rfl, rfl, hn, rfl, rfl, rfl, rfl⟩

theorem endsInEndoffile_split (toks : List Token) (h : endsInEndoffile toks = true) :
    ∃ body eof, toks = body ++ [eof] ∧ eof.Id = "endoffile" ∧
      ∀ tok ∈ body, tok.Id ≠ "endoffile" := by
  unfold endsInEndoffile at h
  cases hl : toks.getLast? with
  | none => simp [hl] at h
  | some eof =>
    simp only [hl, Bool.and_eq_true, beq_iff_eq, List.all_eq_true, bne_iff_ne, ne_eq] at h
    have hne : toks ≠ [] := by
      rintro rfl
      simp at hl
    have hlast : toks.getLast hne = eof := by
      rw [List.getLast?_eq_getLast _ hne] at hl
      exact Option.some.inj hl
    refine ⟨toks.dropLast, eof, ?_, h.1, h.2⟩
    rw [← hlast]
    exact (List.dropLast_append_getLast hne).symm

/-- On a token sequence that ends in its only `endoffile` token, `NextToken` succeeds whenever
the current token is not the `endoffile` token. -/
theorem NextToken_in_range (t : Tree) (hseq : endsInEndoffile t.tokens = true)
    (hc : t.Coherent) (hid : t.cur.Id ≠ "endoffile") : ∃ s, t.NextToken = .ok s := by
  obtain ⟨body, eof, htoks, heof, hbody⟩ := endsInEndoffile_split _ hseq
  unfold Tree.Coherent at hc
  have hlt : t.ncur < body.length := by
    by_contra hge
    have hlen : t.ncur < t.tokens.length := (List.getElem?_eq_some_iff.mp hc).1
    rw [htoks] at hc hlen
    simp only [List.length_append, List.length_singleton] at hlen
    have he : t.ncur = body.length := by omega
    rw [he, List.getElem?_append_right (Nat.le_refl _)] at hc
    simp only [Nat.sub_self, List.getElem?_cons_zero, Option.some.injEq] at hc
    exact hid (hc ▸ heof)
  have hlt2 : t.ncur + 1 < t.tokens.length := by
    rw [htoks]
    simp only [List.length_append, List.length_singleton]
    omega
  unfold Tree.NextToken
  rw [List.getElem?_eq_getElem hlt2]
  exact ⟨_, rfl⟩

/-- On such a token sequence a state on an `endoffile` token is on the last token. -/
theorem endoffile_is_last (t : Tree) (hseq : endsInEndoffile t.tokens = true)
    (hc : t.Coherent) (hid : t.cur.Id = "endoffile") : t.ncur + 1 = t.tokens.length := by
  obtain ⟨body, eof, htoks, heof, hbody⟩ := endsInEndoffile_split _ hseq
  unfold Tree.Coherent at hc
  have hlen : t.ncur < t.tokens.length := (List.getElem?_eq_some_iff.mp hc).1
  rw [htoks] at hc hlen ⊢
  simp only [List.length_append, List.length_singleton] at hlen ⊢
  by_contra hne
  have hlt : t.ncur < body.length := by omega
  rw [List.getElem?_append_left hlt] at hc
  exact hbody t.cur (List.mem_iff_getElem?.mpr ⟨_, hc⟩) hid

theorem parserIds_ne_endoffile {id : String} (h : id ∈ parserIds) : id ≠ "endoffile" := by
  rintro rfl
  exact absurd h (by decide)

theorem ReportError_panic (t : Tree) (msg : String) (lines : List (List Char))
    (hl : t.lines = lines) (hpos : positionsIn lines t.tokens = true) (hc : t.Coherent) :
    t.ReportError msg ≠ Failure.runtime ∧ t.ReportError msg ≠ Failure.outOfFuel := by
  have hmem : t.cur ∈ t.tokens := List.mem_iff_getElem?.mpr ⟨_, hc⟩
  simp only [positionsIn, List.all_eq_true, Bool.and_eq_true, decide_eq_true_eq] at hpos
  obtain ⟨⟨h1, h2⟩, h3⟩ := hpos t.cur hmem
  unfold Tree.ReportError
  rw [if_neg (by omega)]
  have hlt : t.cur.NLine - 1 < t.lines.length := by rw [hl]; omega
  rw [List.getElem?_eq_getElem hlt]
  exact ⟨by simp, by simp⟩


/-- `ParseGrammar` under the cursor discipline. -/
theorem ParseGrammar_out {I : Tree → Prop} {E : Failure → Prop}
    (hfuel : E Failure.outOfFuel) (hrep : ∀ s msg, I s → E (s.ReportError msg))
    (hnext : ∀ t, I t → t.cur.Id ∈ parserIds → Outcome E t.NextToken I)
    (hrules : ∀ t R, I t → I { t with Rules := R })
    (hroot : ∀ t r, I t → I { t with root := r }) (n : Nat) {t : Tree} (ht : I t) :
    Outcome E (Tree.ParseGrammar n t) (fun s => I s ∧ s.cur.Id = "endoffile") := by
  cases n with
  | zero => exact Outcome.fail hfuel
  | succ n =>
    rw [Tree.ParseGrammar]
    refine Outcome.seq (SkipNewlines_out hfuel hnext (by decide) n (hroot _ _ ht))
      (fun t1 ht => ?_)
    refine ParseGrammarLoop_out hfuel (fun m t2 ht2 _ => ?_) n ht
    refine Outcome.weaken (ParseRule_out hfuel hrep hrep hnext
      (fun id h => by revert h; simp [parserIds]; tauto)
      (fun t3 ht3 hid => hnext t3 ht3 (by rw [hid]; decide))
      (fun t3 ht3 hid => hnext t3 ht3 (belowIds_sub_parserIds hid)) hrules m ht2) ?_
    rintro ⟨c, t3⟩ ht3
    exact hroot _ _ ht3

/-- C20: cursor safety. The parser calls `NextToken` only on a current token whose kind it has
just tested to be one of `parserIds`, none of which is `endoffile`: every property of the
state that such calls keep is kept by `ParseGrammar`. `NextToken` moves the cursor forward by
one. So on a token sequence whose last token is its only `endoffile` token the cursor never
leaves the sequence: `ParseGrammar` returns with the cursor on the last token, the `endoffile`
token, or fails with a syntax error reported on a token of the sequence (or the fuel of the
model runs out), and it never fails with an index out of range. -/
theorem cursor_safety :
    (∀ (I : Tree → Prop) (E : Failure → Prop), E Failure.outOfFuel →
      (∀ s msg, I s → E (s.ReportError msg)) →
      (∀ t, I t → t.cur.Id ∈ parserIds → Outcome E t.NextToken I) →
      (∀ t R, I t → I { t with Rules := R }) → (∀ t r, I t → I { t with root := r }) →
      ∀ n t, I t → Outcome E (Tree.ParseGrammar n t) (fun s => I s ∧ s.cur.Id = "endoffile")) ∧
    "endoffile" ∉ parserIds ∧
    (∀ t s : Tree, t.NextToken = .ok s →
      s.ncur = t.ncur + 1 ∧ s.tokens = t.tokens ∧ s.Coherent) ∧
    (∀ (n : Nat) (t0 : Tree), endsInEndoffile t0.tokens = true → t0.Coherent →
      Outcome
        (fun e => e = Failure.outOfFuel ∨
          ∃ (s : Tree) (msg : String),
            (s.tokens = t0.tokens ∧ s.lines = t0.lines ∧ s.Coherent) ∧
            e = s.ReportError msg)
        (Tree.ParseGrammar n t0)
        (fun s => s.tokens = t0.tokens ∧ s.Coherent ∧ s.ncur + 1 = s.tokens.length ∧
          s.cur.Id = "endoffile") ∧
      (positionsIn t0.lines t0.tokens = true →
        Tree.ParseGrammar n t0 ≠ .error Failure.runtime)) := by
  refine ⟨fun I E hfuel hrep hnext hrules hroot n t ht =>
    ParseGrammar_out hfuel hrep hnext hrules hroot n ht, by decide,
    fun t s h => ⟨(NextToken_ok t s h).1, (NextToken_ok t s h).2.1, (NextToken_ok t s h).2.2.1⟩,
    fun n t0 hseq hc => ?_⟩
  have hout : Outcome
      (fun e => e = Failure.outOfFuel ∨
        ∃ (s : Tree) (msg : String),
            (s.tokens = t0.tokens ∧ s.lines = t0.lines ∧ s.Coherent) ∧
          e = s.ReportError msg)
      (Tree.ParseGrammar n t0)
      (fun s => (s.tokens = t0.tokens ∧ s.lines = t0.lines ∧ s.Coherent) ∧
        s.cur.Id = "endoffile") := by
    refine ParseGrammar_out (I := fun s => s.tokens = t0.tokens ∧ s.lines = t0.lines ∧ s.Coherent)
      (Or.inl rfl) (fun s msg hs => Or.inr ⟨s, msg, hs, rfl⟩) ?_ (fun t R ht => ht)
      (fun t r ht => ht) n ⟨rfl, rfl, hc⟩
    rintro t ⟨ht1, ht2, ht3⟩ hid
    obtain ⟨s, hs⟩ := NextToken_in_range t (by rw [ht1]; exact hseq) ht3
      (parserIds_ne_endoffile hid)
    rw [hs]
    obtain ⟨_, h2, h3, h4, _⟩ := NextToken_ok t s hs
    exact Outcome.val ⟨h2.trans ht1, h4.trans ht2, h3⟩
  constructor
  · refine Outcome.weaken hout ?_
    rintro s ⟨⟨h1, h2, h3⟩, h4⟩
    exact ⟨h1, h3, endoffile_is_last s (by rw [h1]; exact hseq) h3 h4, h4⟩
  · intro hpos hrun
    rcases Outcome.of_eq_error hout hrun with h | ⟨s, msg, ⟨h1, h2, h3⟩, h4⟩
    · cases h
    · exact (ReportError_panic s msg t0.lines h2 (by rw [h1]; exact hpos) h3).1 h4.symm

/-- Witness for C20: the tokens of scenario C. -/
theorem cursor_safety_witness :
    endsInEndoffile consToks = true ∧ positionsIn (consLines ++ [[]]) consToks = true ∧
    Tree.ParseGrammar 20 (treeAt consToks (consLines ++ [[]]) 0) ≠ .error Failure.runtime :=
  ⟨by decide, by decide,
    (cursor_safety.2.2.2 20 (treeAt consToks (consLines ++ [[]]) 0) (by decide) rfl).2
      (by decide)⟩

theorem countId_take_succ (id : String) (toks : List Token) (i : Nat) (tok : Token)
    (h : toks[i]? = some tok) :
    countId id (toks.take (i + 1)) = countId id (toks.take i) + if tok.Id = id then 1 else 0 := by
  have hlt : i < toks.length := (List.getElem?_eq_some_iff.mp h).1
  have htok : toks[i] = tok := (List.getElem?_eq_some_iff.mp h).2
  rw [List.take_succ, h]
  simp only [countId, Option.toList_some, List.countP_append, List.countP_cons, List.countP_nil,
    beq_iff_eq, Nat.zero_add]


theorem Outcome.with_ensures {α : Type} {E : Failure → Prop} {x : Except Failure α}
    {P Q : α → Prop} (hx : Outcome E x P) (hq : Ensures x Q) :
    Outcome E x (fun a => P a ∧ Q a) := by
  cases x with
  | error e => exact hx
  | ok a => exact ⟨hx, hq a rfl⟩

theorem ParseRule_mono {n m : Nat} (h : n ≤ m) {t : Tree} {r : Node × Tree}
    (hr : Tree.ParseRule n t = .ok r) : Tree.ParseRule m t = .ok r :=
  FuelLe.lift_ok (FuelLe.of_le (fun k => Tree.ParseRule k t) (fun k => ParseRule_step k t) h) hr

theorem SkipNewlines_mono {n m : Nat} (h : n ≤ m) {t s : Tree}
    (hr : Tree.SkipNewlines n t = .ok s) : Tree.SkipNewlines m t = .ok s :=
  FuelLe.lift_ok (FuelLe.of_le (fun k => Tree.SkipNewlines k t) (fun k => SkipNewlines_step k t) h)
    hr

theorem RuleChain_mono {n m : Nat} (h : n ≤ m) :
    ∀ (rs : List Node) (s e : Tree), Tree.RuleChain n s rs e → Tree.RuleChain m s rs e := by
  intro rs
  induction rs with
  | nil => exact fun s e hc => hc
  | cons r rs ih =>
    rintro s e ⟨h1, s1, h2, h3, h4, h5⟩
    exact ⟨h1, s1, ParseRule_mono h h2, h3, h4, ih _ _ h5⟩

/-- The states of a parse over the token sequence `toks` in which `k` tokens `::=` lie before
the cursor and the cursor is at `a` or after it. -/
theorem count_next (toks : List Token) (id : String) (k a : Nat) (t : Tree)
    (ht : t.tokens = toks ∧ t.Coherent ∧ countId id (toks.take t.ncur) = k ∧ a ≤ t.ncur) :
    Outcome (fun _ => True) t.NextToken (fun s => s.tokens = toks ∧ s.Coherent ∧
      countId id (toks.take s.ncur) = (k + if t.cur.Id = id then 1 else 0) ∧ a ≤ s.ncur) := by
  obtain ⟨h1, h2, h3, h4⟩ := ht
  cases hn : t.NextToken with
  | error e => exact trivial
  | ok s =>
    obtain ⟨e1, e2, e3, _⟩ := NextToken_ok t s hn
    refine Outcome.val ⟨e2.trans h1, e3, ?_, by omega⟩
    rw [e1, countId_take_succ id toks t.ncur t.cur (by rw [← h1]; exact h2), h3]

theorem count_next_same (toks : List Token) (id : String) (G : List String) (hG : id ∉ G)
    (k a : Nat) (t : Tree)
    (ht : t.tokens = toks ∧ t.Coherent ∧ countId id (toks.take t.ncur) = k ∧ a ≤ t.ncur)
    (hid : t.cur.Id ∈ G) :
    Outcome (fun _ => True) t.NextToken (fun s => s.tokens = toks ∧ s.Coherent ∧
      countId id (toks.take s.ncur) = k ∧ a ≤ s.ncur) := by
  have hne : ¬ t.cur.Id = id := fun h => hG (h ▸ hid)
  have h := count_next toks id k a t ht
  rw [if_neg hne] at h
  exact h

/-- A rule takes the cursor forward over exactly one token `::=`. -/
theorem ParseRule_count (toks : List Token) (n : Nat) (t : Tree) (r : Node) (s : Tree)
    (h1 : t.tokens = toks) (h2 : t.Coherent) (h : Tree.ParseRule n t = .ok (r, s)) :
    s.tokens = toks ∧ s.Coherent ∧
    countId "::=" (toks.take s.ncur) = countId "::=" (toks.take t.ncur) + 1 ∧
    t.ncur < s.ncur ∧ r.id = "rule" ∧ s.root = t.root := by
  have hout := ParseRule_out
    (I := fun s => s.tokens = toks ∧ s.Coherent ∧
      countId "::=" (toks.take s.ncur) = countId "::=" (toks.take t.ncur) ∧ t.ncur ≤ s.ncur)
    (J := fun s => s.tokens = toks ∧ s.Coherent ∧
      countId "::=" (toks.take s.ncur) = countId "::=" (toks.take t.ncur) + 1 ∧ t.ncur ≤ s.ncur)
    (E := fun _ => True) (G := belowIds ++ ["@", "?"]) trivial (fun _ _ _ => trivial)
    (fun _ _ _ => trivial)
    (fun u hu hid => count_next_same toks "::=" _ (by decide) _ _ u hu hid)
    (fun _ h => h)
    (fun u hu hid => by
      have h := count_next toks "::=" _ _ u hu
      rw [if_pos hid] at h
      exact h)
    (fun u hu hid => count_next_same toks "::=" _ (by decide) _ _ u hu hid)
    (fun u R hu => hu) n (t := t) ⟨h1, h2, rfl, Nat.le_refl _⟩
  obtain ⟨e1, e2, e3, e4⟩ := Outcome.of_eq_ok hout h
  obtain ⟨q1, q2, _⟩ := ParseRule_spec n t _ h
  dsimp only at e1 e2 e3 e4 q1 q2
  refine ⟨e1, e2, e3, ?_, q2, q1⟩
  rcases Nat.lt_or_ge t.ncur s.ncur with hlt | hge
  · exact hlt
  · have heq : s.ncur = t.ncur := Nat.le_antisymm hge e4
    rw [heq] at e3
    omega

theorem AddChild_childrens (n c : Node) : (n.AddChild c).childrens = n.childrens ++ [c] := rfl

@[simp] theorem AddChild_id (n c : Node) : (n.AddChild c).id = n.id := rfl

/-- The loop of `ParseGrammar` adds to the root the chain of the rules up to `endoffile`. -/
theorem ParseGrammarLoop_chain (toks : List Token) :
    ∀ (n : Nat) (t e : Tree), t.tokens = toks → t.Coherent →
      Tree.ParseGrammarLoop n t = .ok e →
      ∃ rs, Tree.RuleChain n t rs e ∧ e.root.childrens = t.root.childrens ++ rs ∧
        e.root.id = t.root.id ∧ e.tokens = toks ∧ e.Coherent ∧
        countId "::=" (toks.take e.ncur) = countId "::=" (toks.take t.ncur) + rs.length ∧
        (∀ r ∈ rs, r.id = "rule") ∧ e.cur.Id = "endoffile" := by
  intro n
  induction n with
  | zero => intro t e _ _ h; simp [Tree.ParseGrammarLoop] at h
  | succ n ih =>
    intro t e h1 h2 h
    rw [Tree.ParseGrammarLoop] at h
    split_ifs at h with hc
    · cases hr : Tree.ParseRule n t with
      | error err => simp [hr, bind, Except.bind] at h
      | ok res =>
        obtain ⟨r, s⟩ := res
        simp only [hr, bind, Except.bind] at h
        obtain ⟨q1, q2, q3, q4, q5, q6⟩ := ParseRule_count toks n t r s h1 h2 hr
        obtain ⟨rs, c1, c2, c3, c4, c5, c6, c7, c8⟩ :=
          ih { s with root := s.root.AddChild r } e q1 q2 h
        refine ⟨r :: rs, ⟨by simpa using hc, s, ParseRule_mono (Nat.le_succ n) hr, q4, ?_,
          RuleChain_mono (Nat.le_succ n) _ _ _ c1⟩, ?_, ?_, c4, c5, ?_, ?_, c8⟩
        · rw [h1]; exact q3
        · rw [c2]
          simp only [AddChild_childrens, q6, List.append_assoc, List.singleton_append]
        · rw [c3]
          simp only [AddChild_id, q6]
        · rw [c6]
          show countId "::=" (toks.take s.ncur) + rs.length = _
          rw [q3]
          simp only [List.length_cons]
          omega
        · intro x hx
          rcases List.mem_cons.mp hx with rfl | hx
          · exact q5
          · exact c7 x hx
    · simp only [pure, Except.pure, Except.ok.injEq] at h
      subst h
      have hid : t.CheckTokenId "endoffile" = true := by simpa using hc
      exact ⟨[], ⟨rfl, hid⟩, by simp, rfl, h1, h2, by simp, by simp,
        (CheckTokenId_iff _ _).mp hid⟩


/-- C15. When `ParseGrammar` succeeds on a token sequence that ends in its only `endoffile`
token, read from its first token, the root node has kind `grammar`, every child of the root
has kind `rule`, there are as many children as the sequence has tokens `::=`, and the children
are, in order, the rules that `ParseRule` returns one after the other from the first token
after the leading newlines up to `endoffile`, each taking the cursor over exactly one
`::=`. -/
theorem grammar_children (n : Nat) (t0 t : Tree) (hseq : endsInEndoffile t0.tokens = true)
    (hc : t0.Coherent) (h0 : t0.ncur = 0) (h : Tree.ParseGrammar n t0 = .ok t) :
    t.root.id = "grammar" ∧ (∀ c ∈ t.root.childrens, c.id = "rule") ∧
    t.root.childrens.length = countId "::=" t0.tokens ∧
    ∃ s0, Tree.SkipNewlines n { t0 with root := NewNode "grammar" t0.cur } = .ok s0 ∧
      Tree.RuleChain n s0 t.root.childrens t := by
  cases n with
  | zero => simp [Tree.ParseGrammar] at h
  | succ n =>
    rw [Tree.ParseGrammar] at h
    simp only [NewNode_of_tree] at h
    cases hs : Tree.SkipNewlines n { t0 with root := NewNode "grammar" t0.cur } with
    | error err => simp [hs, bind, Except.bind] at h
    | ok s0 =>
      simp only [hs, bind, Except.bind] at h
      have hskip := SkipNewlines_out
        (I := fun s => (s.tokens = t0.tokens ∧ s.Coherent ∧
          countId "::=" (t0.tokens.take s.ncur) = 0 ∧ 0 ≤ s.ncur) ∧
          s.root = NewNode "grammar" t0.cur)
        (E := fun _ => True) (G := ["newline"]) trivial
        (fun u hu hid => by
          have h1 := count_next_same t0.tokens "::=" ["newline"] (by decide) 0 0 u hu.1 hid
          cases hn : u.NextToken with
          | error e => exact trivial
          | ok v =>
            rw [hn] at h1
            exact Outcome.val ⟨h1, (NextToken_ok u v hn).2.2.2.2.2.1.trans hu.2⟩)
        (by decide) n (t := { t0 with root := NewNode "grammar" t0.cur })
        ⟨⟨rfl, hc, by simp [h0, countId], Nat.zero_le _⟩, rfl⟩
      obtain ⟨⟨e1, e2, e3, _⟩, e4⟩ := Outcome.of_eq_ok hskip hs
      obtain ⟨rs, c1, c2, c3, c4, c5, c6, c7, c8⟩ :=
        ParseGrammarLoop_chain t0.tokens n s0 t e1 e2 h
      have hch : t.root.childrens = rs := by
        rw [c2, e4]
        simp [NewNode]
      have hlast := endoffile_is_last t (by rw [c4]; exact hseq) c5 c8
      have hlen : t.ncur + 1 = t0.tokens.length := by rw [← c4]; exact hlast
      have hcount := countId_take_succ "::=" t0.tokens t.ncur t.cur (by rw [← c4]; exact c5)
      rw [hlen, List.take_length, c6, e3, if_neg (by rw [c8]; decide)] at hcount
      refine ⟨by rw [c3, e4]; rfl, by rw [hch]; exact c7, ?_,
        s0, SkipNewlines_mono (Nat.le_succ n) hs, ?_⟩
      · rw [hch, hcount]
        omega
      · rw [hch]
        exact RuleChain_mono (Nat.le_succ n) _ _ _ c1

/-- Witness for C15: the three rules of the scenario for C1 give three children for three
tokens `::=`. -/
theorem grammar_children_witness :
    tokensOf dupLines = dupToks ∧ endsInEndoffile dupToks = true ∧
    countId "::=" dupToks = 3 ∧
    (valueOf (Tree.ParseGrammar 20 (treeAt dupToks dupLines 0))
      (treeAt dupToks dupLines 0)).root.childrens.length = countId "::=" dupToks :=
  ⟨by decide!, by decide, by decide,
    (grammar_children 20 (treeAt dupToks dupLines 0) _ (by decide) rfl rfl
      (eq_ok_valueOf _ (treeAt dupToks dupLines 0) (by decide!))).2.2.1⟩

/-- C16, the claim as stated fails: `x a, ::= y` is not rejected. The parse succeeds, and the
pattern of the rule has the one child `patlist[listop, patatom(a)]`; two commas in a row are
accepted as well. -/
theorem comma_without_operand_accepted :
    tokensOf commaLines = commaToks ∧
    returns (frontend 20 "g".toList commaLines) = true ∧
    ((Tree.ParsePaterns 10 (treeAt commaToks commaLines 1)).toOption.map
        (fun r => r.1.childrens.map (fun c => c.childrens.map (fun d => d.id)))) =
      some [["listop", "patatom"]] ∧
    returns (frontend 20 "g".toList twoCommaLines) = true := by
  decide!


/-- C16 as amended: a comma of a list form need not be followed by an operand. When the
current token is `,` and the token after it cannot start a patatom, the loop of `ParsePatList`
takes the comma, adds no child, raises no error and goes on at the token after it; if that
token is not a comma either, the list ends there. Likewise the loop of `ParseExpression` when
the token after the comma cannot start an expr. -/
theorem comma_without_operand (n : Nat) (node : Node) (t t1 : Tree)
    (hcomma : t.CheckTokenId "," = true) (hnext : t.NextToken = .ok t1) :
    (t1.CheckTokenIdsOr ["identifier", "string", "number", "("] = false →
      Tree.ParsePatListLoop (n + 1) node t = Tree.ParsePatListLoop n node t1 ∧
      (t1.CheckTokenId "," = false → Tree.ParsePatListLoop (n + 2) node t = .ok (node, t1))) ∧
    (t1.CheckTokenIdsOr ["identifier", "number", "string", "(", "["] = false →
      Tree.ParseExpressionLoop (n + 1) node t = Tree.ParseExpressionLoop n node t1 ∧
      (t1.CheckTokenId "," = false →
        Tree.ParseExpressionLoop (n + 2) node t = .ok (node, t1))) := by
  constructor
  · intro hop
    have hstep : ∀ k, Tree.ParsePatListLoop (k + 1) node t = Tree.ParsePatListLoop k node t1 := by
      intro k
      rw [Tree.ParsePatListLoop]
      simp [hcomma, hnext, hop, bind, Except.bind]
    refine ⟨hstep n, fun hno => ?_⟩
    rw [hstep (n + 1), Tree.ParsePatListLoop]
    simp [hno, pure, Except.pure]
  · intro hop
    have hstep : ∀ k,
        Tree.ParseExpressionLoop (k + 1) node t = Tree.ParseExpressionLoop k node t1 := by
      intro k
      rw [Tree.ParseExpressionLoop]
      simp [hcomma, hnext, hop, bind, Except.bind]
    refine ⟨hstep n, fun hno => ?_⟩
    rw [hstep (n + 1), Tree.ParseExpressionLoop]
    simp [hno, pure, Except.pure]

/-- Witness for C16: in `x a, ::= y` the comma is followed by `::=`. -/
theorem comma_without_operand_witness :
    (treeAt commaToks commaLines 2).CheckTokenId "," = true ∧
    (treeAt commaToks commaLines 3).CheckTokenIdsOr ["identifier", "string", "number", "("] =
      false ∧
    Tree.ParsePatListLoop 2 (NewNode "patlist" (NewToken "identifier" 0 2 "a".toList))
        (treeAt commaToks commaLines 2) =
      .ok (NewNode "patlist" (NewToken "identifier" 0 2 "a".toList),
        treeAt commaToks commaLines 3) :=
  ⟨by decide, by decide,
    ((comma_without_operand 0 _ (treeAt commaToks commaLines 2) (treeAt commaToks commaLines 3)
      (by decide) rfl).1 (by decide)).2 (by decide)⟩

/-- C19, at the failing input `x ::= )`: the syntax error is reported on the token `)` at line
1, column 7, and the caret line has `8 * (7 - 1) = 48` spaces before the caret, not the
`8 + (7 - 1) = 14` that would put it under the `)` of the printed source line. -/
theorem parse_error_caret :
    failureOf (frontend 20 "g".toList parenLines) =
      some (Failure.panic ("g:1(7): on token `)' error: identifier, number^ string, [ or ( expected".toList
        ++ "\n".toList ++ spaces 8 ++ "x ::= )".toList ++ "\n".toList ++ spaces 48 ++
        "^".toList)) := by
  decide!

/-! ## Every `expr` node has atoms -/

@[simp] theorem NewNode_id (id : String) (tok : Token) : (NewNode id tok).id = id := rfl

theorem NewNode_childrens (id : String) (tok : Token) :
    (NewNode id tok).childrens = [] := rfl

@[simp] theorem All_AddChild_exprHasAtoms (n c : Node) :
    (n.AddChild c).All Node.exprHasAtoms =
      ((!(n.id == "expr") || (n.childrens.all (fun c => c.id == "atom") && c.id == "atom")) &&
        (Node.AllList Node.exprHasAtoms n.childrens && c.All Node.exprHasAtoms)) := by
  rw [All_eq, AllList_AddChild]
  cases hch : n.childrens <;> simp [Node.exprHasAtoms, Node.AddChild, hch, Bool.and_assoc]

@[simp] theorem All_NewNode_exprHasAtoms (id : String) (tok : Token) :
    (NewNode id tok).All Node.exprHasAtoms = !(id == "expr") := by
  rw [All_eq]
  simp [Node.exprHasAtoms, NewNode, Node.AllList]

theorem exprHasAtoms_of_All {n : Node} (h : n.All Node.exprHasAtoms = true)
    (hid : n.id = "expr") :
    n.childrens ≠ [] ∧ n.childrens.all (fun c => c.id == "atom") = true := by
  rw [All_eq] at h
  simp only [Bool.and_eq_true, Node.exprHasAtoms, hid, beq_self_eq_true, Bool.not_true,
    Bool.false_or, Bool.not_eq_true', List.isEmpty_eq_false] at h
  exact ⟨by simpa using h.1.1, h.1.2⟩

theorem ParseIdentifier_atoms (t : Tree) :
    Ensures t.ParseIdentifier (fun r => r.1.All Node.exprHasAtoms = true) :=
  Ensures.mono (ParseIdentifier_node t) (fun r hr => by rw [hr.1]; simp)

theorem ParseLiteral_atoms (t : Tree) :
    Ensures t.ParseLiteral (fun r => r.1.All Node.exprHasAtoms = true) := by
  intro r hr
  simp only [Tree.ParseLiteral, Tree.ParseString, Tree.ParseNumber] at hr
  split_ifs at hr <;>
    first
    | cases hr
    | (cases hn : t.NextToken with
       | error e => simp [hn, bind, Except.bind] at hr
       | ok s =>
         simp only [hn, bind, Except.bind, pure, Except.pure] at hr
         cases hr
         simp)

theorem pat_atoms (n : Nat) :
    (∀ t, Ensures (Tree.ParsePatList n t) (fun r => r.1.All Node.exprHasAtoms = true)) ∧
    (∀ node t, (node.id == "expr") = false → node.All Node.exprHasAtoms = true →
      Ensures (Tree.ParsePatListLoop n node t) (fun r => r.1.All Node.exprHasAtoms = true)) ∧
    (∀ t, Ensures (Tree.ParsePatatom n t) (fun r => r.1.All Node.exprHasAtoms = true)) := by
  induction n with
  | zero =>
    refine ⟨fun _ => ?_, fun _ _ _ _ => ?_, fun _ => ?_⟩ <;> exact Ensures.error
  | succ n ih =>
    obtain ⟨ih1, ih2, ih3⟩ := ih
    refine ⟨fun t => ?_, fun node t hid hg => ?_, fun t => ?_⟩
    · rw [Tree.ParsePatList]
      refine Ensures.bind (ih3 t) ?_
      rintro ⟨c, t⟩ hc
      dsimp only at hc ⊢
      split_ifs
      · refine Ensures.bind (P := fun _ => True) (fun _ _ => trivial) (fun t _ => ?_)
        refine Ensures.bind (ih1 t) ?_
        rintro ⟨c, t⟩ hc
        exact Ensures.pure (by simp_all)
      · exact ih2 _ _ (by simp) (by simp_all)
      · exact Ensures.pure (by simp_all)
    · rw [Tree.ParsePatListLoop]
      have hk := AllList_of_All hg
      split_ifs
      · refine Ensures.bind (P := fun _ => True) (fun _ _ => trivial) (fun t _ => ?_)
        dsimp only
        split_ifs
        · refine Ensures.bind (ih3 t) ?_
          rintro ⟨c, t⟩ hc
          exact ih2 _ _ (by simpa using hid) (by simp_all)
        · exact ih2 _ _ hid hg
      · exact Ensures.pure hg
    · rw [Tree.ParsePatatom]
      dsimp only
      split_ifs
      · refine Ensures.bind (ParseIdentifier_atoms t) ?_
        rintro ⟨c, t⟩ hc
        exact Ensures.pure (by simp_all)
      · refine Ensures.bind (ParseLiteral_atoms t) ?_
        rintro ⟨c, t⟩ hc
        exact Ensures.pure (by simp_all)
      · refine Ensures.bind (P := fun _ => True) (fun _ _ => trivial) (fun t _ => ?_)
        refine Ensures.bind (P := fun (r : Node × Tree) => r.1.All Node.exprHasAtoms = true) ?_ ?_
        · split_ifs
          · exact Ensures.pure (by simp)
          · refine Ensures.bind (ih1 t) ?_
            rintro ⟨c, t⟩ hc
            dsimp only
            split_ifs
            · exact Ensures.error
            · exact Ensures.pure (by simp_all)
        · rintro ⟨c, t⟩ hc
          exact Ensures.bind (P := fun _ => True) (fun _ _ => trivial)
            (fun t _ => Ensures.pure hc)
      · exact Ensures.error

theorem ParsePaternsLoop_atoms (n : Nat) :
    ∀ node t, (node.id == "expr") = false → node.All Node.exprHasAtoms = true →
      Ensures (Tree.ParsePaternsLoop n node t) (fun r => r.1.All Node.exprHasAtoms = true) := by
  induction n with
  | zero => exact fun _ _ _ _ => Ensures.error
  | succ n ih =>
    intro node t hid hg
    have hk := AllList_of_All hg
    rw [Tree.ParsePaternsLoop]
    split_ifs
    · refine Ensures.bind ((pat_atoms n).1 t) ?_
      rintro ⟨c, t⟩ hc
      exact ih _ _ (by simpa using hid) (by simp_all)
    · exact Ensures.pure hg

theorem ParsePaterns_atoms (n : Nat) (t : Tree) :
    Ensures (Tree.ParsePaterns n t) (fun r => r.1.All Node.exprHasAtoms = true) :=
  ParsePaternsLoop_atoms n _ t (by simp) (by simp)

theorem expr_atoms (n : Nat) :
    (∀ t, Ensures (Tree.ParseExpression n t) (fun r => r.1.All Node.exprHasAtoms = true)) ∧
    (∀ node t, (node.id == "expr") = false → node.All Node.exprHasAtoms = true →
      Ensures (Tree.ParseExpressionLoop n node t)
        (fun r => r.1.All Node.exprHasAtoms = true)) ∧
    (∀ t, Ensures (Tree.ParseExpr n t) (fun r => r.1.All Node.exprHasAtoms = true)) ∧
    (∀ node t, node.id = "expr" → node.All Node.exprHasAtoms = true →
      Ensures (Tree.ParseExprLoop n node t) (fun r => r.1.All Node.exprHasAtoms = true)) ∧
    (∀ t, Ensures (Tree.ParseAtom n t)
      (fun r => r.1.All Node.exprHasAtoms = true ∧ r.1.id = "atom")) := by
  induction n with
  | zero =>
    refine ⟨fun _ => ?_, fun _ _ _ _ => ?_, fun _ => ?_, fun _ _ _ _ => ?_, fun _ => ?_⟩ <;>
      exact Ensures.error
  | succ n ih =>
    obtain ⟨ih1, ih2, ih3, ih4, ih5⟩ := ih
    refine ⟨fun t => ?_, fun node t hid hg => ?_, fun t => ?_, fun node t hid hg => ?_,
      fun t => ?_⟩
    · rw [Tree.ParseExpression]
      refine Ensures.bind (ih3 t) ?_
      rintro ⟨c, t⟩ hc
      dsimp only at hc ⊢
      split_ifs
      · exact ih2 _ _ (by simp) (by simp_all)
      · refine Ensures.bind Ensures.trivial (fun t _ => ?_)
        refine Ensures.bind (ih1 t) ?_
        rintro ⟨c, t⟩ hc
        exact Ensures.pure (by simp_all)
      · exact Ensures.pure (by simp_all)
    · rw [Tree.ParseExpressionLoop]
      have hk := AllList_of_All hg
      split_ifs
      · refine Ensures.bind Ensures.trivial (fun t _ => ?_)
        dsimp only
        split_ifs
        · refine Ensures.bind (ih3 t) ?_
          rintro ⟨c, t⟩ hc
          exact ih2 _ _ (by simpa using hid) (by simp_all)
        · exact ih2 _ _ hid hg
      · exact Ensures.pure hg
    · rw [Tree.ParseExpr]
      refine Ensures.bind (P := fun (r : Node × Tree) =>
        r.1.All Node.exprHasAtoms = true ∧ r.1.id = "expr") ?_ ?_
      · split_ifs
        · refine Ensures.bind (ih5 t) ?_
          rintro ⟨c, t⟩ ⟨hc, hca⟩
          exact Ensures.pure ⟨by simp_all [NewNode_childrens, Node.AllList], rfl⟩
        · exact Ensures.error
      · rintro ⟨c, t⟩ ⟨hc, hce⟩
        exact ih4 _ _ hce hc
    · rw [Tree.ParseExprLoop]
      have hk := AllList_of_All hg
      obtain ⟨_, hall⟩ := exprHasAtoms_of_All hg hid
      split_ifs
      · refine Ensures.bind (ih5 t) ?_
        rintro ⟨c, t⟩ ⟨hc, hca⟩
        exact ih4 _ _ (by simpa using hid) (by simp_all)
      · exact Ensures.pure hg
    · rw [Tree.ParseAtom]
      dsimp only
      split_ifs
      · refine Ensures.bind (ParseIdentifier_atoms t) ?_
        rintro ⟨c, t⟩ hc
        exact Ensures.pure ⟨by simp_all, rfl⟩
      · refine Ensures.bind (ParseLiteral_atoms t) ?_
        rintro ⟨c, t⟩ hc
        exact Ensures.pure ⟨by simp_all, rfl⟩
      · refine Ensures.bind Ensures.trivial (fun t _ => ?_)
        refine Ensures.bind (P := fun (r : Node × Tree) =>
          r.1.All Node.exprHasAtoms = true ∧ r.1.id = "atom") ?_ ?_
        · split_ifs
          · exact Ensures.pure ⟨by simp, rfl⟩
          · refine Ensures.bind (ih1 t) ?_
            rintro ⟨c, t⟩ hc
            dsimp only
            split_ifs
            · exact Ensures.error
            · exact Ensures.pure ⟨by simp_all, rfl⟩
        · rintro ⟨c, t⟩ hc
          exact Ensures.bind Ensures.trivial (fun t _ => Ensures.pure hc)
      · exact Ensures.error
      · exact Ensures.error

theorem ParseSentence_atoms (n : Nat) (t : Tree) :
    Ensures (Tree.ParseSentence n t) (fun r => r.1.All Node.exprHasAtoms = true) := by
  cases n with
  | zero => exact Ensures.error
  | succ n =>
    rw [Tree.ParseSentence]
    refine Ensures.bind ((expr_atoms n).1 t) ?_
    rintro ⟨c, t⟩ hc
    exact Ensures.pure (by simp_all)

theorem ParseSimpleVariant_atoms (n : Nat) (t : Tree) :
    Ensures (Tree.ParseSimpleVariant n t) (fun r => r.1.All Node.exprHasAtoms = true) := by
  cases n with
  | zero => exact Ensures.error
  | succ n =>
    rw [Tree.ParseSimpleVariant]
    refine Ensures.bind (ParseSentence_atoms n t) ?_
    rintro ⟨c, t⟩ hc
    exact Ensures.pure (by simp_all)

theorem ParseMultilineVariantLoop_atoms (n : Nat) :
    ∀ node t, (node.id == "expr") = false → node.All Node.exprHasAtoms = true →
      Ensures (Tree.ParseMultilineVariantLoop n node t)
        (fun r => r.1.All Node.exprHasAtoms = true) := by
  induction n with
  | zero => exact fun _ _ _ _ => Ensures.error
  | succ n ih =>
    intro node t hid hg
    have hk := AllList_of_All hg
    rw [Tree.ParseMultilineVariantLoop]
    split_ifs
    · exact Ensures.bind Ensures.trivial (fun t _ => ih _ t (by simpa using hid) (by simp_all))
    · refine Ensures.bind (ParseSentence_atoms n t) ?_
      rintro ⟨c, t⟩ hc
      exact ih _ _ (by simpa using hid) (by simp_all)
    · exact Ensures.pure hg

theorem ParseMultilineVariant_atoms (n : Nat) (t : Tree) :
    Ensures (Tree.ParseMultilineVariant n t) (fun r => r.1.All Node.exprHasAtoms = true) := by
  cases n with
  | zero => exact Ensures.error
  | succ n =>
    rw [Tree.ParseMultilineVariant]
    dsimp only
    split_ifs
    · refine Ensures.bind Ensures.trivial (fun t _ => ?_)
      refine Ensures.bind (ParseMultilineVariantLoop_atoms n _ t (by simp) (by simp)) ?_
      rintro ⟨c, t⟩ hc
      dsimp only
      split_ifs
      · exact Ensures.bind Ensures.trivial (fun t _ => Ensures.pure hc)
      · exact Ensures.error
    · exact Ensures.error

theorem ParseVariant_atoms (n : Nat) (t : Tree) :
    Ensures (Tree.ParseVariant n t) (fun r => r.1.All Node.exprHasAtoms = true) := by
  cases n with
  | zero => exact Ensures.error
  | succ n =>
    rw [Tree.ParseVariant]
    refine Ensures.bind (P := fun (r : Node × Tree) =>
      r.1.All Node.exprHasAtoms = true ∧ (r.1.id == "expr") = false) ?_ ?_
    · split_ifs
      · refine Ensures.bind Ensures.trivial (fun t _ => ?_)
        dsimp only
        split_ifs
        · exact Ensures.bind Ensures.trivial (fun t _ => Ensures.pure ⟨by simp, by simp⟩)
        · exact Ensures.error
      · exact Ensures.pure ⟨by simp, by simp⟩
    · rintro ⟨node, t⟩ ⟨hg, hid⟩
      have hk := AllList_of_All hg
      dsimp only
      split_ifs
      · refine Ensures.bind (ParseMultilineVariant_atoms n t) ?_
        rintro ⟨c, t⟩ hc
        exact Ensures.pure (by simp_all)
      · refine Ensures.bind (ParseSimpleVariant_atoms n t) ?_
        rintro ⟨c, t⟩ hc
        exact Ensures.pure (by simp_all)

theorem ParseVariantsLoop_atoms (n : Nat) :
    ∀ node t, (node.id == "expr") = false → node.All Node.exprHasAtoms = true →
      Ensures (Tree.ParseVariantsLoop n node t) (fun r => r.1.All Node.exprHasAtoms = true) := by
  induction n with
  | zero => exact fun _ _ _ _ => Ensures.error
  | succ n ih =>
    intro node t hid hg
    have hk := AllList_of_All hg
    rw [Tree.ParseVariantsLoop]
    split_ifs
    · refine Ensures.bind Ensures.trivial (fun t _ => ?_)
      dsimp only
      split_ifs
      · refine Ensures.bind Ensures.trivial (fun t _ => ?_)
        refine Ensures.bind Ensures.trivial (fun t _ => ?_)
        refine Ensures.bind (ParseVariant_atoms n t) ?_
        rintro ⟨c, t⟩ hc
        exact ih _ _ (by simpa using hid) (by simp_all)
      · exact ih _ _ hid hg
    · exact Ensures.pure hg

theorem ParseVariants_atoms (n : Nat) (t : Tree) :
    Ensures (Tree.ParseVariants n t) (fun r => r.1.All Node.exprHasAtoms = true) := by
  cases n with
  | zero => exact Ensures.error
  | succ n =>
    rw [Tree.ParseVariants]
    refine Ensures.bind Ensures.trivial (fun s _ => ?_)
    refine Ensures.bind (ParseVariant_atoms n s) ?_
    rintro ⟨c, t⟩ hc
    exact ParseVariantsLoop_atoms n _ _ (by simp) (by simp_all)

theorem ParseDefinition_atoms (n : Nat) (t : Tree) :
    Ensures (Tree.ParseDefinition n t) (fun r => r.1.All Node.exprHasAtoms = true) := by
  cases n with
  | zero => exact Ensures.error
  | succ n =>
    rw [Tree.ParseDefinition]
    refine Ensures.bind ((pat_atoms n).2.2 t) ?_
    rintro ⟨c, t⟩ hc
    dsimp only at hc ⊢
    split_ifs
    · refine Ensures.bind Ensures.trivial (fun t _ => ?_)
      refine Ensures.bind ((expr_atoms n).2.2.1 t) ?_
      rintro ⟨c, t⟩ hc
      exact Ensures.pure (by simp_all)
    · exact Ensures.error

theorem ParseDefListLoop_atoms (n : Nat) :
    ∀ node t, (node.id == "expr") = false → node.All Node.exprHasAtoms = true →
      Ensures (Tree.ParseDefListLoop n node t) (fun r => r.1.All Node.exprHasAtoms = true) := by
  induction n with
  | zero => exact fun _ _ _ _ => Ensures.error
  | succ n ih =>
    intro node t hid hg
    have hk := AllList_of_All hg
    rw [Tree.ParseDefListLoop]
    split_ifs
    · refine Ensures.bind Ensures.trivial (fun t _ => ?_)
      refine Ensures.bind Ensures.trivial (fun t _ => ?_)
      refine Ensures.bind (ParseDefinition_atoms n t) ?_
      rintro ⟨c, t⟩ hc
      exact ih _ _ (by simpa using hid) (by simp_all)
    · exact Ensures.pure hg

theorem ParseDefList_atoms (n : Nat) (t : Tree) :
    Ensures (Tree.ParseDefList n t) (fun r => r.1.All Node.exprHasAtoms = true) := by
  cases n with
  | zero => exact Ensures.error
  | succ n =>
    rw [Tree.ParseDefList]
    refine Ensures.bind Ensures.trivial (fun s _ => ?_)
    refine Ensures.bind (ParseDefinition_atoms n s) ?_
    rintro ⟨c, t⟩ hc
    exact ParseDefListLoop_atoms n _ _ (by simp) (by simp_all)

theorem ParseCondlist_atoms (n : Nat) (t : Tree) :
    Ensures (Tree.ParseCondlist n t) (fun r => r.1.All Node.exprHasAtoms = true) := by
  cases n with
  | zero => exact Ensures.error
  | succ n =>
    rw [Tree.ParseCondlist]
    refine Ensures.bind ((expr_atoms n).2.2.1 t) ?_
    rintro ⟨c, t⟩ hc
    dsimp only at hc ⊢
    split_ifs
    · refine Ensures.bind Ensures.trivial (fun t _ => ?_)
      refine Ensures.bind Ensures.trivial (fun t _ => ?_)
      refine Ensures.bind ((expr_atoms n).2.2.1 t) ?_
      rintro ⟨c, t⟩ hc
      exact Ensures.pure (by simp_all)
    · exact Ensures.pure (by simp_all)

theorem ParseRule_atoms (n : Nat) (t : Tree) :
    Ensures (Tree.ParseRule n t) (fun r => r.1.All Node.exprHasAtoms = true) := by
  cases n with
  | zero => exact Ensures.error
  | succ n =>
    rw [Tree.ParseRule]
    refine Ensures.bind (ParseIdentifier_atoms t) ?_
    rintro ⟨c, t1⟩ hc
    refine Ensures.bind (ParsePaterns_atoms n t1) ?_
    rintro ⟨c2, t2⟩ hc2
    refine Ensures.bind Ensures.trivial (fun t3 _ => ?_)
    refine Ensures.bind (P := fun (r : Node × Tree) =>
      r.1.All Node.exprHasAtoms = true ∧ (r.1.id == "expr") = false) ?_ ?_
    · split_ifs
      · refine Ensures.bind Ensures.trivial (fun t4 _ => ?_)
        refine Ensures.bind (ParseDefList_atoms n t4) ?_
        rintro ⟨c3, t5⟩ hc3
        exact Ensures.pure ⟨by simp_all, by simp⟩
      · exact Ensures.pure ⟨by simp_all, by simp⟩
    rintro ⟨node, t4⟩ ⟨hg, hid⟩
    have hk := AllList_of_All hg
    refine Ensures.bind Ensures.trivial (fun t5 _ => ?_)
    refine Ensures.bind (P := fun (r : Node × Tree) =>
      r.1.All Node.exprHasAtoms = true ∧ (r.1.id == "expr") = false) ?_ ?_
    · split_ifs
      · refine Ensures.bind Ensures.trivial (fun t6 _ => ?_)
        refine Ensures.bind (ParseCondlist_atoms n t6) ?_
        rintro ⟨c3, t7⟩ hc3
        exact Ensures.pure ⟨by simp_all, by simpa using hid⟩
      · exact Ensures.pure ⟨hg, hid⟩
    rintro ⟨node, t6⟩ ⟨hg, hid⟩
    have hk := AllList_of_All hg
    refine Ensures.bind Ensures.trivial (fun t7 _ => ?_)
    refine Ensures.bind (P := fun (r : Node × Tree) => r.1.All Node.exprHasAtoms = true) ?_ ?_
    · split_ifs
      · refine Ensures.bind Ensures.trivial (fun t8 _ => ?_)
        refine Ensures.bind Ensures.trivial (fun t9 _ => ?_)
        refine Ensures.bind (ParseVariants_atoms n t9) ?_
        rintro ⟨c3, t10⟩ hc3
        exact Ensures.pure (by simp_all)
      · exact Ensures.error
    rintro ⟨node, t8⟩ hg
    intro r hr
    unfold Tree.recordRule at hr
    dsimp only at hr
    split at hr
    · split at hr
      · split_ifs at hr <;> (cases hr; exact hg)
      · cases hr
    · cases hr

theorem ParseGrammarLoop_atoms (n : Nat) :
    ∀ t : Tree, (t.root.id == "expr") = false → t.root.All Node.exprHasAtoms = true →
      Ensures (Tree.ParseGrammarLoop n t) (fun s => s.root.All Node.exprHasAtoms = true) := by
  induction n with
  | zero => exact fun _ _ _ => Ensures.error
  | succ n ih =>
    intro t hid hg
    have hk := AllList_of_All hg
    rw [Tree.ParseGrammarLoop]
    split_ifs
    · refine Ensures.bind (Ensures.and (ParseRule_atoms n t) (ParseRule_spec n t)) ?_
      rintro ⟨c, s⟩ ⟨hc, hroot, _⟩
      dsimp only at hc hroot
      refine ih _ (by simpa [hroot] using hid) ?_
      simp_all
    · exact Ensures.pure hg

theorem ParseGrammar_atoms (n : Nat) (t : Tree) :
    Ensures (Tree.ParseGrammar n t) (fun s => s.root.All Node.exprHasAtoms = true) := by
  cases n with
  | zero => exact Ensures.error
  | succ n =>
    rw [Tree.ParseGrammar]
    refine Ensures.bind
      (SkipNewlines_inv (Tree.Frame { t with root := t.NewNode "grammar" }) (Frame.next _) n
        (Frame.refl _)) (fun s hs => ?_)
    refine ParseGrammarLoop_atoms n s ?_ ?_
    · rw [hs.root]
      simp
    · rw [hs.root]
      simp


theorem ParseAtom_mono {n m : Nat} (h : n ≤ m) {t : Tree} {r : Node × Tree}
    (hr : Tree.ParseAtom n t = .ok r) : Tree.ParseAtom m t = .ok r :=
  FuelLe.lift_ok
    (FuelLe.of_le (fun k => Tree.ParseAtom k t) (fun k => (expr_step k).2.2.2.2 t) h) hr

theorem AtomChain_mono {n m : Nat} (h : n ≤ m) :
    ∀ (as : List Node) (s e : Tree), Tree.AtomChain n s as e → Tree.AtomChain m s as e := by
  intro as
  induction as with
  | nil => exact fun s e hc => hc
  | cons a as ih =>
    rintro s e ⟨s1, h1, h2⟩
    exact ⟨s1, ParseAtom_mono h h1, ih _ _ h2⟩

/-- The loop of `ParseExpr` adds the atoms that follow one another, up to the first token that
cannot start an atom. -/
theorem ParseExprLoop_chain :
    ∀ (n : Nat) (node : Node) (t : Tree) (r : Node × Tree),
      Tree.ParseExprLoop n node t = .ok r →
      ∃ atoms, Tree.AtomChain n t atoms r.2 ∧ r.1 = atoms.foldl Node.AddChild node ∧
        r.2.CheckTokenIdsOr ["identifier", "number", "string", "(", "["] = false ∧
        ∀ c ∈ atoms, c.id = "atom" := by
  intro n
  induction n with
  | zero => intro node t r h; simp [Tree.ParseExprLoop] at h
  | succ n ih =>
    intro node t r h
    rw [Tree.ParseExprLoop] at h
    split_ifs at h with hc
    · cases ha : Tree.ParseAtom n t with
      | error err => simp [ha, bind, Except.bind] at h
      | ok res =>
        obtain ⟨a, s1⟩ := res
        simp only [ha, bind, Except.bind] at h
        obtain ⟨atoms, c1, c2, c3, c4⟩ := ih _ _ _ h
        refine ⟨a :: atoms, ⟨s1, ParseAtom_mono (Nat.le_succ n) ha,
          AtomChain_mono (Nat.le_succ n) _ _ _ c1⟩, by rw [c2]; rfl, c3, ?_⟩
        intro c hmem
        rcases List.mem_cons.mp hmem with rfl | hmem
        · exact ((expr_atoms n).2.2.2.2 t _ ha).2
        · exact c4 c hmem
    · simp only [pure, Except.pure, Except.ok.injEq] at h
      subst h
      exact ⟨[], rfl, rfl, by simpa using hc, by simp⟩

/-- C17: at least one atom per expr. `ParseExpr` fails with its syntax error, returning no node,
whenever the current token is none of identifier, number, string, `(` and `[`. A node that it
returns is the `expr` node with the atoms that `ParseAtom` returns one directly after the
other from the cursor on, at least one, in this order and with nothing else between them, up
to the first token that cannot start an atom. So in every tree that `ParseGrammar` returns
every `expr` node has at least one child and all its children have kind `atom`. -/
theorem expr_has_atoms (n : Nat) (t : Tree) :
    (t.CheckTokenIdsOr ["identifier", "number", "string", "(", "["] = false →
      Tree.ParseExpr (n + 1) t =
        .error (t.ReportError "identifier, number^ string, [ or ( expected")) ∧
    (∀ node e, Tree.ParseExpr n t = .ok (node, e) →
      ∃ a atoms, Tree.AtomChain n t (a :: atoms) e ∧
        node = (a :: atoms).foldl Node.AddChild (NewNode "expr" t.cur) ∧
        e.CheckTokenIdsOr ["identifier", "number", "string", "(", "["] = false ∧
        ∀ c ∈ a :: atoms, c.id = "atom") ∧
    (∀ s, Tree.ParseGrammar n t = .ok s → s.root.All Node.exprHasAtoms = true) := by
  refine ⟨fun hc => ?_, fun node e h => ?_, fun s h => ParseGrammar_atoms n t s h⟩
  · rw [Tree.ParseExpr]
    simp [hc, bind, Except.bind]
  · cases n with
    | zero => simp [Tree.ParseExpr] at h
    | succ n =>
      rw [Tree.ParseExpr] at h
      simp only [NewNode_of_tree] at h
      split_ifs at h with hc
      · cases ha : Tree.ParseAtom n t with
        | error err => simp [ha, bind, Except.bind] at h
        | ok res =>
          obtain ⟨a, s1⟩ := res
          simp only [ha, bind, Except.bind, pure, Except.pure] at h
          obtain ⟨atoms, c1, c2, c3, c4⟩ := ParseExprLoop_chain n _ _ _ h
          refine ⟨a, atoms, ⟨s1, ParseAtom_mono (Nat.le_succ n) ha,
            AtomChain_mono (Nat.le_succ n) _ _ _ c1⟩, c2, c3, ?_⟩
          intro c hmem
          rcases List.mem_cons.mp hmem with rfl | hmem
          · exact ((expr_atoms n).2.2.2.2 t _ ha).2
          · exact c4 c hmem
      · simp [bind, Except.bind] at h

/-- Witness for C17: in scenario C, `ParseExpr` on the token `:` fails, and in the tree of the
whole parse every `expr` node has atoms. -/
theorem expr_has_atoms_witness :
    (treeAt consToks (consLines ++ [[]]) 2).CheckTokenIdsOr
      ["identifier", "number", "string", "(", "["] = false ∧
    Tree.ParseExpr 6 (treeAt consToks (consLines ++ [[]]) 2) =
      .error ((treeAt consToks (consLines ++ [[]]) 2).ReportError
        "identifier, number^ string, [ or ( expected") ∧
    (valueOf (Tree.ParseGrammar 20 (treeAt consToks (consLines ++ [[]]) 0))
      (treeAt consToks (consLines ++ [[]]) 0)).root.All Node.exprHasAtoms = true :=
  ⟨by decide, (expr_has_atoms 5 (treeAt consToks (consLines ++ [[]]) 2)).1 (by decide),
    (expr_has_atoms 20 (treeAt consToks (consLines ++ [[]]) 0)).2.2 _
      (eq_ok_valueOf _ _ (by decide!))⟩

/-! ## The body of a multiline variant -/

theorem ParseSentence_mono {n m : Nat} (h : n ≤ m) {t : Tree} {r : Node × Tree}
    (hr : Tree.ParseSentence n t = .ok r) : Tree.ParseSentence m t = .ok r :=
  FuelLe.lift_ok
    (FuelLe.of_le (fun k => Tree.ParseSentence k t) (fun k => ParseSentence_step k t) h) hr

theorem ItemChain_mono {n m : Nat} (h : n ≤ m) :
    ∀ (cs : List Node) (s e : Tree), Tree.ItemChain n s cs e → Tree.ItemChain m s cs e := by
  intro cs
  induction cs with
  | nil => exact fun s e hc => hc
  | cons c cs ih =>
    rintro s e (⟨h1, h2, s1, h3, h4⟩ | ⟨h1, s1, h2, h3, h4, h5⟩)
    · exact Or.inl ⟨h1, h2, s1, h3, ih _ _ h4⟩
    · exact Or.inr ⟨h1, s1, ParseSentence_mono h h2, h3, h4, ih _ _ h5⟩

theorem ParseSentence_id (n : Nat) (t : Tree) :
    Ensures (Tree.ParseSentence n t) (fun r => r.1.id = "sentence") := by
  cases n with
  | zero => exact Ensures.error
  | succ n =>
    rw [Tree.ParseSentence]
    refine Ensures.bind Ensures.trivial ?_
    rintro ⟨c, t⟩ _
    exact Ensures.pure rfl

/-- A sentence takes no `newline` token. -/
theorem ParseSentence_count (n : Nat) (t : Tree) (c : Node) (s : Tree) (h2 : t.Coherent)
    (h : Tree.ParseSentence n t = .ok (c, s)) :
    s.tokens = t.tokens ∧ s.Coherent ∧
    countId "newline" (t.tokens.take s.ncur) = countId "newline" (t.tokens.take t.ncur) ∧
    c.id = "sentence" := by
  have hout := ParseSentence_out
    (I := fun s => s.tokens = t.tokens ∧ s.Coherent ∧
      countId "newline" (t.tokens.take s.ncur) = countId "newline" (t.tokens.take t.ncur) ∧
      0 ≤ s.ncur)
    (E := fun _ => True) (G := exprIds) trivial (fun _ _ _ => trivial)
    (fun u hu hid => count_next_same t.tokens "newline" exprIds (by decide) _ _ u hu hid)
    (fun _ h => h) n (t := t) ⟨rfl, h2, rfl, Nat.zero_le _⟩
  obtain ⟨e1, e2, e3, _⟩ := Outcome.of_eq_ok hout h
  exact ⟨e1, e2, e3, ParseSentence_id n t _ h⟩

/-- The loop of `ParseMultilineVariant` adds one node for each item of the body. -/
theorem ParseMultilineVariantLoop_chain :
    ∀ (n : Nat) (node : Node) (t : Tree) (r : Node × Tree), t.Coherent →
      Tree.ParseMultilineVariantLoop n node t = .ok r →
      ∃ items, Tree.ItemChain n t items r.2 ∧ r.1 = items.foldl Node.AddChild node ∧
        r.2.Coherent ∧ r.2.tokens = t.tokens ∧
        (∀ c ∈ items, (c.id = "newline" ∧ c.childrens = []) ∨ c.id = "sentence") ∧
        countId "newline" (t.tokens.take r.2.ncur) =
          countId "newline" (t.tokens.take t.ncur) +
            (items.filter (fun c => c.id == "newline")).length := by
  intro n
  induction n with
  | zero => intro node t r _ h; simp [Tree.ParseMultilineVariantLoop] at h
  | succ n ih =>
    intro node t r hco h
    rw [Tree.ParseMultilineVariantLoop] at h
    split_ifs at h with hg hnl
    · cases hn : t.NextToken with
      | error err => simp [hn, bind, Except.bind] at h
      | ok s1 =>
        simp only [hn, bind, Except.bind, NewNode_of_tree] at h
        obtain ⟨q1, q2, q3, _⟩ := NextToken_ok t s1 hn
        obtain ⟨items, c1, c2, c3, c4, c5, c6⟩ := ih _ _ _ q3 h
        have hcount := countId_take_succ "newline" t.tokens t.ncur t.cur hco
        rw [if_pos ((CheckTokenId_iff _ _).mp hnl)] at hcount
        refine ⟨NewNode "newline" t.cur :: items,
          Or.inl ⟨hnl, rfl, s1, hn, ItemChain_mono (Nat.le_succ n) _ _ _ c1⟩, by rw [c2]; rfl,
          c3, c4.trans q2, ?_, ?_⟩
        · intro c hmem
          rcases List.mem_cons.mp hmem with rfl | hmem
          · exact Or.inl ⟨rfl, rfl⟩
          · exact c5 c hmem
        · rw [q2, q1, hcount] at c6
          have hf : ((NewNode "newline" t.cur :: items).filter
              (fun c => c.id == "newline")).length =
              (items.filter (fun c => c.id == "newline")).length + 1 := by
            simp [List.filter_cons, NewNode]
          rw [c6, hf]
          omega
    · cases hs : Tree.ParseSentence n t with
      | error err => simp [hs, bind, Except.bind] at h
      | ok res =>
        obtain ⟨c, s1⟩ := res
        simp only [hs, bind, Except.bind] at h
        obtain ⟨q1, q2, q3, q4⟩ := ParseSentence_count n t c s1 hco hs
        obtain ⟨items, c1, c2, c3, c4, c5, c6⟩ := ih _ _ _ q2 h
        refine ⟨c :: items,
          Or.inr ⟨by simpa using hnl, s1, ParseSentence_mono (Nat.le_succ n) hs, q4, q3,
            ItemChain_mono (Nat.le_succ n) _ _ _ c1⟩, by rw [c2]; rfl, c3, c4.trans q1, ?_, ?_⟩
        · intro d hmem
          rcases List.mem_cons.mp hmem with rfl | hmem
          · exact Or.inr q4
          · exact c5 d hmem
        · rw [q1, q3] at c6
          rw [c6]
          simp [List.filter_cons, q4]
    · simp only [pure, Except.pure, Except.ok.injEq] at h
      subst h
      exact ⟨[], rfl, rfl, hco, rfl, by simp, by simp⟩


/-- C18: newlines inside a multiline variant are kept. When `ParseMultilineVariant` accepts
`{` items `}`, the children of the returned `multilinevariant` node are, in source order, the
items between the braces: a childless `newline` node for each `newline` token at which an item
starts, and the `sentence` node of each sentence. The number of `newline` children is the
number of `newline` tokens between the braces, so none of them is discarded. -/
theorem multiline_newlines_kept (n : Nat) (t e1 : Tree) (node : Node)
    (h : Tree.ParseMultilineVariant n t = .ok (node, e1)) :
    ∃ items s0 e, t.CheckTokenId "\x7b" = true ∧ t.NextToken = .ok s0 ∧
      Tree.ItemChain n s0 items e ∧ e.CheckTokenId "\x7d" = true ∧ e.NextToken = .ok e1 ∧
      node = items.foldl Node.AddChild (NewNode "multilinevariant" t.cur) ∧
      node.childrens = items ∧
      (∀ c ∈ items, (c.id = "newline" ∧ c.childrens = []) ∨ c.id = "sentence") ∧
      countId "newline" (t.tokens.take e.ncur) =
        countId "newline" (t.tokens.take s0.ncur) +
          (items.filter (fun c => c.id == "newline")).length := by
  cases n with
  | zero => simp [Tree.ParseMultilineVariant] at h
  | succ n =>
    rw [Tree.ParseMultilineVariant] at h
    simp only [NewNode_of_tree] at h
    split_ifs at h with hopen
    cases hn : t.NextToken with
    | error err => simp [hn, bind, Except.bind] at h
    | ok s0 =>
      simp only [hn, bind, Except.bind] at h
      obtain ⟨q1, q2, q3, _⟩ := NextToken_ok t s0 hn
      cases hl : Tree.ParseMultilineVariantLoop n (NewNode "multilinevariant" t.cur) s0 with
      | error err => simp [hl] at h
      | ok res =>
        obtain ⟨nd, e⟩ := res
        simp only [hl] at h
        split_ifs at h with hclose
        cases hn2 : e.NextToken with
        | error err => simp [hn2] at h
        | ok e2 =>
          simp only [hn2, pure, Except.pure, Except.ok.injEq, Prod.mk.injEq] at h
          obtain ⟨h1, h2⟩ := h
          subst h1 h2
          obtain ⟨items, c1, c2, c3, c4, c5, c6⟩ := ParseMultilineVariantLoop_chain n _ _ _ q3 hl
          dsimp only at c1 c2 c3 c4 c5 c6
          refine ⟨items, s0, e, hopen, rfl, ItemChain_mono (Nat.le_succ n) _ _ _ c1, hclose, hn2,
            c2, ?_, c5, ?_⟩
          · rw [c2, foldl_AddChild_childrens]
            rfl
          · rw [← q2]
            exact c6

/-- Witness for C18: the body of two sentences on lines of their own has the children newline,
sentence, newline, sentence, newline. -/
theorem multiline_newlines_kept_witness :
    tokensOf multiLines = multiToks ∧
    Tree.ParseMultilineVariant 12 (treeAt multiToks multiLines 2) = .ok multiResult ∧
    multiResult.1.childrens.map (fun c => c.id) =
      ["newline", "sentence", "newline", "sentence", "newline"] ∧
    ∃ items s0 e, Tree.ItemChain 12 s0 items e ∧ multiResult.1.childrens = items ∧
      countId "newline" (multiToks.take e.ncur) =
        countId "newline" (multiToks.take s0.ncur) +
          (items.filter (fun c => c.id == "newline")).length := by
  have h : Tree.ParseMultilineVariant 12 (treeAt multiToks multiLines 2) = .ok multiResult :=
    eq_ok_valueOf _ _ (by decide!)
  obtain ⟨items, s0, e, _, _, h3, _, _, _, h7, _, h9⟩ :=
    multiline_newlines_kept 12 (treeAt multiToks multiLines 2) multiResult.2 multiResult.1 h
  exact ⟨by decide!, h, by decide!, items, s0, e, h3, h7, h9⟩

/-! ## The operand tokens of the tree are the operand tokens of the token sequence -/

theorem operands_eq (n : Node) :
    n.operands =
      (if (operandKind n.id && n.childrens.isEmpty) || n.id == "power" then n.token.toList
        else []) ++ Node.operandsList n.childrens := by
  cases n
  simp [Node.operands]

theorem operandsList_append (l : List Node) (c : Node) :
    Node.operandsList (l ++ [c]) = Node.operandsList l ++ c.operands := by
  induction l with
  | nil => simp [Node.operandsList]
  | cons a l ih => simp [Node.operandsList, ih]

theorem operands_NewNode (id : String) (tok : Token) :
    (NewNode id tok).operands = if operandKind id || id == "power" then [tok] else [] := by
  rw [operands_eq]
  simp [NewNode, Node.operandsList]

theorem operands_AddChild (n c : Node) (h : operandKind n.id = false) :
    (n.AddChild c).operands = n.operands ++ c.operands := by
  rw [operands_eq, operands_eq n]
  simp [Node.AddChild, h, operandsList_append]

theorem Seen_cast {toks : List Token} {t : Tree} {l l2 : List Token} (h : t.Seen toks l)
    (he : l = l2) : t.Seen toks l2 := he ▸ h

theorem operandTokens_take_succ (toks : List Token) (i : Nat) (tok : Token)
    (h : toks[i]? = some tok) :
    operandTokens (toks.take (i + 1)) =
      operandTokens (toks.take i) ++ if operandKind tok.Id then [tok] else [] := by
  rw [List.take_succ, h]
  simp only [operandTokens, Option.toList_some, List.filter_append, List.filter_cons,
    List.filter_nil]

theorem NextToken_seen {toks : List Token} {t : Tree} {l : List Token} (ht : t.Seen toks l) :
    Ensures t.NextToken
      (fun s => s.Seen toks (l ++ if operandKind t.cur.Id then [t.cur] else [])) := by
  intro s hs
  obtain ⟨h1, h2, h3⟩ := ht
  obtain ⟨e1, e2, e3, _⟩ := NextToken_ok t s hs
  refine ⟨e2.trans h1, e3, ?_⟩
  rw [e1, operandTokens_take_succ toks t.ncur t.cur (by rw [← h1]; exact h2), h3]

/-- A call of `NextToken` on a token that is no operand. -/
theorem NextToken_seen_skip {toks : List Token} {t : Tree} {l : List Token} (ht : t.Seen toks l)
    {id : String} (hid : t.CheckTokenId id = true) (hk : operandKind id = false) :
    Ensures t.NextToken (fun s => s.Seen toks l) := by
  intro s hs
  have h := NextToken_seen ht s hs
  rw [(CheckTokenId_iff t id).mp hid, hk] at h
  simpa using h

/-- A call of `NextToken` on an operand token. -/
theorem NextToken_seen_take {toks : List Token} {t : Tree} {l : List Token} (ht : t.Seen toks l)
    (id : String) (hid : t.CheckTokenId id = true) (hk : operandKind id = true) :
    Ensures t.NextToken (fun s => s.Seen toks (l ++ [t.cur])) := by
  intro s hs
  have h := NextToken_seen ht s hs
  rw [(CheckTokenId_iff t id).mp hid, hk] at h
  simpa using h

theorem ParseIdentifier_seen {toks : List Token} {t : Tree} {l : List Token}
    (ht : t.Seen toks l) :
    Ensures t.ParseIdentifier (fun r => r.2.Seen toks (l ++ r.1.operands)) := by
  rw [Tree.ParseIdentifier]
  split_ifs with h
  · exact Ensures.error
  · refine Ensures.bind (NextToken_seen_take ht "identifier" (by simpa using h) rfl) ?_
    intro s hs
    exact Ensures.pure (Seen_cast hs (by simp [operands_NewNode, operandKind]))

theorem ParseNumber_seen {toks : List Token} {t : Tree} {l : List Token} (ht : t.Seen toks l) :
    Ensures t.ParseNumber (fun r => r.2.Seen toks (l ++ r.1.operands)) := by
  rw [Tree.ParseNumber]
  split_ifs with h
  · exact Ensures.error
  · refine Ensures.bind (NextToken_seen_take ht "number" (by simpa using h) rfl) ?_
    intro s hs
    exact Ensures.pure (Seen_cast hs (by simp [operands_NewNode, operandKind]))

theorem ParseString_seen {toks : List Token} {t : Tree} {l : List Token} (ht : t.Seen toks l) :
    Ensures t.ParseString (fun r => r.2.Seen toks (l ++ r.1.operands)) := by
  rw [Tree.ParseString]
  split_ifs with h
  · exact Ensures.error
  · refine Ensures.bind (NextToken_seen_take ht "string" (by simpa using h) rfl) ?_
    intro s hs
    exact Ensures.pure (Seen_cast hs (by simp [operands_NewNode, operandKind]))

theorem ParseLiteral_seen {toks : List Token} {t : Tree} {l : List Token} (ht : t.Seen toks l) :
    Ensures t.ParseLiteral (fun r => r.2.Seen toks (l ++ r.1.operands)) := by
  rw [Tree.ParseLiteral]
  dsimp only
  split_ifs
  · refine Ensures.bind (ParseString_seen ht) ?_
    rintro ⟨c, s⟩ hs
    exact Ensures.pure (Seen_cast hs (by simp [operands_AddChild, operands_NewNode, operandKind]))
  · refine Ensures.bind (ParseNumber_seen ht) ?_
    rintro ⟨c, s⟩ hs
    exact Ensures.pure (Seen_cast hs (by simp [operands_AddChild, operands_NewNode, operandKind]))
  · exact Ensures.error

theorem SkipNewlines_seen {toks : List Token} (n : Nat) :
    ∀ {t : Tree} {l : List Token}, t.Seen toks l →
      Ensures (Tree.SkipNewlines n t) (fun s => s.Seen toks l ∧ s.root = t.root) := by
  induction n with
  | zero => exact fun _ => Ensures.error
  | succ n ih =>
    intro t l ht
    rw [Tree.SkipNewlines]
    split_ifs with h
    · refine Ensures.bind (Ensures.and (NextToken_seen_skip ht h rfl)
        (fun s hs => (NextToken_ok t s hs).2.2.2.2.2.1)) ?_
      rintro s ⟨hs, hroot⟩
      exact Ensures.mono (ih hs) (fun u hu => ⟨hu.1, hu.2.trans hroot⟩)
    · exact Ensures.pure ⟨ht, rfl⟩


theorem pat_seen {toks : List Token} (n : Nat) :
    (∀ {t : Tree} {l : List Token}, t.Seen toks l →
      Ensures (Tree.ParsePatList n t) (fun r => r.2.Seen toks (l ++ r.1.operands))) ∧
    (∀ (node : Node) {t : Tree} {l : List Token}, operandKind node.id = false →
      t.Seen toks (l ++ node.operands) →
      Ensures (Tree.ParsePatListLoop n node t) (fun r => r.2.Seen toks (l ++ r.1.operands))) ∧
    (∀ {t : Tree} {l : List Token}, t.Seen toks l →
      Ensures (Tree.ParsePatatom n t) (fun r => r.2.Seen toks (l ++ r.1.operands))) := by
  induction n with
  | zero =>
    refine ⟨fun _ => ?_, fun _ _ _ _ _ => ?_, fun _ => ?_⟩ <;> exact Ensures.error
  | succ n ih =>
    obtain ⟨ih1, ih2, ih3⟩ := ih
    refine ⟨fun {t l} ht => ?_, fun node {t l} hid ht => ?_, fun {t l} ht => ?_⟩
    · rw [Tree.ParsePatList]
      refine Ensures.bind (ih3 ht) ?_
      rintro ⟨c, t1⟩ ht1
      dsimp only at ht1 ⊢
      split_ifs with h1 h2
      · refine Ensures.bind (NextToken_seen_skip ht1 h1 rfl) (fun t2 ht2 => ?_)
        refine Ensures.bind (ih1 ht2) ?_
        rintro ⟨c2, t3⟩ ht3
        exact Ensures.pure (Seen_cast ht3
          (by simp [operands_AddChild, operands_NewNode, operandKind]))
      · exact ih2 _ (by simp [operandKind])
          (Seen_cast ht1 (by simp [operands_AddChild, operands_NewNode, operandKind]))
      · exact Ensures.pure (Seen_cast ht1
          (by simp [operands_AddChild, operands_NewNode, operandKind]))
    · rw [Tree.ParsePatListLoop]
      split_ifs with h1
      · refine Ensures.bind (NextToken_seen_skip ht h1 rfl) (fun t1 ht1 => ?_)
        dsimp only
        split_ifs
        · refine Ensures.bind (ih3 ht1) ?_
          rintro ⟨c, t2⟩ ht2
          exact ih2 _ (by simpa using hid)
            (Seen_cast ht2 (by simp [operands_AddChild, hid]))
        · exact ih2 _ hid ht1
      · exact Ensures.pure ht
    · rw [Tree.ParsePatatom]
      dsimp only
      split_ifs with h1 h2 h3
      · refine Ensures.bind (ParseIdentifier_seen ht) ?_
        rintro ⟨c, t1⟩ ht1
        exact Ensures.pure (Seen_cast ht1
          (by simp [operands_AddChild, operands_NewNode, operandKind]))
      · refine Ensures.bind (ParseLiteral_seen ht) ?_
        rintro ⟨c, t1⟩ ht1
        exact Ensures.pure (Seen_cast ht1
          (by simp [operands_AddChild, operands_NewNode, operandKind]))
      · refine Ensures.bind (NextToken_seen_skip ht h3 rfl) (fun t1 ht1 => ?_)
        refine Ensures.bind (P := fun (r : Node × Tree) =>
          r.2.Seen toks (l ++ r.1.operands) ∧ r.2.CheckTokenId ")" = true) ?_ ?_
        · split_ifs with h4
          · exact Ensures.pure ⟨Seen_cast ht1
              (by simp [operands_AddChild, operands_NewNode, operandKind]), h4⟩
          · refine Ensures.bind (ih1 ht1) ?_
            rintro ⟨c, t2⟩ ht2
            dsimp only
            split_ifs with h5
            · exact Ensures.error
            · exact Ensures.pure ⟨Seen_cast ht2
                (by simp [operands_AddChild, operands_NewNode, operandKind]),
                by simpa using h5⟩
        · rintro ⟨c, t2⟩ ⟨ht2, hc⟩
          exact Ensures.bind (NextToken_seen_skip ht2 hc rfl) (fun t3 ht3 => Ensures.pure ht3)
      · exact Ensures.error

theorem ParsePaternsLoop_seen {toks : List Token} (n : Nat) :
    ∀ (node : Node) {t : Tree} {l : List Token}, operandKind node.id = false →
      t.Seen toks (l ++ node.operands) →
      Ensures (Tree.ParsePaternsLoop n node t) (fun r => r.2.Seen toks (l ++ r.1.operands)) := by
  induction n with
  | zero => exact fun _ _ _ _ _ => Ensures.error
  | succ n ih =>
    intro node t l hid ht
    rw [Tree.ParsePaternsLoop]
    split_ifs
    · refine Ensures.bind ((pat_seen n).1 ht) ?_
      rintro ⟨c, t1⟩ ht1
      exact ih _ (by simpa using hid) (Seen_cast ht1 (by simp [operands_AddChild, hid]))
    · exact Ensures.pure ht

theorem ParsePaterns_seen {toks : List Token} (n : Nat) {t : Tree} {l : List Token}
    (ht : t.Seen toks l) :
    Ensures (Tree.ParsePaterns n t) (fun r => r.2.Seen toks (l ++ r.1.operands)) :=
  ParsePaternsLoop_seen n _ (by simp [operandKind])
    (Seen_cast ht (by simp [operands_NewNode, operandKind]))

theorem expr_seen {toks : List Token} (n : Nat) :
    (∀ {t : Tree} {l : List Token}, t.Seen toks l →
      Ensures (Tree.ParseExpression n t) (fun r => r.2.Seen toks (l ++ r.1.operands))) ∧
    (∀ (node : Node) {t : Tree} {l : List Token}, operandKind node.id = false →
      t.Seen toks (l ++ node.operands) →
      Ensures (Tree.ParseExpressionLoop n node t)
        (fun r => r.2.Seen toks (l ++ r.1.operands))) ∧
    (∀ {t : Tree} {l : List Token}, t.Seen toks l →
      Ensures (Tree.ParseExpr n t) (fun r => r.2.Seen toks (l ++ r.1.operands))) ∧
    (∀ (node : Node) {t : Tree} {l : List Token}, operandKind node.id = false →
      t.Seen toks (l ++ node.operands) →
      Ensures (Tree.ParseExprLoop n node t) (fun r => r.2.Seen toks (l ++ r.1.operands))) ∧
    (∀ {t : Tree} {l : List Token}, t.Seen toks l →
      Ensures (Tree.ParseAtom n t) (fun r => r.2.Seen toks (l ++ r.1.operands))) := by
  induction n with
  | zero =>
    refine ⟨fun _ => ?_, fun _ _ _ _ _ => ?_, fun _ => ?_, fun _ _ _ _ _ => ?_, fun _ => ?_⟩ <;>
      exact Ensures.error
  | succ n ih =>
    obtain ⟨ih1, ih2, ih3, ih4, ih5⟩ := ih
    refine ⟨fun {t l} ht => ?_, fun node {t l} hid ht => ?_, fun {t l} ht => ?_,
      fun node {t l} hid ht => ?_, fun {t l} ht => ?_⟩
    · rw [Tree.ParseExpression]
      refine Ensures.bind (ih3 ht) ?_
      rintro ⟨c, t1⟩ ht1
      dsimp only at ht1 ⊢
      split_ifs with h1 h2
      · exact ih2 _ (by simp [operandKind])
          (Seen_cast ht1 (by simp [operands_AddChild, operands_NewNode, operandKind]))
      · refine Ensures.bind (NextToken_seen_skip ht1 h2 rfl) (fun t2 ht2 => ?_)
        refine Ensures.bind (ih1 ht2) ?_
        rintro ⟨c2, t3⟩ ht3
        exact Ensures.pure (Seen_cast ht3
          (by simp [operands_AddChild, operands_NewNode, operandKind]))
      · exact Ensures.pure (Seen_cast ht1
          (by simp [operands_AddChild, operands_NewNode, operandKind]))
    · rw [Tree.ParseExpressionLoop]
      split_ifs with h1
      · refine Ensures.bind (NextToken_seen_skip ht h1 rfl) (fun t1 ht1 => ?_)
        dsimp only
        split_ifs
        · refine Ensures.bind (ih3 ht1) ?_
          rintro ⟨c, t2⟩ ht2
          exact ih2 _ (by simpa using hid)
            (Seen_cast ht2 (by simp [operands_AddChild, hid]))
        · exact ih2 _ hid ht1
      · exact Ensures.pure ht
    · rw [Tree.ParseExpr]
      refine Ensures.bind (P := fun (r : Node × Tree) =>
        r.2.Seen toks (l ++ r.1.operands) ∧ operandKind r.1.id = false) ?_ ?_
      · split_ifs
        · refine Ensures.bind (ih5 ht) ?_
          rintro ⟨c, t1⟩ ht1
          exact Ensures.pure ⟨Seen_cast ht1
            (by simp [operands_AddChild, operands_NewNode, operandKind]),
            by simp [operandKind]⟩
        · exact Ensures.error
      · rintro ⟨c, t1⟩ ⟨ht1, hid1⟩
        exact ih4 _ hid1 ht1
    · rw [Tree.ParseExprLoop]
      split_ifs
      · refine Ensures.bind (ih5 ht) ?_
        rintro ⟨c, t1⟩ ht1
        exact ih4 _ (by simpa using hid) (Seen_cast ht1 (by simp [operands_AddChild, hid]))
      · exact Ensures.pure ht
    · rw [Tree.ParseAtom]
      dsimp only
      split_ifs with h1 h2 h3 h4
      · refine Ensures.bind (ParseIdentifier_seen ht) ?_
        rintro ⟨c, t1⟩ ht1
        exact Ensures.pure (Seen_cast ht1
          (by simp [operands_AddChild, operands_NewNode, operandKind]))
      · refine Ensures.bind (ParseLiteral_seen ht) ?_
        rintro ⟨c, t1⟩ ht1
        exact Ensures.pure (Seen_cast ht1
          (by simp [operands_AddChild, operands_NewNode, operandKind]))
      · refine Ensures.bind (NextToken_seen_skip ht h3 rfl) (fun t1 ht1 => ?_)
        refine Ensures.bind (P := fun (r : Node × Tree) =>
          r.2.Seen toks (l ++ r.1.operands) ∧ r.2.CheckTokenId ")" = true) ?_ ?_
        · split_ifs with h5
          · exact Ensures.pure ⟨Seen_cast ht1
              (by simp [operands_AddChild, operands_NewNode, operandKind]), h5⟩
          · refine Ensures.bind (ih1 ht1) ?_
            rintro ⟨c, t2⟩ ht2
            dsimp only
            split_ifs with h6
            · exact Ensures.error
            · exact Ensures.pure ⟨Seen_cast ht2
                (by simp [operands_AddChild, operands_NewNode, operandKind]),
                by simpa using h6⟩
        · rintro ⟨c, t2⟩ ⟨ht2, hc⟩
          exact Ensures.bind (NextToken_seen_skip ht2 hc rfl) (fun t3 ht3 => Ensures.pure ht3)
      · exact Ensures.error
      · exact Ensures.error


theorem ParseSentence_seen {toks : List Token} (n : Nat) {t : Tree} {l : List Token}
    (ht : t.Seen toks l) :
    Ensures (Tree.ParseSentence n t) (fun r => r.2.Seen toks (l ++ r.1.operands)) := by
  cases n with
  | zero => exact Ensures.error
  | succ n =>
    rw [Tree.ParseSentence]
    refine Ensures.bind ((expr_seen n).1 ht) ?_
    rintro ⟨c, t1⟩ ht1
    exact Ensures.pure (Seen_cast ht1
      (by simp [operands_AddChild, operands_NewNode, operandKind]))

theorem ParseSimpleVariant_seen {toks : List Token} (n : Nat) {t : Tree} {l : List Token}
    (ht : t.Seen toks l) :
    Ensures (Tree.ParseSimpleVariant n t) (fun r => r.2.Seen toks (l ++ r.1.operands)) := by
  cases n with
  | zero => exact Ensures.error
  | succ n =>
    rw [Tree.ParseSimpleVariant]
    refine Ensures.bind (ParseSentence_seen n ht) ?_
    rintro ⟨c, t1⟩ ht1
    exact Ensures.pure (Seen_cast ht1
      (by simp [operands_AddChild, operands_NewNode, operandKind]))

theorem ParseMultilineVariantLoop_seen {toks : List Token} (n : Nat) :
    ∀ (node : Node) {t : Tree} {l : List Token}, operandKind node.id = false →
      t.Seen toks (l ++ node.operands) →
      Ensures (Tree.ParseMultilineVariantLoop n node t)
        (fun r => r.2.Seen toks (l ++ r.1.operands)) := by
  induction n with
  | zero => exact fun _ _ _ _ _ => Ensures.error
  | succ n ih =>
    intro node t l hid ht
    rw [Tree.ParseMultilineVariantLoop]
    split_ifs with h1 h2
    · refine Ensures.bind (NextToken_seen_skip ht h2 rfl) (fun t1 ht1 => ?_)
      exact ih _ (by simpa using hid)
        (Seen_cast ht1 (by rw [operands_AddChild _ _ hid]; simp [operands_NewNode, operandKind]))
    · refine Ensures.bind (ParseSentence_seen n ht) ?_
      rintro ⟨c, t1⟩ ht1
      exact ih _ (by simpa using hid) (Seen_cast ht1 (by simp [operands_AddChild, hid]))
    · exact Ensures.pure ht

theorem ParseMultilineVariant_seen {toks : List Token} (n : Nat) {t : Tree} {l : List Token}
    (ht : t.Seen toks l) :
    Ensures (Tree.ParseMultilineVariant n t) (fun r => r.2.Seen toks (l ++ r.1.operands)) := by
  cases n with
  | zero => exact Ensures.error
  | succ n =>
    rw [Tree.ParseMultilineVariant]
    dsimp only
    split_ifs with h1
    · refine Ensures.bind (NextToken_seen_skip ht h1 rfl) (fun t1 ht1 => ?_)
      refine Ensures.bind (ParseMultilineVariantLoop_seen n _ (l := l) (by simp [operandKind])
        (Seen_cast ht1 (by simp [operands_NewNode, operandKind]))) ?_
      rintro ⟨c, t2⟩ ht2
      dsimp only
      split_ifs with h2
      · exact Ensures.bind (NextToken_seen_skip ht2 h2 rfl) (fun t3 ht3 => Ensures.pure ht3)
      · exact Ensures.error
    · exact Ensures.error

theorem ParseVariant_seen {toks : List Token} (n : Nat) {t : Tree} {l : List Token}
    (ht : t.Seen toks l) :
    Ensures (Tree.ParseVariant n t) (fun r => r.2.Seen toks (l ++ r.1.operands)) := by
  cases n with
  | zero => exact Ensures.error
  | succ n =>
    rw [Tree.ParseVariant]
    refine Ensures.bind (P := fun (r : Node × Tree) =>
      r.2.Seen toks (l ++ r.1.operands) ∧ operandKind r.1.id = false) ?_ ?_
    · split_ifs with h1
      · refine Ensures.bind (NextToken_seen_skip ht h1 rfl) (fun t1 ht1 => ?_)
        dsimp only
        split_ifs with h2
        · refine Ensures.bind (NextToken_seen_take ht1 _ h2 rfl) (fun t2 ht2 => ?_)
          exact Ensures.pure ⟨Seen_cast ht2
            (by simp [operands_AddChild, operands_NewNode, operandKind]),
            by simp [operandKind]⟩
        · exact Ensures.error
      · exact Ensures.pure ⟨Seen_cast ht (by simp [operands_NewNode, operandKind]),
          by simp [operandKind]⟩
    · rintro ⟨node, t1⟩ ⟨ht1, hid⟩
      dsimp only at ht1 hid ⊢
      split_ifs
      · refine Ensures.bind (ParseMultilineVariant_seen n ht1) ?_
        rintro ⟨c, t2⟩ ht2
        exact Ensures.pure (Seen_cast ht2 (by simp [operands_AddChild, hid]))
      · refine Ensures.bind (ParseSimpleVariant_seen n ht1) ?_
        rintro ⟨c, t2⟩ ht2
        exact Ensures.pure (Seen_cast ht2 (by simp [operands_AddChild, hid]))

theorem ParseVariantsLoop_seen {toks : List Token} (n : Nat) :
    ∀ (node : Node) {t : Tree} {l : List Token}, operandKind node.id = false →
      t.Seen toks (l ++ node.operands) →
      Ensures (Tree.ParseVariantsLoop n node t)
        (fun r => r.2.Seen toks (l ++ r.1.operands)) := by
  induction n with
  | zero => exact fun _ _ _ _ _ => Ensures.error
  | succ n ih =>
    intro node t l hid ht
    rw [Tree.ParseVariantsLoop]
    split_ifs
    · refine Ensures.bind (SkipNewlines_seen n ht) (fun t1 ht1 => ?_)
      split_ifs with h2
      · refine Ensures.bind (NextToken_seen_skip ht1.1 h2 rfl) (fun t2 ht2 => ?_)
        refine Ensures.bind (SkipNewlines_seen n ht2) (fun t3 ht3 => ?_)
        refine Ensures.bind (ParseVariant_seen n ht3.1) ?_
        rintro ⟨c, t4⟩ ht4
        exact ih _ (by simpa using hid) (Seen_cast ht4 (by simp [operands_AddChild, hid]))
      · exact ih _ hid ht1.1
    · exact Ensures.pure ht

theorem ParseVariants_seen {toks : List Token} (n : Nat) {t : Tree} {l : List Token}
    (ht : t.Seen toks l) :
    Ensures (Tree.ParseVariants n t) (fun r => r.2.Seen toks (l ++ r.1.operands)) := by
  cases n with
  | zero => exact Ensures.error
  | succ n =>
    rw [Tree.ParseVariants]
    refine Ensures.bind (SkipNewlines_seen n ht) (fun t1 ht1 => ?_)
    refine Ensures.bind (ParseVariant_seen n ht1.1) ?_
    rintro ⟨c, t2⟩ ht2
    exact ParseVariantsLoop_seen n _ (by simp [operandKind])
      (Seen_cast ht2 (by simp [operands_AddChild, operands_NewNode, operandKind]))

theorem ParseDefinition_seen {toks : List Token} (n : Nat) {t : Tree} {l : List Token}
    (ht : t.Seen toks l) :
    Ensures (Tree.ParseDefinition n t) (fun r => r.2.Seen toks (l ++ r.1.operands)) := by
  cases n with
  | zero => exact Ensures.error
  | succ n =>
    rw [Tree.ParseDefinition]
    refine Ensures.bind ((pat_seen n).2.2 ht) ?_
    rintro ⟨c, t1⟩ ht1
    dsimp only at ht1 ⊢
    split_ifs with h1
    · refine Ensures.bind (NextToken_seen_skip ht1 h1 rfl) (fun t2 ht2 => ?_)
      refine Ensures.bind ((expr_seen n).2.2.1 ht2) ?_
      rintro ⟨c2, t3⟩ ht3
      exact Ensures.pure (Seen_cast ht3
        (by simp [operands_AddChild, operands_NewNode, operandKind]))
    · exact Ensures.error

theorem ParseDefListLoop_seen {toks : List Token} (n : Nat) :
    ∀ (node : Node) {t : Tree} {l : List Token}, operandKind node.id = false →
      t.Seen toks (l ++ node.operands) →
      Ensures (Tree.ParseDefListLoop n node t)
        (fun r => r.2.Seen toks (l ++ r.1.operands)) := by
  induction n with
  | zero => exact fun _ _ _ _ _ => Ensures.error
  | succ n ih =>
    intro node t l hid ht
    rw [Tree.ParseDefListLoop]
    split_ifs with h1
    · refine Ensures.bind (NextToken_seen_skip ht h1 rfl) (fun t1 ht1 => ?_)
      refine Ensures.bind (SkipNewlines_seen n ht1) (fun t2 ht2 => ?_)
      refine Ensures.bind (ParseDefinition_seen n ht2.1) ?_
      rintro ⟨c, t3⟩ ht3
      exact ih _ (by simpa using hid) (Seen_cast ht3 (by simp [operands_AddChild, hid]))
    · exact Ensures.pure ht

theorem ParseDefList_seen {toks : List Token} (n : Nat) {t : Tree} {l : List Token}
    (ht : t.Seen toks l) :
    Ensures (Tree.ParseDefList n t) (fun r => r.2.Seen toks (l ++ r.1.operands)) := by
  cases n with
  | zero => exact Ensures.error
  | succ n =>
    rw [Tree.ParseDefList]
    refine Ensures.bind (SkipNewlines_seen n ht) (fun t1 ht1 => ?_)
    refine Ensures.bind (ParseDefinition_seen n ht1.1) ?_
    rintro ⟨c, t2⟩ ht2
    exact ParseDefListLoop_seen n _ (by simp [operandKind])
      (Seen_cast ht2 (by simp [operands_AddChild, operands_NewNode, operandKind]))

theorem ParseCondlist_seen {toks : List Token} (n : Nat) {t : Tree} {l : List Token}
    (ht : t.Seen toks l) :
    Ensures (Tree.ParseCondlist n t) (fun r => r.2.Seen toks (l ++ r.1.operands)) := by
  cases n with
  | zero => exact Ensures.error
  | succ n =>
    rw [Tree.ParseCondlist]
    refine Ensures.bind ((expr_seen n).2.2.1 ht) ?_
    rintro ⟨c, t1⟩ ht1
    dsimp only at ht1 ⊢
    split_ifs with h1
    · refine Ensures.bind (NextToken_seen_skip ht1 h1 rfl) (fun t2 ht2 => ?_)
      refine Ensures.bind (SkipNewlines_seen n ht2) (fun t3 ht3 => ?_)
      refine Ensures.bind ((expr_seen n).2.2.1 ht3.1) ?_
      rintro ⟨c2, t4⟩ ht4
      exact Ensures.pure (Seen_cast ht4
        (by simp [operands_AddChild, operands_NewNode, operandKind]))
    · exact Ensures.pure (Seen_cast ht1
        (by simp [operands_AddChild, operands_NewNode, operandKind]))

theorem ParseRule_seen {toks : List Token} (n : Nat) {t : Tree} {l : List Token}
    (ht : t.Seen toks l) :
    Ensures (Tree.ParseRule n t) (fun r => r.2.Seen toks (l ++ r.1.operands)) := by
  cases n with
  | zero => exact Ensures.error
  | succ n =>
    rw [Tree.ParseRule]
    refine Ensures.bind (ParseIdentifier_seen ht) ?_
    rintro ⟨c, t1⟩ ht1
    refine Ensures.bind (ParsePaterns_seen n ht1) ?_
    rintro ⟨c2, t2⟩ ht2
    dsimp only at ht1 ht2 ⊢
    refine Ensures.bind (SkipNewlines_seen n ht2) (fun t3 ht3 => ?_)
    refine Ensures.bind (P := fun (r : Node × Tree) =>
      r.2.Seen toks (l ++ r.1.operands) ∧ operandKind r.1.id = false) ?_ ?_
    · split_ifs with h1
      · refine Ensures.bind (NextToken_seen_skip ht3.1 h1 rfl) (fun t4 ht4 => ?_)
        refine Ensures.bind (ParseDefList_seen n ht4) ?_
        rintro ⟨c3, t5⟩ ht5
        exact Ensures.pure ⟨Seen_cast ht5
          (by simp [operands_AddChild, operands_NewNode, operandKind]),
          by simp [operandKind]⟩
      · exact Ensures.pure ⟨Seen_cast ht3.1
          (by simp [operands_AddChild, operands_NewNode, operandKind]),
          by simp [operandKind]⟩
    rintro ⟨node, t4⟩ ⟨ht4, hid⟩
    dsimp only at ht4 hid ⊢
    refine Ensures.bind (SkipNewlines_seen n ht4) (fun t5 ht5 => ?_)
    refine Ensures.bind (P := fun (r : Node × Tree) =>
      r.2.Seen toks (l ++ r.1.operands) ∧ operandKind r.1.id = false) ?_ ?_
    · split_ifs with h1
      · refine Ensures.bind (NextToken_seen_skip ht5.1 h1 rfl) (fun t6 ht6 => ?_)
        refine Ensures.bind (ParseCondlist_seen n ht6) ?_
        rintro ⟨c3, t7⟩ ht7
        exact Ensures.pure ⟨Seen_cast ht7 (by simp [operands_AddChild, hid]),
          by simpa using hid⟩
      · exact Ensures.pure ⟨ht5.1, hid⟩
    rintro ⟨node2, t6⟩ ⟨ht6, hid2⟩
    dsimp only at ht6 hid2 ⊢
    refine Ensures.bind (SkipNewlines_seen n ht6) (fun t7 ht7 => ?_)
    refine Ensures.bind (P := fun (r : Node × Tree) =>
      r.2.Seen toks (l ++ r.1.operands)) ?_ ?_
    · split_ifs with h1
      · refine Ensures.bind (NextToken_seen_skip ht7.1 h1 rfl) (fun t8 ht8 => ?_)
        refine Ensures.bind (SkipNewlines_seen n ht8) (fun t9 ht9 => ?_)
        refine Ensures.bind (ParseVariants_seen n ht9.1) ?_
        rintro ⟨c3, t10⟩ ht10
        exact Ensures.pure (Seen_cast ht10 (by simp [operands_AddChild, hid2]))
      · exact Ensures.error
    rintro ⟨node3, t8⟩ ht8
    intro r hr
    unfold Tree.recordRule at hr
    dsimp only at hr
    split at hr
    · split at hr
      · split_ifs at hr <;> (cases hr; exact ht8)
      · cases hr
    · cases hr

theorem ParseGrammarLoop_seen {toks : List Token} (n : Nat) :
    ∀ {t : Tree}, operandKind t.root.id = false → t.Seen toks t.root.operands →
      Ensures (Tree.ParseGrammarLoop n t)
        (fun s => s.Seen toks s.root.operands ∧ s.cur.Id = "endoffile") := by
  induction n with
  | zero => exact fun _ _ => Ensures.error
  | succ n ih =>
    intro t hid ht
    rw [Tree.ParseGrammarLoop]
    split_ifs with h
    · refine Ensures.bind (Ensures.and (ParseRule_seen n ht) (ParseRule_spec n t)) ?_
      rintro ⟨c, s⟩ ⟨hs, hroot, _⟩
      dsimp only at hs hroot
      refine ih (by simpa [hroot] using hid) ?_
      exact Seen_cast hs (by simp [hroot, operands_AddChild, hid])
    · exact Ensures.pure ⟨ht, (CheckTokenId_iff _ _).mp (by simpa using h)⟩


theorem ParseGrammar_seen {toks : List Token} (n : Nat) {t : Tree} (ht : t.Seen toks []) :
    Ensures (Tree.ParseGrammar n t)
      (fun s => s.Seen toks s.root.operands ∧ s.cur.Id = "endoffile") := by
  cases n with
  | zero => exact Ensures.error
  | succ n =>
    rw [Tree.ParseGrammar]
    simp only [NewNode_of_tree]
    refine Ensures.bind (@SkipNewlines_seen toks n _ [] ht) (fun s hs => ?_)
    obtain ⟨hs1, hroot⟩ := hs
    dsimp only at hroot
    refine ParseGrammarLoop_seen n (by rw [hroot]; simp [operandKind]) ?_
    exact Seen_cast hs1 (by rw [hroot]; simp [operands_NewNode, operandKind])

/-- C21: operand tokens are preserved. When `ParseGrammar` succeeds on a token sequence that
ends in its only `endoffile` token, read from its first token, the tokens attached to the
identifier, number and string leaf nodes and to the power nodes of the tree, read depth first
from left to right, are exactly the tokens of kind identifier, number and string of the token
sequence, in the same order: no operand token is dropped, duplicated or moved. -/
theorem operands_preserved (n : Nat) (t0 t : Tree) (hseq : endsInEndoffile t0.tokens = true)
    (hc : t0.Coherent) (h0 : t0.ncur = 0) (h : Tree.ParseGrammar n t0 = .ok t) :
    t.root.operands = operandTokens t0.tokens := by
  have hstart : t0.Seen t0.tokens [] := ⟨rfl, hc, by simp [h0, operandTokens]⟩
  obtain ⟨⟨h1, h2, h3⟩, h4⟩ := ParseGrammar_seen n hstart t h
  have hlast := endoffile_is_last t (by rw [h1]; exact hseq) h2 h4
  have hstep := operandTokens_take_succ t0.tokens t.ncur t.cur (by rw [← h1]; exact h2)
  rw [h1] at hlast
  rw [hlast, List.take_length, h3, h4] at hstep
  rw [hstep]
  simp [operandKind]

/-- Witness for C21: the line `x a:b ::= *2 y, "s"` has a cons pattern, a power and a list of
two exprs; the parse succeeds and the operand tokens of its tree are `x`, `a`, `b`, `2` (on the
power node), `y` and `"s"`, as in the line. -/
theorem operands_preserved_witness :
    tokensOf operandLines = operandToks ∧ endsInEndoffile operandToks = true ∧
    Tree.ParseGrammar 20 (treeAt operandToks operandLines 0) = .ok operandTree ∧
    operandTree.root.operands = operandTokens operandToks ∧
    operandTokens operandToks =
      [NewToken "identifier" 0 0 "x".toList, NewToken "identifier" 0 2 "a".toList,
       NewToken "identifier" 0 4 "b".toList, NewToken "number" 0 11 "2".toList,
       NewToken "identifier" 0 13 "y".toList, NewToken "string" 0 16 "s".toList] := by
  have h : Tree.ParseGrammar 20 (treeAt operandToks operandLines 0) = .ok operandTree :=
    eq_ok_valueOf _ _ (by decide!)
  exact ⟨by decide!, by decide, h,
    operands_preserved 20 (treeAt operandToks operandLines 0) operandTree (by decide) rfl rfl h,
    by decide⟩

end Gengram
